import Mathlib

/-!
# Dynamic vantage-point tree (`dvp_tree_impl`) of ReaK

A shallow embedding of `src/ReaK/ctrl/path_planning/dvp_tree_detail.hpp`.

* Distances (`distance_type`, a `double` in the source) are the integer-valued `double`s,
  as integers; the sums and differences that the search computes on them are rounded as
  binary64 rounds them (`round_double`); comparisons and copies are exact. The search radius
  may also be infinite, which is `none` of `Option Int`.
* The template parameters of `dvp_tree_impl` are parameters of the embedding: the arity
  `Arity`, the metric `dist` (`m_distance`), the vantage-point chooser `ch` (`m_vp_chooser`).
  The standard-library routines `std::sort` and `std::nth_element` are parameters as well,
  constrained only by their contracts (`SortSpec`, `NthSpec`).
* The tree storage (`TreeType`) is not part of the sources; it is modelled from the
  specification, with vertex descriptors being paths of out-edge slots from the root.
-/

namespace DVP

/-! ## Vertex properties and tree storage -/

/-- The property bundle of a vertex: the key (`m_key`) and the position (`m_position`). -/
structure vertex_property (P : Type) where
  key : Int
  pos : P
deriving DecidableEq

/-- The out-edge slots of one vertex, in out-edge order. `cons mu vp children rest` is a slot
holding an edge of partition radius `mu` (`m_mu`) to a child vertex with property `vp` and
out-edge slots `children`; `hole rest` is a slot vacated by `remove_branch`. -/
inductive Forest (P : Type) where
  | nil : Forest P
  | cons (mu : Int) (vp : vertex_property P) (children : Forest P) (rest : Forest P) : Forest P
  | hole (rest : Forest P) : Forest P

/-- A vertex descriptor: the path of slot indices leading from the root to the vertex. The
null vertex is `none` of `Option vertex_type`. -/
abbrev vertex_type := List Nat

/-- Modelled from the spec: the tree storage backend (`TreeType`, consumed through
`create_root`, `add_child_vertex`, `remove_branch`, `out_edges`, `in_edges`, `num_vertices`):
either empty, or a root vertex property with its out-edge slots. -/
abbrev tree_indexer (P : Type) := Option (vertex_property P × Forest P)

namespace Forest

variable {P : Type}

/-- Number of vertices stored in the slots (recursively). -/
def size : Forest P → Nat
  | nil => 0
  | cons _ _ c r => 1 + c.size + r.size
  | hole r => r.size

/-- The vertex properties stored in the slots, each subtree in pre-order (its root first). -/
def elems : Forest P → List (vertex_property P)
  | nil => []
  | cons _ v c r => v :: (c.elems ++ r.elems)
  | hole r => r.elems

/-- The content of slot `i`: edge radius, child property, child slots. -/
def slot : Forest P → Nat → Option (Int × vertex_property P × Forest P)
  | nil, _ => none
  | cons mu vp c _, 0 => some (mu, vp, c)
  | cons _ _ _ r, i + 1 => r.slot i
  | hole _, 0 => none
  | hole r, i + 1 => r.slot i

/-- The valid out-edges among the slots, numbered from `i`: slot index and edge radius. -/
def edges : Forest P → Nat → List (Nat × Int)
  | nil, _ => []
  | cons mu _ _ r, i => (i, mu) :: r.edges (i + 1)
  | hole r, i => r.edges (i + 1)

/-- Index of the slot that the next added child takes: the first vacated slot, or a new
slot behind the last one. -/
def firstFree : Forest P → Nat
  | nil => 0
  | cons _ _ _ r => r.firstFree + 1
  | hole _ => 0

/-- Puts the child `(e, vp, sub)` into the first vacated slot, or into a new last slot. -/
def add (e : Int) (vp : vertex_property P) (sub : Forest P) : Forest P → Forest P
  | nil => cons e vp sub nil
  | cons m v c r => cons m v c (add e vp sub r)
  | hole r => cons e vp sub r

/-- Vacates slot `i`. -/
def clear : Nat → Forest P → Forest P
  | _, nil => nil
  | 0, cons _ _ _ r => hole r
  | i + 1, cons m v c r => cons m v c (clear i r)
  | 0, hole r => hole r
  | i + 1, hole r => hole (clear i r)

/-- Overwrites the edge radius of slot `i`. -/
def setMu (d : Int) : Nat → Forest P → Forest P
  | _, nil => nil
  | 0, cons _ v c r => cons d v c r
  | i + 1, cons m v c r => cons m v c (setMu d i r)
  | 0, hole r => hole r
  | i + 1, hole r => hole (setMu d i r)

/-- Applies `h` to the child slots of slot `i`. -/
def mapSlot (h : Forest P → Forest P) : Nat → Forest P → Forest P
  | _, nil => nil
  | 0, cons m v c r => cons m v (h c) r
  | i + 1, cons m v c r => cons m v c (mapSlot h i r)
  | 0, hole r => hole r
  | i + 1, hole r => hole (mapSlot h i r)

/-- Applies `g` to the out-edge slots of the vertex reached by the path `p`. -/
def modifyAt (g : Forest P → Forest P) : List Nat → Forest P → Forest P
  | [], cs => g cs
  | i :: p, cs => mapSlot (modifyAt g p) i cs

/-- The vertex (property and slots) reached by following the path `p` from a vertex. -/
def nodeAt (vp : vertex_property P) (cs : Forest P) : List Nat →
    Option (vertex_property P × Forest P)
  | [] => some (vp, cs)
  | i :: p =>
    match cs.slot i with
    | none => none
    | some (_, vp1, cs1) => nodeAt vp1 cs1 p

end Forest

variable {P : Type}

/-- Modelled from the spec: `get(vertex_raw_property, tree, v)` together with the out-edge
slots of `v`, of the tree storage backend. -/
def vertex_at (t : tree_indexer P) (v : vertex_type) : Option (vertex_property P × Forest P) :=
  match t with
  | none => none
  | some (r, cs) => Forest.nodeAt r cs v

/-- Modelled from the spec: `num_vertices` of the tree storage backend. -/
def num_vertices (t : tree_indexer P) : Nat :=
  match t with
  | none => 0
  | some (_, cs) => 1 + cs.size

/-- Modelled from the spec: `out_edges(v, tree)` of the tree storage backend, each edge given
by its radius (`get(m_mu, edge)`) and its target vertex, in out-edge order. -/
def out_edges (t : tree_indexer P) (v : vertex_type) : List (Int × vertex_type) :=
  match vertex_at t v with
  | none => []
  | some (_, cs) => (cs.edges 0).map (fun e => (e.2, v ++ [e.1]))

/-- Modelled from the spec: `out_degree(v, tree)` of the tree storage backend. -/
def out_degree (t : tree_indexer P) (v : vertex_type) : Nat := (out_edges t v).length

/-- Modelled from the spec: the source of the in-edge of a non-root vertex,
`source(*(in_edges(v, tree).first), tree)`, of the tree storage backend. -/
def parent_of (v : vertex_type) : vertex_type := v.dropLast

/-- Modelled from the spec: the radius stored on the in-edge of a vertex,
`get(m_mu, get(edge_raw_property, tree, *(in_edges(v, tree).first)))`. -/
def in_edge_mu (t : tree_indexer P) (v : vertex_type) : Int :=
  match v.getLast?, vertex_at t (parent_of v) with
  | some i, some (_, cs) =>
    match cs.slot i with
    | some (mu, _, _) => mu
    | none => 0
  | _, _ => 0

/-- Modelled from the spec: `put(m_mu, in-edge of v, d)` on the tree storage backend. -/
def put_in_edge_mu (t : tree_indexer P) (v : vertex_type) (d : Int) : tree_indexer P :=
  match t, v.getLast? with
  | some (r, cs), some i => some (r, cs.modifyAt (Forest.setMu d i) (parent_of v))
  | _, _ => t

/-- Modelled from the spec: `create_root(vp, tree)` of the tree storage backend. -/
def create_root (vp : vertex_property P) : vertex_type × tree_indexer P :=
  ([], some (vp, Forest.nil))

/-- Modelled from the spec: `add_child_vertex(parent, vp, ep, tree)` of the tree storage
backend: the child takes the first vacated slot of the parent, or a new last slot; the
result is the new vertex and the updated storage. -/
def add_child_vertex (v : vertex_type) (vp : vertex_property P) (ep : Int)
    (t : tree_indexer P) : vertex_type × tree_indexer P :=
  match t with
  | none => (v, none)
  | some (r, cs) =>
    let k := match Forest.nodeAt r cs v with
      | some (_, c) => c.firstFree
      | none => 0
    (v ++ [k], some (r, cs.modifyAt (Forest.add ep vp Forest.nil) v))

/-- Modelled from the spec: `remove_branch(v, back_inserter(out), tree)` of the tree storage
backend: evicts the subtree rooted at `v`, appending its vertex properties to `out` (the
root of the subtree first), and vacates the slot of `v`. -/
def remove_branch (v : vertex_type) (out : List (vertex_property P)) (t : tree_indexer P) :
    List (vertex_property P) × tree_indexer P :=
  match t with
  | none => (out, none)
  | some (r, cs) =>
    match v.getLast? with
    | none => (out ++ r :: cs.elems, none)
    | some i =>
      match Forest.nodeAt r cs v with
      | none => (out, t)
      | some (vp, c) => (out ++ vp :: c.elems, some (r, cs.modifyAt (Forest.clear i) (parent_of v)))

/-! ## Bulk construction -/

/-- The comparison `closer`: orders vertex properties by their cached distance in `m`. -/
def closer (m : Int → Int) (k1 k2 : vertex_property P) : Bool :=
  decide (m k1.key < m k2.key)

/-- A work item of `construct_node`: the parent vertex (or the null vertex), the radius of
the edge to create, and the range `[first, last)` of unplaced vertex properties. -/
structure construction_task (P : Type) where
  parent_node : Option vertex_type
  edge_dist : Int
  range : List (vertex_property P)

/-- The mutable state of a `dvp_tree_impl`: the tree storage and the root vertex. -/
structure dvp_tree_impl (P : Type) where
  m_tree : tree_indexer P
  m_root : Option vertex_type

/-- The effect of `swap(*vp_ind, *first)` on the range: exchanges positions `0` and `i`. -/
def swap_front (l : List (vertex_property P)) (i : Nat) : List (vertex_property P) :=
  match l with
  | [] => []
  | a :: t =>
    match i with
    | 0 => a :: t
    | j + 1 =>
      match t[j]? with
      | none => a :: t
      | some b => b :: t.set j a

/-- The loop `for(it = first; it != last; ++it) dist_map[key(*it)] = m_distance(vp_pt, pos(*it))`.
The `std::unordered_map` is read only through `operator[]`, so it is a total function
whose absent keys read as `0`. -/
def fill_dist_map (dist : P → P → Int) (vp_pt : P) (dm : Int → Int) :
    List (vertex_property P) → Int → Int
  | [] => dm
  | x :: l => fill_dist_map dist vp_pt (Function.update dm x.key (dist vp_pt x.pos)) l

/-- The leaf-level loop of `construct_node`: attaches every element of the sorted range as a
child of `cur`, with edge radius its cached distance. -/
def add_leaf_children (dm : Int → Int) (cur : vertex_type) :
    List (vertex_property P) → tree_indexer P → tree_indexer P
  | [], t => t
  | x :: l, t => add_leaf_children dm cur l (add_child_vertex cur x (dm x.key) t).2

/-- The partition loop `for(i = Arity; i >= 1; --i)` of `construct_node`, started at `i`:
carves `(last - first) / i` elements off the front with `std::nth_element` and makes them a
task below `cur`, whose edge radius is the cached distance of `*(first - 1)`. -/
def partition_loop
    (nth_element : (vertex_property P → vertex_property P → Bool) →
      List (vertex_property P) → Nat → List (vertex_property P))
    (dm : Int → Int) (cur : vertex_type) :
    Nat → List (vertex_property P) → List (construction_task P)
  | 0, _ => []
  | i + 1, rest =>
    let num_children := rest.length / (i + 1)
    let rest1 := nth_element (closer dm) rest (num_children - 1)
    let mu := match rest1[num_children - 1]? with
      | some x => dm x.key
      | none => 0
    ⟨some cur, mu, rest1.take num_children⟩ ::
      partition_loop nth_element dm cur i (rest1.drop num_children)

/-- The `while(!tasks.empty())` loop of `construct_node`; `fuel` bounds the number of
iterations, and `none` means that the bound was hit before the loop ended. The chooser
`ch` returns the index of the vantage point in the range, an index that is not in the range
standing for `last`. -/
def construct_loop (Arity : Nat) (dist : P → P → Int)
    (std_sort : (vertex_property P → vertex_property P → Bool) →
      List (vertex_property P) → List (vertex_property P))
    (nth_element : (vertex_property P → vertex_property P → Bool) →
      List (vertex_property P) → Nat → List (vertex_property P))
    (ch : List (vertex_property P) → Nat) :
    Nat → dvp_tree_impl P → List (construction_task P) → (Int → Int) →
      Option (dvp_tree_impl P)
  | _, t, [], _ => some t
  | 0, _, _ :: _, _ => none
  | fuel + 1, t, cur_task :: tasks, dist_map =>
    let vp_ind := ch cur_task.range
    match cur_task.range[vp_ind]? with
    | none => some t
    | some vp =>
      let dist_map1 := fill_dist_map dist vp.pos dist_map cur_task.range
      let range1 := swap_front cur_task.range vp_ind
      let k_tmp := vp.key
      let created : vertex_type × dvp_tree_impl P :=
        match cur_task.parent_node with
        | some par =>
          let r := add_child_vertex par vp cur_task.edge_dist t.m_tree
          (r.1, ⟨r.2, t.m_root⟩)
        | none =>
          let r := create_root vp
          (r.1, ⟨r.2, some r.1⟩)
      let current_node := created.1
      let dist_map2 := Function.update dist_map1 k_tmp 0
      let rest := range1.tail
      if rest.length < Arity then
        let sorted := std_sort (closer dist_map2) rest
        construct_loop Arity dist std_sort nth_element ch fuel
          ⟨add_leaf_children dist_map2 current_node sorted created.2.m_tree, created.2.m_root⟩
          tasks dist_map2
      else
        construct_loop Arity dist std_sort nth_element ch fuel created.2
          (tasks ++ partition_loop nth_element dist_map2 current_node Arity rest) dist_map2

/-- The function `construct_node(aParentNode, aEdgeDist, aBegin, aEnd)`. Every iteration of
its loop places one element of the range, so the length of the range bounds the
iterations. -/
def construct_node (Arity : Nat) (dist : P → P → Int)
    (std_sort : (vertex_property P → vertex_property P → Bool) →
      List (vertex_property P) → List (vertex_property P))
    (nth_element : (vertex_property P → vertex_property P → Bool) →
      List (vertex_property P) → Nat → List (vertex_property P))
    (ch : List (vertex_property P) → Nat)
    (t : dvp_tree_impl P) (aParentNode : Option vertex_type) (aEdgeDist : Int)
    (range : List (vertex_property P)) : Option (dvp_tree_impl P) :=
  construct_loop Arity dist std_sort nth_element ch range.length t
    [⟨aParentNode, aEdgeDist, range⟩] (fun _ => 0)

/-- The range constructor of `dvp_tree_impl`, on an empty tree storage. -/
def from_range (Arity : Nat) (dist : P → P → Int)
    (std_sort : (vertex_property P → vertex_property P → Bool) →
      List (vertex_property P) → List (vertex_property P))
    (nth_element : (vertex_property P → vertex_property P → Bool) →
      List (vertex_property P) → Nat → List (vertex_property P))
    (ch : List (vertex_property P) → Nat)
    (v_bin : List (vertex_property P)) : Option (dvp_tree_impl P) :=
  match v_bin with
  | [] => some ⟨none, none⟩
  | _ :: _ => construct_node Arity dist std_sort nth_element ch ⟨none, none⟩ none 0 v_bin

/-- The member `size()`. -/
def dvp_tree_impl.size (t : dvp_tree_impl P) : Nat := num_vertices t.m_tree

/-- The member `empty()`. -/
def dvp_tree_impl.empty (t : dvp_tree_impl P) : Bool := decide (num_vertices t.m_tree = 0)

/-! ## Descent, radius update, fullness test -/

/-- The inner `for` loop of `get_leaf`: the target of the first out-edge whose radius is at
least `current_dist`, or the target of the last out-edge. -/
def pick_child (current_dist : Int) : List (Int × vertex_type) → vertex_type → vertex_type
  | [], result => result
  | e :: es, _ => if current_dist ≤ e.1 then e.2 else pick_child current_dist es e.2

/-- The `while(out_degree(aNode) != 0)` loop of `get_leaf`. -/
def get_leaf_loop (dist : P → P → Int) (t : tree_indexer P) (aPoint : P) :
    Nat → vertex_type → vertex_type
  | 0, aNode => aNode
  | fuel + 1, aNode =>
    match vertex_at t aNode with
    | none => aNode
    | some (vp, _) =>
      if out_degree t aNode = 0 then aNode
      else
        let current_dist := dist aPoint vp.pos
        get_leaf_loop dist t aPoint fuel (pick_child current_dist (out_edges t aNode) aNode)

/-- The function `get_leaf(aPoint, aNode)`; a descent visits every vertex at most once. -/
def get_leaf (dist : P → P → Int) (t : tree_indexer P) (aPoint : P) (aNode : vertex_type) :
    vertex_type :=
  get_leaf_loop dist t aPoint (num_vertices t) aNode

/-- The `while(aNode != m_root)` loop of `update_mu_upwards`. -/
def update_mu_upwards_loop (dist : P → P → Int) (aPoint : P) (m_root : Option vertex_type) :
    Nat → tree_indexer P → vertex_type → tree_indexer P
  | 0, t, _ => t
  | fuel + 1, t, aNode =>
    if some aNode = m_root then t
    else
      let parent := parent_of aNode
      match vertex_at t parent with
      | none => t
      | some (pvp, _) =>
        let d := dist aPoint pvp.pos
        let t1 := if d > in_edge_mu t aNode then put_in_edge_mu t aNode d else t
        update_mu_upwards_loop dist aPoint m_root fuel t1 parent

/-- The function `update_mu_upwards(aPoint, aNode)`; the walk to the root takes as many steps
as the path of `aNode` is long. -/
def update_mu_upwards (dist : P → P → Int) (t : dvp_tree_impl P) (aPoint : P)
    (aNode : vertex_type) : dvp_tree_impl P :=
  ⟨update_mu_upwards_loop dist aPoint t.m_root aNode.length t.m_tree aNode, t.m_root⟩

/-- The function `is_leaf_node(aNode)`. -/
def is_leaf_node (t : tree_indexer P) (aNode : vertex_type) : Bool :=
  (out_edges t aNode).all (fun e => decide (out_degree t e.2 = 0))

/-- The `while(!tasks.empty())` loop of `is_node_full`, returning the result together with
the final value of the reference parameter `depth_limit`; `none` when `fuel` runs out. -/
def is_node_full_loop (Arity : Nat) (t : tree_indexer P) :
    Nat → List (vertex_type × Int) → Int → Option (Bool × Int)
  | _, [], depth_limit => some (decide (depth_limit = 0), depth_limit)
  | 0, _ :: _, _ => none
  | fuel + 1, cur_task :: tasks, depth_limit =>
    let depth_limit1 := if cur_task.2 < depth_limit then cur_task.2 else depth_limit
    if out_degree t cur_task.1 = 0 ∧ cur_task.2 = 0 then
      is_node_full_loop Arity t fuel tasks depth_limit1
    else
      let second := cur_task.2 - 1
      if (out_degree t cur_task.1 ≠ 0 ∧ second < 0) ∨ out_degree t cur_task.1 < Arity ∨
          (second > 0 ∧ is_leaf_node t cur_task.1 = true) then
        some (false, second)
      else
        is_node_full_loop Arity t fuel
          (tasks ++ (out_edges t cur_task.1).map (fun e => (e.2, second))) depth_limit1

/-- The function `is_node_full(aNode, depth_limit)`, returning the result together with the
final value of the reference parameter `depth_limit`. -/
def is_node_full (Arity : Nat) (t : tree_indexer P) (aNode : vertex_type) (depth_limit : Int) :
    Option (Bool × Int) :=
  if depth_limit < 0 then some (false, depth_limit)
  else is_node_full_loop Arity t (num_vertices t) [(aNode, depth_limit)] depth_limit

/-! ## Insertion and deletion -/

/-- The loop `while((p != m_root) && is_node_full(p, last_depth_limit))` of `insert`,
returning the final `p` and `last_depth_limit`. -/
def find_nonfull_loop (Arity : Nat) (t : dvp_tree_impl P) :
    Nat → vertex_type → Int → Int → Option (vertex_type × Int)
  | 0, _, _, _ => none
  | fuel + 1, p, actual_depth_limit, last_depth_limit =>
    if some p = t.m_root then some (p, last_depth_limit)
    else
      match is_node_full Arity t.m_tree p last_depth_limit with
      | none => none
      | some (true, _) =>
        find_nonfull_loop Arity t fuel (parent_of p) (actual_depth_limit + 1)
          (actual_depth_limit + 1)
      | some (false, dl) => some (p, dl)

/-- The member `insert(up)`. -/
def insert (Arity : Nat) (dist : P → P → Int)
    (std_sort : (vertex_property P → vertex_property P → Bool) →
      List (vertex_property P) → List (vertex_property P))
    (nth_element : (vertex_property P → vertex_property P → Bool) →
      List (vertex_property P) → Nat → List (vertex_property P))
    (ch : List (vertex_property P) → Nat)
    (t : dvp_tree_impl P) (up : vertex_property P) : Option (dvp_tree_impl P) :=
  if num_vertices t.m_tree = 0 then
    some ⟨(create_root up).2, some (create_root up).1⟩
  else
    match t.m_root with
    | none => none
    | some root =>
      let u_pt := up.pos
      let u_realleaf := get_leaf dist t.m_tree u_pt root
      if u_realleaf = root then
        let r := remove_branch u_realleaf [up] t.m_tree
        construct_node Arity dist std_sort nth_element ch ⟨r.2, none⟩ none 0 r.1
      else
        let u_leaf := parent_of u_realleaf
        if out_degree t.m_tree u_leaf < Arity ∨ is_leaf_node t.m_tree u_leaf = false then
          let t1 := update_mu_upwards dist t u_pt u_leaf
          let e_dist := if u_leaf ≠ root then in_edge_mu t1.m_tree u_leaf else 0
          let u_leaf_parent := if u_leaf ≠ root then some (parent_of u_leaf) else none
          let r := remove_branch u_leaf [up] t1.m_tree
          construct_node Arity dist std_sort nth_element ch ⟨r.2, t1.m_root⟩
            u_leaf_parent e_dist r.1
        else
          match find_nonfull_loop Arity t (u_leaf.length + 1) u_leaf 1 1 with
          | none => none
          | some (p, last_depth_limit0) =>
            let full : Option (Bool × Int) :=
              if p = root then is_node_full Arity t.m_tree p last_depth_limit0
              else some (false, last_depth_limit0)
            match full with
            | none => none
            | some (is_p_full, last_depth_limit) =>
              if is_p_full = false ∧ last_depth_limit ≥ 0 then
                let t1 := update_mu_upwards dist t u_pt p
                let e_dist := if p ≠ root then in_edge_mu t1.m_tree p else 0
                let p_parent := if p ≠ root then some (parent_of p) else none
                let r := remove_branch p [up] t1.m_tree
                construct_node Arity dist std_sort nth_element ch ⟨r.2, t1.m_root⟩
                  p_parent e_dist r.1
              else
                match vertex_at t.m_tree u_realleaf with
                | none => none
                | some (lvp, _) =>
                  let ep := dist u_pt lvp.pos
                  let r := add_child_vertex u_realleaf up ep t.m_tree
                  some (update_mu_upwards dist ⟨r.2, t.m_root⟩ u_pt u_realleaf)

/-- The member `erase(u_node)`, for a vertex descriptor. -/
def erase (Arity : Nat) (dist : P → P → Int)
    (std_sort : (vertex_property P → vertex_property P → Bool) →
      List (vertex_property P) → List (vertex_property P))
    (nth_element : (vertex_property P → vertex_property P → Bool) →
      List (vertex_property P) → Nat → List (vertex_property P))
    (ch : List (vertex_property P) → Nat)
    (t : dvp_tree_impl P) (u_node : vertex_type) : Option (dvp_tree_impl P) :=
  if num_vertices t.m_tree = 0 then some t
  else
    match t.m_root with
    | none => none
    | some root =>
      if u_node = root ∧ num_vertices t.m_tree = 1 then
        some ⟨(remove_branch root [] t.m_tree).2, none⟩
      else
        let e_dist := if u_node ≠ root then in_edge_mu t.m_tree u_node else 0
        let u_parent := if u_node ≠ root then some (parent_of u_node) else none
        if out_degree t.m_tree u_node > 0 ∨ u_parent = none then
          let r := remove_branch u_node [] t.m_tree
          construct_node Arity dist std_sort nth_element ch ⟨r.2, t.m_root⟩
            u_parent e_dist r.1.tail
        else
          let r1 := remove_branch u_node [] t.m_tree
          let u_node1 := parent_of u_node
          let e_dist1 := if u_node1 = root then 0 else in_edge_mu r1.2 u_node1
          let u_parent1 := if u_node1 = root then none else some (parent_of u_node1)
          let r2 := remove_branch u_node1 r1.1 r1.2
          construct_node Arity dist std_sort nth_element ch ⟨r2.2, t.m_root⟩
            u_parent1 e_dist1 r2.1.tail

/-! ## Nearest-neighbour search -/

/-- How a run of `find_nearest_impl` ends: normally, with the candidate list; by reading
`front()` of an empty candidate list; by using a vertex that is not in the tree; or, for the
embedding only, by hitting the iteration bound. -/
inductive search_result (α : Type) where
  | done (a : α) : search_result α
  | empty_front : search_result α
  | invalid_vertex : search_result α
  | no_fuel : search_result α
deriving DecidableEq

/-- The test `x < aSigma`, the radius `none` being infinite. -/
def lt_sigma (x : Int) : Option Int → Bool
  | none => true
  | some s => decide (x < s)

/-- The test `x > aSigma`, the radius `none` being infinite. -/
def gt_sigma (x : Int) : Option Int → Bool
  | none => false
  | some s => decide (x > s)

/-! The distances are `double`s in the source (`typedef double distance_type`). The
embedding keeps the integer-valued ones: a distance is an `Int`, and every sum or difference
that the search computes is rounded as binary64 arithmetic rounds it. -/

/-- The unit in the last place of a `double` of magnitude `n`: the least power of two `u`
with `n / u < 2^53`, found by doubling; that of a finite `double` is at most `2^971`. -/
def ulp_loop (n : Nat) : Nat → Nat → Nat
  | 0, u => u
  | fuel + 1, u => if n / u < 2 ^ 53 then u else ulp_loop n fuel (2 * u)

/-- The rounding of binary64 arithmetic, on the integers: the nearest integer with 53
significant bits, a tie going to the even significand. An integer of magnitude below `2^53`
is a `double` and is kept. The overflow to an infinity, from `2^1024` on, is not part of
the embedding. -/
def round_double (x : Int) : Int :=
  let n := x.natAbs
  let ulp := ulp_loop n 971 1
  let q := n / ulp
  let r := n % ulp
  let q1 := if 2 * r < ulp then q else if ulp < 2 * r then q + 1 else q + q % 2
  if x < 0 then -((q1 * ulp : Nat) : Int) else ((q1 * ulp : Nat) : Int)

/-- The sum `a + b` of two `double`s. -/
def double_add (a b : Int) : Int := round_double (a + b)

/-- The difference `a - b` of two `double`s. -/
def double_sub (a b : Int) : Int := round_double (a - b)

/-- The test `d1 + aSigma - current_dist > 0`, evaluated from left to right in `double`:
the sum `d1 + aSigma` is rounded before `current_dist` is subtracted. With an infinite
radius the value is `+inf`. -/
def left_open (d1 current_dist : Int) : Option Int → Bool
  | none => true
  | some s => decide (double_sub (double_add d1 s) current_dist > 0)

/-- The test `d2 - aSigma - current_dist < 0`, evaluated from left to right in `double`:
the difference `d2 - aSigma` is rounded before `current_dist` is subtracted. With an
infinite radius the value is `-inf`. -/
def right_open (d2 current_dist : Int) : Option Int → Bool
  | none => true
  | some s => decide (double_sub (double_sub d2 s) current_dist < 0)

/-- The radius of the `i`-th out-edge. -/
def mu_at (es : List (Int × vertex_type)) (i : Nat) : Int :=
  match es[i]? with
  | some e => e.1
  | none => 0

/-- The target of the `i`-th out-edge. -/
def target_at (es : List (Int × vertex_type)) (i : Nat) : vertex_type :=
  match es[i]? with
  | some e => e.2
  | none => []

/-- The candidate list `aList` is a max-heap on the distance. It is kept here in one of
its valid layouts, sorted by descending distance; `push_back` followed by `std::push_heap`
is then an ordered insertion. -/
def heap_push (x : Int × vertex_type) : List (Int × vertex_type) → List (Int × vertex_type)
  | [] => [x]
  | y :: l => if y.1 < x.1 then x :: y :: l else y :: heap_push x l

/-- The call `std::pop_heap` followed by `pop_back`: drops a candidate of largest distance. -/
def heap_pop (l : List (Int × vertex_type)) : List (Int × vertex_type) := l.tail

/-- The call `std::sort_heap`: the candidates by ascending distance. -/
def sort_heap (l : List (Int × vertex_type)) : List (Int × vertex_type) := l.reverse

/-- The loop locating the partition of the query point: the index of the first out-edge
with `current_dist <= mu`, or the number of out-edges when there is none. -/
def locate (current_dist : Int) : List (Int × vertex_type) → Nat
  | [] => 0
  | e :: es => if current_dist ≤ e.1 then 0 else locate current_dist es + 1

/-- The inner loop of the `left_stopped` branch: pushes the out-edges to the right of
`ei_right` while the gap `mu(ei_right - 1) - current_dist` is below `aSigma`. -/
def expand_right (es : List (Int × vertex_type)) (current_dist : Int) (aSigma : Option Int) :
    Nat → Nat → List (vertex_type × Int) → List (vertex_type × Int)
  | 0, _, temp_invtasks => temp_invtasks
  | fuel + 1, ei_right, temp_invtasks =>
    let temp_dist := double_sub (mu_at es (ei_right - 1)) current_dist
    if ei_right ≠ es.length ∧ lt_sigma temp_dist aSigma = true then
      expand_right es current_dist aSigma fuel (ei_right + 1)
        ((target_at es ei_right, temp_dist) :: temp_invtasks)
    else temp_invtasks

/-- The inner loop of the `right_stopped` branch: pushes the out-edges to the left of
`ei_left` while the gap `current_dist - mu(ei_left - 1)` is below `aSigma`. -/
def expand_left (es : List (Int × vertex_type)) (current_dist : Int) (aSigma : Option Int) :
    Nat → List (vertex_type × Int) → List (vertex_type × Int)
  | 0, temp_invtasks => temp_invtasks
  | l + 1, temp_invtasks =>
    let temp_dist := double_sub current_dist (mu_at es l)
    if lt_sigma temp_dist aSigma = true then
      expand_left es current_dist aSigma l ((target_at es l, temp_dist) :: temp_invtasks)
    else temp_invtasks

/-- The `while(true)` loop that expands outwards from the primary child, on the out-edge
indices `ei_left` and `ei_right`; the flags `left_stopped` and `right_stopped` are
recomputed from the indices at the end of every iteration, as in the source. -/
def expand_loop (es : List (Int × vertex_type)) (current_dist : Int) (aSigma : Option Int) :
    Nat → Nat → Nat → List (vertex_type × Int) → List (vertex_type × Int)
  | 0, _, _, temp_invtasks => temp_invtasks
  | fuel + 1, ei_left, ei_right, temp_invtasks =>
    if ei_left = 0 then
      expand_right es current_dist aSigma es.length ei_right temp_invtasks
    else if ei_right = es.length then
      expand_left es current_dist aSigma ei_left temp_invtasks
    else
      let d1 := mu_at es (ei_left - 1)
      let d2 := mu_at es (ei_right - 1)
      if double_add d1 d2 > round_double (2 * current_dist) then
        if left_open d1 current_dist aSigma = true then
          let temp1 :=
            (target_at es (ei_left - 1), double_sub current_dist d1) :: temp_invtasks
          if right_open d2 current_dist aSigma = true then
            expand_loop es current_dist aSigma fuel (ei_left - 1) (ei_right + 1)
              ((target_at es ei_right, double_sub d2 current_dist) :: temp1)
          else
            expand_loop es current_dist aSigma fuel (ei_left - 1) ei_right temp1
        else temp_invtasks
      else
        if right_open d2 current_dist aSigma = true then
          let temp1 := (target_at es ei_right, double_sub d2 current_dist) :: temp_invtasks
          if left_open d1 current_dist aSigma = true then
            expand_loop es current_dist aSigma fuel (ei_left - 1) (ei_right + 1)
              ((target_at es (ei_left - 1), double_sub current_dist d1) :: temp1)
          else
            expand_loop es current_dist aSigma fuel ei_left (ei_right + 1) temp1
        else temp_invtasks

/-- The children of a visited vertex that the search pushes, as the stack `temp_invtasks`
(top first): the primary child with bound `0`, then the expansion to both sides. -/
def expand_children (es : List (Int × vertex_type)) (current_dist : Int)
    (aSigma : Option Int) : List (vertex_type × Int) :=
  let ei0 := locate current_dist es
  let ei := if ei0 = es.length then ei0 - 1 else ei0
  expand_loop es current_dist aSigma (es.length + 1) ei (ei + 1) [(target_at es ei, 0)]

/-- The `while(!tasks.empty())` loop of the single-queue `find_nearest_impl`; the stack
`tasks` has its top first. -/
def find_nearest_loop (dist : P → P → Int) (t : tree_indexer P) (aPoint : P) (K : Nat) :
    Nat → List (vertex_type × Int) → Option Int → List (Int × vertex_type) →
      search_result (List (Int × vertex_type))
  | _, [], _, aList => search_result.done aList
  | 0, _ :: _, _, _ => search_result.no_fuel
  | fuel + 1, cur_node :: tasks, aSigma, aList =>
    if gt_sigma cur_node.2 aSigma = true then
      find_nearest_loop dist t aPoint K fuel tasks aSigma aList
    else
      match vertex_at t cur_node.1 with
      | none => search_result.invalid_vertex
      | some (vp, _) =>
        let current_dist := dist aPoint vp.pos
        let pushed := heap_push (current_dist, cur_node.1) aList
        let upd : Option (Option Int × List (Int × vertex_type)) :=
          if lt_sigma current_dist aSigma = true then
            if pushed.length > K then
              match heap_pop pushed with
              | [] => none
              | front :: l => some (some front.1, front :: l)
            else some (aSigma, pushed)
          else some (aSigma, aList)
        match upd with
        | none => search_result.empty_front
        | some (aSigma1, aList1) =>
          if out_degree t cur_node.1 = 0 then
            find_nearest_loop dist t aPoint K fuel tasks aSigma1 aList1
          else
            let temp_invtasks := expand_children (out_edges t cur_node.1) current_dist aSigma1
            find_nearest_loop dist t aPoint K fuel (temp_invtasks.reverse ++ tasks)
              aSigma1 aList1

/-- The single-queue `find_nearest_impl(aPoint, aSigma, aList, K)`; every vertex is pushed
on the stack at most once, so the number of vertices bounds the iterations. -/
def find_nearest_impl (dist : P → P → Int) (t : dvp_tree_impl P) (aPoint : P)
    (aSigma : Option Int) (aList : List (Int × vertex_type)) (K : Nat) :
    search_result (List (Int × vertex_type)) :=
  match t.m_root with
  | none => search_result.invalid_vertex
  | some root =>
    find_nearest_loop dist t.m_tree aPoint K (num_vertices t.m_tree) [(root, 0)] aSigma aList

/-- The member `find_nearest(aPoint)`: the nearest vertex, or the null vertex. -/
def find_nearest_single (dist : P → P → Int) (t : dvp_tree_impl P) (aPoint : P) :
    search_result (Option vertex_type) :=
  if num_vertices t.m_tree = 0 then search_result.done none
  else
    match find_nearest_impl dist t aPoint none [] 1 with
    | search_result.done [] => search_result.empty_front
    | search_result.done (front :: _) => search_result.done (some front.2)
    | search_result.empty_front => search_result.empty_front
    | search_result.invalid_vertex => search_result.invalid_vertex
    | search_result.no_fuel => search_result.no_fuel

/-- The member `find_nearest(aPoint, aOutputBegin, K, R)`: the vertices written to the
output iterator, in order. -/
def find_nearest (dist : P → P → Int) (t : dvp_tree_impl P) (aPoint : P) (K : Nat)
    (R : Option Int) : search_result (List vertex_type) :=
  if num_vertices t.m_tree = 0 then search_result.done []
  else
    match find_nearest_impl dist t aPoint R [] K with
    | search_result.done Q => search_result.done ((sort_heap Q).map (fun e => e.2))
    | search_result.empty_front => search_result.empty_front
    | search_result.invalid_vertex => search_result.invalid_vertex
    | search_result.no_fuel => search_result.no_fuel

/-- The member `find_in_range(aPoint, aOutputBegin, R)`: the vertices written to the output
iterator, in order. -/
def find_in_range (dist : P → P → Int) (t : dvp_tree_impl P) (aPoint : P)
    (R : Option Int) : search_result (List vertex_type) :=
  if num_vertices t.m_tree = 0 then search_result.done []
  else
    match find_nearest_impl dist t aPoint R [] (num_vertices t.m_tree) with
    | search_result.done Q => search_result.done ((sort_heap Q).map (fun e => e.2))
    | search_result.empty_front => search_result.empty_front
    | search_result.invalid_vertex => search_result.invalid_vertex
    | search_result.no_fuel => search_result.no_fuel

/-! ## Contracts of the parameters, and the structural invariants -/

/-- The contract of `std::sort`, for a comparison by a cached distance `f`: the result is a
permutation of the range, in non-decreasing order of `f`. -/
def SortSpec
    (std_sort : (vertex_property P → vertex_property P → Bool) →
      List (vertex_property P) → List (vertex_property P)) : Prop :=
  ∀ (f : vertex_property P → Int) (l : List (vertex_property P)),
    (std_sort (fun a b => decide (f a < f b)) l).Perm l ∧
    (std_sort (fun a b => decide (f a < f b)) l).Pairwise (fun a b => f a ≤ f b)

/-- The contract of `std::nth_element`, for a comparison by a cached distance `f`: the
result is a permutation of the range, no element before position `n` is larger than the
element at `n`, and no element behind position `n` is smaller. -/
def NthSpec
    (nth_element : (vertex_property P → vertex_property P → Bool) →
      List (vertex_property P) → Nat → List (vertex_property P)) : Prop :=
  ∀ (f : vertex_property P → Int) (l : List (vertex_property P)) (n : Nat), n < l.length →
    (nth_element (fun a b => decide (f a < f b)) l n).Perm l ∧
    ∀ y, (nth_element (fun a b => decide (f a < f b)) l n)[n]? = some y →
      (∀ x ∈ (nth_element (fun a b => decide (f a < f b)) l n).take n, f x ≤ f y) ∧
      (∀ z ∈ (nth_element (fun a b => decide (f a < f b)) l n).drop (n + 1), f y ≤ f z)

/-- A vantage-point chooser that always returns an element of a non-empty range. -/
def ChooserOK (ch : List (vertex_property P) → Nat) : Prop :=
  ∀ l, l ≠ [] → ch l < l.length

/-- Ordered insertion by the comparison `lt`, behind the elements that are not larger. -/
def insert_sorted (lt : vertex_property P → vertex_property P → Bool)
    (x : vertex_property P) : List (vertex_property P) → List (vertex_property P)
  | [] => [x]
  | y :: l => if lt x y = true then x :: y :: l else y :: insert_sorted lt x l

/-- Insertion sort, an instance of `std::sort`. -/
def insertion_sort (lt : vertex_property P → vertex_property P → Bool) :
    List (vertex_property P) → List (vertex_property P)
  | [] => []
  | x :: l => insert_sorted lt x (insertion_sort lt l)

/-- Sorting the whole range, an instance of `std::nth_element`. -/
def nth_by_sort (lt : vertex_property P → vertex_property P → Bool)
    (l : List (vertex_property P)) (_n : Nat) : List (vertex_property P) :=
  insertion_sort lt l

/-- The chooser that picks the first element of the range. -/
def first_chooser (_l : List (vertex_property P)) : Nat := 0

/-- The vertex properties stored in the tree, in pre-order. -/
def dvp_tree_impl.elems (t : dvp_tree_impl P) : List (vertex_property P) :=
  match t.m_tree with
  | none => []
  | some (r, cs) => r :: cs.elems

/-- The keys stored in the tree, in pre-order. -/
def dvp_tree_impl.keys (t : dvp_tree_impl P) : List Int := t.elems.map (fun x => x.key)

/-- The vertex properties stored in the subtree of a vertex, the vertex first. -/
def subtree_elems (t : tree_indexer P) (v : vertex_type) : List (vertex_property P) :=
  match vertex_at t v with
  | none => []
  | some (vp, cs) => vp :: cs.elems

namespace Forest

/-- The out-edge slots of the vertex that the path `p` leads to, from a vertex with
out-edge slots `cs`; `none` when the path leads to no vertex. -/
def kidsAt : Forest P → List Nat → Option (Forest P)
  | cs, [] => some cs
  | cs, i :: p =>
    match cs.slot i with
    | none => none
    | some (_, _, c) => c.kidsAt p

/-- No slot is vacant, at any depth. -/
def NoHoles : Forest P → Prop
  | nil => True
  | cons _ _ c r => c.NoHoles ∧ r.NoHoles
  | hole _ => False

/-- Number of valid out-edges among the slots. -/
def degree : Forest P → Nat
  | nil => 0
  | cons _ _ _ r => r.degree + 1
  | hole r => r.degree

/-- The property `q` holds of the out-edge slots of every vertex stored in the forest. -/
def AllKids (q : Forest P → Prop) : Forest P → Prop
  | nil => True
  | cons _ _ c r => q c ∧ c.AllKids q ∧ r.AllKids q
  | hole r => r.AllKids q

/-- The metric invariant of the out-edge slots of a vertex at position `pp`: no slot is
vacant; every element below an edge is within the radius of the edge from `pp`; every
element below a later edge is at least that far from `pp`; and so on recursively. -/
def Inv (dist : P → P → Int) : P → Forest P → Prop
  | _, nil => True
  | pp, cons mu v c r =>
    (∀ x ∈ v :: c.elems, dist pp x.pos ≤ mu) ∧ (∀ y ∈ r.elems, mu ≤ dist pp y.pos) ∧
      Inv dist v.pos c ∧ Inv dist pp r
  | _, hole _ => False

/-- The slots holding, in order, the given children. -/
def ofKids : List (Int × vertex_property P × Forest P) → Forest P
  | [] => nil
  | k :: ks => cons k.1 k.2.1 k.2.2 (ofKids ks)

/-- Slots of leaf children, with edge radius the cached distance. -/
def leafKids (dm : Int → Int) : List (vertex_property P) → Forest P
  | [] => nil
  | x :: l => cons (dm x.key) x nil (leafKids dm l)

/-- Replaces the content of slot `i`. -/
def setSlot (e : Int) (vp : vertex_property P) (sub : Forest P) : Nat → Forest P → Forest P
  | _, nil => nil
  | 0, cons _ _ _ r => cons e vp sub r
  | i + 1, cons m v c r => cons m v c (setSlot e vp sub i r)
  | 0, hole r => cons e vp sub r
  | i + 1, hole r => hole (setSlot e vp sub i r)

/-- The slots after a list of attachments, each one giving the parent vertex, the edge
radius, the vertex property and the slots of a new child. -/
def attachAll (cs : Forest P) :
    List (vertex_type × Int × vertex_property P × Forest P) → Forest P
  | [] => cs
  | a :: l => attachAll (cs.modifyAt (add a.2.1 a.2.2.1 a.2.2.2) a.1) l

end Forest

/-- The predicate `Good range vp cs`, read as "the vertex `vp` with out-edge slots `cs` is an
admissible subtree for the range", is closed under one iteration of the loop of
`construct_node`: the vertex that the iteration creates is admissible when its children
are, be they the leaves of the last level or the subtrees of the queued sub-ranges. -/
def StepClosed (Arity : Nat) (dist : P → P → Int)
    (std_sort : (vertex_property P → vertex_property P → Bool) →
      List (vertex_property P) → List (vertex_property P))
    (nth_element : (vertex_property P → vertex_property P → Bool) →
      List (vertex_property P) → Nat → List (vertex_property P))
    (ch : List (vertex_property P) → Nat)
    (Good : List (vertex_property P) → vertex_property P → Forest P → Prop) : Prop :=
  ∀ (range : List (vertex_property P)) (dm : Int → Int) (vp : vertex_property P),
    range[ch range]? = some vp →
    ((swap_front range (ch range)).tail.length < Arity →
      Good range vp
        (Forest.leafKids (Function.update (fill_dist_map dist vp.pos dm range) vp.key 0)
          (std_sort (closer (Function.update (fill_dist_map dist vp.pos dm range) vp.key 0))
            (swap_front range (ch range)).tail))) ∧
    (¬ (swap_front range (ch range)).tail.length < Arity →
      ∀ (cur : vertex_type) (kids : List (Int × vertex_property P × Forest P)),
        List.Forall₂ (fun (τ : construction_task P) k =>
            τ.edge_dist = k.1 ∧ Good τ.range k.2.1 k.2.2)
          (partition_loop nth_element
            (Function.update (fill_dist_map dist vp.pos dm range) vp.key 0) cur Arity
            (swap_front range (ch range)).tail) kids →
        Good range vp (Forest.ofKids kids))

/-- The elements of the ranges of a list of tasks. -/
def all_ranges : List (construction_task P) → List (vertex_property P)
  | [] => []
  | τ :: ts => τ.range ++ all_ranges ts

/-- The sub-tasks of a partition are ordered by the cached distance `f`: the elements of a
task are within its edge radius, the elements of the later tasks are not closer. -/
def PartsOK (f : vertex_property P → Int) : List (construction_task P) → Prop
  | [] => True
  | τ :: ts =>
    (∀ x ∈ τ.range, f x ≤ τ.edge_dist) ∧ (∀ y ∈ all_ranges ts, τ.edge_dist ≤ f y) ∧
      PartsOK f ts

/-- The subtrees that `construct_node` builds for a range: the vertex `vp` with out-edge
slots `cs` holds exactly the elements of the range, has no vacant slot, no vertex of it has
more than `Arity` out-edges and, when the keys of the range are pairwise distinct, it
satisfies the metric invariant. -/
def Built (Arity : Nat) (dist : P → P → Int) (range : List (vertex_property P))
    (vp : vertex_property P) (cs : Forest P) : Prop :=
  (vp :: cs.elems).Perm range ∧ cs.NoHoles ∧ cs.degree ≤ Arity ∧
    cs.AllKids (fun c => c.degree ≤ Arity) ∧
    ((range.map (fun x => x.key)).Nodup → cs.Inv dist vp.pos)

/-- The distance on the integer line, a symmetric metric used for the concrete instances. -/
def line_dist (a b : Int) : Int := if a ≤ b then b - a else a - b

namespace Forest

/-- Replaces the content `(mu, vp, children)` of slot `i` by `h mu vp children`. -/
def updSlot (h : Int → vertex_property P → Forest P → Int × vertex_property P × Forest P) :
    Nat → Forest P → Forest P
  | _, nil => nil
  | 0, cons m v c r => cons (h m v c).1 (h m v c).2.1 (h m v c).2.2 r
  | i + 1, cons m v c r => cons m v c (updSlot h i r)
  | 0, hole r => hole r
  | i + 1, hole r => hole (updSlot h i r)

/-- The effect of an insertion of a point `q` along a path, seen from the root: every edge
of the path is enlarged to the distance of `q` from the source of the edge when that
distance exceeds the radius of the edge, and the out-edge slots of the vertex at the end of
the path, at position `pp`, are changed by `g pp`. -/
def descend (dist : P → P → Int) (q : P) (g : P → Forest P → Forest P) :
    P → List Nat → Forest P → Forest P
  | pp, [], cs => g pp cs
  | pp, j :: rest, cs =>
    updSlot (fun m v c => (max m (dist q pp), v, descend dist q g v.pos rest c)) j cs

/-- The path follows the routing rule of `get_leaf` for the point `q`: at every vertex (at
position `pp`, with slots `cs`) the path takes a valid out-edge, the radii of all the
earlier edges are smaller than the distance of `q` from the vertex and, unless the edge is
the last one, its own radius is not. -/
def Routed (dist : P → P → Int) (q : P) : P → Forest P → List Nat → Prop
  | _, _, [] => True
  | pp, cs, j :: rest =>
    ∃ m v c, cs.slot j = some (m, v, c) ∧
      (∀ k, k < j → ∀ x, cs.slot k = some x → x.1 < dist q pp) ∧
      (dist q pp ≤ m ∨ ∀ k, j < k → cs.slot k = none) ∧
      Routed dist q v.pos c rest

end Forest

/-- Well-formed trees: the stored root is the null vertex exactly when the storage is empty,
it is the root of the storage otherwise, and no slot of the storage is vacant. -/
def WellFormed (t : dvp_tree_impl P) : Prop :=
  match t.m_tree with
  | none => t.m_root = none
  | some (_, cs) => t.m_root = some [] ∧ cs.NoHoles

/-- Number of vertices in the subtree of a vertex, counting one for a descriptor that is
not in the tree. -/
def subtree_size (t : tree_indexer P) (v : vertex_type) : Nat :=
  match vertex_at t v with
  | none => 1
  | some (_, c) => 1 + c.size

/-- The three outcomes of `insert(up)` on a tree with root property `r` and root slots `cs`,
where `L` is the leaf that `get_leaf` reaches: the whole tree is rebuilt with the new
element; or the subtree of a vertex on the path to `L` is rebuilt with the new element,
the radii on the path to it being enlarged; or the new element becomes the only child of
`L`, the radii on the path to it being enlarged. `Good` describes the rebuilt subtrees. -/
def InsertOutcome (dist : P → P → Int)
    (Good : List (vertex_property P) → vertex_property P → Forest P → Prop)
    (r : vertex_property P) (cs : Forest P) (up : vertex_property P) (L : vertex_type)
    (t1 : dvp_tree_impl P) : Prop :=
  (∃ vp sub, Good (up :: r :: cs.elems) vp sub ∧ t1 = ⟨some (vp, sub), some []⟩) ∨
  (∃ w i vw cw m vu cu vp sub, (w ++ [i]) <+: L ∧ Forest.nodeAt r cs w = some (vw, cw) ∧
    cw.slot i = some (m, vu, cu) ∧ Good (up :: vu :: cu.elems) vp sub ∧
    t1 = ⟨some (r, Forest.descend dist up.pos
      (fun pp c => Forest.add (max m (dist up.pos pp)) vp sub (Forest.clear i c))
      r.pos w cs), some []⟩) ∨
  (∃ vl cl, Forest.nodeAt r cs L = some (vl, cl) ∧ cl.degree = 0 ∧
    t1 = ⟨some (r, Forest.descend dist up.pos
      (fun pp c => Forest.add (dist up.pos pp) up Forest.nil c) r.pos L cs), some []⟩)

/-- The outcomes of `erase(v)` on a tree with root property `r` and root slots `cs`, for a
vertex `v` of the tree holding the element `ev`: the tree becomes empty; or the whole tree
is rebuilt from the other elements; or the subtree of a vertex on the path to `v` is rebuilt
from its other elements, on an edge of unchanged radius. `Good` describes the rebuilt
subtrees. -/
def EraseOutcome
    (Good : List (vertex_property P) → vertex_property P → Forest P → Prop)
    (r : vertex_property P) (cs : Forest P) (v : vertex_type) (t1 : dvp_tree_impl P) : Prop :=
  ∃ ev cv, Forest.nodeAt r cs v = some (ev, cv) ∧
    ((cs.size = 0 ∧ t1 = ⟨none, none⟩) ∨
     (∃ range vp sub, (ev :: range).Perm (r :: cs.elems) ∧ Good range vp sub ∧
        t1 = ⟨some (vp, sub), some []⟩) ∨
     (∃ w i vw cw m vu cu range vp sub, (w ++ [i]) <+: v ∧
        Forest.nodeAt r cs w = some (vw, cw) ∧ cw.slot i = some (m, vu, cu) ∧
        (ev :: range).Perm (vu :: cu.elems) ∧ Good range vp sub ∧
        t1 = ⟨some (r, cs.modifyAt (fun c => Forest.add m vp sub (Forest.clear i c)) w),
          some []⟩))

/-- The stored root is the null vertex when the storage is empty, and the root of the
storage otherwise. -/
def Rooted (t : dvp_tree_impl P) : Prop :=
  match t.m_tree with
  | none => t.m_root = none
  | some _ => t.m_root = some []

namespace Forest

/-- The radius `mu` is not larger than the radius of any edge among the slots. -/
def MuLe (mu : Int) (r : Forest P) : Prop := ∀ k y, r.slot k = some y → mu ≤ y.1

/-- At every vertex stored in the forest, and among the slots themselves, the radii of the
out-edges are non-decreasing in out-edge order. -/
def SortedAll : Forest P → Prop
  | nil => True
  | cons mu _ c r => MuLe mu r ∧ c.SortedAll ∧ r.SortedAll
  | hole r => r.SortedAll

/-- The invariant of the out-edge slots of a vertex at position `pp`: no slot is vacant, no
child has more than `A` out-edges, the radii are non-decreasing in out-edge order and, when
`b` holds, every element below an edge is within the radius of the edge from `pp` and every
element below a later edge is at least that far from `pp`; and so on recursively. -/
def Ok (A : Nat) (dist : P → P → Int) (b : Prop) : P → Forest P → Prop
  | _, nil => True
  | pp, cons mu v c r =>
    c.degree ≤ A ∧ MuLe mu r ∧
      (b → (∀ x ∈ v :: c.elems, dist pp x.pos ≤ mu) ∧ (∀ y ∈ r.elems, mu ≤ dist pp y.pos)) ∧
      Ok A dist b v.pos c ∧ Ok A dist b pp r
  | _, hole _ => False

/-- A change of the subtree below slot `j` of a vertex at position `pp`, which moves the
radius of the edge from `m` to `m1` and adds the elements `N` below the edge, respects the
order of the slots: the radius does not shrink, it grows only on the last edge and, when
`b` holds, the new elements are within the new radius and not within the radius of an
earlier edge. -/
def StepOK (dist : P → P → Int) (b : Prop) (N : List (vertex_property P)) (pp : P)
    (cs : Forest P) (j : Nat) (m m1 : Int) : Prop :=
  m ≤ m1 ∧ (m1 = m ∨ ∀ k, j < k → cs.slot k = none) ∧
    (b → ∀ x ∈ N, dist pp x.pos ≤ m1 ∧ ∀ k y, k < j → cs.slot k = some y →
      y.1 ≤ dist pp x.pos)

/-- Every step of the path respects the order of the slots, when the radius of each edge
`m` of the path, leaving a vertex at position `pp`, is moved to `β pp m`. -/
def StepsOK (dist : P → P → Int) (b : Prop) (β : P → Int → Int)
    (N : List (vertex_property P)) : P → Forest P → List Nat → Prop
  | _, _, [] => True
  | pp, cs, j :: rest =>
    ∃ m v c, cs.slot j = some (m, v, c) ∧ StepOK dist b N pp cs j m (β pp m) ∧
      StepsOK dist b β N v.pos c rest

/-- A change along a path, seen from the root: the radius `m` of every edge of the path,
leaving a vertex at position `pp`, becomes `β pp m`, and the out-edge slots of the vertex at
the end of the path, at position `pp`, are changed by `g pp`. -/
def pathMap (β : P → Int → Int) (g : P → Forest P → Forest P) :
    P → List Nat → Forest P → Forest P
  | pp, [], cs => g pp cs
  | pp, j :: rest, cs => updSlot (fun m v c => (β pp m, v, pathMap β g v.pos rest c)) j cs

end Forest

/-- The subtrees that `construct_node` builds for a range, with the order of their radii:
`Built`, and the radii of the out-edges of every vertex are non-decreasing. -/
def Built2 (Arity : Nat) (dist : P → P → Int) (range : List (vertex_property P))
    (vp : vertex_property P) (cs : Forest P) : Prop :=
  Built Arity dist range vp cs ∧ cs.SortedAll

/-- The structural invariant of a tree: the stored root is consistent with the storage, the
root has at most `A` out-edges and its slots satisfy the invariant `Forest.Ok`. -/
def GInv (A : Nat) (dist : P → P → Int) (b : Prop) (t : dvp_tree_impl P) : Prop :=
  Rooted t ∧
    match t.m_tree with
    | none => True
    | some (r, cs) => cs.degree ≤ A ∧ cs.Ok A dist b r.pos

/-- The trees obtained from the empty tree or from a bulk construction by a sequence of
insertions and of erasures of vertices of the tree, each operation with its own
vantage-point chooser. With `distinct = true` the keys of the elements are kept pairwise
distinct: a bulk construction takes elements with pairwise distinct keys, an insertion an
element whose key is not in the tree. -/
inductive Reachable (Arity : Nat) (dist : P → P → Int)
    (std_sort : (vertex_property P → vertex_property P → Bool) →
      List (vertex_property P) → List (vertex_property P))
    (nth_element : (vertex_property P → vertex_property P → Bool) →
      List (vertex_property P) → Nat → List (vertex_property P))
    (distinct : Bool) : dvp_tree_impl P → Prop
  | empty : Reachable Arity dist std_sort nth_element distinct ⟨none, none⟩
  | bulk (ch : List (vertex_property P) → Nat) (v_bin : List (vertex_property P))
      (t : dvp_tree_impl P) :
      ChooserOK ch → (distinct = true → (v_bin.map (fun x => x.key)).Nodup) →
      from_range Arity dist std_sort nth_element ch v_bin = some t →
      Reachable Arity dist std_sort nth_element distinct t
  | insert (ch : List (vertex_property P) → Nat) (t : dvp_tree_impl P)
      (up : vertex_property P) (t1 : dvp_tree_impl P) :
      ChooserOK ch → Reachable Arity dist std_sort nth_element distinct t →
      (distinct = true → up.key ∉ t.keys) →
      DVP.insert Arity dist std_sort nth_element ch t up = some t1 →
      Reachable Arity dist std_sort nth_element distinct t1
  | erase (ch : List (vertex_property P) → Nat) (t : dvp_tree_impl P) (v : vertex_type)
      (t1 : dvp_tree_impl P) :
      ChooserOK ch → Reachable Arity dist std_sort nth_element distinct t →
      (vertex_at t.m_tree v).isSome = true →
      DVP.erase Arity dist std_sort nth_element ch t v = some t1 →
      Reachable Arity dist std_sort nth_element distinct t1

/-- Five points of the integer line, used for the concrete instances. -/
def example_points : List (vertex_property Int) :=
  [⟨1, 0⟩, ⟨2, 5⟩, ⟨3, 9⟩, ⟨4, 2⟩, ⟨5, 7⟩]

/-- The tree that the bulk construction makes of `example_points`, with arity 2 and the
first element of each range as its vantage point. -/
def example_tree : dvp_tree_impl Int :=
  ⟨some (⟨1, 0⟩,
    Forest.cons 5 ⟨4, 2⟩ (Forest.cons 3 ⟨2, 5⟩ Forest.nil Forest.nil)
      (Forest.cons 9 ⟨5, 7⟩ (Forest.cons 2 ⟨3, 9⟩ Forest.nil Forest.nil) Forest.nil)),
    some []⟩

/-! ## The bookkeeping of the search -/

/-- The radius is at most `x`: `aSigma <= x`, the radius `none` being infinite. -/
def sig_le (σ : Option Int) (x : Int) : Prop :=
  match σ with
  | none => False
  | some s => s ≤ x

/-- The value `x` is at most the radius: `x <= aSigma`, the radius `none` being infinite. -/
def le_sig (x : Int) (σ : Option Int) : Prop :=
  match σ with
  | none => True
  | some s => x ≤ s

/-- The order of two radii, `none` being infinite. -/
def sig_le_sig (σ1 σ2 : Option Int) : Prop :=
  match σ2 with
  | none => True
  | some s => sig_le σ1 s

namespace Forest

/-- The candidates below the slots of a vertex with descriptor `pre`, the slots numbered
from `k`: for every vertex its distance from the query point `q` and its descriptor. -/
def entries (dist : P → P → Int) (q : P) : List Nat → Nat → Forest P → List (Int × vertex_type)
  | _, _, nil => []
  | pre, k, cons _ v c r =>
    (dist q v.pos, pre ++ [k]) :: (entries dist q (pre ++ [k]) 0 c ++ entries dist q pre (k + 1) r)
  | pre, k, hole r => entries dist q pre (k + 1) r

end Forest

/-- The candidates of the subtree of a vertex: the vertex and everything below it. -/
def sub_entries (dist : P → P → Int) (q : P) (path : vertex_type) (x : vertex_property P)
    (c : Forest P) : List (Int × vertex_type) :=
  (dist q x.pos, path) :: c.entries dist q path 0

/-- The candidates of the subtree of the vertex with the given descriptor. -/
def node_entries (dist : P → P → Int) (q : P) (t : tree_indexer P) (path : vertex_type) :
    List (Int × vertex_type) :=
  match vertex_at t path with
  | none => []
  | some (x, c) => sub_entries dist q path x c

/-- The candidates of the subtrees of the vertices on the stack of tasks. -/
def pending (dist : P → P → Int) (q : P) (t : tree_indexer P) :
    List (vertex_type × Int) → List (Int × vertex_type)
  | [] => []
  | τ :: ts => node_entries dist q t τ.1 ++ pending dist q t ts

/-- The candidates below the out-edges with the listed slot indices of a vertex. -/
def kid_entries (dist : P → P → Int) (q : P) (t : tree_indexer P) (path : vertex_type) :
    List Nat → List (Int × vertex_type)
  | [] => []
  | i :: l => node_entries dist q t (path ++ [i]) ++ kid_entries dist q t path l

/-- The distance from the query point to the position of a vertex. -/
def dist_to (dist : P → P → Int) (q : P) (t : tree_indexer P) (v : vertex_type) : Int :=
  match vertex_at t v with
  | none => 0
  | some (x, _) => dist q x.pos

/-- The brute-force reference of the search: the distances from the query point to all
the elements of the tree, sorted in ascending order. -/
def brute_force (dist : P → P → Int) (q : P) (t : dvp_tree_impl P) : List Int :=
  (t.elems.map (fun x => dist q x.pos)).insertionSort (fun a b => a ≤ b)

/-! ## Lookup by key and position -/

/-- How a run of `get_vertex(aKey, aPoint, aNode)` ends: with the vertex found; by
`throw int(0)`; by using a vertex that is not in the tree; or, for the embedding only, by
hitting the iteration bound. -/
inductive lookup_result where
  | found (v : vertex_type) : lookup_result
  | thrown : lookup_result
  | invalid_vertex : lookup_result
  | no_fuel : lookup_result
deriving DecidableEq

/-- The inner `for` loop of `get_vertex` over the out-edges: the target of the first edge
whose radius is not below `current_dist` (or of the last edge) and, when the radius of that
edge is equal to `current_dist` and a further edge follows, the target of the following
edge as the new alternate branch. Every listed out-edge is valid. -/
def pick_vertex (current_dist : Int) :
    List (Int × vertex_type) → vertex_type → Option vertex_type →
      vertex_type × Option vertex_type
  | [], result, alt => (result, alt)
  | e :: es, _, alt =>
    if current_dist < e.1 then (e.2, alt)
    else if current_dist = e.1 then
      (e.2, match es with
        | [] => alt
        | e2 :: _ => some e2.2)
    else pick_vertex current_dist es e.2 alt

/-- The `while(key(aNode) != aKey)` loop of the private `get_vertex`. -/
def get_vertex_loop (dist : P → P → Int) (t : tree_indexer P) (aKey : Int) (aPoint : P) :
    Nat → vertex_type → Option vertex_type → lookup_result
  | 0, _, _ => lookup_result.no_fuel
  | fuel + 1, aNode, aAlternateBranch =>
    match vertex_at t aNode with
    | none => lookup_result.invalid_vertex
    | some (vp, _) =>
      if vp.key = aKey then lookup_result.found aNode
      else
        let current_dist := dist aPoint vp.pos
        if out_degree t aNode = 0 then
          match aAlternateBranch with
          | some a => get_vertex_loop dist t aKey aPoint fuel a none
          | none => lookup_result.thrown
        else
          let r := pick_vertex current_dist (out_edges t aNode) aNode aAlternateBranch
          get_vertex_loop dist t aKey aPoint fuel r.1 r.2

/-- The private `get_vertex(aKey, aPoint, aNode)`, started at the stored root; the loop
visits every vertex at most once, so the number of vertices bounds the iterations. Reading
the key of the null vertex is an invalid access. -/
def get_vertex_from_root (dist : P → P → Int) (t : dvp_tree_impl P) (aKey : Int)
    (aPoint : P) : lookup_result :=
  match t.m_root with
  | none => lookup_result.invalid_vertex
  | some root => get_vertex_loop dist t.m_tree aKey aPoint (num_vertices t.m_tree) root none

/-- The public `get_vertex(u_key, u_pt)`: the vertex found, or the null vertex when the
lookup throws. -/
def get_vertex (dist : P → P → Int) (t : dvp_tree_impl P) (u_key : Int) (u_pt : P) :
    search_result (Option vertex_type) :=
  match get_vertex_from_root dist t u_key u_pt with
  | lookup_result.found v => search_result.done (some v)
  | lookup_result.thrown => search_result.done none
  | lookup_result.invalid_vertex => search_result.invalid_vertex
  | lookup_result.no_fuel => search_result.no_fuel

/-- The member `erase(u_key, u_pt)`: looks the vertex up and erases it; a lookup that throws
leaves the tree as it is. -/
def erase_key (Arity : Nat) (dist : P → P → Int)
    (std_sort : (vertex_property P → vertex_property P → Bool) →
      List (vertex_property P) → List (vertex_property P))
    (nth_element : (vertex_property P → vertex_property P → Bool) →
      List (vertex_property P) → Nat → List (vertex_property P))
    (ch : List (vertex_property P) → Nat)
    (t : dvp_tree_impl P) (u_key : Int) (u_pt : P) : search_result (dvp_tree_impl P) :=
  match get_vertex_from_root dist t u_key u_pt with
  | lookup_result.found u_node =>
    match erase Arity dist std_sort nth_element ch t u_node with
    | some t1 => search_result.done t1
    | none => search_result.no_fuel
  | lookup_result.thrown => search_result.done t
  | lookup_result.invalid_vertex => search_result.invalid_vertex
  | lookup_result.no_fuel => search_result.no_fuel

/-! ## Clearing, and the erasure of a range of vertices -/

/-- The member `clear()`: the branch of the root is removed, and the root forgotten, under
the test `num_vertices(m_tree) == 0` of the source. Under that test the storage has no
vertex; removing the branch of the null vertex is taken to leave it as it is. -/
def clear (t : dvp_tree_impl P) : dvp_tree_impl P :=
  if num_vertices t.m_tree = 0 then
    ⟨match t.m_root with
      | some root => (remove_branch root [] t.m_tree).2
      | none => t.m_tree, none⟩
  else t

/-- The invalid key `reinterpret_cast<key_type>(-1)`. -/
def invalid_key : Int := -1

/-- The predicate `is_vertex_prop_valid`. -/
def is_vertex_prop_valid (k1 : vertex_property P) : Bool := decide (k1.key ≠ invalid_key)

namespace Forest

/-- Overwrites the key of the vertex at the end of a non-empty path. -/
def setKey (k : Int) : List Nat → Forest P → Forest P
  | [], cs => cs
  | [i], cs => updSlot (fun m v c => (m, ⟨k, v.pos⟩, c)) i cs
  | i :: j :: rest, cs => updSlot (fun m v c => (m, v, setKey k (j :: rest) c)) i cs

end Forest

/-- Modelled from the spec: `put(m_key, get(vertex_raw_property, tree, v), k)` on the tree
storage backend. -/
def put_key (t : tree_indexer P) (v : vertex_type) (k : Int) : tree_indexer P :=
  match t with
  | none => none
  | some (r, cs) =>
    match v with
    | [] => some (⟨k, r.pos⟩, cs)
    | _ :: _ => some (r, cs.setKey k v)

/-- The `while(!tasks.empty())` loop of `collect_vertices`. -/
def collect_loop (t : tree_indexer P) :
    Nat → List vertex_type → List vertex_type → List vertex_type
  | 0, _, aList => aList
  | _ + 1, [], aList => aList
  | fuel + 1, current_node :: tasks, aList =>
    collect_loop t fuel (tasks ++ (out_edges t current_node).map (fun e => e.2))
      (aList ++ (out_edges t current_node).map (fun e => e.2))

/-- The function `collect_vertices(aList, aNode)`: appends the vertices below `aNode`, in
breadth-first order; every vertex is taken from the queue once. -/
def collect_vertices (t : tree_indexer P) (aList : List vertex_type) (aNode : vertex_type) :
    List vertex_type :=
  collect_loop t (num_vertices t) [aNode] aList

/-- The first loop of `erase(aBegin, aEnd)`: marks every vertex of the range with the
invalid key and lists the trunks to rebuild, each with the vertices of its subtree. The
containment tests of the source (`std::sort` followed by `std::binary_search`) are
membership tests on the listed vertices. Taking the source of the in-edge of a childless
root is an invalid access, `none`. -/
def collect_listings (m_root : Option vertex_type) :
    List vertex_type → tree_indexer P → List (vertex_type × List vertex_type) →
      Option (tree_indexer P × List (vertex_type × List vertex_type))
  | [], t, v_lists => some (t, v_lists)
  | first :: rest, t, v_lists =>
    if out_degree t first = 0 ∧ some first = m_root then none
    else
      let removal_trunk := if out_degree t first = 0 then parent_of first else first
      let t1 := put_key t first invalid_key
      let already_collected := v_lists.any (fun it => it.2.contains removal_trunk)
      if already_collected = true then collect_listings m_root rest t1 v_lists
      else
        let removal_list := collect_vertices t1 [removal_trunk] removal_trunk
        collect_listings m_root rest t1
          (v_lists.filter (fun it => !(removal_list.contains it.1)) ++
            [(removal_trunk, removal_list)])

/-- The second loop of `erase(aBegin, aEnd)`: every listed trunk is evicted, the evicted
properties are passed through `remove_if(..., is_vertex_prop_valid)`, which keeps those on
which the predicate is false, and what is left is rebuilt in the place of the trunk. With
nothing left, `construct_node` returns at once, its chooser having no element to return. -/
def rebuild_listings (Arity : Nat) (dist : P → P → Int)
    (std_sort : (vertex_property P → vertex_property P → Bool) →
      List (vertex_property P) → List (vertex_property P))
    (nth_element : (vertex_property P → vertex_property P → Bool) →
      List (vertex_property P) → Nat → List (vertex_property P))
    (ch : List (vertex_property P) → Nat) :
    List (vertex_type × List vertex_type) → dvp_tree_impl P → Option (dvp_tree_impl P)
  | [], t => some t
  | it :: rest, t =>
    let e_dist := if some it.1 ≠ t.m_root then in_edge_mu t.m_tree it.1 else 0
    let u_parent := if some it.1 ≠ t.m_root then some (parent_of it.1) else none
    let r := remove_branch it.1 [] t.m_tree
    let prop_list := r.1.filter (fun x => !(is_vertex_prop_valid x))
    match prop_list with
    | [] => rebuild_listings Arity dist std_sort nth_element ch rest ⟨r.2, t.m_root⟩
    | _ :: _ =>
      match construct_node Arity dist std_sort nth_element ch ⟨r.2, t.m_root⟩ u_parent e_dist
          prop_list with
      | none => none
      | some t1 => rebuild_listings Arity dist std_sort nth_element ch rest t1

/-- The member `erase(aBegin, aEnd)`, for a range of vertex descriptors. -/
def erase_range (Arity : Nat) (dist : P → P → Int)
    (std_sort : (vertex_property P → vertex_property P → Bool) →
      List (vertex_property P) → List (vertex_property P))
    (nth_element : (vertex_property P → vertex_property P → Bool) →
      List (vertex_property P) → Nat → List (vertex_property P))
    (ch : List (vertex_property P) → Nat)
    (t : dvp_tree_impl P) (vs : List vertex_type) : Option (dvp_tree_impl P) :=
  if num_vertices t.m_tree = 0 then some t
  else
    match collect_listings t.m_root vs t.m_tree [] with
    | none => none
    | some (t1, v_lists) =>
      rebuild_listings Arity dist std_sort nth_element ch v_lists ⟨t1, t.m_root⟩

/-- Modelled from the spec: the number of in-edges of a vertex of the tree storage backend
(`in_edges(v, tree)`): one for every vertex but the root. -/
def in_degree (t : tree_indexer P) (v : vertex_type) : Nat :=
  match v.getLast? with
  | none => 0
  | some _ => if (vertex_at t v).isSome = true then 1 else 0

/-! ## Nearest predecessors and successors -/

/-- The update of one candidate list at a visited vertex: the vertex is pushed when its
distance `d` is below the radius, and with more than `K` candidates the farthest one is
popped and the radius becomes the distance of the new `front()`; `none` stands for a
`front()` of an empty list. -/
def heap_step (K : Nat) (d : Int) (v : vertex_type) (σ : Option Int)
    (aList : List (Int × vertex_type)) : Option (Option Int × List (Int × vertex_type)) :=
  if lt_sigma d σ = true then
    if (heap_push (d, v) aList).length > K then
      match heap_pop (heap_push (d, v) aList) with
      | [] => none
      | front :: l => some (some front.1, front :: l)
    else some (σ, heap_push (d, v) aList)
  else some (σ, aList)

/-- The inner loop of the `left_stopped` branch of the dual-queue search. -/
def expand_right2 (es : List (Int × vertex_type)) (current_dist : Int)
    (sigma_pred sigma_succ : Option Int) :
    Nat → Nat → List (vertex_type × Int) → List (vertex_type × Int)
  | 0, _, temp_invtasks => temp_invtasks
  | fuel + 1, ei_right, temp_invtasks =>
    let temp_dist := double_sub (mu_at es (ei_right - 1)) current_dist
    if ei_right ≠ es.length ∧
        (lt_sigma temp_dist sigma_pred = true ∨ lt_sigma temp_dist sigma_succ = true) then
      expand_right2 es current_dist sigma_pred sigma_succ fuel (ei_right + 1)
        ((target_at es ei_right, temp_dist) :: temp_invtasks)
    else temp_invtasks

/-- The inner loop of the `right_stopped` branch of the dual-queue search. -/
def expand_left2 (es : List (Int × vertex_type)) (current_dist : Int)
    (sigma_pred sigma_succ : Option Int) :
    Nat → List (vertex_type × Int) → List (vertex_type × Int)
  | 0, temp_invtasks => temp_invtasks
  | l + 1, temp_invtasks =>
    let temp_dist := double_sub current_dist (mu_at es l)
    if lt_sigma temp_dist sigma_pred = true ∨ lt_sigma temp_dist sigma_succ = true then
      expand_left2 es current_dist sigma_pred sigma_succ l
        ((target_at es l, temp_dist) :: temp_invtasks)
    else temp_invtasks

/-- The `while(true)` loop of the dual-queue search that expands outwards from the primary
child: an out-edge is followed when its bound is below one of the two radii. -/
def expand_loop2 (es : List (Int × vertex_type)) (current_dist : Int)
    (sigma_pred sigma_succ : Option Int) :
    Nat → Nat → Nat → List (vertex_type × Int) → List (vertex_type × Int)
  | 0, _, _, temp_invtasks => temp_invtasks
  | fuel + 1, ei_left, ei_right, temp_invtasks =>
    if ei_left = 0 then
      expand_right2 es current_dist sigma_pred sigma_succ es.length ei_right temp_invtasks
    else if ei_right = es.length then
      expand_left2 es current_dist sigma_pred sigma_succ ei_left temp_invtasks
    else
      let d1 := mu_at es (ei_left - 1)
      let d2 := mu_at es (ei_right - 1)
      if double_add d1 d2 > round_double (2 * current_dist) then
        if lt_sigma (double_sub current_dist d1) sigma_pred = true ∨
            lt_sigma (double_sub current_dist d1) sigma_succ = true then
          let temp1 :=
            (target_at es (ei_left - 1), double_sub current_dist d1) :: temp_invtasks
          if lt_sigma (double_sub d2 current_dist) sigma_pred = true ∨
              lt_sigma (double_sub d2 current_dist) sigma_succ = true then
            expand_loop2 es current_dist sigma_pred sigma_succ fuel (ei_left - 1) (ei_right + 1)
              ((target_at es ei_right, double_sub d2 current_dist) :: temp1)
          else
            expand_loop2 es current_dist sigma_pred sigma_succ fuel (ei_left - 1) ei_right temp1
        else temp_invtasks
      else
        if lt_sigma (double_sub d2 current_dist) sigma_pred = true ∨
            lt_sigma (double_sub d2 current_dist) sigma_succ = true then
          let temp1 := (target_at es ei_right, double_sub d2 current_dist) :: temp_invtasks
          if lt_sigma (double_sub current_dist d1) sigma_pred = true ∨
              lt_sigma (double_sub current_dist d1) sigma_succ = true then
            expand_loop2 es current_dist sigma_pred sigma_succ fuel (ei_left - 1) (ei_right + 1)
              ((target_at es (ei_left - 1), double_sub current_dist d1) :: temp1)
          else
            expand_loop2 es current_dist sigma_pred sigma_succ fuel ei_left (ei_right + 1) temp1
        else temp_invtasks

/-- The children of a visited vertex that the dual-queue search pushes, as the stack
`temp_invtasks` (top first). -/
def expand_children2 (es : List (Int × vertex_type)) (current_dist : Int)
    (sigma_pred sigma_succ : Option Int) : List (vertex_type × Int) :=
  let ei0 := locate current_dist es
  let ei := if ei0 = es.length then ei0 - 1 else ei0
  expand_loop2 es current_dist sigma_pred sigma_succ (es.length + 1) ei (ei + 1)
    [(target_at es ei, 0)]

/-- The `while(!tasks.empty())` loop of the dual-queue `find_nearest_impl`, over the
unsymmetrized distance `unsym_dist`; the stack `tasks` has its top first. -/
def find_nearest_loop2 (unsym_dist : P → P → Int) (t : tree_indexer P) (aPoint : P) (K : Nat) :
    Nat → List (vertex_type × Int) → Option Int → Option Int →
      List (Int × vertex_type) → List (Int × vertex_type) →
      search_result (List (Int × vertex_type) × List (Int × vertex_type))
  | _, [], _, _, aPred, aSucc => search_result.done (aPred, aSucc)
  | 0, _ :: _, _, _, _, _ => search_result.no_fuel
  | fuel + 1, cur_node :: tasks, sigma_pred, sigma_succ, aPred, aSucc =>
    if gt_sigma cur_node.2 sigma_pred = true ∧ gt_sigma cur_node.2 sigma_succ = true then
      find_nearest_loop2 unsym_dist t aPoint K fuel tasks sigma_pred sigma_succ aPred aSucc
    else
      match vertex_at t cur_node.1 with
      | none => search_result.invalid_vertex
      | some (vp, _) =>
        let current_pred_dist := unsym_dist vp.pos aPoint
        let current_succ_dist := unsym_dist aPoint vp.pos
        match heap_step K current_pred_dist cur_node.1 sigma_pred aPred with
        | none => search_result.empty_front
        | some (sigma_pred1, aPred1) =>
          match heap_step K current_succ_dist cur_node.1 sigma_succ aSucc with
          | none => search_result.empty_front
          | some (sigma_succ1, aSucc1) =>
            let current_dist :=
              if current_pred_dist < current_succ_dist then current_pred_dist
              else current_succ_dist
            if out_degree t cur_node.1 = 0 then
              find_nearest_loop2 unsym_dist t aPoint K fuel tasks sigma_pred1 sigma_succ1
                aPred1 aSucc1
            else
              find_nearest_loop2 unsym_dist t aPoint K fuel
                ((expand_children2 (out_edges t cur_node.1) current_dist sigma_pred1
                  sigma_succ1).reverse ++ tasks) sigma_pred1 sigma_succ1 aPred1 aSucc1

/-- The dual-queue `find_nearest_impl(aPoint, aSigma, aPred, aSucc, K)`. -/
def find_nearest_impl2 (unsym_dist : P → P → Int) (t : dvp_tree_impl P) (aPoint : P)
    (aSigma : Option Int) (aPred aSucc : List (Int × vertex_type)) (K : Nat) :
    search_result (List (Int × vertex_type) × List (Int × vertex_type)) :=
  match t.m_root with
  | none => search_result.invalid_vertex
  | some root =>
    find_nearest_loop2 unsym_dist t.m_tree aPoint K (num_vertices t.m_tree) [(root, 0)]
      aSigma aSigma aPred aSucc

/-- The member `find_nearest(aPoint, aPredBegin, aSuccBegin, K, R)`: the vertices written to
the two output iterators, in order. -/
def find_nearest_pred_succ (unsym_dist : P → P → Int) (t : dvp_tree_impl P) (aPoint : P)
    (K : Nat) (R : Option Int) : search_result (List vertex_type × List vertex_type) :=
  if num_vertices t.m_tree = 0 then search_result.done ([], [])
  else
    match find_nearest_impl2 unsym_dist t aPoint R [] [] K with
    | search_result.done Q =>
      search_result.done
        ((sort_heap Q.1).map (fun e => e.2), (sort_heap Q.2).map (fun e => e.2))
    | search_result.empty_front => search_result.empty_front
    | search_result.invalid_vertex => search_result.invalid_vertex
    | search_result.no_fuel => search_result.no_fuel

/-- The member `find_in_range(aPoint, aPredBegin, aSuccBegin, R)`: the vertices written to
the two output iterators, in order. -/
def find_in_range_pred_succ (unsym_dist : P → P → Int) (t : dvp_tree_impl P) (aPoint : P)
    (R : Option Int) : search_result (List vertex_type × List vertex_type) :=
  if num_vertices t.m_tree = 0 then search_result.done ([], [])
  else
    match find_nearest_impl2 unsym_dist t aPoint R [] [] (num_vertices t.m_tree) with
    | search_result.done Q =>
      search_result.done
        ((sort_heap Q.1).map (fun e => e.2), (sort_heap Q.2).map (fun e => e.2))
    | search_result.empty_front => search_result.empty_front
    | search_result.invalid_vertex => search_result.invalid_vertex
    | search_result.no_fuel => search_result.no_fuel

/-! ## Further concrete instances -/

/-- The discrete metric on the integers, a symmetric metric with the triangle inequality. -/
def discrete_dist (a b : Int) : Int := if a = b then 0 else 1

/-- An asymmetric distance on the integer line: going down costs twice as much as going
up. -/
def slope_dist (a b : Int) : Int := if a ≤ b then b - a else 2 * (a - b)

/-- Seven elements with the keys and positions `1` to `7`. -/
def seven_points : List (vertex_property Int) :=
  [⟨1, 1⟩, ⟨2, 2⟩, ⟨3, 3⟩, ⟨4, 4⟩, ⟨5, 5⟩, ⟨6, 6⟩, ⟨7, 7⟩]

/-! ## Invariants of the search that do not depend on the radii of the tree -/

/-- The state of the loop of `find_nearest_impl` on a tree with arbitrary radii: every
vertex of the tree is once in the candidate list `aList`, among the discarded ones (the
list `D`) or below a task of the stack; nothing is discarded while the radius is infinite;
the candidate list is sorted by descending distance, holds at most `K` candidates, all of
them within the initial radius `R` (strictly) and the current radius; the current radius is
the initial one unless the list is full; and every task is a vertex of the tree. -/
def SoundInv (dist : P → P → Int) (q : P) (t : tree_indexer P) (K : Nat) (R : Option Int)
    (tasks : List (vertex_type × Int)) (σ : Option Int) (aList : List (Int × vertex_type)) :
    Prop :=
  ∃ D : List (Int × vertex_type),
    (aList ++ D ++ pending dist q t tasks).Perm (node_entries dist q t []) ∧
    aList.Pairwise (fun a b => b.1 ≤ a.1) ∧ aList.length ≤ K ∧
    (∀ e ∈ aList, lt_sigma e.1 R = true) ∧ (∀ e ∈ aList, le_sig e.1 σ) ∧
    (σ = none → D = []) ∧ sig_le_sig σ R ∧ (σ = R ∨ aList.length = K) ∧
    (∀ τ ∈ tasks, (vertex_at t τ.1).isSome = true)

/-- The loop `for(; gap <= max_gap; gap = 3 * gap + 1);` of `shell_sort`; the gap stays
below `max_gap / 3 + 2` times three, far from the range of `std::size_t`. -/
def initial_gap (max_gap : Nat) : Nat → Nat → Nat
  | 0, gap => gap
  | fuel + 1, gap => if gap ≤ max_gap then initial_gap max_gap fuel (3 * gap + 1) else gap

/-- The innermost loop of `shell_sort`, on the index `it` into the range `a`:
`for(; (it > first + gap) && comp(tmp, *(it_prev = it - gap)); it -= gap) *it = *it_prev;`.
It returns the range and the final `it`. -/
def shift_loop {α : Type} (comp : α → α → Bool) (tmp : α) (gap : Nat) :
    Nat → Nat → List α → List α × Nat
  | 0, it, a => (a, it)
  | fuel + 1, it, a =>
    if it > gap then
      match a[it - gap]? with
      | some it_prev =>
        if comp tmp it_prev = true then shift_loop comp tmp gap fuel (it - gap) (a.set it it_prev)
        else (a, it)
      | none => (a, it)
    else (a, it)

/-- The loop `for(current = first + gap; current < last; ++current)` of `shell_sort`, from
the index `current`: takes `*current` out, shifts, and puts it back at the final `it`. -/
def gap_pass {α : Type} (comp : α → α → Bool) (gap : Nat) : Nat → Nat → List α → List α
  | 0, _, a => a
  | fuel + 1, current, a =>
    match a[current]? with
    | none => a
    | some tmp =>
      let r := shift_loop comp tmp gap current current a
      gap_pass comp gap fuel (current + 1) (r.1.set r.2 tmp)

/-- The loop `for(; gap > 0; gap = (gap + 1) / 3)` of `shell_sort`. -/
def sort_passes {α : Type} (comp : α → α → Bool) : Nat → Nat → List α → List α
  | 0, _, a => a
  | fuel + 1, gap, a =>
    if gap > 0 then
      sort_passes comp fuel ((gap + 1) / 3) (gap_pass comp gap a.length gap a)
    else a

/-- The function `shell_sort(first, last, comp)`, on the range as a list. The gap decreases
in every pass, so the first gap bounds the number of passes. -/
def shell_sort {α : Type} (comp : α → α → Bool) (a : List α) : List α :=
  let max_gap := a.length / 9
  let gap := initial_gap max_gap (max_gap + 1) 1
  sort_passes comp gap gap a

/-- The function `shell_sort(first, last)`, with `std::less`, on integers. -/
def shell_sort_less (a : List Int) : List Int := shell_sort (fun x y => decide (x < y)) a

/-- Strict weak orderings: irreflexive, transitive, and with a transitive incomparability
(stated as: an element below another one is below a third one, or the third one is below
the other one). -/
def StrictWeakOrdering {α : Type} (comp : α → α → Bool) : Prop :=
  (∀ a, comp a a = false) ∧ (∀ a b c, comp a b = true → comp b c = true → comp a c = true) ∧
    (∀ a b c, comp a c = true → comp a b = true ∨ comp b c = true)

/-! ## Further instances and devices for the construction and the search -/

/-- A vantage-point chooser that reports no valid choice (the end of the range) on the
ranges whose first element has the key 2, and takes the first element otherwise. -/
def picky_chooser (l : List (vertex_property Int)) : Nat :=
  match l with
  | [] => 0
  | x :: _ => if x.key = 2 then l.length else 0

/-! ## Instances with distances beyond `2^53` -/

/-- Eleven points of the integer line, each of them a `double`: seven small ones, and four
from `2^52` on. -/
def absorb_points : List (vertex_property Int) :=
  [⟨1, 0⟩, ⟨2, 2⟩, ⟨3, 4⟩, ⟨4, 6⟩, ⟨5, 8⟩, ⟨6, 10⟩, ⟨7, 12⟩,
    ⟨8, 2 ^ 52⟩, ⟨9, 2 ^ 52 + 1⟩, ⟨10, 9 * 2 ^ 52⟩, ⟨11, 17 * 2 ^ 52⟩]

/-- The tree that the bulk construction makes of `absorb_points`, with arity 3 and the
first element of each range as its vantage point: the third child of the root, at the
position `2^52`, has three children, with the radii `1`, `2^55` and `2^56`. -/
def absorb_tree : dvp_tree_impl Int :=
  ⟨some (⟨1, 0⟩,
    Forest.cons 6 ⟨2, 2⟩
      (Forest.cons 2 ⟨3, 4⟩ Forest.nil (Forest.cons 4 ⟨4, 6⟩ Forest.nil Forest.nil))
      (Forest.cons 12 ⟨5, 8⟩
        (Forest.cons 2 ⟨6, 10⟩ Forest.nil (Forest.cons 4 ⟨7, 12⟩ Forest.nil Forest.nil))
        (Forest.cons (17 * 2 ^ 52) ⟨8, 2 ^ 52⟩
          (Forest.cons 1 ⟨9, 2 ^ 52 + 1⟩ Forest.nil
            (Forest.cons (2 ^ 55) ⟨10, 9 * 2 ^ 52⟩ Forest.nil
              (Forest.cons (2 ^ 56) ⟨11, 17 * 2 ^ 52⟩ Forest.nil Forest.nil)))
          Forest.nil))),
    some []⟩

/-- Four points of the integer line, each of them a `double`: the origin, `2^54`, `2^55`
and `2^56`. -/
def wide_points : List (vertex_property Int) :=
  [⟨1, 0⟩, ⟨2, 2 ^ 54⟩, ⟨3, 2 ^ 55⟩, ⟨4, 2 ^ 56⟩]

/-- The tree that the bulk construction makes of `wide_points`, with arity 3: the root at
the origin and three leaves. -/
def wide_tree : dvp_tree_impl Int :=
  ⟨some (⟨1, 0⟩,
    Forest.cons (2 ^ 54) ⟨2, 2 ^ 54⟩ Forest.nil
      (Forest.cons (2 ^ 55) ⟨3, 2 ^ 55⟩ Forest.nil
        (Forest.cons (2 ^ 56) ⟨4, 2 ^ 56⟩ Forest.nil Forest.nil))),
    some []⟩

/-! ## Perfect subtrees -/

namespace Forest

/-- The subtree of a vertex with out-edge slots `c` is perfect of depth `d` for the arity
`A`: every vertex of it at a depth below `d` has exactly `A` children, and every vertex of
it at the depth `d` has no child. The vertices of the subtree are given by their paths from
its root. -/
def PerfectTo (A d : Nat) (c : Forest P) : Prop :=
  ∀ (w : List Nat) (k : Forest P), c.kidsAt w = some k →
    (w.length < d → k.degree = A) ∧ (w.length = d → k.degree = 0)

end Forest

/-- A perfect tree of arity 2 and depth 1 on the integer line: the bulk construction of the
elements `(1, 0)`, `(2, 5)` and `(3, 9)`. -/
def perfect_tree : dvp_tree_impl Int :=
  ⟨some (⟨1, 0⟩, Forest.cons 5 ⟨2, 5⟩ Forest.nil (Forest.cons 9 ⟨3, 9⟩ Forest.nil Forest.nil)),
    some []⟩

/-! ## The depth of the tree -/

namespace Forest

/-- The loop of `get_depth` over the out-edges of a vertex with the given slots: the
largest `get_depth` of a child, `0` without children. -/
def max_depth : Forest P → Nat
  | nil => 0
  | cons _ _ c r => max (c.max_depth + 1) r.max_depth
  | hole r => r.max_depth

end Forest

/-- The recursive function `get_depth(aNode)`: one more than the largest `get_depth` of a
child; `none` for a vertex that is not in the tree. -/
def get_depth (t : tree_indexer P) (aNode : vertex_type) : Option Nat :=
  match vertex_at t aNode with
  | none => none
  | some (_, c) => some (c.max_depth + 1)

/-- The member `depth()`, which is `get_depth(m_root)`. -/
def dvp_tree_impl.depth (t : dvp_tree_impl P) : Option Nat :=
  match t.m_root with
  | none => none
  | some root => get_depth t.m_tree root

/-- The number of vertices of a perfect tree of arity `A` and depth `d`, which is
`1 + A + A^2 + ... + A^(d-1)`, by the Horner scheme. -/
def full_size (A : Nat) : Nat → Nat
  | 0 => 0
  | d + 1 => 1 + A * full_size A d

/-- The subtree of `vp` with slots `sub` is as shallow as a tree of arity `A` for the
elements of the range can be: its depth is at most `d` exactly when a perfect tree of depth
`d` has room for the range. -/
def DepthGood (A : Nat) (range : List (vertex_property P)) (_vp : vertex_property P)
    (sub : Forest P) : Prop :=
  ∀ d, sub.max_depth + 1 ≤ d ↔ range.length ≤ full_size A d

/-! ## Lemmas on the tree storage -/

namespace Forest

theorem size_eq_length_elems (cs : Forest P) : cs.size = cs.elems.length := by
  induction cs with
  | nil => rfl
  | cons m v c r ihc ihr => simp [size, elems, ihc, ihr]; omega
  | hole r ih => simpa [size, elems] using ih

theorem slot_firstFree (cs : Forest P) : cs.slot cs.firstFree = none := by
  induction cs with
  | nil => rfl
  | cons m v c r _ ihr => simpa [slot, firstFree] using ihr
  | hole r _ => rfl

theorem mapSlot_of_slot_none (h : Forest P → Forest P) (cs : Forest P) (i : Nat)
    (hs : cs.slot i = none) : mapSlot h i cs = cs := by
  induction cs generalizing i with
  | nil => cases i <;> rfl
  | cons m v c r _ ihr =>
    cases i with
    | zero => simp [slot] at hs
    | succ i => simp [slot] at hs; simp [mapSlot, ihr i hs]
  | hole r ih =>
    cases i with
    | zero => rfl
    | succ i => simp [slot] at hs; simp [mapSlot, ih i hs]

theorem mapSlot_mapSlot_same (f g : Forest P → Forest P) (cs : Forest P) (i : Nat) :
    mapSlot f i (mapSlot g i cs) = mapSlot (fun c => f (g c)) i cs := by
  induction cs generalizing i with
  | nil => cases i <;> rfl
  | cons m v c r _ ihr =>
    cases i with
    | zero => rfl
    | succ i => simp [mapSlot, ihr i]
  | hole r ih =>
    cases i with
    | zero => rfl
    | succ i => simp [mapSlot, ih i]

theorem mapSlot_mapSlot_comm (f g : Forest P → Forest P) (cs : Forest P) (i j : Nat)
    (hij : i ≠ j) : mapSlot f i (mapSlot g j cs) = mapSlot g j (mapSlot f i cs) := by
  induction cs generalizing i j with
  | nil => cases i <;> cases j <;> rfl
  | cons m v c r _ ihr =>
    cases i with
    | zero =>
      cases j with
      | zero => exact absurd rfl hij
      | succ j => rfl
    | succ i =>
      cases j with
      | zero => rfl
      | succ j => simp [mapSlot, ihr i j (fun h => hij (by rw [h]))]
  | hole r ih =>
    cases i with
    | zero =>
      cases j with
      | zero => exact absurd rfl hij
      | succ j => rfl
    | succ i =>
      cases j with
      | zero => rfl
      | succ j => simp [mapSlot, ih i j (fun h => hij (by rw [h]))]

theorem mapSlot_congr (f g : Forest P → Forest P) (cs : Forest P) (i : Nat)
    (h : ∀ m v c, cs.slot i = some (m, v, c) → f c = g c) : mapSlot f i cs = mapSlot g i cs := by
  induction cs generalizing i with
  | nil => cases i <;> rfl
  | cons m v c r _ ihr =>
    cases i with
    | zero => simp [mapSlot, h m v c rfl]
    | succ i => simp [mapSlot]; exact ihr i (fun m1 v1 c1 h1 => h m1 v1 c1 (by simpa [slot] using h1))
  | hole r ih =>
    cases i with
    | zero => rfl
    | succ i => simp [mapSlot]; exact ih i (fun m1 v1 c1 h1 => h m1 v1 c1 (by simpa [slot] using h1))

theorem slot_mapSlot_same (h : Forest P → Forest P) (cs : Forest P) (i : Nat) :
    (mapSlot h i cs).slot i = (cs.slot i).map (fun x => (x.1, x.2.1, h x.2.2)) := by
  induction cs generalizing i with
  | nil => cases i <;> rfl
  | cons m v c r _ ihr =>
    cases i with
    | zero => rfl
    | succ i => simpa [mapSlot, slot] using ihr i
  | hole r ih =>
    cases i with
    | zero => rfl
    | succ i => simpa [mapSlot, slot] using ih i

theorem slot_mapSlot_ne (h : Forest P → Forest P) (cs : Forest P) (i j : Nat) (hij : i ≠ j) :
    (mapSlot h i cs).slot j = cs.slot j := by
  induction cs generalizing i j with
  | nil => cases i <;> cases j <;> rfl
  | cons m v c r _ ihr =>
    cases i with
    | zero =>
      cases j with
      | zero => exact absurd rfl hij
      | succ j => rfl
    | succ i =>
      cases j with
      | zero => rfl
      | succ j => simpa [mapSlot, slot] using ihr i j (fun h => hij (by rw [h]))
  | hole r ih =>
    cases i with
    | zero =>
      cases j with
      | zero => exact absurd rfl hij
      | succ j => rfl
    | succ i =>
      cases j with
      | zero => rfl
      | succ j => simpa [mapSlot, slot] using ih i j (fun h => hij (by rw [h]))

theorem slot_add_of_some (e : Int) (vp : vertex_property P) (sub cs : Forest P) (i : Nat)
    (x : Int × vertex_property P × Forest P) (hs : cs.slot i = some x) :
    (add e vp sub cs).slot i = some x := by
  induction cs generalizing i with
  | nil => cases i <;> simp [slot] at hs
  | cons m v c r _ ihr =>
    cases i with
    | zero => simpa [add, slot] using hs
    | succ i => simp [slot] at hs; simpa [add, slot] using ihr i hs
  | hole r _ =>
    cases i with
    | zero => simp [slot] at hs
    | succ i => simp [slot] at hs; simpa [add, slot] using hs

theorem slot_add_firstFree (e : Int) (vp : vertex_property P) (sub cs : Forest P) :
    (add e vp sub cs).slot cs.firstFree = some (e, vp, sub) := by
  induction cs with
  | nil => rfl
  | cons m v c r _ ihr => simpa [add, slot, firstFree] using ihr
  | hole r _ => rfl

theorem mapSlot_add_of_some (h : Forest P → Forest P) (e : Int) (vp : vertex_property P)
    (sub cs : Forest P) (i : Nat) (hs : (cs.slot i).isSome = true) :
    mapSlot h i (add e vp sub cs) = add e vp sub (mapSlot h i cs) := by
  induction cs generalizing i with
  | nil => cases i <;> simp [slot] at hs
  | cons m v c r _ ihr =>
    cases i with
    | zero => rfl
    | succ i => simp [slot] at hs; simp [add, mapSlot, ihr i hs]
  | hole r _ =>
    cases i with
    | zero => simp [slot] at hs
    | succ i => rfl

theorem mapSlot_firstFree_add (h : Forest P → Forest P) (e : Int) (vp : vertex_property P)
    (sub cs : Forest P) :
    mapSlot h cs.firstFree (add e vp sub cs) = add e vp (h sub) cs := by
  induction cs with
  | nil => rfl
  | cons m v c r _ ihr => simp [add, mapSlot, firstFree, ihr]
  | hole r _ => rfl

theorem elems_add (e : Int) (vp : vertex_property P) (sub cs : Forest P) :
    (add e vp sub cs).elems.Perm (vp :: sub.elems ++ cs.elems) := by
  induction cs with
  | nil => simp [add, elems]
  | cons m v c r _ ihr =>
    simp only [add, elems]
    refine (List.Perm.cons v ((List.Perm.append_left _ ihr))).trans ?_
    have : (v :: (c.elems ++ (vp :: sub.elems ++ r.elems))).Perm
        ((vp :: sub.elems) ++ (v :: (c.elems ++ r.elems))) := by
      have h1 : (c.elems ++ (vp :: sub.elems ++ r.elems)).Perm
          ((vp :: sub.elems) ++ (c.elems ++ r.elems)) := by
        rw [← List.append_assoc, ← List.append_assoc]
        exact List.Perm.append_right _ List.perm_append_comm
      exact (List.Perm.cons v h1).trans (List.perm_middle.symm)
    simpa using this
  | hole r _ => simp [add, elems]

theorem elems_mapSlot (h : Forest P → Forest P) (cs : Forest P) (i : Nat)
    (l1 l2 : List (vertex_property P))
    (hh : ∀ m v c, cs.slot i = some (m, v, c) → ((h c).elems ++ l2).Perm (l1 ++ c.elems)) :
    (cs.slot i).isSome = true → ((mapSlot h i cs).elems ++ l2).Perm (l1 ++ cs.elems) := by
  induction cs generalizing i with
  | nil => cases i <;> simp [slot]
  | cons m v c r _ ihr =>
    cases i with
    | zero =>
      intro _
      have h0 := hh m v c rfl
      simp only [mapSlot, elems]
      have : (v :: ((h c).elems ++ r.elems) ++ l2).Perm (v :: (((h c).elems ++ l2) ++ r.elems)) := by
        simp only [List.cons_append, List.append_assoc]
        exact List.Perm.cons v (List.Perm.append_left _ List.perm_append_comm)
      refine this.trans ?_
      refine (List.Perm.cons v (List.Perm.append_right _ h0)).trans ?_
      simp only [List.append_assoc]
      exact (List.perm_middle).symm
    | succ i =>
      intro hs
      simp [slot] at hs
      have h0 := ihr i (fun m1 v1 c1 h1 => hh m1 v1 c1 (by simpa [slot] using h1)) hs
      simp only [mapSlot, elems]
      have : (v :: (c.elems ++ (mapSlot h i r).elems) ++ l2).Perm
          (v :: (c.elems ++ ((mapSlot h i r).elems ++ l2))) := by simp
      refine this.trans ?_
      refine (List.Perm.cons v (List.Perm.append_left _ h0)).trans ?_
      have h2 : (c.elems ++ (l1 ++ r.elems)).Perm (l1 ++ (c.elems ++ r.elems)) := by
        rw [← List.append_assoc, ← List.append_assoc]
        exact List.Perm.append_right _ List.perm_append_comm
      exact (List.Perm.cons v h2).trans (List.perm_middle).symm
  | hole r ih =>
    cases i with
    | zero => simp [slot]
    | succ i =>
      intro hs
      simp [slot] at hs
      simpa [mapSlot, elems] using
        ih i (fun m1 v1 c1 h1 => hh m1 v1 c1 (by simpa [slot] using h1)) hs

end Forest

namespace Forest

/-! ### Paths -/

theorem nodeAt_kidsAt (r : vertex_property P) (cs : Forest P) (p : List Nat)
    (v0 : vertex_property P) (c0 : Forest P) (h : nodeAt r cs p = some (v0, c0)) :
    kidsAt cs p = some c0 := by
  induction p generalizing r cs with
  | nil => simp [nodeAt] at h; simp [kidsAt, h.2]
  | cons i p ih =>
    simp only [nodeAt] at h
    simp only [kidsAt]
    cases hs : cs.slot i with
    | none => simp [hs] at h
    | some x =>
      obtain ⟨m, v, c⟩ := x
      simp only [hs] at h
      exact ih v c h

theorem kidsAt_nodeAt (r : vertex_property P) (cs : Forest P) (p : List Nat)
    (c0 : Forest P) (h : kidsAt cs p = some c0) :
    ∃ v0, nodeAt r cs p = some (v0, c0) := by
  induction p generalizing r cs with
  | nil => simp [kidsAt] at h; exact ⟨r, by simp [nodeAt, h]⟩
  | cons i p ih =>
    simp only [kidsAt] at h
    simp only [nodeAt]
    cases hs : cs.slot i with
    | none => simp [hs] at h
    | some x =>
      obtain ⟨m, v, c⟩ := x
      simp only [hs] at h
      exact ih v c h

theorem kidsAt_append (cs : Forest P) (p q : List Nat) :
    kidsAt cs (p ++ q) = (kidsAt cs p).bind (fun c => kidsAt c q) := by
  induction p generalizing cs with
  | nil => simp [kidsAt]
  | cons i p ih =>
    simp only [List.cons_append, kidsAt]
    cases hs : cs.slot i with
    | none => simp
    | some x =>
      obtain ⟨m, v, c⟩ := x
      simpa using ih c

theorem nodeAt_append (r : vertex_property P) (cs : Forest P) (p q : List Nat) :
    nodeAt r cs (p ++ q) = (nodeAt r cs p).bind (fun x => nodeAt x.1 x.2 q) := by
  induction p generalizing r cs with
  | nil => simp [nodeAt]
  | cons i p ih =>
    simp only [List.cons_append, nodeAt]
    cases hs : cs.slot i with
    | none => simp
    | some x =>
      obtain ⟨m, v, c⟩ := x
      simpa using ih v c

theorem modifyAt_nil (g : Forest P → Forest P) : modifyAt g [] = g := by
  funext cs; rfl

theorem modifyAt_congr (f g : Forest P → Forest P) (p : List Nat) (cs : Forest P)
    (h : ∀ c0, kidsAt cs p = some c0 → f c0 = g c0) : modifyAt f p cs = modifyAt g p cs := by
  induction p generalizing cs with
  | nil => exact h cs rfl
  | cons i p ih =>
    simp only [modifyAt]
    apply mapSlot_congr
    intro m v c hs
    apply ih
    intro c0 hc
    apply h
    simp [kidsAt, hs, hc]

theorem modifyAt_of_kidsAt_none (g : Forest P → Forest P) (p : List Nat) (cs : Forest P)
    (h : kidsAt cs p = none) : modifyAt g p cs = cs := by
  induction p generalizing cs with
  | nil => simp [kidsAt] at h
  | cons i p ih =>
    simp only [modifyAt]
    cases hs : cs.slot i with
    | none => exact mapSlot_of_slot_none _ _ _ hs
    | some x =>
      obtain ⟨m, v, c⟩ := x
      have h1 : mapSlot (modifyAt g p) i cs = mapSlot (fun c => c) i cs := by
        apply mapSlot_congr
        intro m1 v1 c1 hs1
        rw [hs] at hs1
        simp only [Option.some.injEq, Prod.mk.injEq] at hs1
        obtain ⟨_, _, rfl⟩ := hs1
        apply ih
        simpa [kidsAt, hs] using h
      rw [h1]
      clear h1 ih h hs
      induction cs generalizing i with
      | nil => cases i <;> rfl
      | cons m2 v2 c2 r2 _ ihr =>
        cases i with
        | zero => rfl
        | succ i => simp [mapSlot, ihr i]
      | hole r2 ih2 =>
        cases i with
        | zero => rfl
        | succ i => simp [mapSlot, ih2 i]

theorem modifyAt_modifyAt_same (f g : Forest P → Forest P) (p : List Nat) (cs : Forest P) :
    modifyAt f p (modifyAt g p cs) = modifyAt (fun c => f (g c)) p cs := by
  induction p generalizing cs with
  | nil => rfl
  | cons i p ih =>
    simp only [modifyAt]
    rw [mapSlot_mapSlot_same]
    apply mapSlot_congr
    intro m v c _
    exact ih c

theorem modifyAt_append (g : Forest P → Forest P) (p q : List Nat) (cs : Forest P) :
    modifyAt g (p ++ q) cs = modifyAt (modifyAt g q) p cs := by
  induction p generalizing cs with
  | nil => rfl
  | cons i p ih =>
    simp only [List.cons_append, modifyAt]
    apply mapSlot_congr
    intro m v c _
    exact ih c

theorem kidsAt_mapSlot_some (h : Forest P → Forest P) (cs : Forest P) (i : Nat) (q : List Nat)
    (hh : ∀ m v c, cs.slot i = some (m, v, c) → (kidsAt c q).isSome = true →
      (kidsAt (h c) q).isSome = true)
    (hq : (kidsAt cs (i :: q)).isSome = true) :
    (kidsAt (mapSlot h i cs) (i :: q)).isSome = true := by
  simp only [kidsAt] at hq ⊢
  rw [slot_mapSlot_same]
  cases hs : cs.slot i with
  | none => simp [hs] at hq
  | some x =>
    obtain ⟨m, v, c⟩ := x
    simp only [hs] at hq
    simpa using hh m v c hs hq

theorem kidsAt_add_some (e : Int) (vp : vertex_property P) (sub cs : Forest P) (q : List Nat)
    (hq : (kidsAt cs q).isSome = true) : (kidsAt (add e vp sub cs) q).isSome = true := by
  cases q with
  | nil => rfl
  | cons i q =>
    simp only [kidsAt] at hq ⊢
    cases hs : cs.slot i with
    | none => simp [hs] at hq
    | some x =>
      rw [slot_add_of_some e vp sub cs i x hs]
      simpa [hs] using hq

theorem kidsAt_modifyAt_add_some (e : Int) (vp : vertex_property P) (sub : Forest P)
    (p q : List Nat) (cs : Forest P) (hq : (kidsAt cs q).isSome = true) :
    (kidsAt (modifyAt (add e vp sub) p cs) q).isSome = true := by
  induction p generalizing cs q with
  | nil => exact kidsAt_add_some e vp sub cs q hq
  | cons i p ih =>
    simp only [modifyAt]
    cases q with
    | nil => rfl
    | cons j q =>
      by_cases hij : i = j
      · subst hij
        apply kidsAt_mapSlot_some _ _ _ _ _ hq
        intro m v c _ hc
        exact ih q c hc
      · simp only [kidsAt] at hq ⊢
        rw [slot_mapSlot_ne _ _ _ _ hij]
        exact hq

/-- Two additions of children at different vertices commute. -/
theorem modifyAt_add_comm (e1 e2 : Int) (v1 v2 : vertex_property P) (s1 s2 : Forest P)
    (p q : List Nat) (cs : Forest P) (hpq : p ≠ q)
    (hp : (kidsAt cs p).isSome = true) (hq : (kidsAt cs q).isSome = true) :
    modifyAt (add e1 v1 s1) p (modifyAt (add e2 v2 s2) q cs) =
      modifyAt (add e2 v2 s2) q (modifyAt (add e1 v1 s1) p cs) := by
  induction p generalizing q cs with
  | nil =>
    cases q with
    | nil => exact absurd rfl hpq
    | cons j q =>
      simp only [modifyAt]
      have hs : (cs.slot j).isSome = true := by
        simp only [kidsAt] at hq
        cases hs : cs.slot j with
        | none => simp [hs] at hq
        | some x => rfl
      exact (mapSlot_add_of_some _ e1 v1 s1 cs j hs).symm
  | cons i p ih =>
    cases q with
    | nil =>
      simp only [modifyAt]
      have hs : (cs.slot i).isSome = true := by
        simp only [kidsAt] at hp
        cases hs : cs.slot i with
        | none => simp [hs] at hp
        | some x => rfl
      exact mapSlot_add_of_some _ e2 v2 s2 cs i hs
    | cons j q =>
      simp only [modifyAt]
      by_cases hij : i = j
      · subst hij
        rw [mapSlot_mapSlot_same, mapSlot_mapSlot_same]
        apply mapSlot_congr
        intro m v c hs
        apply ih
        · intro h; exact hpq (by rw [h])
        · simpa [kidsAt, hs] using hp
        · simpa [kidsAt, hs] using hq
      · exact mapSlot_mapSlot_comm _ _ _ _ _ hij

/-- Modifying the child that was just added, is adding the modified child. -/
theorem modifyAt_snoc_add (g : Forest P → Forest P) (e : Int) (vp : vertex_property P)
    (sub : Forest P) (p : List Nat) (cs c0 : Forest P) (h : kidsAt cs p = some c0) :
    modifyAt g (p ++ [c0.firstFree]) (modifyAt (add e vp sub) p cs) =
      modifyAt (add e vp (g sub)) p cs := by
  rw [modifyAt_append, modifyAt_modifyAt_same]
  apply modifyAt_congr
  intro c1 hc1
  rw [h] at hc1
  simp only [Option.some.injEq] at hc1
  subst hc1
  simp only [modifyAt, modifyAt_nil]
  exact mapSlot_firstFree_add g e vp sub c0

theorem kidsAt_snoc_firstFree (p : List Nat) (cs c0 : Forest P) (h : kidsAt cs p = some c0) :
    kidsAt cs (p ++ [c0.firstFree]) = none := by
  rw [kidsAt_append, h]
  simp [kidsAt, slot_firstFree]

theorem kidsAt_modifyAt_add_snoc (e : Int) (vp : vertex_property P) (sub : Forest P)
    (p : List Nat) (cs c0 : Forest P) (h : kidsAt cs p = some c0) :
    kidsAt (modifyAt (add e vp sub) p cs) (p ++ [c0.firstFree]) = some sub := by
  induction p generalizing cs with
  | nil =>
    simp only [kidsAt, Option.some.injEq] at h
    subst h
    simp [modifyAt, kidsAt, slot_add_firstFree]
  | cons i p ih =>
    simp only [kidsAt] at h
    cases hs : cs.slot i with
    | none => simp [hs] at h
    | some x =>
      obtain ⟨m, v, c⟩ := x
      simp only [hs] at h
      simp only [List.cons_append, modifyAt, kidsAt, slot_mapSlot_same, hs, Option.map_some']
      exact ih c h

/-- The elements after a modification at a vertex. -/
theorem elems_modifyAt (g : Forest P → Forest P) (p : List Nat) (cs c0 : Forest P)
    (l1 l2 : List (vertex_property P)) (h : kidsAt cs p = some c0)
    (hg : ((g c0).elems ++ l2).Perm (l1 ++ c0.elems)) :
    ((modifyAt g p cs).elems ++ l2).Perm (l1 ++ cs.elems) := by
  induction p generalizing cs with
  | nil =>
    simp only [kidsAt, Option.some.injEq] at h
    subst h
    exact hg
  | cons i p ih =>
    simp only [kidsAt] at h
    cases hs : cs.slot i with
    | none => simp [hs] at h
    | some x =>
      obtain ⟨m, v, c⟩ := x
      simp only [hs] at h
      simp only [modifyAt]
      apply elems_mapSlot
      · intro m1 v1 c1 hs1
        rw [hs] at hs1
        simp only [Option.some.injEq, Prod.mk.injEq] at hs1
        obtain ⟨_, _, rfl⟩ := hs1
        exact ih c h
      · simp [hs]

theorem elems_modifyAt_add (e : Int) (vp : vertex_property P) (sub : Forest P)
    (p : List Nat) (cs : Forest P) (h : (kidsAt cs p).isSome = true) :
    (modifyAt (add e vp sub) p cs).elems.Perm (vp :: sub.elems ++ cs.elems) := by
  obtain ⟨c0, hc0⟩ := Option.isSome_iff_exists.mp h
  have := elems_modifyAt (add e vp sub) p cs c0 (vp :: sub.elems) [] hc0
    (by simpa using elems_add e vp sub c0)
  simpa using this

end Forest

namespace Forest

/-! ### Attachments -/

theorem attachAll_append (cs : Forest P)
    (a b : List (vertex_type × Int × vertex_property P × Forest P)) :
    attachAll cs (a ++ b) = attachAll (attachAll cs a) b := by
  induction a generalizing cs with
  | nil => rfl
  | cons x a ih => simp [attachAll, ih]

theorem kidsAt_attachAll_some (cs : Forest P)
    (a : List (vertex_type × Int × vertex_property P × Forest P)) (q : List Nat)
    (hq : (kidsAt cs q).isSome = true) : (kidsAt (attachAll cs a) q).isSome = true := by
  induction a generalizing cs with
  | nil => exact hq
  | cons x a ih =>
    simp only [attachAll]
    exact ih _ (kidsAt_modifyAt_add_some _ _ _ _ _ _ hq)

theorem attachAll_comm_one (cs : Forest P)
    (a : vertex_type × Int × vertex_property P × Forest P)
    (B : List (vertex_type × Int × vertex_property P × Forest P))
    (ha : (kidsAt cs a.1).isSome = true)
    (hB : ∀ b ∈ B, (kidsAt cs b.1).isSome = true ∧ a.1 ≠ b.1) :
    attachAll (cs.modifyAt (add a.2.1 a.2.2.1 a.2.2.2) a.1) B =
      (attachAll cs B).modifyAt (add a.2.1 a.2.2.1 a.2.2.2) a.1 := by
  induction B generalizing cs with
  | nil => rfl
  | cons b B ih =>
    simp only [attachAll]
    have hb := hB b (List.mem_cons_self _ _)
    rw [modifyAt_add_comm _ _ _ _ _ _ b.1 a.1 cs (fun h => hb.2 h.symm) hb.1 ha]
    apply ih
    · exact kidsAt_modifyAt_add_some _ _ _ _ _ _ ha
    · intro b1 hb1
      have := hB b1 (List.mem_cons_of_mem _ hb1)
      exact ⟨kidsAt_modifyAt_add_some _ _ _ _ _ _ this.1, this.2⟩

theorem attachAll_comm (cs : Forest P)
    (A B : List (vertex_type × Int × vertex_property P × Forest P))
    (hA : ∀ a ∈ A, (kidsAt cs a.1).isSome = true)
    (hB : ∀ b ∈ B, (kidsAt cs b.1).isSome = true)
    (hAB : ∀ a ∈ A, ∀ b ∈ B, a.1 ≠ b.1) :
    attachAll (attachAll cs A) B = attachAll (attachAll cs B) A := by
  induction A generalizing cs with
  | nil => rfl
  | cons a A ih =>
    simp only [attachAll]
    have ha := hA a (List.mem_cons_self _ _)
    rw [ih]
    · rw [attachAll_comm_one cs a B ha
        (fun b hb => ⟨hB b hb, hAB a (List.mem_cons_self _ _) b hb⟩)]
    · intro a1 ha1
      exact kidsAt_modifyAt_add_some _ _ _ _ _ _ (hA a1 (List.mem_cons_of_mem _ ha1))
    · intro b hb
      exact kidsAt_modifyAt_add_some _ _ _ _ _ _ (hB b hb)
    · intro a1 ha1 b hb
      exact hAB a1 (List.mem_cons_of_mem _ ha1) b hb

theorem add_ofKids (e : Int) (vp : vertex_property P) (sub : Forest P)
    (l : List (Int × vertex_property P × Forest P)) :
    add e vp sub (ofKids l) = ofKids (l ++ [(e, vp, sub)]) := by
  induction l with
  | nil => rfl
  | cons k l ih => simp [ofKids, add, ih]

theorem firstFree_add_ofKids (l : List (Int × vertex_property P × Forest P)) :
    (ofKids l).firstFree = l.length := by
  induction l with
  | nil => rfl
  | cons k l ih => simp [ofKids, firstFree, ih]

/-- Attaching children one by one below the vertex that was just added. -/
theorem attachAll_fresh (e : Int) (vp : vertex_property P) (p : List Nat) (cs c0 : Forest P)
    (h : kidsAt cs p = some c0)
    (kids l : List (Int × vertex_property P × Forest P)) :
    attachAll (cs.modifyAt (add e vp (ofKids l)) p)
        (kids.map (fun k => (p ++ [c0.firstFree], k))) =
      cs.modifyAt (add e vp (ofKids (l ++ kids))) p := by
  induction kids generalizing l with
  | nil => simp [attachAll]
  | cons k kids ih =>
    simp only [List.map_cons, attachAll]
    rw [modifyAt_snoc_add _ e vp (ofKids l) p cs c0 h, add_ofKids]
    have := ih (l ++ [(k.1, k.2.1, k.2.2)])
    simpa using this

theorem ofKids_map_leaf (dm : Int → Int) (l : List (vertex_property P)) :
    ofKids (l.map (fun x => (dm x.key, x, nil))) = leafKids dm l := by
  induction l with
  | nil => rfl
  | cons x l ih => simp [ofKids, leafKids, ih]

end Forest

/-! ### The partition loop -/

theorem closer_eq (dm : Int → Int) :
    (fun (a b : vertex_property P) => decide ((fun x => dm x.key) a < (fun x => dm x.key) b)) =
      closer dm := rfl

theorem partition_loop_parent
    (nth_element : (vertex_property P → vertex_property P → Bool) →
      List (vertex_property P) → Nat → List (vertex_property P))
    (dm : Int → Int) (cur : vertex_type) (i : Nat) (rest : List (vertex_property P)) :
    ∀ τ ∈ partition_loop nth_element dm cur i rest, τ.parent_node = some cur := by
  induction i generalizing rest with
  | zero => simp [partition_loop]
  | succ i ih =>
    intro τ hτ
    simp only [partition_loop, List.mem_cons] at hτ
    rcases hτ with h | h
    · rw [h]
    · exact ih _ τ h

theorem div_succ_facts (len i : Nat) (h : i + 1 ≤ len) :
    1 ≤ len / (i + 1) ∧ len / (i + 1) ≤ len ∧ i ≤ len - len / (i + 1) := by
  have h1 : 1 ≤ len / (i + 1) := Nat.div_pos h (Nat.succ_pos i)
  have h2 : len / (i + 1) * (i + 1) ≤ len := Nat.div_mul_le_self len (i + 1)
  have h3 : 1 * i ≤ len / (i + 1) * i := Nat.mul_le_mul_right i h1
  rw [Nat.mul_succ] at h2
  refine ⟨h1, ?_, ?_⟩
  · omega
  · omega

theorem partition_loop_ranges
    (nth_element : (vertex_property P → vertex_property P → Bool) →
      List (vertex_property P) → Nat → List (vertex_property P))
    (hnth : NthSpec nth_element)
    (dm : Int → Int) (cur : vertex_type) (i : Nat) (rest : List (vertex_property P))
    (hi : i ≤ rest.length) :
    (∀ τ ∈ partition_loop nth_element dm cur i rest, τ.range ≠ []) ∧
    ((partition_loop nth_element dm cur i rest).map (fun τ => τ.range.length)).sum ≤
      rest.length := by
  induction i generalizing rest with
  | zero => simp [partition_loop]
  | succ i ih =>
    obtain ⟨h1, h2, h3⟩ := div_succ_facts rest.length i hi
    have hperm := (hnth (fun x => dm x.key) rest (rest.length / (i + 1) - 1) (by omega)).1
    have hlen := hperm.length_eq
    rw [closer_eq dm] at hperm hlen
    have ih1 := ih ((nth_element (closer dm) rest (rest.length / (i + 1) - 1)).drop
      (rest.length / (i + 1))) (by simp [hlen]; omega)
    constructor
    · intro τ hτ
      simp only [partition_loop, List.mem_cons] at hτ
      rcases hτ with h | h
      · rw [h]
        intro h0
        have := congrArg List.length h0
        simp only [List.length_take, List.length_nil] at this
        rw [hlen] at this
        omega
      · exact ih1.1 τ h
    · simp only [partition_loop, List.map_cons, List.sum_cons, List.length_take]
      have := ih1.2
      simp only [List.length_drop] at this
      rw [hlen] at this ⊢
      omega

/-! ### The loop of `construct_node` -/

theorem swap_front_perm (l : List (vertex_property P)) (i : Nat) (vp : vertex_property P)
    (h : l[i]? = some vp) :
    swap_front l i = vp :: (swap_front l i).tail ∧ (vp :: (swap_front l i).tail).Perm l := by
  cases l with
  | nil => simp at h
  | cons a t =>
    cases i with
    | zero =>
      simp only [List.getElem?_cons_zero, Option.some.injEq] at h
      subst h
      simp [swap_front]
    | succ j =>
      simp only [List.getElem?_cons_succ] at h
      have hj : j < t.length := by
        by_contra hc
        rw [List.getElem?_eq_none (by omega)] at h
        exact absurd h (by simp)
      have hget : t[j] = vp := by
        rw [List.getElem?_eq_getElem hj] at h
        exact Option.some.inj h
      simp only [swap_front, h, List.tail_cons, true_and]
      rw [List.set_eq_take_append_cons_drop, if_pos hj]
      have ht : t = t.take j ++ vp :: t.drop (j + 1) := by
        conv_lhs => rw [← List.take_append_drop j t]
        rw [List.drop_eq_getElem_cons hj, hget]
      conv_rhs => rw [ht]
      have h1 : (vp :: (t.take j ++ a :: t.drop (j + 1))).Perm
          (vp :: a :: (t.take j ++ t.drop (j + 1))) := List.Perm.cons vp List.perm_middle
      have h2 : (a :: (t.take j ++ vp :: t.drop (j + 1))).Perm
          (a :: vp :: (t.take j ++ t.drop (j + 1))) := List.Perm.cons a List.perm_middle
      exact h1.trans ((List.Perm.swap a vp _).trans h2.symm)

theorem swap_front_tail_length (l : List (vertex_property P)) (i : Nat)
    (vp : vertex_property P) (h : l[i]? = some vp) :
    (swap_front l i).tail.length + 1 = l.length := by
  have := (swap_front_perm l i vp h).2.length_eq
  simpa using this

theorem add_leaf_children_eq (dm : Int → Int) (cur : vertex_type)
    (l : List (vertex_property P)) (r : vertex_property P) (cs : Forest P) :
    add_leaf_children dm cur l (some (r, cs)) =
      some (r, cs.attachAll (l.map (fun x => (cur, dm x.key, x, Forest.nil)))) := by
  induction l generalizing cs with
  | nil => rfl
  | cons x l ih =>
    simp only [add_leaf_children, add_child_vertex, List.map_cons, Forest.attachAll]
    exact ih _

theorem forall₂_append_split {α β : Type} (R : α → β → Prop) (l1 l2 : List α) (l : List β)
    (h : List.Forall₂ R (l1 ++ l2) l) :
    ∃ a b, l = a ++ b ∧ List.Forall₂ R l1 a ∧ List.Forall₂ R l2 b := by
  induction l1 generalizing l with
  | nil => exact ⟨[], l, rfl, List.Forall₂.nil, h⟩
  | cons x l1 ih =>
    cases h with
    | cons hx hrest =>
      obtain ⟨a, b, hab, ha, hb⟩ := ih _ hrest
      exact ⟨_ :: a, b, by rw [hab]; rfl, List.Forall₂.cons hx ha, hb⟩

theorem forall₂_parent_eq
    (Good : List (vertex_property P) → vertex_property P → Forest P → Prop)
    (parts : List (construction_task P))
    (aP : List (vertex_type × Int × vertex_property P × Forest P)) (cur : vertex_type)
    (h : List.Forall₂ (fun (τ : construction_task P)
        (a : vertex_type × Int × vertex_property P × Forest P) =>
      τ.parent_node = some a.1 ∧ τ.edge_dist = a.2.1 ∧ Good τ.range a.2.2.1 a.2.2.2) parts aP)
    (hpar : ∀ τ ∈ parts, τ.parent_node = some cur) :
    aP = (aP.map (fun a => a.2)).map (fun k => (cur, k)) := by
  induction h with
  | nil => rfl
  | @cons τ1 a1 l1 l2 hx _ ihx =>
    have h1 := hpar τ1 (List.mem_cons_self _ _)
    rw [hx.1] at h1
    simp only [Option.some.injEq] at h1
    simp only [List.map_cons]
    rw [← ihx (fun τ hτ => hpar τ (List.mem_cons_of_mem _ hτ)), ← h1]

theorem forall₂_kids
    (Good : List (vertex_property P) → vertex_property P → Forest P → Prop)
    (parts : List (construction_task P))
    (aP : List (vertex_type × Int × vertex_property P × Forest P))
    (h : List.Forall₂ (fun (τ : construction_task P)
        (a : vertex_type × Int × vertex_property P × Forest P) =>
      τ.parent_node = some a.1 ∧ τ.edge_dist = a.2.1 ∧ Good τ.range a.2.2.1 a.2.2.2) parts aP) :
    List.Forall₂ (fun (τ : construction_task P) (k : Int × vertex_property P × Forest P) =>
      τ.edge_dist = k.1 ∧ Good τ.range k.2.1 k.2.2) parts (aP.map (fun a => a.2)) := by
  induction h with
  | nil => exact List.Forall₂.nil
  | cons hx _ ihx => exact List.Forall₂.cons hx.2 ihx

theorem forall₂_valid
    (Good : List (vertex_property P) → vertex_property P → Forest P → Prop)
    (cs : Forest P) (Q : List (construction_task P))
    (aQ : List (vertex_type × Int × vertex_property P × Forest P))
    (h : List.Forall₂ (fun (τ : construction_task P)
        (a : vertex_type × Int × vertex_property P × Forest P) =>
      τ.parent_node = some a.1 ∧ τ.edge_dist = a.2.1 ∧ Good τ.range a.2.2.1 a.2.2.2) Q aQ)
    (hQ : ∀ τ ∈ Q, ∃ p, τ.parent_node = some p ∧ (cs.kidsAt p).isSome = true) :
    ∀ a ∈ aQ, (cs.kidsAt a.1).isSome = true := by
  induction h with
  | nil => simp
  | @cons τ1 a1 l1 l2 hx _ ihx =>
    intro a ha
    rcases List.mem_cons.mp ha with h1 | h1
    · obtain ⟨p, hp1, hp2⟩ := hQ τ1 (List.mem_cons_self _ _)
      rw [hx.1] at hp1
      simp only [Option.some.injEq] at hp1
      rw [h1, hp1]
      exact hp2
    · exact ihx (fun τ hτ => hQ τ (List.mem_cons_of_mem _ hτ)) a h1

/-- The loop of `construct_node` ends, within the bound, and attaches to the parent of
every queued task an admissible subtree for the range of the task. -/
theorem construct_loop_spec (Arity : Nat) (dist : P → P → Int)
    (std_sort : (vertex_property P → vertex_property P → Bool) →
      List (vertex_property P) → List (vertex_property P))
    (nth_element : (vertex_property P → vertex_property P → Bool) →
      List (vertex_property P) → Nat → List (vertex_property P))
    (ch : List (vertex_property P) → Nat)
    (hnth : NthSpec nth_element) (hch : ChooserOK ch)
    (Good : List (vertex_property P) → vertex_property P → Forest P → Prop)
    (hG : StepClosed Arity dist std_sort nth_element ch Good) :
    ∀ (fuel : Nat) (r : vertex_property P) (cs : Forest P) (root : Option vertex_type)
      (tasks : List (construction_task P)) (dm : Int → Int),
      (tasks.map (fun τ => τ.range.length)).sum ≤ fuel →
      (∀ τ ∈ tasks, τ.range ≠ [] ∧
        ∃ p, τ.parent_node = some p ∧ (cs.kidsAt p).isSome = true) →
      ∃ atts : List (vertex_type × Int × vertex_property P × Forest P),
        List.Forall₂ (fun (τ : construction_task P) a =>
          τ.parent_node = some a.1 ∧ τ.edge_dist = a.2.1 ∧ Good τ.range a.2.2.1 a.2.2.2)
          tasks atts ∧
        construct_loop Arity dist std_sort nth_element ch fuel ⟨some (r, cs), root⟩ tasks dm =
          some ⟨some (r, cs.attachAll atts), root⟩ := by
  intro fuel
  induction fuel with
  | zero =>
    intro r cs root tasks dm hsum hv
    cases tasks with
    | nil => exact ⟨[], List.Forall₂.nil, by simp [construct_loop, Forest.attachAll]⟩
    | cons τ Q =>
      exfalso
      have h1 := (hv τ (List.mem_cons_self _ _)).1
      have h2 : 0 < τ.range.length := List.length_pos.mpr h1
      simp only [List.map_cons, List.sum_cons] at hsum
      omega
  | succ fuel ih =>
    intro r cs root tasks dm hsum hv
    cases tasks with
    | nil => exact ⟨[], List.Forall₂.nil, by simp [construct_loop, Forest.attachAll]⟩
    | cons τ Q =>
      obtain ⟨hne, p, hp, hval⟩ := hv τ (List.mem_cons_self _ _)
      have hlt := hch τ.range hne
      have hvp : τ.range[ch τ.range]? = some (τ.range[ch τ.range]) :=
        List.getElem?_eq_getElem hlt
      generalize τ.range[ch τ.range] = vp at hvp
      obtain ⟨c0, hc0⟩ := Option.isSome_iff_exists.mp hval
      obtain ⟨v0, hv0⟩ := Forest.kidsAt_nodeAt r cs p c0 hc0
      have hlen := swap_front_tail_length τ.range (ch τ.range) vp hvp
      have hstep := hG τ.range dm vp hvp
      simp only [List.map_cons, List.sum_cons] at hsum
      have hQ : ∀ τ1 ∈ Q, τ1.range ≠ [] ∧
          ∃ p1, τ1.parent_node = some p1 ∧ (cs.kidsAt p1).isSome = true :=
        fun τ1 h1 => hv τ1 (List.mem_cons_of_mem _ h1)
      by_cases hleaf : (swap_front τ.range (ch τ.range)).tail.length < Arity
      · -- the last level: the remaining elements become leaves
        have hgood := hstep.1 hleaf
        obtain ⟨aQ, hFQ, hEQ⟩ := ih r
          (cs.modifyAt (Forest.add τ.edge_dist vp
            (Forest.leafKids (Function.update (fill_dist_map dist vp.pos dm τ.range) vp.key 0)
              (std_sort (closer (Function.update (fill_dist_map dist vp.pos dm τ.range) vp.key 0))
                (swap_front τ.range (ch τ.range)).tail))) p)
          root Q (Function.update (fill_dist_map dist vp.pos dm τ.range) vp.key 0)
          (by omega)
          (fun τ1 h1 => by
            obtain ⟨h2, p1, h3, h4⟩ := hQ τ1 h1
            exact ⟨h2, p1, h3, Forest.kidsAt_modifyAt_add_some _ _ _ _ _ _ h4⟩)
        refine ⟨(p, τ.edge_dist, vp, _) :: aQ, List.Forall₂.cons ⟨hp, rfl, hgood⟩ hFQ, ?_⟩
        rw [construct_loop]
        simp only [hvp, hp, hleaf, if_true, add_child_vertex, hv0, add_leaf_children_eq]
        have hfresh := Forest.attachAll_fresh τ.edge_dist vp p cs c0 hc0
          ((std_sort (closer (Function.update (fill_dist_map dist vp.pos dm τ.range) vp.key 0))
            (swap_front τ.range (ch τ.range)).tail).map
            (fun x => ((Function.update (fill_dist_map dist vp.pos dm τ.range) vp.key 0) x.key,
              x, Forest.nil))) []
        simp only [List.map_map, List.nil_append, Forest.ofKids, Forest.ofKids_map_leaf]
          at hfresh
        have hcomp : ((fun k : Int × vertex_property P × Forest P =>
              (p ++ [c0.firstFree], k)) ∘
            fun x : vertex_property P =>
              ((Function.update (fill_dist_map dist vp.pos dm τ.range) vp.key 0) x.key, x,
                Forest.nil)) =
            fun x => (p ++ [c0.firstFree],
              (Function.update (fill_dist_map dist vp.pos dm τ.range) vp.key 0) x.key, x,
                Forest.nil) := rfl
        rw [hcomp] at hfresh
        rw [hfresh, hEQ]
        rfl
      · -- the remaining elements are partitioned into sub-tasks
        have hA : Arity ≤ (swap_front τ.range (ch τ.range)).tail.length := by omega
        obtain ⟨hPne, hPsum⟩ := partition_loop_ranges nth_element hnth
          (Function.update (fill_dist_map dist vp.pos dm τ.range) vp.key 0)
          (p ++ [c0.firstFree]) Arity (swap_front τ.range (ch τ.range)).tail hA
        have hPpar := partition_loop_parent nth_element
          (Function.update (fill_dist_map dist vp.pos dm τ.range) vp.key 0)
          (p ++ [c0.firstFree]) Arity (swap_front τ.range (ch τ.range)).tail
        have hcur : Forest.kidsAt (cs.modifyAt (Forest.add τ.edge_dist vp Forest.nil) p)
            (p ++ [c0.firstFree]) = some Forest.nil :=
          Forest.kidsAt_modifyAt_add_snoc _ _ _ _ _ _ hc0
        obtain ⟨atts, hF, hE⟩ := ih r
          (cs.modifyAt (Forest.add τ.edge_dist vp Forest.nil) p) root
          (Q ++ partition_loop nth_element
            (Function.update (fill_dist_map dist vp.pos dm τ.range) vp.key 0)
            (p ++ [c0.firstFree]) Arity (swap_front τ.range (ch τ.range)).tail)
          (Function.update (fill_dist_map dist vp.pos dm τ.range) vp.key 0)
          (by simp only [List.map_append, List.sum_append]; omega)
          (fun τ1 h1 => by
            rcases List.mem_append.mp h1 with h1 | h1
            · obtain ⟨h2, p1, h3, h4⟩ := hQ τ1 h1
              exact ⟨h2, p1, h3, Forest.kidsAt_modifyAt_add_some _ _ _ _ _ _ h4⟩
            · exact ⟨hPne τ1 h1, _, hPpar τ1 h1, by rw [hcur]; rfl⟩)
        obtain ⟨aQ, aP, hatts, hFQ, hFP⟩ := forall₂_append_split _ _ _ _ hF
        -- the attachments of the sub-tasks are below the new vertex
        have haP := forall₂_parent_eq Good _ _ (p ++ [c0.firstFree]) hFP hPpar
        have hkids := forall₂_kids Good _ _ hFP
        have hgood := hstep.2 hleaf (p ++ [c0.firstFree]) _ hkids
        have hcurnone := Forest.kidsAt_snoc_firstFree p cs c0 hc0
        have hQval : ∀ a ∈ aQ, (cs.kidsAt a.1).isSome = true :=
          forall₂_valid Good cs _ _ hFQ (fun τ1 h1 => (hQ τ1 h1).2)
        refine ⟨(p, τ.edge_dist, vp, Forest.ofKids (aP.map (fun a => a.2))) :: aQ,
          List.Forall₂.cons ⟨hp, rfl, hgood⟩ hFQ, ?_⟩
        rw [construct_loop]
        simp only [hvp, hp, hleaf, if_false, add_child_vertex, hv0]
        rw [hE, hatts, Forest.attachAll_append, Forest.attachAll_comm]
        · have hfresh := Forest.attachAll_fresh τ.edge_dist vp p cs c0 hc0
            (aP.map (fun a => a.2)) []
          simp only [List.nil_append, Forest.ofKids] at hfresh
          rw [← haP] at hfresh
          rw [hfresh]
          simp [Forest.attachAll]
        · intro a ha
          exact Forest.kidsAt_modifyAt_add_some _ _ _ _ _ _ (hQval a ha)
        · intro b hb
          rw [haP] at hb
          simp only [List.map_map, List.mem_map, Function.comp] at hb
          obtain ⟨b0, _, hb0⟩ := hb
          rw [← hb0, hcur]
          rfl
        · intro a ha b hb hab
          rw [haP] at hb
          simp only [List.map_map, List.mem_map, Function.comp] at hb
          obtain ⟨b0, _, hb0⟩ := hb
          have h1 := hQval a ha
          rw [hab, ← hb0, hcurnone] at h1
          exact absurd h1 (by simp)

/-! ### The subtrees built by `construct_node` -/

theorem fill_dist_map_of_not_mem (dist : P → P → Int) (q : P) (dm : Int → Int)
    (l : List (vertex_property P)) (k : Int) (hk : k ∉ l.map (fun x => x.key)) :
    fill_dist_map dist q dm l k = dm k := by
  induction l generalizing dm with
  | nil => rfl
  | cons a l ih =>
    simp only [List.map_cons, List.mem_cons, not_or] at hk
    simp only [fill_dist_map]
    rw [ih _ hk.2, Function.update_noteq hk.1]

theorem fill_dist_map_apply (dist : P → P → Int) (q : P) (dm : Int → Int)
    (l : List (vertex_property P)) (hnd : (l.map (fun x => x.key)).Nodup)
    (x : vertex_property P) (hx : x ∈ l) :
    fill_dist_map dist q dm l x.key = dist q x.pos := by
  induction l generalizing dm with
  | nil => simp at hx
  | cons a l ih =>
    simp only [List.map_cons, List.nodup_cons] at hnd
    simp only [fill_dist_map]
    rcases List.mem_cons.mp hx with h | h
    · subst h
      rw [fill_dist_map_of_not_mem _ _ _ _ _ hnd.1, Function.update_same]
    · exact ih _ hnd.2 h

theorem dist_map_apply (dist : P → P → Int) (dm : Int → Int)
    (range rest : List (vertex_property P)) (vp : vertex_property P)
    (hnd : (range.map (fun x => x.key)).Nodup) (hperm : (vp :: rest).Perm range)
    (x : vertex_property P) (hx : x ∈ rest) :
    Function.update (fill_dist_map dist vp.pos dm range) vp.key 0 x.key = dist vp.pos x.pos := by
  have hnd1 : ((vp :: rest).map (fun x => x.key)).Nodup :=
    (List.Perm.nodup_iff (List.Perm.map _ hperm)).mpr hnd
  simp only [List.map_cons, List.nodup_cons] at hnd1
  have hne : x.key ≠ vp.key := by
    intro h
    exact hnd1.1 (by rw [← h]; exact List.mem_map_of_mem _ hx)
  rw [Function.update_noteq hne]
  exact fill_dist_map_apply dist vp.pos dm range hnd x
    (hperm.subset (List.mem_cons_of_mem _ hx))

theorem mem_all_ranges (ts : List (construction_task P)) (y : vertex_property P) :
    y ∈ all_ranges ts ↔ ∃ τ ∈ ts, y ∈ τ.range := by
  induction ts with
  | nil => simp [all_ranges]
  | cons τ ts ih => simp [all_ranges, ih]

theorem partition_loop_parts
    (nth_element : (vertex_property P → vertex_property P → Bool) →
      List (vertex_property P) → Nat → List (vertex_property P))
    (hnth : NthSpec nth_element)
    (dm : Int → Int) (cur : vertex_type) (i : Nat) (rest : List (vertex_property P))
    (hi : i ≤ rest.length) (hpos : 0 < i ∨ rest = []) :
    (partition_loop nth_element dm cur i rest).length = i ∧
    (all_ranges (partition_loop nth_element dm cur i rest)).Perm rest ∧
    PartsOK (fun x => dm x.key) (partition_loop nth_element dm cur i rest) := by
  induction i generalizing rest with
  | zero =>
    rcases hpos with h | h
    · omega
    · subst h
      simp [partition_loop, all_ranges, PartsOK]
  | succ i ih =>
    obtain ⟨h1, h2, h3⟩ := div_succ_facts rest.length i hi
    have hspec := hnth (fun x => dm x.key) rest (rest.length / (i + 1) - 1) (by omega)
    rw [closer_eq dm] at hspec
    obtain ⟨hperm, hord⟩ := hspec
    have hlen := hperm.length_eq
    have hn : rest.length / (i + 1) - 1 + 1 = rest.length / (i + 1) := by omega
    have hidx : rest.length / (i + 1) - 1 <
        (nth_element (closer dm) rest (rest.length / (i + 1) - 1)).length := by
      rw [hlen]; omega
    have hget := List.getElem?_eq_getElem hidx
    obtain ⟨hbefore, hafter⟩ := hord _ hget
    rw [hn] at hafter
    have ih1 := ih ((nth_element (closer dm) rest (rest.length / (i + 1) - 1)).drop
      (rest.length / (i + 1))) (by simp [hlen]; omega)
      (by
        rcases Nat.eq_zero_or_pos i with h0 | h0
        · right
          subst h0
          apply List.drop_eq_nil_of_le
          rw [hlen]
          simp
        · left; exact h0)
    obtain ⟨ihlen, ihperm, ihok⟩ := ih1
    refine ⟨by simp [partition_loop, ihlen], ?_, ?_⟩
    · simp only [partition_loop, all_ranges]
      refine (List.Perm.append_left _ ihperm).trans ?_
      rw [List.take_append_drop]
      exact hperm
    · simp only [partition_loop, PartsOK, hget]
      refine ⟨?_, ?_, ihok⟩
      · intro x hx
        have hx1 : x ∈ (nth_element (closer dm) rest (rest.length / (i + 1) - 1)).take
            (rest.length / (i + 1) - 1 + 1) := by rw [hn]; exact hx
        rw [List.take_succ, hget] at hx1
        simp only [Option.toList, List.mem_append, List.mem_singleton] at hx1
        rcases hx1 with h | h
        · exact hbefore x h
        · rw [h]
      · intro y hy
        exact hafter y (ihperm.subset hy)

namespace Forest

theorem elems_leafKids (dm : Int → Int) (l : List (vertex_property P)) :
    (leafKids dm l).elems = l := by
  induction l with
  | nil => rfl
  | cons x l ih => simp [leafKids, elems, ih]

theorem noHoles_leafKids (dm : Int → Int) (l : List (vertex_property P)) :
    (leafKids dm l).NoHoles := by
  induction l with
  | nil => trivial
  | cons x l ih => exact ⟨trivial, ih⟩

theorem degree_leafKids (dm : Int → Int) (l : List (vertex_property P)) :
    (leafKids dm l).degree = l.length := by
  induction l with
  | nil => rfl
  | cons x l ih => simp [leafKids, degree, ih]

theorem allKids_leafKids (dm : Int → Int) (l : List (vertex_property P)) (A : Nat) :
    (leafKids dm l).AllKids (fun c => c.degree ≤ A) := by
  induction l with
  | nil => trivial
  | cons x l ih => exact ⟨Nat.zero_le _, trivial, ih⟩

theorem inv_leafKids (dist : P → P → Int) (dm : Int → Int) (pp : P)
    (l : List (vertex_property P))
    (hdm : ∀ x ∈ l, dm x.key = dist pp x.pos)
    (hs : l.Pairwise (fun a b => dm a.key ≤ dm b.key)) :
    (leafKids dm l).Inv dist pp := by
  induction l with
  | nil => trivial
  | cons x l ih =>
    rw [List.pairwise_cons] at hs
    refine ⟨?_, ?_, trivial, ih (fun y hy => hdm y (List.mem_cons_of_mem _ hy)) hs.2⟩
    · intro y hy
      simp only [elems, List.append_nil, List.mem_singleton] at hy
      rw [hy, hdm x (List.mem_cons_self _ _)]
    · intro y hy
      rw [elems_leafKids] at hy
      rw [← hdm y (List.mem_cons_of_mem _ hy)]
      exact hs.1 y hy

theorem degree_ofKids (l : List (Int × vertex_property P × Forest P)) :
    (ofKids l).degree = l.length := by
  induction l with
  | nil => rfl
  | cons x l ih => simp [ofKids, degree, ih]

end Forest

/-- The properties of the children that `construct_node` makes of the sub-tasks of a
partition. -/
theorem built_ofKids (Arity : Nat) (dist : P → P → Int) (f : vertex_property P → Int)
    (pp : P) (parts : List (construction_task P))
    (kids : List (Int × vertex_property P × Forest P))
    (hF : List.Forall₂ (fun (τ : construction_task P) k =>
      τ.edge_dist = k.1 ∧ Built Arity dist τ.range k.2.1 k.2.2) parts kids)
    (hok : PartsOK f parts) :
    (Forest.ofKids kids).elems.Perm (all_ranges parts) ∧ (Forest.ofKids kids).NoHoles ∧
    (Forest.ofKids kids).AllKids (fun c => c.degree ≤ Arity) ∧
    (((all_ranges parts).map (fun x => x.key)).Nodup →
      (∀ x ∈ all_ranges parts, f x = dist pp x.pos) → (Forest.ofKids kids).Inv dist pp) := by
  induction hF with
  | nil => exact ⟨List.Perm.refl _, trivial, trivial, fun _ _ => trivial⟩
  | @cons τ k parts kids hx _ ih =>
    obtain ⟨hmu, hperm, hnh, hdeg, hall, hinv⟩ := hx
    obtain ⟨hle, hge, hok1⟩ := hok
    obtain ⟨ihperm, ihnh, ihall, ihinv⟩ := ih hok1
    have hp : (Forest.ofKids (k :: kids)).elems.Perm (all_ranges (τ :: parts)) := by
      simp only [Forest.ofKids, Forest.elems, all_ranges]
      have : (k.2.1 :: (k.2.2.elems ++ (Forest.ofKids kids).elems)) =
          (k.2.1 :: k.2.2.elems) ++ (Forest.ofKids kids).elems := rfl
      rw [this]
      exact List.Perm.append hperm ihperm
    refine ⟨hp, ⟨hnh, ihnh⟩, ⟨hdeg, hall, ihall⟩, ?_⟩
    intro hnd hf
    simp only [all_ranges, List.map_append] at hnd
    have hnd1 := (List.nodup_append.mp hnd).1
    have hnd2 := (List.nodup_append.mp hnd).2.1
    refine ⟨?_, ?_, hinv hnd1, ihinv hnd2 (fun x hx => hf x ?_)⟩
    · intro x hx
      have hx1 : x ∈ τ.range := hperm.subset hx
      rw [← hmu, ← hf x (by simp [all_ranges, hx1])]
      exact hle x hx1
    · intro y hy
      have hy1 : y ∈ all_ranges parts := ihperm.subset hy
      rw [← hmu, ← hf y (by simp [all_ranges, hy1])]
      exact hge y hy1
    · simp [all_ranges, hx]

/-- The subtrees built by `construct_node` are closed under an iteration of its loop. -/
theorem built_step_closed (Arity : Nat) (dist : P → P → Int)
    (std_sort : (vertex_property P → vertex_property P → Bool) →
      List (vertex_property P) → List (vertex_property P))
    (nth_element : (vertex_property P → vertex_property P → Bool) →
      List (vertex_property P) → Nat → List (vertex_property P))
    (ch : List (vertex_property P) → Nat)
    (hA : 0 < Arity) (hsort : SortSpec std_sort) (hnth : NthSpec nth_element) :
    StepClosed Arity dist std_sort nth_element ch (Built Arity dist) := by
  intro range dm vp hvp
  obtain ⟨_, hperm⟩ := swap_front_perm range (ch range) vp hvp
  constructor
  · intro hleaf
    obtain ⟨hsp, hss⟩ := hsort
      (fun x => Function.update (fill_dist_map dist vp.pos dm range) vp.key 0 x.key)
      (swap_front range (ch range)).tail
    rw [closer_eq] at hsp hss
    refine ⟨?_, Forest.noHoles_leafKids _ _, ?_, Forest.allKids_leafKids _ _ _, ?_⟩
    · rw [Forest.elems_leafKids]
      exact (List.Perm.cons vp hsp).trans hperm
    · rw [Forest.degree_leafKids, hsp.length_eq]
      omega
    · intro hnd
      apply Forest.inv_leafKids
      · intro x hx
        exact dist_map_apply dist dm range _ vp hnd hperm x (hsp.subset hx)
      · exact hss
  · intro hnode cur kids hF
    obtain ⟨hlen, hpp, hok⟩ := partition_loop_parts nth_element hnth
      (Function.update (fill_dist_map dist vp.pos dm range) vp.key 0) cur Arity
      (swap_front range (ch range)).tail (by omega) (Or.inl hA)
    obtain ⟨hkp, hknh, hkall, hkinv⟩ := built_ofKids Arity dist _ vp.pos _ _ hF hok
    refine ⟨?_, hknh, ?_, hkall, ?_⟩
    · exact (List.Perm.cons vp (hkp.trans hpp)).trans hperm
    · rw [Forest.degree_ofKids, ← hF.length_eq, hlen]
    · intro hnd
      have hnd1 : ((vp :: (swap_front range (ch range)).tail).map (fun x => x.key)).Nodup :=
        (List.Perm.nodup_iff (List.Perm.map _ hperm)).mpr hnd
      simp only [List.map_cons, List.nodup_cons] at hnd1
      apply hkinv
      · exact (List.Perm.nodup_iff (List.Perm.map _ hpp)).mpr hnd1.2
      · intro x hx
        exact dist_map_apply dist dm range _ vp hnd hperm x (hpp.subset hx)

/-! ### The function `construct_node` -/

theorem Forest.attachAll_root (kids l : List (Int × vertex_property P × Forest P)) :
    (Forest.ofKids l).attachAll (kids.map (fun k => (([] : List Nat), k))) =
      Forest.ofKids (l ++ kids) := by
  induction kids generalizing l with
  | nil => simp [Forest.attachAll]
  | cons k kids ih =>
    simp only [List.map_cons, Forest.attachAll, Forest.modifyAt, Forest.add_ofKids]
    have := ih (l ++ [(k.1, k.2.1, k.2.2)])
    simpa using this

/-- Below an existing vertex, `construct_node` ends and adds one child to the parent: an
admissible subtree for the range, on an edge of the given radius. -/
theorem construct_node_child (Arity : Nat) (dist : P → P → Int)
    (std_sort : (vertex_property P → vertex_property P → Bool) →
      List (vertex_property P) → List (vertex_property P))
    (nth_element : (vertex_property P → vertex_property P → Bool) →
      List (vertex_property P) → Nat → List (vertex_property P))
    (ch : List (vertex_property P) → Nat)
    (hnth : NthSpec nth_element) (hch : ChooserOK ch)
    (Good : List (vertex_property P) → vertex_property P → Forest P → Prop)
    (hG : StepClosed Arity dist std_sort nth_element ch Good)
    (r : vertex_property P) (cs : Forest P) (root : Option vertex_type) (p : vertex_type)
    (e : Int) (range : List (vertex_property P))
    (hp : (cs.kidsAt p).isSome = true) (hne : range ≠ []) :
    ∃ vp sub, Good range vp sub ∧
      construct_node Arity dist std_sort nth_element ch ⟨some (r, cs), root⟩ (some p) e range =
        some ⟨some (r, cs.modifyAt (Forest.add e vp sub) p), root⟩ := by
  obtain ⟨atts, hF, hE⟩ := construct_loop_spec Arity dist std_sort nth_element ch hnth hch
    Good hG range.length r cs root [⟨some p, e, range⟩] (fun _ => 0) (by simp)
    (by
      intro τ hτ
      simp only [List.mem_singleton] at hτ
      subst hτ
      exact ⟨hne, p, rfl, hp⟩)
  cases hF with
  | @cons τ a l1 l2 hx hrest =>
    cases hrest
    obtain ⟨h1, h2, h3⟩ := hx
    simp only [Option.some.injEq] at h1
    refine ⟨a.2.2.1, a.2.2.2, h3, ?_⟩
    rw [construct_node, hE]
    simp only [Forest.attachAll]
    rw [← h1, ← h2]

/-- Without a parent, `construct_node` ends and makes an admissible subtree for the range
the whole tree. -/
theorem construct_node_root (Arity : Nat) (dist : P → P → Int)
    (std_sort : (vertex_property P → vertex_property P → Bool) →
      List (vertex_property P) → List (vertex_property P))
    (nth_element : (vertex_property P → vertex_property P → Bool) →
      List (vertex_property P) → Nat → List (vertex_property P))
    (ch : List (vertex_property P) → Nat)
    (hnth : NthSpec nth_element) (hch : ChooserOK ch)
    (Good : List (vertex_property P) → vertex_property P → Forest P → Prop)
    (hG : StepClosed Arity dist std_sort nth_element ch Good)
    (t : dvp_tree_impl P) (e : Int) (range : List (vertex_property P)) (hne : range ≠ []) :
    ∃ vp cs, Good range vp cs ∧
      construct_node Arity dist std_sort nth_element ch t none e range =
        some ⟨some (vp, cs), some []⟩ := by
  have hlt := hch range hne
  have hvp : range[ch range]? = some (range[ch range]) := List.getElem?_eq_getElem hlt
  generalize range[ch range] = vp at hvp
  have hlen := swap_front_tail_length range (ch range) vp hvp
  have hstep := hG range (fun _ => 0) vp hvp
  obtain ⟨n, hn⟩ : ∃ n, range.length = n + 1 := ⟨range.length - 1, by omega⟩
  by_cases hleaf : (swap_front range (ch range)).tail.length < Arity
  · refine ⟨vp, _, hstep.1 hleaf, ?_⟩
    rw [construct_node, hn, construct_loop]
    simp only [hvp, hleaf, if_true, create_root, add_leaf_children_eq]
    have h1 := Forest.attachAll_root
      ((std_sort (closer (Function.update (fill_dist_map dist vp.pos (fun _ => 0) range)
        vp.key 0)) (swap_front range (ch range)).tail).map
        (fun x => ((Function.update (fill_dist_map dist vp.pos (fun _ => 0) range) vp.key 0)
          x.key, x, Forest.nil))) []
    simp only [List.map_map, List.nil_append, Forest.ofKids, Forest.ofKids_map_leaf] at h1
    have hcomp : ((fun k : Int × vertex_property P × Forest P => (([] : List Nat), k)) ∘
        fun x : vertex_property P =>
          ((Function.update (fill_dist_map dist vp.pos (fun _ => 0) range) vp.key 0) x.key, x,
            Forest.nil)) =
        fun x => (([] : List Nat),
          (Function.update (fill_dist_map dist vp.pos (fun _ => 0) range) vp.key 0) x.key, x,
            Forest.nil) := rfl
    rw [hcomp] at h1
    rw [h1]
    simp [construct_loop]
  · have hA : Arity ≤ (swap_front range (ch range)).tail.length := by omega
    obtain ⟨hPne, hPsum⟩ := partition_loop_ranges nth_element hnth
      (Function.update (fill_dist_map dist vp.pos (fun _ => 0) range) vp.key 0)
      [] Arity (swap_front range (ch range)).tail hA
    have hPpar := partition_loop_parent nth_element
      (Function.update (fill_dist_map dist vp.pos (fun _ => 0) range) vp.key 0)
      [] Arity (swap_front range (ch range)).tail
    obtain ⟨atts, hF, hE⟩ := construct_loop_spec Arity dist std_sort nth_element ch hnth hch
      Good hG n vp Forest.nil (some [])
      (partition_loop nth_element
        (Function.update (fill_dist_map dist vp.pos (fun _ => 0) range) vp.key 0)
        [] Arity (swap_front range (ch range)).tail)
      (Function.update (fill_dist_map dist vp.pos (fun _ => 0) range) vp.key 0)
      (by omega)
      (fun τ1 h1 => ⟨hPne τ1 h1, _, hPpar τ1 h1, rfl⟩)
    have haP := forall₂_parent_eq Good _ _ [] hF hPpar
    have hkids := forall₂_kids Good _ _ hF
    refine ⟨vp, Forest.ofKids (atts.map (fun a => a.2)), hstep.2 hleaf [] _ hkids, ?_⟩
    rw [construct_node, hn, construct_loop]
    simp only [hvp, hleaf, if_false, create_root, List.nil_append]
    rw [hE]
    have h1 := Forest.attachAll_root (atts.map (fun a => a.2)) []
    simp only [List.nil_append, Forest.ofKids] at h1
    rw [← haP] at h1
    rw [h1]

/-! ### Instances of the parameters -/

theorem insert_sorted_perm (lt : vertex_property P → vertex_property P → Bool)
    (x : vertex_property P) (l : List (vertex_property P)) :
    (insert_sorted lt x l).Perm (x :: l) := by
  induction l with
  | nil => exact List.Perm.refl _
  | cons y l ih =>
    simp only [insert_sorted]
    split
    · exact List.Perm.refl _
    · exact (List.Perm.cons y ih).trans (List.Perm.swap x y l)

theorem insertion_sort_perm (lt : vertex_property P → vertex_property P → Bool)
    (l : List (vertex_property P)) : (insertion_sort lt l).Perm l := by
  induction l with
  | nil => exact List.Perm.refl _
  | cons x l ih =>
    exact (insert_sorted_perm lt x _).trans (List.Perm.cons x ih)

theorem insert_sorted_pairwise (f : vertex_property P → Int) (x : vertex_property P)
    (l : List (vertex_property P)) (hl : l.Pairwise (fun a b => f a ≤ f b)) :
    (insert_sorted (fun a b => decide (f a < f b)) x l).Pairwise (fun a b => f a ≤ f b) := by
  induction l with
  | nil => simp [insert_sorted]
  | cons y l ih =>
    rw [List.pairwise_cons] at hl
    simp only [insert_sorted]
    split
    · rename_i h
      simp only [decide_eq_true_eq] at h
      refine List.pairwise_cons.mpr ⟨?_, List.pairwise_cons.mpr hl⟩
      intro z hz
      rcases List.mem_cons.mp hz with h1 | h1
      · rw [h1]; omega
      · have := hl.1 z h1
        omega
    · rename_i h
      simp only [decide_eq_true_eq] at h
      refine List.pairwise_cons.mpr ⟨?_, ih hl.2⟩
      intro z hz
      rcases List.mem_cons.mp ((insert_sorted_perm _ x l).subset hz) with h1 | h1
      · rw [h1]; omega
      · exact hl.1 z h1

theorem insertion_sort_pairwise (f : vertex_property P → Int)
    (l : List (vertex_property P)) :
    (insertion_sort (fun a b => decide (f a < f b)) l).Pairwise (fun a b => f a ≤ f b) := by
  induction l with
  | nil => simp [insertion_sort]
  | cons x l ih => exact insert_sorted_pairwise f x _ ih

/-- Insertion sort meets the contract of `std::sort`. -/
theorem insertion_sort_spec : SortSpec (insertion_sort (P := P)) :=
  fun f l => ⟨insertion_sort_perm _ l, insertion_sort_pairwise f l⟩

/-- Sorting the range meets the contract of `std::nth_element`. -/
theorem nth_by_sort_spec : NthSpec (nth_by_sort (P := P)) := by
  intro f l n _
  refine ⟨insertion_sort_perm _ l, ?_⟩
  intro y hy
  have hs := insertion_sort_pairwise f l
  simp only [nth_by_sort] at hy ⊢
  generalize insertion_sort (fun a b => decide (f a < f b)) l = r at hy hs
  have hn : n < r.length := by
    by_contra hc
    rw [List.getElem?_eq_none (by omega)] at hy
    exact absurd hy (by simp)
  have hget : r[n] = y := by
    rw [List.getElem?_eq_getElem hn] at hy
    exact Option.some.inj hy
  have hr : r = r.take n ++ y :: r.drop (n + 1) := by
    conv_lhs => rw [← List.take_append_drop n r]
    rw [List.drop_eq_getElem_cons hn, hget]
  rw [hr] at hs
  rw [List.pairwise_append] at hs
  obtain ⟨_, h2, h3⟩ := hs
  rw [List.pairwise_cons] at h2
  exact ⟨fun x hx => h3 x hx y (List.mem_cons_self _ _), h2.1⟩

/-- The chooser of the first element always returns an element. -/
theorem first_chooser_ok : ChooserOK (first_chooser (P := P)) := by
  intro l hl
  exact List.length_pos.mpr hl

theorem line_dist_symm (a b : Int) : line_dist a b = line_dist b a := by
  simp only [line_dist]
  split <;> split <;> omega

theorem line_dist_triangle (a b c : Int) : line_dist a c ≤ line_dist a b + line_dist b c := by
  simp only [line_dist]
  split <;> split <;> split <;> omega

/-! ### Bulk construction -/

theorem elems_length_eq_size (t : dvp_tree_impl P) : t.elems.length = t.size := by
  simp only [dvp_tree_impl.elems, dvp_tree_impl.size, num_vertices]
  cases t.m_tree with
  | none => rfl
  | some x =>
    obtain ⟨r, cs⟩ := x
    simp [Forest.size_eq_length_elems]
    omega

/-- C7. Bulk construction keeps every element: for a non-empty input of `N` elements with
pairwise distinct keys, an arity of at least one and a chooser that always returns an
element of its range, the range constructor ends with a tree of size `N` whose elements are
exactly those of the input, each one in exactly one vertex (the keys of the tree are
pairwise distinct and are the input keys). -/
theorem bulk_construction_keeps_every_element (Arity : Nat) (dist : P → P → Int)
    (std_sort : (vertex_property P → vertex_property P → Bool) →
      List (vertex_property P) → List (vertex_property P))
    (nth_element : (vertex_property P → vertex_property P → Bool) →
      List (vertex_property P) → Nat → List (vertex_property P))
    (ch : List (vertex_property P) → Nat)
    (hA : 0 < Arity) (hsort : SortSpec std_sort) (hnth : NthSpec nth_element)
    (hch : ChooserOK ch) (v_bin : List (vertex_property P)) (hne : v_bin ≠ [])
    (hkeys : (v_bin.map (fun x => x.key)).Nodup) :
    ∃ t, from_range Arity dist std_sort nth_element ch v_bin = some t ∧
      t.size = v_bin.length ∧ t.elems.Perm v_bin ∧
      t.keys.Perm (v_bin.map (fun x => x.key)) ∧ t.keys.Nodup := by
  obtain ⟨vp, cs, hB, hE⟩ := construct_node_root Arity dist std_sort nth_element ch hnth hch
    (Built Arity dist) (built_step_closed Arity dist std_sort nth_element ch hA hsort hnth)
    ⟨none, none⟩ 0 v_bin hne
  have hfr : from_range Arity dist std_sort nth_element ch v_bin =
      some ⟨some (vp, cs), some []⟩ := by
    cases v_bin with
    | nil => exact absurd rfl hne
    | cons a l => exact hE
  have hperm : (dvp_tree_impl.elems ⟨some (vp, cs), some []⟩).Perm v_bin := hB.1
  refine ⟨_, hfr, ?_, hperm, List.Perm.map _ hperm, ?_⟩
  · rw [← elems_length_eq_size]
    exact hperm.length_eq
  · exact (List.Perm.nodup_iff (List.Perm.map _ hperm)).mpr hkeys

/-- Witness of C7: three points of the integer line, with arity two. -/
theorem bulk_construction_keeps_every_element_witness :
    ∃ t, from_range 2 line_dist insertion_sort nth_by_sort first_chooser
        [⟨1, 0⟩, ⟨2, 5⟩, ⟨3, 9⟩] = some t ∧
      t.size = [(⟨1, 0⟩ : vertex_property Int), ⟨2, 5⟩, ⟨3, 9⟩].length ∧
      t.elems.Perm [⟨1, 0⟩, ⟨2, 5⟩, ⟨3, 9⟩] ∧
      t.keys.Perm ([(⟨1, 0⟩ : vertex_property Int), ⟨2, 5⟩, ⟨3, 9⟩].map (fun x => x.key)) ∧
      t.keys.Nodup :=
  bulk_construction_keeps_every_element 2 line_dist insertion_sort nth_by_sort first_chooser
    (by decide) insertion_sort_spec nth_by_sort_spec first_chooser_ok
    [⟨1, 0⟩, ⟨2, 5⟩, ⟨3, 9⟩] (by simp) (by decide)

/-! ### Out-edges and the descent of `get_leaf` -/

namespace Forest

theorem edges_eq_nil_slot (c : Forest P) (k0 : Nat) (h : c.edges k0 = []) (k : Nat) :
    c.slot k = none := by
  induction c generalizing k0 k with
  | nil => rfl
  | cons m v ch r _ _ => simp [edges] at h
  | hole r ih =>
    cases k with
    | zero => rfl
    | succ k => exact ih (k0 + 1) h k

theorem length_edges (c : Forest P) (k0 : Nat) : (c.edges k0).length = c.degree := by
  induction c generalizing k0 with
  | nil => rfl
  | cons m v ch r _ ihr => simp [edges, degree, ihr]
  | hole r ih => simpa [edges, degree] using ih (k0 + 1)

theorem slot_size_lt (c : Forest P) (j : Nat) (m : Int) (v : vertex_property P)
    (ch : Forest P) (h : c.slot j = some (m, v, ch)) : ch.size < c.size := by
  induction c generalizing j with
  | nil => simp [slot] at h
  | cons m1 v1 c1 r _ ihr =>
    cases j with
    | zero =>
      simp only [slot, Option.some.injEq, Prod.mk.injEq] at h
      obtain ⟨_, _, rfl⟩ := h
      simp only [size]; omega
    | succ j =>
      have := ihr j (by simpa [slot] using h)
      simp only [size]; omega
  | hole r ih =>
    cases j with
    | zero => simp [slot] at h
    | succ j =>
      have := ih j (by simpa [slot] using h)
      simpa [size] using this

theorem elems_of_degree_zero (c : Forest P) (h : c.degree = 0) : c.elems = [] := by
  induction c with
  | nil => rfl
  | cons m v ch r _ _ => simp [degree] at h
  | hole r ih => simpa [elems] using ih (by simpa [degree] using h)

theorem eq_nil_of_degree_zero (c : Forest P) (h : c.degree = 0) (hn : c.NoHoles) :
    c = nil := by
  cases c with
  | nil => rfl
  | cons m v ch r => simp [degree] at h
  | hole r => exact absurd hn (by simp [NoHoles])

/-- What the inner loop of `get_leaf` picks among the out-edges of a vertex. -/
theorem pick_child_edges (cd : Int) (v : vertex_type) (c : Forest P) (k0 : Nat)
    (res0 : vertex_type) :
    (c.edges k0 = [] ∧
      pick_child cd ((c.edges k0).map (fun e => (e.2, v ++ [e.1]))) res0 = res0) ∨
    ∃ j m vv ch,
      pick_child cd ((c.edges k0).map (fun e => (e.2, v ++ [e.1]))) res0 = v ++ [k0 + j] ∧
      c.slot j = some (m, vv, ch) ∧
      (∀ k, k < j → ∀ x, c.slot k = some x → x.1 < cd) ∧
      (cd ≤ m ∨ ∀ k, j < k → c.slot k = none) := by
  induction c generalizing k0 res0 with
  | nil => left; exact ⟨rfl, rfl⟩
  | cons m vv ch r _ ihr =>
    right
    simp only [edges, List.map_cons, pick_child]
    by_cases hcd : cd ≤ m
    · refine ⟨0, m, vv, ch, by simp [hcd], rfl, ?_, Or.inl hcd⟩
      intro k hk
      omega
    · rw [if_neg hcd]
      rcases ihr (k0 + 1) (v ++ [k0]) with ⟨h1, h2⟩ | ⟨j, m1, v1, c1, h1, h2, h3, h4⟩
      · refine ⟨0, m, vv, ch, by simpa using h2, rfl, ?_, Or.inr ?_⟩
        · intro k hk
          omega
        · intro k hk
          cases k with
          | zero => omega
          | succ k => simpa [slot] using edges_eq_nil_slot r (k0 + 1) h1 k
      · refine ⟨j + 1, m1, v1, c1, ?_, by simpa [slot] using h2, ?_, ?_⟩
        · rw [h1]
          congr 2
          omega
        · intro k hk x hx
          cases k with
          | zero =>
            simp only [slot, Option.some.injEq] at hx
            rw [← hx]
            simp only
            omega
          | succ k => exact h3 k (by omega) x (by simpa [slot] using hx)
        · rcases h4 with h4 | h4
          · exact Or.inl h4
          · right
            intro k hk
            cases k with
            | zero => omega
            | succ k => simpa [slot] using h4 k (by omega)
  | hole r ih =>
    simp only [edges]
    rcases ih (k0 + 1) res0 with ⟨h1, h2⟩ | ⟨j, m1, v1, c1, h1, h2, h3, h4⟩
    · left; exact ⟨h1, h2⟩
    · right
      refine ⟨j + 1, m1, v1, c1, ?_, by simpa [slot] using h2, ?_, ?_⟩
      · rw [h1]
        congr 2
        omega
      · intro k hk x hx
        cases k with
        | zero => simp [slot] at hx
        | succ k => exact h3 k (by omega) x (by simpa [slot] using hx)
      · rcases h4 with h4 | h4
        · exact Or.inl h4
        · right
          intro k hk
          cases k with
          | zero => omega
          | succ k => simpa [slot] using h4 k (by omega)

theorem routed_snoc (dist : P → P → Int) (q : P) (r : vertex_property P) (cs : Forest P)
    (p : List Nat) (v : vertex_property P) (c : Forest P) (j : Nat)
    (m : Int) (vv : vertex_property P) (ch : Forest P)
    (hr : Routed dist q r.pos cs p) (hn : nodeAt r cs p = some (v, c))
    (hs : c.slot j = some (m, vv, ch))
    (h1 : ∀ k, k < j → ∀ x, c.slot k = some x → x.1 < dist q v.pos)
    (h2 : dist q v.pos ≤ m ∨ ∀ k, j < k → c.slot k = none) :
    Routed dist q r.pos cs (p ++ [j]) := by
  induction p generalizing r cs with
  | nil =>
    simp only [nodeAt, Option.some.injEq, Prod.mk.injEq] at hn
    obtain ⟨rfl, rfl⟩ := hn
    exact ⟨m, vv, ch, hs, h1, h2, trivial⟩
  | cons i p ih =>
    obtain ⟨m0, v0, c0, hs0, ha, hb, hc⟩ := hr
    simp only [nodeAt, hs0] at hn
    exact ⟨m0, v0, c0, hs0, ha, hb, ih v0 c0 hc hn⟩

theorem nodeAt_snoc (r : vertex_property P) (cs : Forest P) (p : List Nat)
    (v : vertex_property P) (c : Forest P) (j : Nat) (m : Int) (vv : vertex_property P)
    (ch : Forest P) (hn : nodeAt r cs p = some (v, c)) (hs : c.slot j = some (m, vv, ch)) :
    nodeAt r cs (p ++ [j]) = some (vv, ch) := by
  rw [nodeAt_append, hn]
  simp [nodeAt, hs]

theorem nodeAt_dropLast (r : vertex_property P) (cs : Forest P) (p : List Nat)
    (h : (nodeAt r cs p).isSome = true) : (nodeAt r cs p.dropLast).isSome = true := by
  rcases List.eq_nil_or_concat p with hp | ⟨w, i, hp⟩
  · subst hp; exact h
  · subst hp
    rw [List.concat_eq_append] at h ⊢
    rw [List.dropLast_concat]
    rw [nodeAt_append] at h
    cases hw : nodeAt r cs w with
    | none => simp [hw] at h
    | some x => rfl

end Forest

theorem out_edges_some (r : vertex_property P) (cs : Forest P) (v : vertex_type)
    (vp : vertex_property P) (c : Forest P) (h : Forest.nodeAt r cs v = some (vp, c)) :
    out_edges (some (r, cs)) v = (c.edges 0).map (fun e => (e.2, v ++ [e.1])) := by
  simp [out_edges, vertex_at, h]

theorem out_degree_some (r : vertex_property P) (cs : Forest P) (v : vertex_type)
    (vp : vertex_property P) (c : Forest P) (h : Forest.nodeAt r cs v = some (vp, c)) :
    out_degree (some (r, cs)) v = c.degree := by
  rw [out_degree, out_edges_some r cs v vp c h, List.length_map, Forest.length_edges]

theorem out_degree_none (t : tree_indexer P) (v : vertex_type) (h : vertex_at t v = none) :
    out_degree t v = 0 := by
  simp [out_degree, out_edges, h]

/-- The descent of `get_leaf` from a vertex on a routed path ends, within the bound, at a
vertex without out-edges, and the path to it is routed. -/
theorem get_leaf_loop_spec (dist : P → P → Int) (q : P) (r : vertex_property P)
    (cs : Forest P) :
    ∀ (fuel : Nat) (aNode : vertex_type) (v : vertex_property P) (c : Forest P),
      Forest.nodeAt r cs aNode = some (v, c) → c.size < fuel →
      Forest.Routed dist q r.pos cs aNode →
      ∃ vl cl, Forest.nodeAt r cs (get_leaf_loop dist (some (r, cs)) q fuel aNode) =
          some (vl, cl) ∧ cl.degree = 0 ∧
        Forest.Routed dist q r.pos cs (get_leaf_loop dist (some (r, cs)) q fuel aNode) ∧
        aNode <+: get_leaf_loop dist (some (r, cs)) q fuel aNode := by
  intro fuel
  induction fuel with
  | zero => intro aNode v c _ h; omega
  | succ fuel ih =>
    intro aNode v c hn hsz hr
    simp only [get_leaf_loop, vertex_at, hn]
    rw [out_degree_some r cs aNode v c hn]
    by_cases hd : c.degree = 0
    · simp only [hd, if_true]
      exact ⟨v, c, hn, hd, hr, List.prefix_refl _⟩
    · simp only [hd, if_false]
      rw [out_edges_some r cs aNode v c hn]
      rcases Forest.pick_child_edges (dist q v.pos) aNode c 0 aNode with
        ⟨h1, _⟩ | ⟨j, m, vv, ch, h1, h2, h3, h4⟩
      · exfalso
        apply hd
        rw [← Forest.length_edges c 0, h1]
        rfl
      · rw [h1]
        simp only [Nat.zero_add]
        have hn1 := Forest.nodeAt_snoc r cs aNode v c j m vv ch hn h2
        have hsz1 := Forest.slot_size_lt c j m vv ch h2
        obtain ⟨vl, cl, ha, hb, hc, hd1⟩ := ih (aNode ++ [j]) vv ch hn1 (by omega)
          (Forest.routed_snoc dist q r cs aNode v c j m vv ch hr hn h2 h3 h4)
        exact ⟨vl, cl, ha, hb, hc, (List.prefix_append aNode [j]).trans hd1⟩

theorem get_leaf_spec (dist : P → P → Int) (q : P) (r : vertex_property P) (cs : Forest P) :
    ∃ vl cl, Forest.nodeAt r cs (get_leaf dist (some (r, cs)) q []) = some (vl, cl) ∧
      cl.degree = 0 ∧ Forest.Routed dist q r.pos cs (get_leaf dist (some (r, cs)) q []) := by
  obtain ⟨vl, cl, h1, h2, h3, _⟩ := get_leaf_loop_spec dist q r cs (num_vertices (some (r, cs)))
    [] r cs rfl (by simp [num_vertices]) trivial
  exact ⟨vl, cl, h1, h2, h3⟩

/-! ### The fullness test ends -/

namespace Forest

theorem sum_edges_size (c : Forest P) (k0 : Nat) (G : Nat → Nat)
    (hG : ∀ j, G (k0 + j) =
      match c.slot j with
      | none => 1
      | some (_, _, ch) => 1 + ch.size) :
    ((c.edges k0).map (fun e => G e.1)).sum = c.size := by
  induction c generalizing k0 with
  | nil => rfl
  | cons m vv ch r _ ihr =>
    simp only [edges, List.map_cons, List.sum_cons, size]
    have h0 := hG 0
    simp only [Nat.add_zero, slot] at h0
    rw [h0, ihr (k0 + 1)]
    · intro j
      have := hG (j + 1)
      simp only [slot] at this
      rw [← this]
      congr 1
      omega
  | hole r ih =>
    simp only [edges, size]
    apply ih (k0 + 1)
    intro j
    have := hG (j + 1)
    simp only [slot] at this
    rw [← this]
    congr 1
    omega

theorem nodeAt_size_le (r : vertex_property P) (cs : Forest P) (p : List Nat)
    (v : vertex_property P) (c : Forest P) (h : nodeAt r cs p = some (v, c)) :
    c.size ≤ cs.size := by
  induction p generalizing r cs with
  | nil =>
    simp only [nodeAt, Option.some.injEq, Prod.mk.injEq] at h
    rw [h.2]
  | cons i p ih =>
    simp only [nodeAt] at h
    cases hs : cs.slot i with
    | none => simp [hs] at h
    | some x =>
      obtain ⟨m, v1, c1⟩ := x
      simp only [hs] at h
      have h1 := ih v1 c1 h
      have h2 := slot_size_lt cs i m v1 c1 hs
      omega

end Forest

theorem subtree_size_pos (t : tree_indexer P) (v : vertex_type) : 0 < subtree_size t v := by
  simp only [subtree_size]
  split <;> omega

theorem sum_subtree_out_edges (r : vertex_property P) (cs : Forest P) (v : vertex_type) :
    ((out_edges (some (r, cs)) v).map (fun e => subtree_size (some (r, cs)) e.2)).sum + 1 ≤
      subtree_size (some (r, cs)) v := by
  cases hn : Forest.nodeAt r cs v with
  | none =>
    simp [out_edges, vertex_at, hn, subtree_size]
  | some x =>
    obtain ⟨vp, c⟩ := x
    rw [out_edges_some r cs v vp c hn]
    have hsum := Forest.sum_edges_size c 0
      (fun i => subtree_size (some (r, cs)) (v ++ [i]))
      (by
        intro j
        simp only [Nat.zero_add, subtree_size, vertex_at]
        rw [Forest.nodeAt_append, hn]
        simp only [Option.some_bind, Forest.nodeAt]
        cases c.slot j with
        | none => rfl
        | some y =>
          obtain ⟨y1, y2, y3⟩ := y
          rfl)
    rw [List.map_map]
    have h2 : ((fun e : Int × vertex_type => subtree_size (some (r, cs)) e.2) ∘
        fun e : Nat × Int => (e.2, v ++ [e.1])) =
        fun e => (fun i => subtree_size (some (r, cs)) (v ++ [i])) e.1 := rfl
    rw [h2, hsum]
    simp only [subtree_size, vertex_at, hn]
    omega

/-- The loop of `is_node_full` ends within the bound. -/
theorem is_node_full_loop_total (Arity : Nat) (r : vertex_property P) (cs : Forest P) :
    ∀ (fuel : Nat) (tasks : List (vertex_type × Int)) (dl : Int),
      (tasks.map (fun x => subtree_size (some (r, cs)) x.1)).sum ≤ fuel →
      ∃ res, is_node_full_loop Arity (some (r, cs)) fuel tasks dl = some res := by
  intro fuel
  induction fuel with
  | zero =>
    intro tasks dl h
    cases tasks with
    | nil => exact ⟨_, rfl⟩
    | cons x tasks =>
      have := subtree_size_pos (some (r, cs)) x.1
      simp only [List.map_cons, List.sum_cons] at h
      omega
  | succ fuel ih =>
    intro tasks dl h
    cases tasks with
    | nil => exact ⟨_, rfl⟩
    | cons x tasks =>
      simp only [List.map_cons, List.sum_cons] at h
      have hpos := subtree_size_pos (some (r, cs)) x.1
      simp only [is_node_full_loop]
      split
      · exact ih _ _ (by omega)
      · split
        · exact ⟨_, rfl⟩
        · apply ih
          have := sum_subtree_out_edges r cs x.1
          simp only [List.map_append, List.sum_append, List.map_map]
          have h2 : ((fun y : vertex_type × Int => subtree_size (some (r, cs)) y.1) ∘
              fun e : Int × vertex_type => (e.2, x.2 - 1)) =
              fun e => subtree_size (some (r, cs)) e.2 := rfl
          rw [h2]
          omega

theorem is_node_full_total (Arity : Nat) (r : vertex_property P) (cs : Forest P)
    (aNode : vertex_type) (dl : Int) :
    ∃ res, is_node_full Arity (some (r, cs)) aNode dl = some res := by
  simp only [is_node_full]
  split
  · exact ⟨_, rfl⟩
  · apply is_node_full_loop_total
    simp only [List.map_cons, List.map_nil, List.sum_cons, List.sum_nil, Nat.add_zero,
      num_vertices, subtree_size, vertex_at]
    cases hn : Forest.nodeAt r cs aNode with
    | none => simp
    | some x =>
      obtain ⟨v, c⟩ := x
      have := Forest.nodeAt_size_le r cs aNode v c hn
      simpa using this

/-- The search for a vertex that is not full ends within the bound, at an ancestor of the
start vertex (or at the start vertex itself). -/
theorem find_nonfull_loop_total (Arity : Nat) (r : vertex_property P) (cs : Forest P) :
    ∀ (fuel : Nat) (p : vertex_type) (adl ldl : Int), p.length < fuel →
      ∃ res, find_nonfull_loop Arity ⟨some (r, cs), some []⟩ fuel p adl ldl = some res ∧
        res.1 <+: p := by
  intro fuel
  induction fuel with
  | zero => intro p adl ldl h; omega
  | succ fuel ih =>
    intro p adl ldl h
    simp only [find_nonfull_loop]
    by_cases hp : some p = some ([] : vertex_type)
    · rw [if_pos hp]
      exact ⟨_, rfl, List.prefix_refl _⟩
    · rw [if_neg hp]
      obtain ⟨res, hres⟩ := is_node_full_total Arity r cs p ldl
      rw [hres]
      obtain ⟨b, dl⟩ := res
      cases b with
      | false => exact ⟨_, rfl, List.prefix_refl _⟩
      | true =>
        have hne : p ≠ [] := fun h0 => hp (by rw [h0])
        have hlen : (parent_of p).length < fuel := by
          simp only [parent_of, List.length_dropLast]
          have := List.length_pos.mpr hne
          omega
        obtain ⟨res, h1, h2⟩ := ih (parent_of p) (adl + 1) (adl + 1) hlen
        exact ⟨res, h1, h2.trans (List.dropLast_prefix p)⟩

/-! ### The radius update, seen from the root -/

namespace Forest

theorem updSlot_congr
    (h1 h2 : Int → vertex_property P → Forest P → Int × vertex_property P × Forest P)
    (cs : Forest P) (i : Nat)
    (h : ∀ m v c, cs.slot i = some (m, v, c) → h1 m v c = h2 m v c) :
    updSlot h1 i cs = updSlot h2 i cs := by
  induction cs generalizing i with
  | nil => cases i <;> rfl
  | cons m v c r _ ihr =>
    cases i with
    | zero => simp [updSlot, h m v c rfl]
    | succ i =>
      simp only [updSlot]
      rw [ihr i (fun m1 v1 c1 hs => h m1 v1 c1 (by simpa [slot] using hs))]
  | hole r ih =>
    cases i with
    | zero => rfl
    | succ i =>
      simp only [updSlot]
      rw [ih i (fun m1 v1 c1 hs => h m1 v1 c1 (by simpa [slot] using hs))]

theorem updSlot_id
    (h : Int → vertex_property P → Forest P → Int × vertex_property P × Forest P)
    (cs : Forest P) (i : Nat)
    (hh : ∀ m v c, cs.slot i = some (m, v, c) → h m v c = (m, v, c)) :
    updSlot h i cs = cs := by
  induction cs generalizing i with
  | nil => cases i <;> rfl
  | cons m v c r _ ihr =>
    cases i with
    | zero => simp [updSlot, hh m v c rfl]
    | succ i =>
      simp only [updSlot]
      rw [ihr i (fun m1 v1 c1 hs => hh m1 v1 c1 (by simpa [slot] using hs))]
  | hole r ih =>
    cases i with
    | zero => rfl
    | succ i =>
      simp only [updSlot]
      rw [ih i (fun m1 v1 c1 hs => hh m1 v1 c1 (by simpa [slot] using hs))]

theorem updSlot_updSlot_same
    (h1 h2 : Int → vertex_property P → Forest P → Int × vertex_property P × Forest P)
    (cs : Forest P) (i : Nat) :
    updSlot h1 i (updSlot h2 i cs) =
      updSlot (fun m v c => h1 (h2 m v c).1 (h2 m v c).2.1 (h2 m v c).2.2) i cs := by
  induction cs generalizing i with
  | nil => cases i <;> rfl
  | cons m v c r _ ihr =>
    cases i with
    | zero => rfl
    | succ i => simp [updSlot, ihr i]
  | hole r ih =>
    cases i with
    | zero => rfl
    | succ i => simp [updSlot, ih i]

theorem mapSlot_eq_updSlot (h : Forest P → Forest P) (cs : Forest P) (i : Nat) :
    mapSlot h i cs = updSlot (fun m v c => (m, v, h c)) i cs := by
  induction cs generalizing i with
  | nil => cases i <;> rfl
  | cons m v c r _ ihr =>
    cases i with
    | zero => rfl
    | succ i => simp [updSlot, mapSlot, ihr i]
  | hole r ih =>
    cases i with
    | zero => rfl
    | succ i => simp [updSlot, mapSlot, ih i]

theorem setMu_eq_updSlot (d : Int) (cs : Forest P) (i : Nat) :
    setMu d i cs = updSlot (fun _ v c => (d, v, c)) i cs := by
  induction cs generalizing i with
  | nil => cases i <;> rfl
  | cons m v c r _ ihr =>
    cases i with
    | zero => rfl
    | succ i => simp [updSlot, setMu, ihr i]
  | hole r ih =>
    cases i with
    | zero => rfl
    | succ i => simp [updSlot, setMu, ih i]

theorem slot_updSlot_same
    (h : Int → vertex_property P → Forest P → Int × vertex_property P × Forest P)
    (cs : Forest P) (i : Nat) :
    (updSlot h i cs).slot i = (cs.slot i).map (fun x => h x.1 x.2.1 x.2.2) := by
  induction cs generalizing i with
  | nil => cases i <;> rfl
  | cons m v c r _ ihr =>
    cases i with
    | zero => rfl
    | succ i => simpa [updSlot, slot] using ihr i
  | hole r ih =>
    cases i with
    | zero => rfl
    | succ i => simpa [updSlot, slot] using ih i

theorem slot_updSlot_ne
    (h : Int → vertex_property P → Forest P → Int × vertex_property P × Forest P)
    (cs : Forest P) (i j : Nat) (hij : i ≠ j) :
    (updSlot h i cs).slot j = cs.slot j := by
  induction cs generalizing i j with
  | nil => cases i <;> cases j <;> rfl
  | cons m v c r _ ihr =>
    cases i with
    | zero =>
      cases j with
      | zero => exact absurd rfl hij
      | succ j => rfl
    | succ i =>
      cases j with
      | zero => rfl
      | succ j => simpa [updSlot, slot] using ihr i j (fun h => hij (by rw [h]))
  | hole r ih =>
    cases i with
    | zero =>
      cases j with
      | zero => exact absurd rfl hij
      | succ j => rfl
    | succ i =>
      cases j with
      | zero => rfl
      | succ j => simpa [updSlot, slot] using ih i j (fun h => hij (by rw [h]))

theorem nodeAt_modifyAt_self (h : Forest P → Forest P) (r : vertex_property P)
    (cs : Forest P) (w : List Nat) (v : vertex_property P) (c : Forest P)
    (hn : nodeAt r cs w = some (v, c)) : nodeAt r (modifyAt h w cs) w = some (v, h c) := by
  induction w generalizing r cs with
  | nil =>
    simp only [nodeAt, Option.some.injEq, Prod.mk.injEq] at hn
    obtain ⟨rfl, rfl⟩ := hn
    rfl
  | cons i w ih =>
    simp only [nodeAt] at hn
    cases hs : cs.slot i with
    | none => simp [hs] at hn
    | some x =>
      obtain ⟨m, v1, c1⟩ := x
      simp only [hs] at hn
      simp only [nodeAt, modifyAt, slot_mapSlot_same, hs, Option.map_some']
      exact ih v1 c1 hn

theorem descend_congr (dist : P → P → Int) (q : P) (g1 g2 : P → Forest P → Forest P)
    (r : vertex_property P) (cs : Forest P) (w : List Nat) (v : vertex_property P)
    (c : Forest P) (hn : nodeAt r cs w = some (v, c)) (hg : g1 v.pos c = g2 v.pos c) :
    descend dist q g1 r.pos w cs = descend dist q g2 r.pos w cs := by
  induction w generalizing r cs with
  | nil =>
    simp only [nodeAt, Option.some.injEq, Prod.mk.injEq] at hn
    obtain ⟨rfl, rfl⟩ := hn
    exact hg
  | cons i w ih =>
    simp only [nodeAt] at hn
    simp only [descend]
    apply updSlot_congr
    intro m v1 c1 hs
    simp only [hs] at hn
    rw [ih v1 c1 hn]

theorem descend_modifyAt (dist : P → P → Int) (q : P) (g : P → Forest P → Forest P)
    (h : Forest P → Forest P) (pp : P) (w : List Nat) (cs : Forest P) :
    descend dist q g pp w (modifyAt h w cs) =
      descend dist q (fun pp1 c => g pp1 (h c)) pp w cs := by
  induction w generalizing pp cs with
  | nil => rfl
  | cons i w ih =>
    simp only [descend, modifyAt]
    rw [mapSlot_eq_updSlot, updSlot_updSlot_same]
    apply updSlot_congr
    intro m v c _
    dsimp only
    rw [ih]

theorem descend_append (dist : P → P → Int) (q : P) (g : P → Forest P → Forest P)
    (pp : P) (w u : List Nat) (cs : Forest P) :
    descend dist q g pp (w ++ u) cs =
      descend dist q (fun pp1 c => descend dist q g pp1 u c) pp w cs := by
  induction w generalizing pp cs with
  | nil => rfl
  | cons i w ih =>
    simp only [List.cons_append, descend]
    apply updSlot_congr
    intro m v c _
    rw [List.append_eq, ih]

theorem modifyAt_descend (dist : P → P → Int) (q : P) (g : P → Forest P → Forest P)
    (h : Forest P → Forest P) (pp : P) (w : List Nat) (cs : Forest P) :
    modifyAt h w (descend dist q g pp w cs) =
      descend dist q (fun pp1 c => h (g pp1 c)) pp w cs := by
  induction w generalizing pp cs with
  | nil => rfl
  | cons i w ih =>
    simp only [descend, modifyAt]
    rw [mapSlot_eq_updSlot, updSlot_updSlot_same]
    apply updSlot_congr
    intro m v c _
    dsimp only
    rw [ih]

theorem modifyAt_id (h : Forest P → Forest P) (w : List Nat) (cs c0 : Forest P)
    (hk : kidsAt cs w = some c0) (hh : h c0 = c0) : modifyAt h w cs = cs := by
  induction w generalizing cs with
  | nil =>
    simp only [kidsAt, Option.some.injEq] at hk
    subst hk
    exact hh
  | cons i w ih =>
    simp only [kidsAt] at hk
    simp only [modifyAt]
    rw [mapSlot_eq_updSlot]
    apply updSlot_id
    intro m v c hs
    simp only [hs] at hk
    rw [ih c hk]

end Forest

theorem in_edge_mu_snoc (r : vertex_property P) (cs : Forest P) (w : List Nat) (i : Nat)
    (v : vertex_property P) (c : Forest P) (hn : Forest.nodeAt r cs w = some (v, c)) :
    in_edge_mu (some (r, cs)) (w ++ [i]) =
      match c.slot i with
      | some (mu, _, _) => mu
      | none => 0 := by
  simp only [in_edge_mu, parent_of, List.dropLast_concat, List.getLast?_append, vertex_at, hn,
    List.getLast?_singleton, Option.or_some]

theorem put_in_edge_mu_snoc (r : vertex_property P) (cs : Forest P) (w : List Nat) (i : Nat)
    (d : Int) :
    put_in_edge_mu (some (r, cs)) (w ++ [i]) d =
      some (r, cs.modifyAt (Forest.setMu d i) w) := by
  simp only [put_in_edge_mu, parent_of, List.dropLast_concat, List.getLast?_append,
    List.getLast?_singleton, Option.or_some]

/-- The loop of `update_mu_upwards`, started at a vertex of the tree, enlarges the radii
along the path from the root to the vertex. -/
theorem update_mu_upwards_loop_eq (dist : P → P → Int) (q : P) (r : vertex_property P) :
    ∀ (n : Nat) (aNode : vertex_type) (cs : Forest P), aNode.length = n →
      (Forest.nodeAt r cs aNode).isSome = true →
      update_mu_upwards_loop dist q (some []) n (some (r, cs)) aNode =
        some (r, Forest.descend dist q (fun _ c => c) r.pos aNode cs) := by
  intro n
  induction n with
  | zero =>
    intro aNode cs hl _
    have : aNode = [] := List.length_eq_zero.mp hl
    subst this
    rfl
  | succ n ih =>
    intro aNode cs hl hv
    rcases List.eq_nil_or_concat aNode with hp | ⟨w, i, hp⟩
    · subst hp; simp at hl
    · rw [List.concat_eq_append] at hp
      subst hp
      have hw := Forest.nodeAt_dropLast r cs (w ++ [i]) hv
      rw [List.dropLast_concat] at hw
      obtain ⟨x, hx⟩ := Option.isSome_iff_exists.mp hw
      obtain ⟨vw, cw⟩ := x
      have hne : ¬ (some (w ++ [i]) = some ([] : vertex_type)) := by simp
      simp only [update_mu_upwards_loop, if_neg hne, parent_of, List.dropLast_concat,
        vertex_at, hx]
      have hstep : (if dist q vw.pos > in_edge_mu (some (r, cs)) (w ++ [i]) then
            put_in_edge_mu (some (r, cs)) (w ++ [i]) (dist q vw.pos)
          else some (r, cs)) =
          some (r, cs.modifyAt
            (Forest.updSlot (fun m v c => (max m (dist q vw.pos), v, c)) i) w) := by
        rw [in_edge_mu_snoc r cs w i vw cw hx, put_in_edge_mu_snoc]
        split
        · rename_i hgt
          congr 2
          apply Forest.modifyAt_congr
          intro c0 hc0
          rw [Forest.nodeAt_kidsAt r cs w vw cw hx] at hc0
          simp only [Option.some.injEq] at hc0
          subst hc0
          rw [Forest.setMu_eq_updSlot]
          apply Forest.updSlot_congr
          intro m v c hs
          rw [hs] at hgt
          simp only at hgt
          rw [max_eq_right (le_of_lt hgt)]
        · rename_i hgt
          congr 2
          symm
          apply Forest.modifyAt_id _ w cs cw (Forest.nodeAt_kidsAt r cs w vw cw hx)
          apply Forest.updSlot_id
          intro m v c hs
          rw [hs] at hgt
          simp only [gt_iff_lt, not_lt] at hgt
          rw [max_eq_left hgt]
      rw [hstep]
      have hlw : w.length = n := by simpa using hl
      have hw1 : (Forest.nodeAt r
          (cs.modifyAt (Forest.updSlot (fun m v c => (max m (dist q vw.pos), v, c)) i) w)
          w).isSome = true := by
        rw [Forest.nodeAt_modifyAt_self _ r cs w vw cw hx]
        rfl
      rw [ih w _ hlw hw1, Forest.descend_modifyAt, Forest.descend_append]
      congr 2
      apply Forest.descend_congr dist q _ _ r cs w vw cw hx
      simp only [Forest.descend]

/-! ### Rebuilding a subtree with one more element -/

namespace Forest

theorem nodeAt_descend_self (dist : P → P → Int) (q : P) (g : P → Forest P → Forest P)
    (r : vertex_property P) (cs : Forest P) (w : List Nat) (v : vertex_property P)
    (c : Forest P) (hn : nodeAt r cs w = some (v, c)) :
    nodeAt r (descend dist q g r.pos w cs) w = some (v, g v.pos c) := by
  induction w generalizing r cs with
  | nil =>
    simp only [nodeAt, Option.some.injEq, Prod.mk.injEq] at hn
    obtain ⟨rfl, rfl⟩ := hn
    rfl
  | cons i w ih =>
    simp only [nodeAt] at hn
    cases hs : cs.slot i with
    | none => simp [hs] at hn
    | some x =>
      obtain ⟨m, v1, c1⟩ := x
      simp only [hs] at hn
      simp only [nodeAt, descend, slot_updSlot_same, hs, Option.map_some']
      exact ih v1 c1 hn

theorem nodeAt_of_prefix (r : vertex_property P) (cs : Forest P) (p l : List Nat)
    (hp : p <+: l) (h : (nodeAt r cs l).isSome = true) : (nodeAt r cs p).isSome = true := by
  obtain ⟨s, rfl⟩ := hp
  rw [nodeAt_append] at h
  cases hw : nodeAt r cs p with
  | none => simp [hw] at h
  | some x => rfl

theorem nodeAt_snoc_inv (r : vertex_property P) (cs : Forest P) (w : List Nat) (i : Nat)
    (h : (nodeAt r cs (w ++ [i])).isSome = true) :
    ∃ vw cw m vu cu, nodeAt r cs w = some (vw, cw) ∧ cw.slot i = some (m, vu, cu) ∧
      nodeAt r cs (w ++ [i]) = some (vu, cu) := by
  rw [nodeAt_append] at h ⊢
  cases hw : nodeAt r cs w with
  | none => simp [hw] at h
  | some x =>
    obtain ⟨vw, cw⟩ := x
    simp only [hw, Option.some_bind, nodeAt] at h ⊢
    cases hs : cw.slot i with
    | none => simp [hs] at h
    | some y =>
      obtain ⟨m, vu, cu⟩ := y
      exact ⟨vw, cw, m, vu, cu, rfl, hs, rfl⟩

theorem clear_updSlot
    (h : Int → vertex_property P → Forest P → Int × vertex_property P × Forest P)
    (cs : Forest P) (i : Nat) : clear i (updSlot h i cs) = clear i cs := by
  induction cs generalizing i with
  | nil => cases i <;> rfl
  | cons m v c r _ ihr =>
    cases i with
    | zero => rfl
    | succ i => simp [updSlot, clear, ihr i]
  | hole r ih =>
    cases i with
    | zero => rfl
    | succ i => simp [updSlot, clear, ih i]

end Forest

theorem update_mu_upwards_eq (dist : P → P → Int) (q : P) (r : vertex_property P)
    (cs : Forest P) (aNode : vertex_type)
    (hv : (Forest.nodeAt r cs aNode).isSome = true) :
    update_mu_upwards dist ⟨some (r, cs), some []⟩ q aNode =
      ⟨some (r, Forest.descend dist q (fun _ c => c) r.pos aNode cs), some []⟩ := by
  simp only [update_mu_upwards]
  rw [update_mu_upwards_loop_eq dist q r aNode.length aNode cs rfl hv]

/-- The common part of the rebuilding branches of `insert`: the radii down to the vertex `p`
are updated, the subtree of `p` is evicted, and `construct_node` puts a subtree of the
evicted elements and the new one in its place. -/
theorem rebuild_at_spec (Arity : Nat) (dist : P → P → Int)
    (std_sort : (vertex_property P → vertex_property P → Bool) →
      List (vertex_property P) → List (vertex_property P))
    (nth_element : (vertex_property P → vertex_property P → Bool) →
      List (vertex_property P) → Nat → List (vertex_property P))
    (ch : List (vertex_property P) → Nat)
    (hnth : NthSpec nth_element) (hch : ChooserOK ch)
    (Good : List (vertex_property P) → vertex_property P → Forest P → Prop)
    (hG : StepClosed Arity dist std_sort nth_element ch Good)
    (r : vertex_property P) (cs : Forest P) (up : vertex_property P) (w : List Nat) (i : Nat)
    (hv : (Forest.nodeAt r cs (w ++ [i])).isSome = true) :
    ∃ vw cw m vu cu vp sub, Forest.nodeAt r cs w = some (vw, cw) ∧
      cw.slot i = some (m, vu, cu) ∧ Good (up :: vu :: cu.elems) vp sub ∧
      construct_node Arity dist std_sort nth_element ch
        ⟨(remove_branch (w ++ [i]) [up]
            (update_mu_upwards dist ⟨some (r, cs), some []⟩ up.pos (w ++ [i])).m_tree).2,
          (update_mu_upwards dist ⟨some (r, cs), some []⟩ up.pos (w ++ [i])).m_root⟩
        (some (parent_of (w ++ [i])))
        (in_edge_mu (update_mu_upwards dist ⟨some (r, cs), some []⟩ up.pos (w ++ [i])).m_tree
          (w ++ [i]))
        (remove_branch (w ++ [i]) [up]
            (update_mu_upwards dist ⟨some (r, cs), some []⟩ up.pos (w ++ [i])).m_tree).1 =
      some ⟨some (r, Forest.descend dist up.pos
        (fun pp c => Forest.add (max m (dist up.pos pp)) vp sub (Forest.clear i c))
        r.pos w cs), some []⟩ := by
  obtain ⟨vw, cw, m, vu, cu, hw, hs, hu⟩ := Forest.nodeAt_snoc_inv r cs w i hv
  rw [update_mu_upwards_eq dist up.pos r cs (w ++ [i]) hv]
  simp only []
  -- the tree after the update
  have hu1 := Forest.nodeAt_descend_self dist up.pos (fun _ c => c) r cs (w ++ [i]) vu cu hu
  have hd : Forest.descend dist up.pos (fun _ c => c) r.pos (w ++ [i]) cs =
      Forest.descend dist up.pos
        (fun pp c => Forest.updSlot (fun m v c1 => (max m (dist up.pos pp), v, c1)) i c)
        r.pos w cs := by
    rw [Forest.descend_append]
    rfl
  have hw1 := Forest.nodeAt_descend_self dist up.pos
    (fun pp c => Forest.updSlot (fun m v c1 => (max m (dist up.pos pp), v, c1)) i c)
    r cs w vw cw hw
  rw [← hd] at hw1
  have hmu : in_edge_mu (some (r, Forest.descend dist up.pos (fun _ c => c) r.pos (w ++ [i]) cs))
      (w ++ [i]) = max m (dist up.pos vw.pos) := by
    rw [in_edge_mu_snoc r _ w i vw _ hw1, Forest.slot_updSlot_same, hs]
    rfl
  have hrb : remove_branch (w ++ [i]) [up]
      (some (r, Forest.descend dist up.pos (fun _ c => c) r.pos (w ++ [i]) cs)) =
      ([up] ++ vu :: cu.elems,
        some (r, (Forest.descend dist up.pos (fun _ c => c) r.pos (w ++ [i]) cs).modifyAt
          (Forest.clear i) w)) := by
    simp only [remove_branch, List.getLast?_append, List.getLast?_singleton, Option.or_some,
      hu1, parent_of, List.dropLast_concat]
  rw [hrb, hmu]
  simp only [parent_of, List.dropLast_concat]
  have hk : (Forest.kidsAt ((Forest.descend dist up.pos (fun _ c => c) r.pos (w ++ [i])
      cs).modifyAt (Forest.clear i) w) w).isSome = true := by
    rw [Forest.nodeAt_kidsAt r _ w vw _ (Forest.nodeAt_modifyAt_self _ r _ w vw _ hw1)]
    rfl
  obtain ⟨vp, sub, hgood, hE⟩ := construct_node_child Arity dist std_sort nth_element ch
    hnth hch Good hG r _ (some []) w (max m (dist up.pos vw.pos)) ([up] ++ vu :: cu.elems)
    hk (by simp)
  refine ⟨vw, cw, m, vu, cu, vp, sub, hw, hs, hgood, ?_⟩
  rw [hE, Forest.modifyAt_modifyAt_same, hd, Forest.modifyAt_descend]
  have hfin := Forest.descend_congr dist up.pos
    (fun pp1 c => Forest.add (max m (dist up.pos vw.pos)) vp sub
      (Forest.clear i (Forest.updSlot (fun m v c1 => (max m (dist up.pos pp1), v, c1)) i c)))
    (fun pp c => Forest.add (max m (dist up.pos pp)) vp sub (Forest.clear i c))
    r cs w vw cw hw (by simp only [Forest.clear_updSlot])
  rw [hfin]

/-! ### The outcomes of `insert` -/

theorem rebuild_any_spec (Arity : Nat) (dist : P → P → Int)
    (std_sort : (vertex_property P → vertex_property P → Bool) →
      List (vertex_property P) → List (vertex_property P))
    (nth_element : (vertex_property P → vertex_property P → Bool) →
      List (vertex_property P) → Nat → List (vertex_property P))
    (ch : List (vertex_property P) → Nat)
    (hnth : NthSpec nth_element) (hch : ChooserOK ch)
    (Good : List (vertex_property P) → vertex_property P → Forest P → Prop)
    (hG : StepClosed Arity dist std_sort nth_element ch Good)
    (r : vertex_property P) (cs : Forest P) (up : vertex_property P) (p L : vertex_type)
    (hpL : p <+: L) (hv : (Forest.nodeAt r cs p).isSome = true) :
    ∃ t1, construct_node Arity dist std_sort nth_element ch
        ⟨(remove_branch p [up]
            (update_mu_upwards dist ⟨some (r, cs), some []⟩ up.pos p).m_tree).2,
          (update_mu_upwards dist ⟨some (r, cs), some []⟩ up.pos p).m_root⟩
        (if p ≠ [] then some (parent_of p) else none)
        (if p ≠ [] then
          in_edge_mu (update_mu_upwards dist ⟨some (r, cs), some []⟩ up.pos p).m_tree p
         else 0)
        (remove_branch p [up]
            (update_mu_upwards dist ⟨some (r, cs), some []⟩ up.pos p).m_tree).1 = some t1 ∧
      InsertOutcome dist Good r cs up L t1 := by
  rcases List.eq_nil_or_concat p with hp | ⟨w, i, hp⟩
  · subst hp
    obtain ⟨vp, sub, hgood, hE⟩ := construct_node_root Arity dist std_sort nth_element ch
      hnth hch Good hG ⟨none, some []⟩ 0 (up :: r :: cs.elems) (by simp)
    refine ⟨_, ?_, Or.inl ⟨vp, sub, hgood, rfl⟩⟩
    simp only [ne_eq, not_true_eq_false, if_false, update_mu_upwards, List.length_nil,
      update_mu_upwards_loop, remove_branch, List.getLast?_nil, List.singleton_append]
    exact hE
  · rw [List.concat_eq_append] at hp
    subst hp
    obtain ⟨vw, cw, m, vu, cu, vp, sub, hw, hs, hgood, hE⟩ := rebuild_at_spec Arity dist
      std_sort nth_element ch hnth hch Good hG r cs up w i hv
    refine ⟨_, ?_, Or.inr (Or.inl ⟨w, i, vw, cw, m, vu, cu, vp, sub, hpL, hw, hs, hgood, rfl⟩)⟩
    have hne : w ++ [i] ≠ [] := by simp
    rw [if_pos hne, if_pos hne]
    exact hE

/-- The member `insert` ends on every well-formed non-empty tree, in one of its three
outcomes. -/
theorem insert_cases (Arity : Nat) (dist : P → P → Int)
    (std_sort : (vertex_property P → vertex_property P → Bool) →
      List (vertex_property P) → List (vertex_property P))
    (nth_element : (vertex_property P → vertex_property P → Bool) →
      List (vertex_property P) → Nat → List (vertex_property P))
    (ch : List (vertex_property P) → Nat)
    (hnth : NthSpec nth_element) (hch : ChooserOK ch)
    (Good : List (vertex_property P) → vertex_property P → Forest P → Prop)
    (hG : StepClosed Arity dist std_sort nth_element ch Good)
    (r : vertex_property P) (cs : Forest P) (up : vertex_property P) :
    ∃ t1, insert Arity dist std_sort nth_element ch ⟨some (r, cs), some []⟩ up = some t1 ∧
      InsertOutcome dist Good r cs up (get_leaf dist (some (r, cs)) up.pos []) t1 := by
  obtain ⟨vl, cl, hL, hdeg, _⟩ := get_leaf_spec dist up.pos r cs
  generalize hLdef : get_leaf dist (some (r, cs)) up.pos [] = L at hL
  have hLv : (Forest.nodeAt r cs L).isSome = true := by rw [hL]; rfl
  have hnz : ¬ (num_vertices (some (r, cs)) = 0) := by simp [num_vertices]
  simp only [insert, if_neg hnz, hLdef]
  by_cases hroot : L = []
  · rw [if_pos hroot]
    subst hroot
    obtain ⟨vp, sub, hgood, hE⟩ := construct_node_root Arity dist std_sort nth_element ch
      hnth hch Good hG ⟨none, none⟩ 0 (up :: r :: cs.elems) (by simp)
    refine ⟨_, ?_, Or.inl ⟨vp, sub, hgood, rfl⟩⟩
    simp only [remove_branch, List.getLast?_nil, List.singleton_append]
    exact hE
  · rw [if_neg hroot]
    have hpar : parent_of L <+: L := List.dropLast_prefix L
    have hparv := Forest.nodeAt_of_prefix r cs _ _ hpar hLv
    split
    · exact rebuild_any_spec Arity dist std_sort nth_element ch hnth hch Good hG r cs up
        (parent_of L) L hpar hparv
    · obtain ⟨res, hres, hpre⟩ := find_nonfull_loop_total Arity r cs
        ((parent_of L).length + 1) (parent_of L) 1 1 (by omega)
      rw [hres]
      obtain ⟨p, ldl0⟩ := res
      simp only []
      have hfull : ∃ res2, (if p = [] then is_node_full Arity (some (r, cs)) p ldl0
          else some (false, ldl0)) = some res2 := by
        split
        · exact is_node_full_total Arity r cs p ldl0
        · exact ⟨_, rfl⟩
      obtain ⟨res2, hres2⟩ := hfull
      rw [hres2]
      obtain ⟨is_p_full, ldl⟩ := res2
      simp only []
      split
      · exact rebuild_any_spec Arity dist std_sort nth_element ch hnth hch Good hG r cs up
          p L (hpre.trans hpar) (Forest.nodeAt_of_prefix r cs _ _ (hpre.trans hpar) hLv)
      · simp only [vertex_at, hL, add_child_vertex]
        refine ⟨_, rfl, Or.inr (Or.inr ⟨vl, cl, hL, hdeg, ?_⟩)⟩
        have hv2 : (Forest.nodeAt r
            (cs.modifyAt (Forest.add (dist up.pos vl.pos) up Forest.nil) L) L).isSome = true := by
          rw [Forest.nodeAt_modifyAt_self _ r cs L vl cl hL]
          rfl
        rw [update_mu_upwards_eq dist up.pos r _ L hv2, Forest.descend_modifyAt]
        have hfin := Forest.descend_congr dist up.pos
          (fun _ c => Forest.add (dist up.pos vl.pos) up Forest.nil c)
          (fun pp c => Forest.add (dist up.pos pp) up Forest.nil c) r cs L vl cl hL rfl
        rw [hfin]

/-! ### The outcomes of `erase` -/

namespace Forest

theorem elems_clear (cs : Forest P) (j : Nat) (m : Int) (v : vertex_property P)
    (c : Forest P) (hs : cs.slot j = some (m, v, c)) :
    ((v :: c.elems) ++ (clear j cs).elems).Perm cs.elems := by
  induction cs generalizing j with
  | nil => simp [slot] at hs
  | cons m1 v1 c1 r _ ihr =>
    cases j with
    | zero =>
      simp only [slot, Option.some.injEq, Prod.mk.injEq] at hs
      obtain ⟨_, rfl, rfl⟩ := hs
      simp [clear, elems]
    | succ j =>
      have h1 := ihr j (by simpa [slot] using hs)
      simp only [clear, elems]
      have h2 : ((v :: c.elems) ++ v1 :: (c1.elems ++ (clear j r).elems)).Perm
          (v1 :: (c1.elems ++ ((v :: c.elems) ++ (clear j r).elems))) := by
        refine List.perm_middle.trans (List.Perm.cons v1 ?_)
        rw [← List.append_assoc, ← List.append_assoc]
        exact List.Perm.append_right _ List.perm_append_comm
      exact h2.trans (List.Perm.cons v1 (List.Perm.append_left _ h1))
  | hole r ih =>
    cases j with
    | zero => simp [slot] at hs
    | succ j =>
      simpa [clear, elems] using ih j (by simpa [slot] using hs)

theorem elems_ne_nil_of_degree_pos (c : Forest P) (h : 0 < c.degree) : c.elems ≠ [] := by
  induction c with
  | nil => simp [degree] at h
  | cons m v ch r _ _ => simp [elems]
  | hole r ih => simpa [elems] using ih (by simpa [degree] using h)

theorem clear_mapSlot (h : Forest P → Forest P) (cs : Forest P) (i : Nat) :
    clear i (mapSlot h i cs) = clear i cs := by
  rw [mapSlot_eq_updSlot, clear_updSlot]

end Forest

theorem remove_branch_root (r : vertex_property P) (cs : Forest P)
    (out : List (vertex_property P)) :
    remove_branch [] out (some (r, cs)) = (out ++ r :: cs.elems, none) := by
  simp [remove_branch]

theorem remove_branch_snoc (r : vertex_property P) (cs : Forest P)
    (out : List (vertex_property P)) (w : List Nat) (i : Nat) (vu : vertex_property P)
    (cu : Forest P) (hu : Forest.nodeAt r cs (w ++ [i]) = some (vu, cu)) :
    remove_branch (w ++ [i]) out (some (r, cs)) =
      (out ++ vu :: cu.elems, some (r, cs.modifyAt (Forest.clear i) w)) := by
  simp only [remove_branch, List.getLast?_append, List.getLast?_singleton, Option.or_some,
    hu, parent_of, List.dropLast_concat]

/-- Rebuilding the evicted subtree of a vertex below its parent. -/
theorem construct_at_slot (Arity : Nat) (dist : P → P → Int)
    (std_sort : (vertex_property P → vertex_property P → Bool) →
      List (vertex_property P) → List (vertex_property P))
    (nth_element : (vertex_property P → vertex_property P → Bool) →
      List (vertex_property P) → Nat → List (vertex_property P))
    (ch : List (vertex_property P) → Nat)
    (hnth : NthSpec nth_element) (hch : ChooserOK ch)
    (Good : List (vertex_property P) → vertex_property P → Forest P → Prop)
    (hG : StepClosed Arity dist std_sort nth_element ch Good)
    (r : vertex_property P) (cs cs1 : Forest P) (w : List Nat) (i : Nat) (m : Int)
    (range : List (vertex_property P)) (hne : range ≠ [])
    (hv : (Forest.kidsAt cs w).isSome = true)
    (hcs1 : cs1 = cs.modifyAt (Forest.clear i) w) :
    ∃ vp sub, Good range vp sub ∧
      construct_node Arity dist std_sort nth_element ch ⟨some (r, cs1), some []⟩ (some w) m
        range = some ⟨some (r, cs.modifyAt (fun c => Forest.add m vp sub (Forest.clear i c)) w),
          some []⟩ := by
  subst hcs1
  obtain ⟨c0, hc0⟩ := Option.isSome_iff_exists.mp hv
  obtain ⟨v0, hv0⟩ := Forest.kidsAt_nodeAt r cs w c0 hc0
  have hk : (Forest.kidsAt (cs.modifyAt (Forest.clear i) w) w).isSome = true := by
    rw [Forest.nodeAt_kidsAt r _ w v0 _ (Forest.nodeAt_modifyAt_self _ r _ w v0 _ hv0)]
    rfl
  obtain ⟨vp, sub, hgood, hE⟩ := construct_node_child Arity dist std_sort nth_element ch
    hnth hch Good hG r _ (some []) w m range hk hne
  exact ⟨vp, sub, hgood, by rw [hE, Forest.modifyAt_modifyAt_same]⟩

/-- The member `erase`, for a vertex of a well-formed tree, ends in one of its outcomes. -/
theorem erase_cases (Arity : Nat) (dist : P → P → Int)
    (std_sort : (vertex_property P → vertex_property P → Bool) →
      List (vertex_property P) → List (vertex_property P))
    (nth_element : (vertex_property P → vertex_property P → Bool) →
      List (vertex_property P) → Nat → List (vertex_property P))
    (ch : List (vertex_property P) → Nat)
    (hnth : NthSpec nth_element) (hch : ChooserOK ch)
    (Good : List (vertex_property P) → vertex_property P → Forest P → Prop)
    (hG : StepClosed Arity dist std_sort nth_element ch Good)
    (r : vertex_property P) (cs : Forest P) (v : vertex_type)
    (hv : (Forest.nodeAt r cs v).isSome = true) :
    ∃ t1, erase Arity dist std_sort nth_element ch ⟨some (r, cs), some []⟩ v = some t1 ∧
      EraseOutcome Good r cs v t1 := by
  obtain ⟨x, hx⟩ := Option.isSome_iff_exists.mp hv
  obtain ⟨ev, cv⟩ := x
  have hnz : ¬ (num_vertices (some (r, cs)) = 0) := by simp [num_vertices]
  simp only [erase, if_neg hnz]
  rcases List.eq_nil_or_concat v with hp | ⟨u, j, hp⟩
  · -- the root is erased
    subst hp
    simp only [Forest.nodeAt, Option.some.injEq, Prod.mk.injEq] at hx
    obtain ⟨rfl, rfl⟩ := hx
    by_cases hone : num_vertices (some (r, cs)) = 1
    · rw [if_pos ⟨rfl, hone⟩]
      refine ⟨_, rfl, r, cs, rfl, Or.inl ⟨?_, ?_⟩⟩
      · simp only [num_vertices] at hone; omega
      · simp [remove_branch_root]
    · rw [if_neg (fun h => hone h.2)]
      simp only [ne_eq, not_true_eq_false, if_false, or_true, if_true, remove_branch_root,
        List.nil_append, List.tail_cons]
      have hne : cs.elems ≠ [] := by
        intro h0
        apply hone
        simp [num_vertices, Forest.size_eq_length_elems, h0]
      obtain ⟨vp, sub, hgood, hE⟩ := construct_node_root Arity dist std_sort nth_element ch
        hnth hch Good hG ⟨none, some []⟩ 0 cs.elems hne
      exact ⟨_, hE, r, cs, rfl, Or.inr (Or.inl ⟨cs.elems, vp, sub, List.Perm.refl _, hgood, rfl⟩)⟩
  · rw [List.concat_eq_append] at hp
    subst hp
    have hne : u ++ [j] ≠ [] := by simp
    rw [if_neg (fun h => hne h.1)]
    simp only [hne, ne_eq, not_false_eq_true, if_true, reduceCtorEq, or_false]
    obtain ⟨vw, cw, m, vu, cu, hw, hs, hu⟩ := Forest.nodeAt_snoc_inv r cs u j hv
    rw [hu] at hx
    simp only [Option.some.injEq, Prod.mk.injEq] at hx
    obtain ⟨rfl, rfl⟩ := hx
    rw [out_degree_some r cs (u ++ [j]) vu cu hu]
    by_cases hdeg : cu.degree > 0
    · -- the erased vertex has children: its subtree is rebuilt
      rw [if_pos hdeg, remove_branch_snoc r cs [] u j vu cu hu, in_edge_mu_snoc r cs u j vw cw hw,
        hs]
      simp only [List.nil_append, List.tail_cons, parent_of, List.dropLast_concat]
      obtain ⟨vp, sub, hgood, hE⟩ := construct_at_slot Arity dist std_sort nth_element ch
        hnth hch Good hG r cs _ u j m cu.elems (Forest.elems_ne_nil_of_degree_pos cu hdeg)
        (by rw [Forest.nodeAt_kidsAt r cs u vw cw hw]; rfl) rfl
      exact ⟨_, hE, vu, cu, hu, Or.inr (Or.inr ⟨u, j, vw, cw, m, vu, cu, cu.elems, vp, sub,
        List.prefix_refl _, hw, hs, List.Perm.refl _, hgood, rfl⟩)⟩
    · -- the erased vertex is a leaf: the subtree of its parent is rebuilt
      rw [if_neg hdeg]
      have hd0 : cu.degree = 0 := by omega
      have hcue : cu.elems = [] := Forest.elems_of_degree_zero cu hd0
      rw [remove_branch_snoc r cs [] u j vu cu hu, hcue]
      simp only [List.nil_append, parent_of, List.dropLast_concat]
      have hclr := Forest.elems_clear cw j m vu cu hs
      rw [hcue] at hclr
      rcases List.eq_nil_or_concat u with hu0 | ⟨w, i, hu0⟩
      · subst hu0
        simp only [Forest.nodeAt, Option.some.injEq, Prod.mk.injEq] at hw
        obtain ⟨rfl, rfl⟩ := hw
        simp only [if_true, Forest.modifyAt, remove_branch_root, List.singleton_append,
          List.tail_cons]
        obtain ⟨vp, sub, hgood, hE⟩ := construct_node_root Arity dist std_sort nth_element ch
          hnth hch Good hG ⟨none, some []⟩ 0 (r :: (Forest.clear j cs).elems) (by simp)
        refine ⟨_, hE, vu, cu, hu, Or.inr (Or.inl ⟨r :: (Forest.clear j cs).elems, vp, sub,
          ?_, hgood, rfl⟩)⟩
        exact (List.Perm.swap r vu _).trans (List.Perm.cons r hclr)
      · rw [List.concat_eq_append] at hu0
        subst hu0
        have hne2 : w ++ [i] ≠ [] := by simp
        rw [if_neg hne2, if_neg hne2]
        have hwv : (Forest.nodeAt r cs (w ++ [i])).isSome = true := by rw [hw]; rfl
        obtain ⟨vz, cz, mz, vw1, cw1, hz, hsz, hw2⟩ := Forest.nodeAt_snoc_inv r cs w i hwv
        rw [hw] at hw2
        simp only [Option.some.injEq, Prod.mk.injEq] at hw2
        obtain ⟨rfl, rfl⟩ := hw2
        -- the tree after the eviction of the leaf
        have hz1 : Forest.nodeAt r (cs.modifyAt (Forest.clear j) (w ++ [i])) w =
            some (vz, Forest.mapSlot (Forest.clear j) i cz) := by
          have : cs.modifyAt (Forest.clear j) (w ++ [i]) =
              cs.modifyAt (Forest.mapSlot (Forest.clear j) i) w := by
            rw [Forest.modifyAt_append]
            apply Forest.modifyAt_congr
            intro c0 _
            simp [Forest.modifyAt, Forest.modifyAt_nil]
          rw [this]
          exact Forest.nodeAt_modifyAt_self _ r cs w vz cz hz
        have hw3 : Forest.nodeAt r (cs.modifyAt (Forest.clear j) (w ++ [i])) (w ++ [i]) =
            some (vw, Forest.clear j cw) :=
          Forest.nodeAt_modifyAt_self _ r cs (w ++ [i]) vw cw hw
        rw [in_edge_mu_snoc r _ w i vz _ hz1, Forest.slot_mapSlot_same, hsz,
          remove_branch_snoc r _ [vu] w i vw _ hw3]
        simp only [Option.map_some', List.singleton_append, List.tail_cons, parent_of,
          List.dropLast_concat]
        have hcs1 : (cs.modifyAt (Forest.clear j) (w ++ [i])).modifyAt (Forest.clear i) w =
            cs.modifyAt (Forest.clear i) w := by
          rw [Forest.modifyAt_append, Forest.modifyAt_modifyAt_same]
          apply Forest.modifyAt_congr
          intro c0 _
          simp only [Forest.modifyAt, Forest.modifyAt_nil]
          exact Forest.clear_mapSlot _ _ _
        obtain ⟨vp, sub, hgood, hE⟩ := construct_at_slot Arity dist std_sort nth_element ch
          hnth hch Good hG r cs _ w i mz (vw :: (Forest.clear j cw).elems) (by simp)
          (by rw [Forest.nodeAt_kidsAt r cs w vz cz hz]; rfl) hcs1
        refine ⟨_, hE, vu, cu, hu, Or.inr (Or.inr ⟨w, i, vz, cz, mz, vw, cw,
          vw :: (Forest.clear j cw).elems, vp, sub, List.prefix_append _ _, hz, hsz, ?_,
          hgood, rfl⟩)⟩
        have : (vw :: cw.elems).Perm (vw :: vu :: (Forest.clear j cw).elems) :=
          List.Perm.cons vw hclr.symm
        exact (List.Perm.swap vw vu _).trans this.symm

/-! ### Insertion and deletion keep the elements -/

namespace Forest

theorem elems_updSlot
    (h : Int → vertex_property P → Forest P → Int × vertex_property P × Forest P)
    (cs : Forest P) (i : Nat) (l1 l2 : List (vertex_property P))
    (hh : ∀ m v c, cs.slot i = some (m, v, c) →
      (((h m v c).2.1 :: (h m v c).2.2.elems) ++ l2).Perm (l1 ++ v :: c.elems)) :
    (cs.slot i).isSome = true → ((updSlot h i cs).elems ++ l2).Perm (l1 ++ cs.elems) := by
  induction cs generalizing i with
  | nil => cases i <;> simp [slot]
  | cons m v c r _ ihr =>
    cases i with
    | zero =>
      intro _
      have h0 := hh m v c rfl
      simp only [updSlot, elems]
      have e1 : ((h m v c).2.1 :: ((h m v c).2.2.elems ++ r.elems) ++ l2).Perm
          ((((h m v c).2.1 :: (h m v c).2.2.elems) ++ l2) ++ r.elems) := by
        simp only [List.cons_append, List.append_assoc]
        exact List.Perm.cons _ (List.Perm.append_left _ List.perm_append_comm)
      refine e1.trans ((List.Perm.append_right _ h0).trans ?_)
      simp
    | succ i =>
      intro hs
      simp [slot] at hs
      have h0 := ihr i (fun m1 v1 c1 h1 => hh m1 v1 c1 (by simpa [slot] using h1)) hs
      simp only [updSlot, elems]
      have e1 : (v :: (c.elems ++ (updSlot h i r).elems) ++ l2).Perm
          (v :: (c.elems ++ ((updSlot h i r).elems ++ l2))) := by simp
      refine e1.trans ?_
      refine (List.Perm.cons v (List.Perm.append_left _ h0)).trans ?_
      have h2 : (c.elems ++ (l1 ++ r.elems)).Perm (l1 ++ (c.elems ++ r.elems)) := by
        rw [← List.append_assoc, ← List.append_assoc]
        exact List.Perm.append_right _ List.perm_append_comm
      exact (List.Perm.cons v h2).trans (List.perm_middle).symm
  | hole r ih =>
    cases i with
    | zero => simp [slot]
    | succ i =>
      intro hs
      simp [slot] at hs
      simpa [updSlot, elems] using
        ih i (fun m1 v1 c1 h1 => hh m1 v1 c1 (by simpa [slot] using h1)) hs

/-- The elements after a change at the end of a path on which the radii are enlarged. -/
theorem elems_descend (dist : P → P → Int) (q : P) (g : P → Forest P → Forest P)
    (r : vertex_property P) (cs : Forest P) (w : List Nat) (v : vertex_property P)
    (c : Forest P) (l1 l2 : List (vertex_property P))
    (hn : nodeAt r cs w = some (v, c))
    (hg : ((g v.pos c).elems ++ l2).Perm (l1 ++ c.elems)) :
    ((descend dist q g r.pos w cs).elems ++ l2).Perm (l1 ++ cs.elems) := by
  induction w generalizing r cs with
  | nil =>
    simp only [nodeAt, Option.some.injEq, Prod.mk.injEq] at hn
    obtain ⟨rfl, rfl⟩ := hn
    exact hg
  | cons i w ih =>
    simp only [nodeAt] at hn
    cases hs : cs.slot i with
    | none => simp [hs] at hn
    | some x =>
      obtain ⟨m, v1, c1⟩ := x
      simp only [hs] at hn
      simp only [descend]
      apply elems_updSlot
      · intro m2 v2 c2 hs2
        rw [hs] at hs2
        simp only [Option.some.injEq, Prod.mk.injEq] at hs2
        obtain ⟨_, rfl, rfl⟩ := hs2
        have := ih v1 c1 hn
        simp only [List.cons_append]
        exact (List.Perm.cons v1 this).trans List.perm_middle.symm
      · simp [hs]

theorem elems_add_clear (e : Int) (vp : vertex_property P) (sub cw : Forest P) (i : Nat)
    (m : Int) (vu : vertex_property P) (cu : Forest P)
    (range : List (vertex_property P)) (hs : cw.slot i = some (m, vu, cu))
    (hb : (vp :: sub.elems).Perm range) :
    ((vu :: cu.elems) ++ (add e vp sub (clear i cw)).elems).Perm (range ++ cw.elems) := by
  have h1 := elems_add e vp sub (clear i cw)
  have h2 := elems_clear cw i m vu cu hs
  have h3 : ((vu :: cu.elems) ++ (add e vp sub (clear i cw)).elems).Perm
      ((vu :: cu.elems) ++ ((vp :: sub.elems) ++ (clear i cw).elems)) :=
    List.Perm.append_left _ h1
  refine h3.trans ?_
  have h4 : ((vu :: cu.elems) ++ ((vp :: sub.elems) ++ (clear i cw).elems)).Perm
      ((vp :: sub.elems) ++ ((vu :: cu.elems) ++ (clear i cw).elems)) := by
    rw [← List.append_assoc, ← List.append_assoc]
    exact List.Perm.append_right _ List.perm_append_comm
  exact h4.trans (List.Perm.append hb h2)

theorem slot_none_of_size_zero (cs : Forest P) (h : cs.size = 0) (i : Nat) :
    cs.slot i = none := by
  induction cs generalizing i with
  | nil => rfl
  | cons m v c r _ _ => simp [size] at h
  | hole r ih =>
    cases i with
    | zero => rfl
    | succ i => exact ih (by simpa [size] using h) i

theorem exists_path_of_mem (cs : Forest P) (x : vertex_property P) (hx : x ∈ cs.elems) :
    ∃ i p c1, ∀ r0 : vertex_property P, nodeAt r0 cs (i :: p) = some (x, c1) := by
  induction cs with
  | nil => simp [elems] at hx
  | cons m v c r ihc ihr =>
    simp only [elems, List.mem_cons, List.mem_append] at hx
    rcases hx with h | h | h
    · subst h
      exact ⟨0, [], c, fun r0 => by simp [nodeAt, slot]⟩
    · obtain ⟨i, p, c1, hp⟩ := ihc h
      exact ⟨0, i :: p, c1, fun r0 => by simpa [nodeAt, slot] using hp v⟩
    · obtain ⟨i, p, c1, hp⟩ := ihr h
      refine ⟨i + 1, p, c1, fun r0 => ?_⟩
      have := hp r0
      simpa [nodeAt, slot] using this
  | hole r ih =>
    obtain ⟨i, p, c1, hp⟩ := ih (by simpa [elems] using hx)
    refine ⟨i + 1, p, c1, fun r0 => ?_⟩
    have := hp r0
    simpa [nodeAt, slot] using this

end Forest

/-- The elements of the tree after an insertion, in each of its outcomes. -/
theorem insertOutcome_elems (Arity : Nat) (dist : P → P → Int)
    (r : vertex_property P) (cs : Forest P) (up : vertex_property P) (L : vertex_type)
    (t1 : dvp_tree_impl P) (h : InsertOutcome dist (Built Arity dist) r cs up L t1) :
    t1.elems.Perm (up :: r :: cs.elems) ∧ Rooted t1 := by
  rcases h with ⟨vp, sub, hb, rfl⟩ | ⟨w, i, vw, cw, m, vu, cu, vp, sub, _, hw, hs, hb, rfl⟩ |
    ⟨vl, cl, hL, _, rfl⟩
  · exact ⟨hb.1, rfl⟩
  · refine ⟨?_, rfl⟩
    simp only [dvp_tree_impl.elems]
    have hg := Forest.elems_add_clear (max m (dist up.pos vw.pos)) vp sub cw i m vu cu _ hs hb.1
    have hg2 : ((Forest.add (max m (dist up.pos vw.pos)) vp sub (Forest.clear i cw)).elems ++
        (vu :: cu.elems)).Perm ((up :: vu :: cu.elems) ++ cw.elems) :=
      List.perm_append_comm.trans hg
    have hg3 : ((Forest.add (max m (dist up.pos vw.pos)) vp sub (Forest.clear i cw)).elems ++
        (vu :: cu.elems)).Perm (([up] ++ cw.elems) ++ (vu :: cu.elems)) := by
      refine hg2.trans ?_
      simp only [List.cons_append, List.nil_append, List.singleton_append]
      exact List.Perm.cons up (@List.perm_append_comm _ (vu :: cu.elems) cw.elems)
    have hg4 := (List.perm_append_right_iff _).mp hg3
    have := Forest.elems_descend dist up.pos
      (fun pp c => Forest.add (max m (dist up.pos pp)) vp sub (Forest.clear i c))
      r cs w vw cw [up] [] hw (by simpa using hg4)
    simp only [List.append_nil, List.singleton_append] at this
    exact (List.Perm.cons r this).trans (List.Perm.swap up r _)
  · refine ⟨?_, rfl⟩
    simp only [dvp_tree_impl.elems]
    have := Forest.elems_descend dist up.pos
      (fun pp c => Forest.add (dist up.pos pp) up Forest.nil c)
      r cs L vl cl [up] [] hL
      (by simpa [Forest.elems] using Forest.elems_add (dist up.pos vl.pos) up Forest.nil cl)
    simp only [List.append_nil, List.singleton_append] at this
    exact (List.Perm.cons r this).trans (List.Perm.swap up r _)

/-- The elements of the tree after a deletion, in each of its outcomes. -/
theorem eraseOutcome_elems (Arity : Nat) (dist : P → P → Int)
    (r : vertex_property P) (cs : Forest P) (v : vertex_type)
    (t1 : dvp_tree_impl P) (h : EraseOutcome (Built Arity dist) r cs v t1) :
    ∃ ev cv, Forest.nodeAt r cs v = some (ev, cv) ∧ (ev :: t1.elems).Perm (r :: cs.elems) ∧
      Rooted t1 ∧ (cs.size = 0 → t1.m_tree = none) := by
  obtain ⟨ev, cv, hv, h⟩ := h
  refine ⟨ev, cv, hv, ?_⟩
  rcases h with ⟨h0, rfl⟩ | ⟨range, vp, sub, hp, hb, rfl⟩ |
    ⟨w, i, vw, cw, m, vu, cu, range, vp, sub, _, hw, hs, hp, hb, rfl⟩
  · have hv0 : v = [] := by
      cases v with
      | nil => rfl
      | cons i p =>
        simp [Forest.nodeAt, Forest.slot_none_of_size_zero cs h0 i] at hv
    subst hv0
    simp only [Forest.nodeAt, Option.some.injEq, Prod.mk.injEq] at hv
    obtain ⟨rfl, _⟩ := hv
    have : cs.elems = [] := by
      have := Forest.size_eq_length_elems cs
      rw [h0] at this
      exact List.length_eq_zero.mp this.symm
    refine ⟨by simp [dvp_tree_impl.elems, this], rfl, fun _ => rfl⟩
  · refine ⟨?_, rfl, ?_⟩
    · simp only [dvp_tree_impl.elems]
      exact (List.Perm.cons ev hb.1).trans hp
    · intro h0
      exfalso
      have h1 := hp.length_eq
      have h2 := Forest.size_eq_length_elems cs
      have h3 := hb.1.length_eq
      simp only [List.length_cons] at h1 h3
      omega
  · refine ⟨?_, rfl, ?_⟩
    · simp only [dvp_tree_impl.elems]
      have hg := Forest.elems_add_clear m vp sub cw i m vu cu range hs hb.1
      have hg2 : ((Forest.add m vp sub (Forest.clear i cw)).elems ++ (ev :: range)).Perm
          (range ++ cw.elems) :=
        (List.Perm.append_left _ hp).trans (List.perm_append_comm.trans hg)
      have hg3 : ((Forest.add m vp sub (Forest.clear i cw)).elems ++ [ev] ++ range).Perm
          (cw.elems ++ range) := by
        simp only [List.append_assoc, List.singleton_append]
        exact hg2.trans List.perm_append_comm
      have hg4 := (List.perm_append_right_iff _).mp hg3
      have := Forest.elems_modifyAt (fun c => Forest.add m vp sub (Forest.clear i c)) w cs cw
        [] [ev] (Forest.nodeAt_kidsAt r cs w vw cw hw) (by simpa using hg4)
      simp only [List.nil_append] at this
      have h5 : (ev :: r :: (Forest.modifyAt (fun c => Forest.add m vp sub (Forest.clear i c))
          w cs).elems).Perm (r :: ((Forest.modifyAt (fun c => Forest.add m vp sub
            (Forest.clear i c)) w cs).elems ++ [ev])) :=
        (List.Perm.swap r ev _).trans (List.Perm.cons r (List.perm_append_singleton _ _).symm)
      exact h5.trans (List.Perm.cons r this)
    · intro h0
      exfalso
      cases w with
      | nil =>
        simp only [Forest.nodeAt, Option.some.injEq, Prod.mk.injEq] at hw
        rw [← hw.2, Forest.slot_none_of_size_zero cs h0 i] at hs
        exact absurd hs (by simp)
      | cons j p =>
        simp [Forest.nodeAt, Forest.slot_none_of_size_zero cs h0 j] at hw

/-! ### Insertion, deletion and their round trip -/

/-- On every tree whose stored root is consistent with its storage, `insert` ends and adds
the new element to the elements of the tree. -/
theorem insert_spec (Arity : Nat) (dist : P → P → Int)
    (std_sort : (vertex_property P → vertex_property P → Bool) →
      List (vertex_property P) → List (vertex_property P))
    (nth_element : (vertex_property P → vertex_property P → Bool) →
      List (vertex_property P) → Nat → List (vertex_property P))
    (ch : List (vertex_property P) → Nat)
    (hA : 0 < Arity) (hsort : SortSpec std_sort) (hnth : NthSpec nth_element)
    (hch : ChooserOK ch) (t : dvp_tree_impl P) (hr : Rooted t) (up : vertex_property P) :
    ∃ t1, insert Arity dist std_sort nth_element ch t up = some t1 ∧
      t1.elems.Perm (up :: t.elems) ∧ Rooted t1 ∧
      (t.size = 0 → t1.m_tree = some (up, Forest.nil) ∧ t1.m_root = some []) := by
  obtain ⟨tree, root⟩ := t
  cases tree with
  | none =>
    refine ⟨⟨some (up, Forest.nil), some []⟩, ?_, ?_, rfl, fun _ => ⟨rfl, rfl⟩⟩
    · simp [insert, num_vertices, create_root]
    · simp [dvp_tree_impl.elems, Forest.elems]
  | some x =>
    obtain ⟨r, cs⟩ := x
    have hroot : root = some [] := hr
    subst hroot
    obtain ⟨t1, hE, hO⟩ := insert_cases Arity dist std_sort nth_element ch hnth hch
      (Built Arity dist) (built_step_closed Arity dist std_sort nth_element ch hA hsort hnth)
      r cs up
    obtain ⟨hp, hr1⟩ := insertOutcome_elems Arity dist r cs up _ t1 hO
    refine ⟨t1, hE, hp, hr1, ?_⟩
    intro h0
    simp [dvp_tree_impl.size, num_vertices] at h0

/-- On every non-empty tree whose stored root is consistent with its storage, `erase` of a
vertex of the tree ends and removes the element of that vertex from the elements. -/
theorem erase_spec (Arity : Nat) (dist : P → P → Int)
    (std_sort : (vertex_property P → vertex_property P → Bool) →
      List (vertex_property P) → List (vertex_property P))
    (nth_element : (vertex_property P → vertex_property P → Bool) →
      List (vertex_property P) → Nat → List (vertex_property P))
    (ch : List (vertex_property P) → Nat)
    (hA : 0 < Arity) (hsort : SortSpec std_sort) (hnth : NthSpec nth_element)
    (hch : ChooserOK ch) (t : dvp_tree_impl P) (hr : Rooted t) (v : vertex_type)
    (ev : vertex_property P) (cv : Forest P) (hv : vertex_at t.m_tree v = some (ev, cv)) :
    ∃ t1, erase Arity dist std_sort nth_element ch t v = some t1 ∧
      (ev :: t1.elems).Perm t.elems ∧ Rooted t1 ∧ (t.size = 1 → t1.m_tree = none) := by
  obtain ⟨tree, root⟩ := t
  cases tree with
  | none => simp [vertex_at] at hv
  | some x =>
    obtain ⟨r, cs⟩ := x
    have hroot : root = some [] := hr
    subst hroot
    simp only [vertex_at] at hv
    obtain ⟨t1, hE, hO⟩ := erase_cases Arity dist std_sort nth_element ch hnth hch
      (Built Arity dist) (built_step_closed Arity dist std_sort nth_element ch hA hsort hnth)
      r cs v (by rw [hv]; rfl)
    obtain ⟨ev1, cv1, hv1, hp, hr1, h0⟩ := eraseOutcome_elems Arity dist r cs v t1 hO
    rw [hv] at hv1
    simp only [Option.some.injEq, Prod.mk.injEq] at hv1
    obtain ⟨rfl, rfl⟩ := hv1
    refine ⟨t1, hE, hp, hr1, ?_⟩
    intro h1
    apply h0
    simp only [dvp_tree_impl.size, num_vertices] at h1
    omega

theorem size_eq_of_perm (t1 t : dvp_tree_impl P) (l : List (vertex_property P))
    (h : t1.elems.Perm (l ++ t.elems)) : t1.size = l.length + t.size := by
  rw [← elems_length_eq_size, ← elems_length_eq_size, h.length_eq, List.length_append]

/-- C8. Insert adds exactly one element: on every tree (its stored root consistent with its
storage, the arity at least one) and for every element `up` whose key is not in the tree,
`insert(up)` ends; afterwards the size is one more, the elements are those of the tree and
`up`, the keys are those of the tree and the key of `up`, still pairwise distinct if they
were; and when the tree was empty, `up` is the root. -/
theorem insert_adds_exactly_one (Arity : Nat) (dist : P → P → Int)
    (std_sort : (vertex_property P → vertex_property P → Bool) →
      List (vertex_property P) → List (vertex_property P))
    (nth_element : (vertex_property P → vertex_property P → Bool) →
      List (vertex_property P) → Nat → List (vertex_property P))
    (ch : List (vertex_property P) → Nat)
    (hA : 0 < Arity) (hsort : SortSpec std_sort) (hnth : NthSpec nth_element)
    (hch : ChooserOK ch) (t : dvp_tree_impl P) (hr : Rooted t) (up : vertex_property P)
    (hkey : up.key ∉ t.keys) :
    ∃ t1, insert Arity dist std_sort nth_element ch t up = some t1 ∧
      t1.size = t.size + 1 ∧ t1.elems.Perm (up :: t.elems) ∧
      t1.keys.Perm (up.key :: t.keys) ∧ (t.keys.Nodup → t1.keys.Nodup) ∧
      (t.size = 0 → t1.m_tree = some (up, Forest.nil) ∧ t1.m_root = some []) := by
  obtain ⟨t1, hE, hp, _, h0⟩ := insert_spec Arity dist std_sort nth_element ch hA hsort hnth
    hch t hr up
  have hk : t1.keys.Perm (up.key :: t.keys) := List.Perm.map _ hp
  refine ⟨t1, hE, ?_, hp, hk, ?_, h0⟩
  · have := size_eq_of_perm t1 t [up] (by simpa using hp)
    simp only [List.length_singleton] at this
    omega
  · intro hnd
    exact (List.Perm.nodup_iff hk).mpr (List.nodup_cons.mpr ⟨hkey, hnd⟩)

/-- Witness of C8: a third point is inserted into a tree of two points of the line. -/
theorem insert_adds_exactly_one_witness :
    ∃ t1, insert 2 line_dist insertion_sort nth_by_sort first_chooser
        ⟨some (⟨1, 0⟩, Forest.cons 5 ⟨2, 5⟩ Forest.nil Forest.nil), some []⟩ ⟨3, 9⟩ = some t1 ∧
      t1.size = (dvp_tree_impl.mk (some ((⟨1, 0⟩ : vertex_property Int),
        Forest.cons 5 ⟨2, 5⟩ Forest.nil Forest.nil)) (some [])).size + 1 ∧
      t1.elems.Perm ((⟨3, 9⟩ : vertex_property Int) :: (dvp_tree_impl.mk (some (⟨1, 0⟩,
        Forest.cons 5 ⟨2, 5⟩ Forest.nil Forest.nil)) (some [])).elems) ∧
      t1.keys.Perm ((3 : Int) :: (dvp_tree_impl.mk (some ((⟨1, 0⟩ : vertex_property Int),
        Forest.cons 5 ⟨2, 5⟩ Forest.nil Forest.nil)) (some [])).keys) ∧
      ((dvp_tree_impl.mk (some ((⟨1, 0⟩ : vertex_property Int),
        Forest.cons 5 ⟨2, 5⟩ Forest.nil Forest.nil)) (some [])).keys.Nodup → t1.keys.Nodup) ∧
      ((dvp_tree_impl.mk (some ((⟨1, 0⟩ : vertex_property Int),
        Forest.cons 5 ⟨2, 5⟩ Forest.nil Forest.nil)) (some [])).size = 0 →
        t1.m_tree = some (⟨3, 9⟩, Forest.nil) ∧ t1.m_root = some []) :=
  insert_adds_exactly_one 2 line_dist insertion_sort nth_by_sort first_chooser
    (by decide) insertion_sort_spec nth_by_sort_spec first_chooser_ok
    ⟨some (⟨1, 0⟩, Forest.cons 5 ⟨2, 5⟩ Forest.nil Forest.nil), some []⟩ rfl ⟨3, 9⟩
    (by decide)

/-- C9. Erase removes exactly the requested element: on every non-empty tree (its stored
root consistent with its storage, the arity at least one) and for every vertex `v` of the
tree, holding the element `ev`, `erase(v)` ends; afterwards the size is one less, the
elements are those of the tree without `ev`, the keys are those of the tree without the
key of `ev` (which is no longer a key if the keys were pairwise distinct); and erasing the
only element leaves an empty tree. -/
theorem erase_removes_exactly_the_requested_element (Arity : Nat) (dist : P → P → Int)
    (std_sort : (vertex_property P → vertex_property P → Bool) →
      List (vertex_property P) → List (vertex_property P))
    (nth_element : (vertex_property P → vertex_property P → Bool) →
      List (vertex_property P) → Nat → List (vertex_property P))
    (ch : List (vertex_property P) → Nat)
    (hA : 0 < Arity) (hsort : SortSpec std_sort) (hnth : NthSpec nth_element)
    (hch : ChooserOK ch) (t : dvp_tree_impl P) (hr : Rooted t) (v : vertex_type)
    (ev : vertex_property P) (cv : Forest P) (hv : vertex_at t.m_tree v = some (ev, cv)) :
    ∃ t1, erase Arity dist std_sort nth_element ch t v = some t1 ∧
      t1.size + 1 = t.size ∧ (ev :: t1.elems).Perm t.elems ∧
      (ev.key :: t1.keys).Perm t.keys ∧ (t.keys.Nodup → ev.key ∉ t1.keys ∧ t1.keys.Nodup) ∧
      (t.size = 1 → t1.size = 0 ∧ t1.empty = true ∧ t1.m_root = none) := by
  obtain ⟨t1, hE, hp, hr1, h0⟩ := erase_spec Arity dist std_sort nth_element ch hA hsort hnth
    hch t hr v ev cv hv
  have hk : (ev.key :: t1.keys).Perm t.keys := List.Perm.map (fun x : vertex_property P => x.key) hp
  refine ⟨t1, hE, ?_, hp, hk, ?_, ?_⟩
  · rw [← elems_length_eq_size, ← elems_length_eq_size, ← hp.length_eq]
    rfl
  · intro hnd
    exact List.nodup_cons.mp ((List.Perm.nodup_iff hk).mpr hnd)
  · intro h1
    have hnone := h0 h1
    have hroot : t1.m_root = none := by
      have := hr1
      simp only [Rooted, hnone] at this
      exact this
    simp [dvp_tree_impl.size, dvp_tree_impl.empty, hnone, num_vertices, hroot]

/-- Witness of C9: the leaf of a tree of two points of the line is erased. -/
theorem erase_removes_exactly_the_requested_element_witness :
    ∃ t1, erase 2 line_dist insertion_sort nth_by_sort first_chooser
        ⟨some (⟨1, 0⟩, Forest.cons 5 ⟨2, 5⟩ Forest.nil Forest.nil), some []⟩ [0] = some t1 ∧
      t1.size + 1 = (dvp_tree_impl.mk (some ((⟨1, 0⟩ : vertex_property Int),
        Forest.cons 5 ⟨2, 5⟩ Forest.nil Forest.nil)) (some [])).size ∧
      ((⟨2, 5⟩ : vertex_property Int) :: t1.elems).Perm (dvp_tree_impl.mk (some (⟨1, 0⟩,
        Forest.cons 5 ⟨2, 5⟩ Forest.nil Forest.nil)) (some [])).elems ∧
      ((2 : Int) :: t1.keys).Perm (dvp_tree_impl.mk (some ((⟨1, 0⟩ : vertex_property Int),
        Forest.cons 5 ⟨2, 5⟩ Forest.nil Forest.nil)) (some [])).keys ∧
      ((dvp_tree_impl.mk (some ((⟨1, 0⟩ : vertex_property Int),
        Forest.cons 5 ⟨2, 5⟩ Forest.nil Forest.nil)) (some [])).keys.Nodup →
        (2 : Int) ∉ t1.keys ∧ t1.keys.Nodup) ∧
      ((dvp_tree_impl.mk (some ((⟨1, 0⟩ : vertex_property Int),
        Forest.cons 5 ⟨2, 5⟩ Forest.nil Forest.nil)) (some [])).size = 1 →
        t1.size = 0 ∧ t1.empty = true ∧ t1.m_root = none) :=
  erase_removes_exactly_the_requested_element 2 line_dist insertion_sort nth_by_sort
    first_chooser (by decide) insertion_sort_spec nth_by_sort_spec first_chooser_ok
    ⟨some (⟨1, 0⟩, Forest.cons 5 ⟨2, 5⟩ Forest.nil Forest.nil), some []⟩ rfl [0]
    ⟨2, 5⟩ Forest.nil rfl

theorem exists_vertex_of_mem (t : dvp_tree_impl P) (x : vertex_property P)
    (hx : x ∈ t.elems) : ∃ v c, vertex_at t.m_tree v = some (x, c) := by
  obtain ⟨tree, root⟩ := t
  cases tree with
  | none => simp [dvp_tree_impl.elems] at hx
  | some y =>
    obtain ⟨r, cs⟩ := y
    simp only [dvp_tree_impl.elems, List.mem_cons] at hx
    rcases hx with h | h
    · exact ⟨[], cs, by simp [vertex_at, Forest.nodeAt, h]⟩
    · obtain ⟨i, p, c1, hp⟩ := Forest.exists_path_of_mem cs x h
      exact ⟨i :: p, c1, hp r⟩

theorem mem_elems_of_vertex (t : dvp_tree_impl P) (v : vertex_type) (x : vertex_property P)
    (c : Forest P) (hv : vertex_at t.m_tree v = some (x, c)) : x ∈ t.elems := by
  obtain ⟨tree, root⟩ := t
  cases tree with
  | none => simp [vertex_at] at hv
  | some y =>
    obtain ⟨r, cs⟩ := y
    simp only [vertex_at] at hv
    simp only [dvp_tree_impl.elems]
    clear root
    induction v generalizing r cs with
    | nil =>
      simp only [Forest.nodeAt, Option.some.injEq, Prod.mk.injEq] at hv
      rw [hv.1]
      exact List.mem_cons_self _ _
    | cons i p ih =>
      simp only [Forest.nodeAt] at hv
      cases hs : cs.slot i with
      | none => simp [hs] at hv
      | some z =>
        obtain ⟨m, v1, c1⟩ := z
        simp only [hs] at hv
        have h1 := ih v1 c1 hv
        have h2 := (Forest.elems_clear cs i m v1 c1 hs).subset
          (List.mem_append_left _ h1)
        exact List.mem_cons_of_mem _ h2

/-- C10. Insert-then-erase round trip: on every tree (its stored root consistent with its
storage, the arity at least one) and for every element `up` whose key is not in the tree,
`insert(up)` ends with a tree that has a vertex holding `up`, and erasing any vertex of
that tree whose key is the key of `up` ends with a tree that has the elements, and so the
keys, of the original tree (up to the order in which they are listed). -/
theorem insert_then_erase_round_trip (Arity : Nat) (dist : P → P → Int)
    (std_sort : (vertex_property P → vertex_property P → Bool) →
      List (vertex_property P) → List (vertex_property P))
    (nth_element : (vertex_property P → vertex_property P → Bool) →
      List (vertex_property P) → Nat → List (vertex_property P))
    (ch : List (vertex_property P) → Nat)
    (hA : 0 < Arity) (hsort : SortSpec std_sort) (hnth : NthSpec nth_element)
    (hch : ChooserOK ch) (t : dvp_tree_impl P) (hr : Rooted t) (up : vertex_property P)
    (hkey : up.key ∉ t.keys) :
    ∃ t1, insert Arity dist std_sort nth_element ch t up = some t1 ∧
      (∃ v c, vertex_at t1.m_tree v = some (up, c)) ∧
      ∀ v ev cv, vertex_at t1.m_tree v = some (ev, cv) → ev.key = up.key →
        ∃ t2, erase Arity dist std_sort nth_element ch t1 v = some t2 ∧
          t2.elems.Perm t.elems ∧ t2.keys.Perm t.keys := by
  obtain ⟨t1, hE, hp, hr1, _⟩ := insert_spec Arity dist std_sort nth_element ch hA hsort hnth
    hch t hr up
  refine ⟨t1, hE, exists_vertex_of_mem t1 up (hp.symm.subset (List.mem_cons_self _ _)), ?_⟩
  intro v ev cv hv hkv
  obtain ⟨t2, hE2, hp2, _, _⟩ := erase_spec Arity dist std_sort nth_element ch hA hsort hnth
    hch t1 hr1 v ev cv hv
  have hev : ev = up := by
    have h1 : ev ∈ up :: t.elems := hp.subset (mem_elems_of_vertex t1 v ev cv hv)
    rcases List.mem_cons.mp h1 with h | h
    · exact h
    · exfalso
      apply hkey
      rw [← hkv]
      exact List.mem_map_of_mem _ h
  subst hev
  have h3 : t2.elems.Perm t.elems := (List.Perm.cons_inv (hp2.trans hp))
  exact ⟨t2, hE2, h3, List.Perm.map _ h3⟩

/-- Witness of C10: a third point is inserted into a tree of two points of the line, and
erased again. -/
theorem insert_then_erase_round_trip_witness :
    ∃ t1, insert 2 line_dist insertion_sort nth_by_sort first_chooser
        ⟨some (⟨1, 0⟩, Forest.cons 5 ⟨2, 5⟩ Forest.nil Forest.nil), some []⟩ ⟨3, 9⟩ = some t1 ∧
      (∃ v c, vertex_at t1.m_tree v = some (⟨3, 9⟩, c)) ∧
      ∀ v ev cv, vertex_at t1.m_tree v = some (ev, cv) →
        ev.key = (⟨3, 9⟩ : vertex_property Int).key →
        ∃ t2, erase 2 line_dist insertion_sort nth_by_sort first_chooser t1 v = some t2 ∧
          t2.elems.Perm (dvp_tree_impl.mk (some ((⟨1, 0⟩ : vertex_property Int),
            Forest.cons 5 ⟨2, 5⟩ Forest.nil Forest.nil)) (some [])).elems ∧
          t2.keys.Perm (dvp_tree_impl.mk (some ((⟨1, 0⟩ : vertex_property Int),
            Forest.cons 5 ⟨2, 5⟩ Forest.nil Forest.nil)) (some [])).keys :=
  insert_then_erase_round_trip 2 line_dist insertion_sort nth_by_sort first_chooser
    (by decide) insertion_sort_spec nth_by_sort_spec first_chooser_ok
    ⟨some (⟨1, 0⟩, Forest.cons 5 ⟨2, 5⟩ Forest.nil Forest.nil), some []⟩ rfl ⟨3, 9⟩
    (by decide)

/-! ### The invariant of the slots under a change along a path -/

namespace Forest

theorem elems_eq_nil_of_slots_none (c : Forest P) (h : ∀ k, c.slot k = none) :
    c.elems = [] := by
  induction c with
  | nil => rfl
  | cons m v ch r _ _ => simpa [slot] using h 0
  | hole r ih =>
    simp only [elems]
    exact ih (fun k => by simpa [slot] using h (k + 1))

theorem mem_elems_of_slot (cs : Forest P) (j : Nat) (m : Int) (v : vertex_property P)
    (c : Forest P) (hs : cs.slot j = some (m, v, c)) (x : vertex_property P)
    (hx : x ∈ v :: c.elems) : x ∈ cs.elems :=
  (elems_clear cs j m v c hs).subset (List.mem_append_left _ hx)

theorem ok_noHoles (A : Nat) (dist : P → P → Int) (b : Prop) (pp : P) (cs : Forest P)
    (h : Ok A dist b pp cs) : cs.NoHoles := by
  induction cs generalizing pp with
  | nil => trivial
  | cons m v c r ihc ihr => exact ⟨ihc v.pos h.2.2.2.1, ihr pp h.2.2.2.2⟩
  | hole r _ => exact h

theorem ok_of_parts (A : Nat) (dist : P → P → Int) (b : Prop) (pp : P) (cs : Forest P)
    (h1 : cs.NoHoles) (h2 : cs.AllKids (fun c => c.degree ≤ A)) (h3 : cs.SortedAll)
    (h4 : b → cs.Inv dist pp) : Ok A dist b pp cs := by
  induction cs generalizing pp with
  | nil => trivial
  | cons m v c r ihc ihr =>
    refine ⟨h2.1, h3.1, fun hb => ⟨(h4 hb).1, (h4 hb).2.1⟩,
      ihc v.pos h1.1 h2.2.1 h3.2.1 (fun hb => (h4 hb).2.2.1),
      ihr pp h1.2 h2.2.2 h3.2.2 (fun hb => (h4 hb).2.2.2)⟩
  | hole r _ => exact h1

theorem ok_slot (A : Nat) (dist : P → P → Int) (b : Prop) (pp : P) (cs : Forest P)
    (j : Nat) (m : Int) (v : vertex_property P) (c : Forest P)
    (hok : Ok A dist b pp cs) (hs : cs.slot j = some (m, v, c)) :
    c.degree ≤ A ∧ Ok A dist b v.pos c ∧
      (b → ∀ x ∈ v :: c.elems, dist pp x.pos ≤ m) := by
  induction cs generalizing j with
  | nil => simp [slot] at hs
  | cons m0 v0 c0 r0 _ ihr =>
    cases j with
    | zero =>
      simp only [slot, Option.some.injEq, Prod.mk.injEq] at hs
      obtain ⟨rfl, rfl, rfl⟩ := hs
      exact ⟨hok.1, hok.2.2.2.1, fun hb => (hok.2.2.1 hb).1⟩
    | succ j =>
      have hs1 : r0.slot j = some (m, v, c) := by simpa [slot] using hs
      exact ihr j hok.2.2.2.2 hs1
  | hole r _ => exact absurd hok (by simp [Ok])

theorem mem_elems_updSlot
    (h : Int → vertex_property P → Forest P → Int × vertex_property P × Forest P)
    (cs : Forest P) (j : Nat) (x : vertex_property P) (hx : x ∈ (updSlot h j cs).elems) :
    x ∈ cs.elems ∨ ∃ m v c, cs.slot j = some (m, v, c) ∧
      x ∈ (h m v c).2.1 :: (h m v c).2.2.elems := by
  induction cs generalizing j with
  | nil => cases j <;> simp [updSlot, elems] at hx
  | cons m0 v0 c0 r0 _ ihr =>
    cases j with
    | zero =>
      simp only [updSlot, elems, List.mem_cons, List.mem_append] at hx
      rcases hx with hx | hx | hx
      · exact Or.inr ⟨m0, v0, c0, rfl, by simp [hx]⟩
      · exact Or.inr ⟨m0, v0, c0, rfl, by simp [hx]⟩
      · left; simp [elems, hx]
    | succ j =>
      simp only [updSlot, elems, List.mem_cons, List.mem_append] at hx
      rcases hx with hx | hx | hx
      · left; simp [elems, hx]
      · left; simp [elems, hx]
      · rcases ihr j hx with h1 | ⟨m, v, c, h1, h2⟩
        · left; simp [elems, h1]
        · exact Or.inr ⟨m, v, c, by simpa [slot] using h1, h2⟩
  | hole r ih =>
    cases j with
    | zero => left; simpa [updSlot] using hx
    | succ j =>
      simp only [updSlot, elems] at hx
      rcases ih j hx with h1 | ⟨m, v, c, h1, h2⟩
      · left; simpa [elems] using h1
      · exact Or.inr ⟨m, v, c, by simpa [slot] using h1, h2⟩

theorem degree_updSlot
    (h : Int → vertex_property P → Forest P → Int × vertex_property P × Forest P)
    (cs : Forest P) (j : Nat) : (updSlot h j cs).degree = cs.degree := by
  induction cs generalizing j with
  | nil => cases j <;> rfl
  | cons m0 v0 c0 r0 _ ihr =>
    cases j with
    | zero => rfl
    | succ j => simp [updSlot, degree, ihr j]
  | hole r ih =>
    cases j with
    | zero => rfl
    | succ j => simp [updSlot, degree, ih j]

/-- The invariant is kept when the content of a slot is replaced in a way that respects the
order of the slots. -/
theorem ok_updSlot (A : Nat) (dist : P → P → Int) (b : Prop) (N : List (vertex_property P))
    (h : Int → vertex_property P → Forest P → Int × vertex_property P × Forest P)
    (cs : Forest P) (j : Nat) (pp : P) (m : Int) (v : vertex_property P) (c : Forest P)
    (hs : cs.slot j = some (m, v, c)) (hok : Ok A dist b pp cs)
    (hstep : StepOK dist b N pp cs j m (h m v c).1)
    (hdeg : (h m v c).2.2.degree ≤ A)
    (hsub : Ok A dist b (h m v c).2.1.pos (h m v c).2.2)
    (hel : ∀ x ∈ (h m v c).2.1 :: (h m v c).2.2.elems, x ∈ N ∨ x ∈ v :: c.elems) :
    Ok A dist b pp (updSlot h j cs) := by
  induction cs generalizing j with
  | nil => simp [slot] at hs
  | cons m0 v0 c0 r0 _ ihr =>
    obtain ⟨s1, s2, s3⟩ := hstep
    cases j with
    | zero =>
      simp only [slot, Option.some.injEq, Prod.mk.injEq] at hs
      obtain ⟨rfl, rfl, rfl⟩ := hs
      have hnone : (h m0 v0 c0).1 ≠ m0 → ∀ k, r0.slot k = none := by
        intro hne k
        rcases s2 with e | e
        · exact absurd e hne
        · simpa [slot] using e (k + 1) (by omega)
      refine ⟨hdeg, ?_, ?_, hsub, hok.2.2.2.2⟩
      · intro k y hy
        by_cases hne : (h m0 v0 c0).1 = m0
        · rw [hne]; exact hok.2.1 k y hy
        · rw [hnone hne k] at hy
          simp at hy
      · intro hb
        constructor
        · intro x hx
          rcases hel x hx with hN | hO
          · exact (s3 hb x hN).1
          · exact le_trans ((hok.2.2.1 hb).1 x hO) s1
        · intro y hy
          by_cases hne : (h m0 v0 c0).1 = m0
          · rw [hne]; exact (hok.2.2.1 hb).2 y hy
          · rw [elems_eq_nil_of_slots_none r0 (hnone hne)] at hy
            simp at hy
    | succ j =>
      have hs1 : r0.slot j = some (m, v, c) := by simpa [slot] using hs
      refine ⟨hok.1, ?_, ?_, hok.2.2.2.1, ?_⟩
      · intro k y hy
        by_cases hk : j = k
        · subst hk
          rw [slot_updSlot_same, hs1] at hy
          simp only [Option.map_some', Option.some.injEq] at hy
          rw [← hy]
          exact le_trans (hok.2.1 j _ hs1) s1
        · rw [slot_updSlot_ne h r0 j k hk] at hy
          exact hok.2.1 k y hy
      · intro hb
        refine ⟨(hok.2.2.1 hb).1, ?_⟩
        intro y hy
        rcases mem_elems_updSlot h r0 j y hy with h1 | ⟨m1, v1, c1, h1, h2⟩
        · exact (hok.2.2.1 hb).2 y h1
        · rw [hs1] at h1
          simp only [Option.some.injEq, Prod.mk.injEq] at h1
          obtain ⟨rfl, rfl, rfl⟩ := h1
          rcases hel y h2 with hN | hO
          · exact (s3 hb y hN).2 0 (m0, v0, c0) (by omega) rfl
          · exact (hok.2.2.1 hb).2 y (mem_elems_of_slot r0 j m v c hs1 y hO)
      · apply ihr j hs1 hok.2.2.2.2
        refine ⟨s1, ?_, ?_⟩
        · rcases s2 with e | e
          · exact Or.inl e
          · right
            intro k hk
            simpa [slot] using e (k + 1) (by omega)
        · intro hb x hx
          refine ⟨(s3 hb x hx).1, ?_⟩
          intro k y hk hy
          exact (s3 hb x hx).2 (k + 1) y (by omega) (by simpa [slot] using hy)
  | hole r _ => exact absurd hok (by simp [Ok])

/-- The invariant is kept by a change along a path whose steps respect the order of the
slots, when the change at the end of the path keeps it. -/
theorem ok_pathMap (A : Nat) (dist : P → P → Int) (b : Prop) (β : P → Int → Int)
    (g : P → Forest P → Forest P) (N : List (vertex_property P)) :
    ∀ (w : List Nat) (r : vertex_property P) (cs : Forest P) (vw : vertex_property P)
      (cw : Forest P), nodeAt r cs w = some (vw, cw) → Ok A dist b r.pos cs →
      cs.degree ≤ A → StepsOK dist b β N r.pos cs w →
      Ok A dist b vw.pos (g vw.pos cw) → (g vw.pos cw).degree ≤ A →
      (∀ x ∈ (g vw.pos cw).elems, x ∈ N ∨ x ∈ cw.elems) →
      Ok A dist b r.pos (pathMap β g r.pos w cs) ∧ (pathMap β g r.pos w cs).degree ≤ A ∧
        ∀ x ∈ (pathMap β g r.pos w cs).elems, x ∈ N ∨ x ∈ cs.elems := by
  intro w
  induction w with
  | nil =>
    intro r cs vw cw hn hok hdeg _ h1 h2 h3
    simp only [nodeAt, Option.some.injEq, Prod.mk.injEq] at hn
    obtain ⟨rfl, rfl⟩ := hn
    exact ⟨h1, h2, h3⟩
  | cons j rest ih =>
    intro r cs vw cw hn hok hdeg hsteps h1 h2 h3
    obtain ⟨m, v, c, hs, hstep, hrest⟩ := hsteps
    simp only [nodeAt, hs] at hn
    obtain ⟨d1, d2, _⟩ := ok_slot A dist b r.pos cs j m v c hok hs
    obtain ⟨i1, i2, i3⟩ := ih v c vw cw hn d2 d1 hrest h1 h2 h3
    simp only [pathMap]
    refine ⟨?_, ?_, ?_⟩
    · apply ok_updSlot A dist b N _ cs j r.pos m v c hs hok hstep i2 i1
      intro x hx
      rcases List.mem_cons.mp hx with hx | hx
      · right; rw [hx]; exact List.mem_cons_self _ _
      · rcases i3 x hx with hN | hO
        · exact Or.inl hN
        · exact Or.inr (List.mem_cons_of_mem _ hO)
    · rw [degree_updSlot]; exact hdeg
    · intro x hx
      rcases mem_elems_updSlot _ cs j x hx with e | ⟨m1, v1, c1, e1, e2⟩
      · exact Or.inr e
      · rw [hs] at e1
        simp only [Option.some.injEq, Prod.mk.injEq] at e1
        obtain ⟨rfl, rfl, rfl⟩ := e1
        rcases List.mem_cons.mp e2 with hx | hx
        · right
          rw [hx]
          exact mem_elems_of_slot cs j m v c hs v (List.mem_cons_self _ _)
        · rcases i3 x hx with hN | hO
          · exact Or.inl hN
          · exact Or.inr (mem_elems_of_slot cs j m v c hs x (List.mem_cons_of_mem _ hO))

theorem descend_eq_pathMap (dist : P → P → Int) (q : P) (g : P → Forest P → Forest P)
    (pp : P) (w : List Nat) (cs : Forest P) :
    descend dist q g pp w cs = pathMap (fun pp1 m => max m (dist q pp1)) g pp w cs := by
  induction w generalizing pp cs with
  | nil => rfl
  | cons i w ih =>
    simp only [descend, pathMap]
    apply updSlot_congr
    intro m v c _
    rw [ih]

theorem modifyAt_eq_pathMap (g : Forest P → Forest P) (pp : P) (w : List Nat)
    (cs : Forest P) :
    modifyAt g w cs = pathMap (fun _ m => m) (fun _ => g) pp w cs := by
  induction w generalizing pp cs with
  | nil => rfl
  | cons i w ih =>
    simp only [modifyAt, pathMap]
    rw [mapSlot_eq_updSlot]
    apply updSlot_congr
    intro m v c _
    rw [ih v.pos]

theorem add_clear_eq_updSlot (e : Int) (vp : vertex_property P) (sub cw : Forest P) (i : Nat)
    (hn : cw.NoHoles) (hs : (cw.slot i).isSome = true) :
    add e vp sub (clear i cw) = updSlot (fun _ _ _ => (e, vp, sub)) i cw := by
  induction cw generalizing i with
  | nil => simp [slot] at hs
  | cons m v c r _ ihr =>
    cases i with
    | zero => rfl
    | succ i =>
      simp only [clear, add, updSlot]
      rw [ihr i hn.2 (by simpa [slot] using hs)]
  | hole r _ => exact absurd hn (by simp [NoHoles])

end Forest

/-! ### The order of the radii in the built subtrees -/

namespace Forest

theorem slot_leafKids (dm : Int → Int) (l : List (vertex_property P)) (k : Nat)
    (y : Int × vertex_property P × Forest P) (h : (leafKids dm l).slot k = some y) :
    ∃ z ∈ l, y.1 = dm z.key := by
  induction l generalizing k with
  | nil => simp [leafKids, slot] at h
  | cons x l ih =>
    cases k with
    | zero =>
      simp only [leafKids, slot, Option.some.injEq] at h
      exact ⟨x, List.mem_cons_self _ _, by rw [← h]⟩
    | succ k =>
      obtain ⟨z, hz, e⟩ := ih k (by simpa [leafKids, slot] using h)
      exact ⟨z, List.mem_cons_of_mem _ hz, e⟩

theorem sortedAll_leafKids (dm : Int → Int) (l : List (vertex_property P))
    (hs : l.Pairwise (fun a b => dm a.key ≤ dm b.key)) : (leafKids dm l).SortedAll := by
  induction l with
  | nil => trivial
  | cons x l ih =>
    rw [List.pairwise_cons] at hs
    refine ⟨?_, trivial, ih hs.2⟩
    intro k y hy
    obtain ⟨z, hz, e⟩ := slot_leafKids dm l k y hy
    rw [e]
    exact hs.1 z hz

end Forest

theorem sorted_ofKids (Arity : Nat) (dist : P → P → Int) (f : vertex_property P → Int)
    (parts : List (construction_task P))
    (kids : List (Int × vertex_property P × Forest P))
    (hF : List.Forall₂ (fun (τ : construction_task P) k =>
      τ.edge_dist = k.1 ∧ Built2 Arity dist τ.range k.2.1 k.2.2) parts kids)
    (hok : PartsOK f parts) :
    (Forest.ofKids kids).SortedAll ∧
      ∀ j y, (Forest.ofKids kids).slot j = some y → ∃ x ∈ all_ranges parts, f x ≤ y.1 := by
  induction hF with
  | nil => exact ⟨trivial, fun j y h => by simp [Forest.ofKids, Forest.slot] at h⟩
  | @cons τ k parts kids hx _ ih =>
    obtain ⟨hmu, hbuilt, hsorted⟩ := hx
    obtain ⟨hle, hge, hok1⟩ := hok
    obtain ⟨ih1, ih2⟩ := ih hok1
    refine ⟨⟨?_, hsorted, ih1⟩, ?_⟩
    · intro j y hy
      obtain ⟨x, hx1, hx2⟩ := ih2 j y hy
      rw [← hmu]
      exact le_trans (hge x hx1) hx2
    · intro j y hy
      cases j with
      | zero =>
        simp only [Forest.ofKids, Forest.slot, Option.some.injEq] at hy
        have hmem : k.2.1 ∈ τ.range := hbuilt.1.subset (List.mem_cons_self _ _)
        refine ⟨k.2.1, by simp [all_ranges, hmem], ?_⟩
        rw [← hy]
        simp only
        rw [← hmu]
        exact hle _ hmem
      | succ j =>
        obtain ⟨x, hx1, hx2⟩ := ih2 j y (by simpa [Forest.ofKids, Forest.slot] using hy)
        exact ⟨x, by simp [all_ranges, hx1], hx2⟩

/-- The subtrees built by `construct_node`, with the order of their radii, are closed under
an iteration of its loop. -/
theorem built2_step_closed (Arity : Nat) (dist : P → P → Int)
    (std_sort : (vertex_property P → vertex_property P → Bool) →
      List (vertex_property P) → List (vertex_property P))
    (nth_element : (vertex_property P → vertex_property P → Bool) →
      List (vertex_property P) → Nat → List (vertex_property P))
    (ch : List (vertex_property P) → Nat)
    (hA : 0 < Arity) (hsort : SortSpec std_sort) (hnth : NthSpec nth_element) :
    StepClosed Arity dist std_sort nth_element ch (Built2 Arity dist) := by
  intro range dm vp hvp
  have hB := built_step_closed Arity dist std_sort nth_element ch hA hsort hnth range dm vp hvp
  constructor
  · intro hleaf
    refine ⟨hB.1 hleaf, ?_⟩
    obtain ⟨_, hss⟩ := hsort
      (fun x => Function.update (fill_dist_map dist vp.pos dm range) vp.key 0 x.key)
      (swap_front range (ch range)).tail
    rw [closer_eq] at hss
    exact Forest.sortedAll_leafKids _ _ hss
  · intro hnode cur kids hF
    refine ⟨hB.2 hnode cur kids (hF.imp (fun _ _ h => ⟨h.1, h.2.1⟩)), ?_⟩
    obtain ⟨_, _, hok⟩ := partition_loop_parts nth_element hnth
      (Function.update (fill_dist_map dist vp.pos dm range) vp.key 0) cur Arity
      (swap_front range (ch range)).tail (by omega) (Or.inl hA)
    exact (sorted_ofKids Arity dist _ _ _ hF hok).1

theorem built2_ok (Arity : Nat) (dist : P → P → Int) (b : Prop)
    (range : List (vertex_property P)) (vp : vertex_property P) (cs : Forest P)
    (h : Built2 Arity dist range vp cs) (hb : b → (range.map (fun x => x.key)).Nodup) :
    cs.degree ≤ Arity ∧ cs.Ok Arity dist b vp.pos := by
  obtain ⟨⟨_, h2, h3, h4, h5⟩, h6⟩ := h
  exact ⟨h3, Forest.ok_of_parts Arity dist b vp.pos cs h2 h4 h6 (fun x => h5 (hb x))⟩

theorem insertOutcome_mono (dist : P → P → Int)
    (G1 G2 : List (vertex_property P) → vertex_property P → Forest P → Prop)
    (hG : ∀ range vp sub, G1 range vp sub → G2 range vp sub)
    (r : vertex_property P) (cs : Forest P) (up : vertex_property P) (L : vertex_type)
    (t1 : dvp_tree_impl P) (h : InsertOutcome dist G1 r cs up L t1) :
    InsertOutcome dist G2 r cs up L t1 := by
  rcases h with ⟨vp, sub, hb, e⟩ | ⟨w, i, vw, cw, m, vu, cu, vp, sub, hp, hw, hs, hb, e⟩ | h
  · exact Or.inl ⟨vp, sub, hG _ _ _ hb, e⟩
  · exact Or.inr (Or.inl ⟨w, i, vw, cw, m, vu, cu, vp, sub, hp, hw, hs, hG _ _ _ hb, e⟩)
  · exact Or.inr (Or.inr h)

theorem eraseOutcome_mono
    (G1 G2 : List (vertex_property P) → vertex_property P → Forest P → Prop)
    (hG : ∀ range vp sub, G1 range vp sub → G2 range vp sub)
    (r : vertex_property P) (cs : Forest P) (v : vertex_type)
    (t1 : dvp_tree_impl P) (h : EraseOutcome G1 r cs v t1) : EraseOutcome G2 r cs v t1 := by
  obtain ⟨ev, cv, hv, h⟩ := h
  refine ⟨ev, cv, hv, ?_⟩
  rcases h with h | ⟨range, vp, sub, hp, hb, e⟩ |
    ⟨w, i, vw, cw, m, vu, cu, range, vp, sub, hpre, hw, hs, hp, hb, e⟩
  · exact Or.inl h
  · exact Or.inr (Or.inl ⟨range, vp, sub, hp, hG _ _ _ hb, e⟩)
  · exact Or.inr (Or.inr ⟨w, i, vw, cw, m, vu, cu, range, vp, sub, hpre, hw, hs, hp,
      hG _ _ _ hb, e⟩)

/-! ### Paths that respect the order of the slots -/

namespace Forest

theorem routed_prefix (dist : P → P → Int) (q : P) (p s : List Nat) (pp : P)
    (cs : Forest P) (h : Routed dist q pp cs (p ++ s)) : Routed dist q pp cs p := by
  induction p generalizing pp cs with
  | nil => trivial
  | cons j p ih =>
    obtain ⟨m, v, c, hs, ha, hb, hc⟩ := h
    exact ⟨m, v, c, hs, ha, hb, ih v.pos c hc⟩

theorem stepsOK_of_routed (dist : P → P → Int) (b : Prop) (up : vertex_property P)
    (hsym : b → ∀ a c, dist a c = dist c a) (w : List Nat) (pp : P) (cs : Forest P)
    (h : Routed dist up.pos pp cs w) :
    StepsOK dist b (fun pp1 m => max m (dist up.pos pp1)) [up] pp cs w := by
  induction w generalizing pp cs with
  | nil => trivial
  | cons j w ih =>
    obtain ⟨m, v, c, hs, ha, hb, hc⟩ := h
    refine ⟨m, v, c, hs, ⟨le_max_left _ _, ?_, ?_⟩, ih v.pos c hc⟩
    · rcases hb with hb | hb
      · exact Or.inl (max_eq_left hb)
      · exact Or.inr hb
    · intro hB x hx
      simp only [List.mem_singleton] at hx
      subst hx
      rw [hsym hB pp x.pos]
      refine ⟨le_max_right _ _, ?_⟩
      intro k y hk hy
      exact le_of_lt (ha k hk y hy)

theorem stepsOK_id (dist : P → P → Int) (b : Prop) (w : List Nat) (r : vertex_property P)
    (cs : Forest P) (h : (nodeAt r cs w).isSome = true) :
    StepsOK dist b (fun _ m => m) [] r.pos cs w := by
  induction w generalizing r cs with
  | nil => trivial
  | cons j w ih =>
    simp only [nodeAt] at h
    cases hs : cs.slot j with
    | none => simp [hs] at h
    | some x =>
      obtain ⟨m, v, c⟩ := x
      simp only [hs] at h
      refine ⟨m, v, c, hs, ⟨le_refl _, Or.inl rfl, ?_⟩, ih v c h⟩
      intro _ x hx
      simp at hx

theorem stepsOK_snoc (dist : P → P → Int) (b : Prop) (β : P → Int → Int)
    (N : List (vertex_property P)) (w : List Nat) (i : Nat) (r : vertex_property P)
    (cs : Forest P) (vw : vertex_property P) (cw : Forest P)
    (hn : nodeAt r cs w = some (vw, cw))
    (h : StepsOK dist b β N r.pos cs (w ++ [i])) :
    StepsOK dist b β N r.pos cs w ∧
      ∃ m v c, cw.slot i = some (m, v, c) ∧ StepOK dist b N vw.pos cw i m (β vw.pos m) := by
  induction w generalizing r cs with
  | nil =>
    simp only [nodeAt, Option.some.injEq, Prod.mk.injEq] at hn
    obtain ⟨rfl, rfl⟩ := hn
    obtain ⟨m, v, c, hs, hst, _⟩ := h
    exact ⟨trivial, m, v, c, hs, hst⟩
  | cons j w ih =>
    obtain ⟨m, v, c, hs, hst, hrest⟩ := h
    simp only [nodeAt, hs] at hn
    obtain ⟨h1, h2⟩ := ih v c hn hrest
    exact ⟨⟨m, v, c, hs, hst, h1⟩, h2⟩

theorem ok_nodeAt (A : Nat) (dist : P → P → Int) (b : Prop) (w : List Nat)
    (r : vertex_property P) (cs : Forest P) (vw : vertex_property P) (cw : Forest P)
    (hn : nodeAt r cs w = some (vw, cw)) (hok : Ok A dist b r.pos cs) (hdeg : cs.degree ≤ A) :
    Ok A dist b vw.pos cw ∧ cw.degree ≤ A := by
  induction w generalizing r cs with
  | nil =>
    simp only [nodeAt, Option.some.injEq, Prod.mk.injEq] at hn
    obtain ⟨rfl, rfl⟩ := hn
    exact ⟨hok, hdeg⟩
  | cons j w ih =>
    simp only [nodeAt] at hn
    cases hs : cs.slot j with
    | none => simp [hs] at hn
    | some x =>
      obtain ⟨m, v, c⟩ := x
      simp only [hs] at hn
      obtain ⟨d1, d2, _⟩ := ok_slot A dist b r.pos cs j m v c hok hs
      exact ih v c hn d2 d1

theorem slot_subperm (cs : Forest P) (j : Nat) (m : Int) (v : vertex_property P)
    (c : Forest P) (hs : cs.slot j = some (m, v, c)) : (v :: c.elems).Subperm cs.elems :=
  (List.sublist_append_left _ _).subperm.trans (elems_clear cs j m v c hs).subperm

theorem nodeAt_subperm (w : List Nat) (r : vertex_property P) (cs : Forest P)
    (vw : vertex_property P) (cw : Forest P) (hn : nodeAt r cs w = some (vw, cw)) :
    (vw :: cw.elems).Subperm (r :: cs.elems) := by
  induction w generalizing r cs with
  | nil =>
    simp only [nodeAt, Option.some.injEq, Prod.mk.injEq] at hn
    obtain ⟨rfl, rfl⟩ := hn
    exact List.Subperm.refl _
  | cons j w ih =>
    simp only [nodeAt] at hn
    cases hs : cs.slot j with
    | none => simp [hs] at hn
    | some x =>
      obtain ⟨m, v, c⟩ := x
      simp only [hs] at hn
      exact ((ih v c hn).trans (slot_subperm cs j m v c hs)).trans
        (List.sublist_cons_self _ _).subperm

end Forest

theorem nodup_keys_of_subperm (l1 l2 : List (vertex_property P)) (h : l1.Subperm l2)
    (hnd : (l2.map (fun x => x.key)).Nodup) : (l1.map (fun x => x.key)).Nodup := by
  obtain ⟨l, hp, hs⟩ := h
  exact (List.Perm.nodup_iff (List.Perm.map _ hp)).mp (hnd.sublist (hs.map _))

/-! ### Insertion and deletion keep the invariant -/

/-- The replacement of the subtree below slot `i` keeps the invariant of the slots. -/
theorem ok_replace_slot (A : Nat) (dist : P → P → Int) (b : Prop)
    (N : List (vertex_property P)) (pp : P) (cw : Forest P) (i : Nat) (m : Int)
    (vu : vertex_property P) (cu : Forest P) (e : Int) (vp : vertex_property P)
    (sub : Forest P) (hs : cw.slot i = some (m, vu, cu)) (hok : cw.Ok A dist b pp)
    (hdeg : cw.degree ≤ A) (hstep : Forest.StepOK dist b N pp cw i m e)
    (hsd : sub.degree ≤ A) (hsub : sub.Ok A dist b vp.pos)
    (hel : ∀ x ∈ vp :: sub.elems, x ∈ N ∨ x ∈ vu :: cu.elems) :
    (Forest.add e vp sub (Forest.clear i cw)).Ok A dist b pp ∧
      (Forest.add e vp sub (Forest.clear i cw)).degree ≤ A ∧
      ∀ x ∈ (Forest.add e vp sub (Forest.clear i cw)).elems, x ∈ N ∨ x ∈ cw.elems := by
  rw [Forest.add_clear_eq_updSlot e vp sub cw i (Forest.ok_noHoles A dist b pp cw hok)
    (by rw [hs]; rfl)]
  refine ⟨?_, ?_, ?_⟩
  · exact Forest.ok_updSlot A dist b N _ cw i pp m vu cu hs hok hstep hsd hsub hel
  · rw [Forest.degree_updSlot]; exact hdeg
  · intro x hx
    rcases Forest.mem_elems_updSlot _ cw i x hx with h1 | ⟨m1, v1, c1, h1, h2⟩
    · exact Or.inr h1
    · rcases hel x h2 with hN | hO
      · exact Or.inl hN
      · exact Or.inr (Forest.mem_elems_of_slot cw i m vu cu hs x hO)

theorem ginv_insertOutcome (A : Nat) (dist : P → P → Int) (b : Prop) (hA : 0 < A)
    (hsym : b → ∀ a c, dist a c = dist c a)
    (r : vertex_property P) (cs : Forest P) (up : vertex_property P) (L : vertex_type)
    (t1 : dvp_tree_impl P) (hdeg : cs.degree ≤ A) (hok : cs.Ok A dist b r.pos)
    (hnd : b → ((up :: r :: cs.elems).map (fun x => x.key)).Nodup)
    (hL : Forest.Routed dist up.pos r.pos cs L)
    (hO : InsertOutcome dist (Built2 A dist) r cs up L t1) : GInv A dist b t1 := by
  rcases hO with ⟨vp, sub, hb, rfl⟩ | ⟨w, i, vw, cw, m, vu, cu, vp, sub, hp, hw, hs, hb, rfl⟩ |
    ⟨vl, cl, hl, hd, rfl⟩
  · exact ⟨rfl, built2_ok A dist b _ vp sub hb hnd⟩
  · refine ⟨rfl, ?_⟩
    obtain ⟨s, rfl⟩ := hp
    have hR := Forest.routed_prefix dist up.pos (w ++ [i]) s r.pos cs hL
    obtain ⟨hS, m1, v1, c1, hs1, hstep⟩ := Forest.stepsOK_snoc dist b _ [up] w i r cs vw cw hw
      (Forest.stepsOK_of_routed dist b up hsym (w ++ [i]) r.pos cs hR)
    rw [hs] at hs1
    simp only [Option.some.injEq, Prod.mk.injEq] at hs1
    obtain ⟨rfl, rfl, rfl⟩ := hs1
    obtain ⟨hokw, hdegw⟩ := Forest.ok_nodeAt A dist b w r cs vw cw hw hok hdeg
    have hsp : (up :: vu :: cu.elems).Subperm (up :: r :: cs.elems) :=
      (List.subperm_cons up).mpr (((Forest.slot_subperm cw i m vu cu hs).trans
        (List.sublist_cons_self _ _).subperm).trans (Forest.nodeAt_subperm w r cs vw cw hw))
    obtain ⟨g1, g2⟩ := built2_ok A dist b _ vp sub hb
      (fun hB => nodup_keys_of_subperm _ _ hsp (hnd hB))
    have hel : ∀ x ∈ vp :: sub.elems, x ∈ [up] ∨ x ∈ vu :: cu.elems := by
      intro x hx
      have := hb.1.1.subset hx
      simpa using this
    obtain ⟨e1, e2, e3⟩ := ok_replace_slot A dist b [up] vw.pos cw i m vu cu
      (max m (dist up.pos vw.pos)) vp sub hs hokw hdegw hstep g1 g2 hel
    rw [Forest.descend_eq_pathMap]
    obtain ⟨f1, f2, _⟩ := Forest.ok_pathMap A dist b _
      (fun pp c => Forest.add (max m (dist up.pos pp)) vp sub (Forest.clear i c)) [up]
      w r cs vw cw hw hok hdeg hS e1 e2 e3
    exact ⟨f2, f1⟩
  · refine ⟨rfl, ?_⟩
    obtain ⟨hokl, _⟩ := Forest.ok_nodeAt A dist b L r cs vl cl hl hok hdeg
    have hnil := Forest.eq_nil_of_degree_zero cl hd (Forest.ok_noHoles A dist b vl.pos cl hokl)
    subst hnil
    rw [Forest.descend_eq_pathMap]
    obtain ⟨f1, f2, _⟩ := Forest.ok_pathMap A dist b _
      (fun pp c => Forest.add (dist up.pos pp) up Forest.nil c) [up]
      L r cs vl Forest.nil hl hok hdeg (Forest.stepsOK_of_routed dist b up hsym L r.pos cs hL)
      (by
        refine ⟨Nat.zero_le _, fun k y hy => by simp [Forest.slot] at hy, ?_, trivial, trivial⟩
        intro hB
        refine ⟨?_, fun y hy => by simp [Forest.elems] at hy⟩
        intro x hx
        simp only [Forest.elems, List.append_nil, List.mem_singleton] at hx
        subst hx
        rw [hsym hB])
      (by simp only [Forest.add, Forest.degree]; omega)
      (by
        intro x hx
        left
        simpa [Forest.add, Forest.elems] using hx)
    exact ⟨f2, f1⟩

theorem ginv_eraseOutcome (A : Nat) (dist : P → P → Int) (b : Prop)
    (r : vertex_property P) (cs : Forest P) (v : vertex_type)
    (t1 : dvp_tree_impl P) (hdeg : cs.degree ≤ A) (hok : cs.Ok A dist b r.pos)
    (hnd : b → ((r :: cs.elems).map (fun x => x.key)).Nodup)
    (hO : EraseOutcome (Built2 A dist) r cs v t1) : GInv A dist b t1 := by
  obtain ⟨ev, cv, hv, h⟩ := hO
  rcases h with ⟨_, rfl⟩ | ⟨range, vp, sub, hp, hb, rfl⟩ |
    ⟨w, i, vw, cw, m, vu, cu, range, vp, sub, _, hw, hs, hp, hb, rfl⟩
  · exact ⟨rfl, trivial⟩
  · refine ⟨rfl, built2_ok A dist b _ vp sub hb ?_⟩
    intro hB
    exact nodup_keys_of_subperm _ _
      ((List.sublist_cons_self ev range).subperm.trans hp.subperm) (hnd hB)
  · refine ⟨rfl, ?_⟩
    obtain ⟨hokw, hdegw⟩ := Forest.ok_nodeAt A dist b w r cs vw cw hw hok hdeg
    have hsp : range.Subperm (r :: cs.elems) :=
      (((List.sublist_cons_self ev range).subperm.trans hp.subperm).trans
        (((Forest.slot_subperm cw i m vu cu hs).trans
          (List.sublist_cons_self _ _).subperm).trans
          (Forest.nodeAt_subperm w r cs vw cw hw)))
    obtain ⟨g1, g2⟩ := built2_ok A dist b _ vp sub hb
      (fun hB => nodup_keys_of_subperm _ _ hsp (hnd hB))
    have hel : ∀ x ∈ vp :: sub.elems, x ∈ ([] : List (vertex_property P)) ∨
        x ∈ vu :: cu.elems := by
      intro x hx
      right
      exact hp.subset (List.mem_cons_of_mem _ (hb.1.1.subset hx))
    obtain ⟨e1, e2, e3⟩ := ok_replace_slot A dist b [] vw.pos cw i m vu cu m vp sub hs hokw
      hdegw ⟨le_refl _, Or.inl rfl, fun _ x hx => by simp at hx⟩ g1 g2 hel
    rw [Forest.modifyAt_eq_pathMap _ r.pos]
    obtain ⟨f1, f2, _⟩ := Forest.ok_pathMap A dist b (fun _ m => m)
      (fun _ c => Forest.add m vp sub (Forest.clear i c)) []
      w r cs vw cw hw hok hdeg (Forest.stepsOK_id dist b w r cs (by rw [hw]; rfl)) e1 e2 e3
    exact ⟨f2, f1⟩

/-- Every tree obtained by a bulk construction, insertions and erasures satisfies the
invariant; its metric part holds when the keys are kept distinct and the distance is
symmetric. -/
theorem reachable_inv (Arity : Nat) (dist : P → P → Int)
    (std_sort : (vertex_property P → vertex_property P → Bool) →
      List (vertex_property P) → List (vertex_property P))
    (nth_element : (vertex_property P → vertex_property P → Bool) →
      List (vertex_property P) → Nat → List (vertex_property P))
    (hA : 0 < Arity) (hsort : SortSpec std_sort) (hnth : NthSpec nth_element)
    (d : Bool) (t : dvp_tree_impl P)
    (h : Reachable Arity dist std_sort nth_element d t) :
    GInv Arity dist (d = true ∧ ∀ a c, dist a c = dist c a) t ∧
      (d = true → t.keys.Nodup) := by
  induction h with
  | empty => exact ⟨⟨rfl, trivial⟩, fun _ => List.nodup_nil⟩
  | bulk ch v_bin t hch hnd hfr =>
    cases v_bin with
    | nil =>
      simp only [from_range, Option.some.injEq] at hfr
      subst hfr
      exact ⟨⟨rfl, trivial⟩, fun _ => List.nodup_nil⟩
    | cons x l =>
      obtain ⟨vp, cs, hgood, hE⟩ := construct_node_root Arity dist std_sort nth_element ch
        hnth hch (Built2 Arity dist)
        (built2_step_closed Arity dist std_sort nth_element ch hA hsort hnth)
        ⟨none, none⟩ 0 (x :: l) (by simp)
      simp only [from_range] at hfr
      rw [hE] at hfr
      simp only [Option.some.injEq] at hfr
      subst hfr
      refine ⟨⟨rfl, built2_ok Arity dist _ _ vp cs hgood (fun hB => hnd hB.1)⟩, ?_⟩
      intro hd
      exact (List.Perm.nodup_iff (List.Perm.map _ hgood.1.1)).mpr (hnd hd)
  | insert ch t up t1 hch _ hkey hins ih =>
    obtain ⟨⟨hroot, hg⟩, hkeys⟩ := ih
    obtain ⟨tree, root⟩ := t
    cases tree with
    | none =>
      simp only [insert, num_vertices, if_true, create_root, Option.some.injEq] at hins
      subst hins
      refine ⟨⟨rfl, Nat.zero_le _, trivial⟩, fun _ => ?_⟩
      simp [dvp_tree_impl.keys, dvp_tree_impl.elems, Forest.elems]
    | some x =>
      obtain ⟨r, cs⟩ := x
      have hr0 : root = some [] := hroot
      subst hr0
      obtain ⟨t2, hE, hO⟩ := insert_cases Arity dist std_sort nth_element ch hnth hch
        (Built2 Arity dist)
        (built2_step_closed Arity dist std_sort nth_element ch hA hsort hnth) r cs up
      rw [hE] at hins
      simp only [Option.some.injEq] at hins
      subst hins
      obtain ⟨_, _, _, _, hR⟩ := get_leaf_spec dist up.pos r cs
      obtain ⟨hperm, _⟩ := insertOutcome_elems Arity dist r cs up _ t2
        (insertOutcome_mono dist _ _ (fun _ _ _ hb => hb.1) r cs up _ t2 hO)
      have hnd : d = true → ((up :: r :: cs.elems).map (fun x => x.key)).Nodup := by
        intro hd
        exact List.nodup_cons.mpr ⟨hkey hd, hkeys hd⟩
      refine ⟨ginv_insertOutcome Arity dist _ hA (fun hB => hB.2) r cs up _ t2 hg.1 hg.2
        (fun hB => hnd hB.1) hR hO, ?_⟩
      intro hd
      exact (List.Perm.nodup_iff (List.Perm.map _ hperm)).mpr (hnd hd)
  | erase ch t v t1 hch _ hv her ih =>
    obtain ⟨⟨hroot, hg⟩, hkeys⟩ := ih
    obtain ⟨tree, root⟩ := t
    cases tree with
    | none => simp [vertex_at] at hv
    | some x =>
      obtain ⟨r, cs⟩ := x
      have hr0 : root = some [] := hroot
      subst hr0
      obtain ⟨t2, hE, hO⟩ := erase_cases Arity dist std_sort nth_element ch hnth hch
        (Built2 Arity dist)
        (built2_step_closed Arity dist std_sort nth_element ch hA hsort hnth) r cs v hv
      rw [hE] at her
      simp only [Option.some.injEq] at her
      subst her
      obtain ⟨ev, cv, _, hperm, _, _⟩ := eraseOutcome_elems Arity dist r cs v t2
        (eraseOutcome_mono _ _ (fun _ _ _ hb => hb.1) r cs v t2 hO)
      refine ⟨ginv_eraseOutcome Arity dist _ r cs v t2 hg.1 hg.2 (fun hB => hkeys hB.1) hO, ?_⟩
      intro hd
      have h1 : ((ev :: t2.elems).map (fun x => x.key)).Nodup :=
        (List.Perm.nodup_iff (List.Perm.map _ hperm)).mpr (hkeys hd)
      exact (List.nodup_cons.mp h1).2

/-! ### The invariants of the reachable trees -/

namespace Forest

theorem mem_edges_slot (c : Forest P) (k0 : Nat) (e : Nat × Int) (h : e ∈ c.edges k0) :
    ∃ j y, c.slot j = some y ∧ y.1 = e.2 := by
  induction c generalizing k0 with
  | nil => simp [edges] at h
  | cons m v ch r _ ihr =>
    simp only [edges, List.mem_cons] at h
    rcases h with h | h
    · exact ⟨0, (m, v, ch), rfl, by rw [h]⟩
    · obtain ⟨j, y, h1, h2⟩ := ihr (k0 + 1) h
      exact ⟨j + 1, y, by simpa [slot] using h1, h2⟩
  | hole r ih =>
    obtain ⟨j, y, h1, h2⟩ := ih (k0 + 1) (by simpa [edges] using h)
    exact ⟨j + 1, y, by simpa [slot] using h1, h2⟩

theorem edges_sorted (A : Nat) (dist : P → P → Int) (b : Prop) (pp : P) (c : Forest P)
    (k0 : Nat) (h : Ok A dist b pp c) :
    ((c.edges k0).map (fun e => e.2)).Pairwise (fun x y => x ≤ y) := by
  induction c generalizing k0 with
  | nil => simp [edges]
  | cons m v ch r _ ihr =>
    simp only [edges, List.map_cons, List.pairwise_cons]
    refine ⟨?_, ihr (k0 + 1) h.2.2.2.2⟩
    intro x hx
    obtain ⟨e, he, rfl⟩ := List.mem_map.mp hx
    obtain ⟨j, y, h1, h2⟩ := mem_edges_slot r (k0 + 1) e he
    rw [← h2]
    exact h.2.1 j y h1
  | hole r _ => exact absurd h (by simp [Ok])

end Forest

theorem example_tree_reachable (d : Bool) :
    Reachable 2 line_dist insertion_sort nth_by_sort d example_tree :=
  Reachable.bulk first_chooser example_points example_tree first_chooser_ok
    (fun _ => by decide) rfl

/-- C4. Partition-radius invariant: in every tree obtained from the empty tree or from a
bulk construction by insertions and erasures that keep the keys pairwise distinct, under a
symmetric distance (and an arity of at least one), for every non-root vertex `n` with
parent `u` and every element `p` stored in the subtree of `n` (`n` included), the distance
from the position of `u` to the position of `p` is at most the radius on the edge from `u`
to `n`. -/
theorem partition_radius_invariant (Arity : Nat) (dist : P → P → Int)
    (std_sort : (vertex_property P → vertex_property P → Bool) →
      List (vertex_property P) → List (vertex_property P))
    (nth_element : (vertex_property P → vertex_property P → Bool) →
      List (vertex_property P) → Nat → List (vertex_property P))
    (hA : 0 < Arity) (hsort : SortSpec std_sort) (hnth : NthSpec nth_element)
    (hsym : ∀ a c, dist a c = dist c a) (t : dvp_tree_impl P)
    (h : Reachable Arity dist std_sort nth_element true t)
    (n : vertex_type) (hn : n ≠ []) (u : vertex_property P) (uc : Forest P)
    (hu : vertex_at t.m_tree (parent_of n) = some (u, uc))
    (p : vertex_property P) (hp : p ∈ subtree_elems t.m_tree n) :
    dist u.pos p.pos ≤ in_edge_mu t.m_tree n := by
  obtain ⟨⟨_, hg⟩, _⟩ := reachable_inv Arity dist std_sort nth_element hA hsort hnth true t h
  obtain ⟨tree, root⟩ := t
  cases tree with
  | none => simp [vertex_at] at hu
  | some x =>
    obtain ⟨r, cs⟩ := x
    rcases List.eq_nil_or_concat n with h0 | ⟨w, i, h0⟩
    · exact absurd h0 hn
    · subst h0
      rw [List.concat_eq_append] at hu hp ⊢
      simp only [parent_of, List.dropLast_concat, vertex_at] at hu
      rw [in_edge_mu_snoc r cs w i u uc hu]
      simp only [subtree_elems, vertex_at] at hp
      rw [Forest.nodeAt_append, hu] at hp
      simp only [Option.some_bind, Forest.nodeAt] at hp
      obtain ⟨hokw, _⟩ := Forest.ok_nodeAt Arity dist _ w r cs u uc hu hg.2 hg.1
      cases hs : uc.slot i with
      | none => simp [hs] at hp
      | some y =>
        obtain ⟨m, vn, cn⟩ := y
        simp only [hs] at hp
        exact (Forest.ok_slot Arity dist _ u.pos uc i m vn cn hokw hs).2.2 ⟨rfl, hsym⟩ p hp

/-- Witness of C4: in the tree built from five points of the line, the element of key 2
is stored below the first child of the root. -/
theorem partition_radius_invariant_witness :
    line_dist (0 : Int) 5 ≤ in_edge_mu example_tree.m_tree [0] :=
  partition_radius_invariant 2 line_dist insertion_sort nth_by_sort (by decide)
    insertion_sort_spec nth_by_sort_spec line_dist_symm example_tree
    (example_tree_reachable true) [0] (by decide) ⟨1, 0⟩ _ rfl ⟨2, 5⟩ (by decide)

/-- C5. Child-ordering invariant: in every tree obtained from the empty tree or from a bulk
construction by insertions and erasures (with an arity of at least one), for every vertex
`v` the radii of its out-edges, taken in out-edge order, are non-decreasing. -/
theorem child_radii_non_decreasing (Arity : Nat) (dist : P → P → Int)
    (std_sort : (vertex_property P → vertex_property P → Bool) →
      List (vertex_property P) → List (vertex_property P))
    (nth_element : (vertex_property P → vertex_property P → Bool) →
      List (vertex_property P) → Nat → List (vertex_property P))
    (hA : 0 < Arity) (hsort : SortSpec std_sort) (hnth : NthSpec nth_element)
    (d : Bool) (t : dvp_tree_impl P)
    (h : Reachable Arity dist std_sort nth_element d t) (v : vertex_type) :
    ((out_edges t.m_tree v).map (fun e => e.1)).Pairwise (fun x y => x ≤ y) := by
  obtain ⟨⟨_, hg⟩, _⟩ := reachable_inv Arity dist std_sort nth_element hA hsort hnth d t h
  obtain ⟨tree, root⟩ := t
  cases tree with
  | none => simp [out_edges, vertex_at]
  | some x =>
    obtain ⟨r, cs⟩ := x
    cases hv : Forest.nodeAt r cs v with
    | none => simp [out_edges, vertex_at, hv]
    | some y =>
      obtain ⟨vp, c⟩ := y
      rw [out_edges_some r cs v vp c hv, List.map_map]
      obtain ⟨hokv, _⟩ := Forest.ok_nodeAt Arity dist _ v r cs vp c hv hg.2 hg.1
      exact Forest.edges_sorted Arity dist _ vp.pos c 0 hokv

/-- Witness of C5: the radii at the root of the tree built from five points of the line. -/
theorem child_radii_non_decreasing_witness :
    ((out_edges example_tree.m_tree []).map (fun e => e.1)).Pairwise (fun x y => x ≤ y) :=
  child_radii_non_decreasing 2 line_dist insertion_sort nth_by_sort (by decide)
    insertion_sort_spec nth_by_sort_spec false example_tree (example_tree_reachable false) []

/-- C6. Arity bound: in every tree obtained from the empty tree or from a bulk construction
by insertions and erasures (with an arity of at least one), every vertex has at most
`Arity` out-edges. -/
theorem arity_bound (Arity : Nat) (dist : P → P → Int)
    (std_sort : (vertex_property P → vertex_property P → Bool) →
      List (vertex_property P) → List (vertex_property P))
    (nth_element : (vertex_property P → vertex_property P → Bool) →
      List (vertex_property P) → Nat → List (vertex_property P))
    (hA : 0 < Arity) (hsort : SortSpec std_sort) (hnth : NthSpec nth_element)
    (d : Bool) (t : dvp_tree_impl P)
    (h : Reachable Arity dist std_sort nth_element d t) (v : vertex_type) :
    out_degree t.m_tree v ≤ Arity := by
  obtain ⟨⟨_, hg⟩, _⟩ := reachable_inv Arity dist std_sort nth_element hA hsort hnth d t h
  obtain ⟨tree, root⟩ := t
  cases tree with
  | none => simp [out_degree, out_edges, vertex_at]
  | some x =>
    obtain ⟨r, cs⟩ := x
    cases hv : Forest.nodeAt r cs v with
    | none => simp [out_degree, out_edges, vertex_at, hv]
    | some y =>
      obtain ⟨vp, c⟩ := y
      rw [out_degree_some r cs v vp c hv]
      exact (Forest.ok_nodeAt Arity dist _ v r cs vp c hv hg.2 hg.1).2

/-- Witness of C6: the root of the tree obtained from the empty tree by two insertions. -/
theorem arity_bound_witness :
    out_degree (dvp_tree_impl.mk (some ((⟨2, 5⟩ : vertex_property Int),
      Forest.cons 5 ⟨1, 0⟩ Forest.nil Forest.nil)) (some [])).m_tree [] ≤ 2 :=
  arity_bound 2 line_dist insertion_sort nth_by_sort (by decide)
    insertion_sort_spec nth_by_sort_spec false _
    (Reachable.insert first_chooser ⟨some (⟨1, 0⟩, Forest.nil), some []⟩ ⟨2, 5⟩ _
      first_chooser_ok
      (Reachable.insert first_chooser ⟨none, none⟩ ⟨1, 0⟩ _ first_chooser_ok Reachable.empty
        (fun h => by simp at h) rfl)
      (fun h => by simp at h) rfl) []

/-! ### The expansion from the primary child -/

theorem lt_sigma_mono (x y : Int) (σ : Option Int) (h : x ≤ y) (hy : lt_sigma y σ = true) :
    lt_sigma x σ = true := by
  cases σ with
  | none => rfl
  | some s =>
    simp only [lt_sigma, decide_eq_true_eq] at hy ⊢
    omega

theorem ulp_loop_stop (n fuel u : Nat) (h : n / u < 2 ^ 53) : ulp_loop n (fuel + 1) u = u := by
  rw [ulp_loop, if_pos h]

/-- An integer of magnitude below `2^53` is a `double`: the rounding keeps it. -/
theorem round_double_small (x : Int) (h : x.natAbs < 2 ^ 53) : round_double x = x := by
  have hu : ulp_loop x.natAbs 971 1 = 1 :=
    ulp_loop_stop x.natAbs 970 1 (by rw [Nat.div_one]; exact h)
  simp only [round_double, hu, Nat.div_one, Nat.mod_one, Nat.mul_zero, Nat.mul_one]
  simp only [show (0 : Nat) < 1 from Nat.one_pos, if_true]
  split <;> omega

/-- From `2^53` on the rounding goes to the nearest `double`, a tie to the even
significand. -/
theorem round_double_examples :
    round_double (2 ^ 53 + 1) = 2 ^ 53 ∧ round_double (2 ^ 53 + 3) = 2 ^ 53 + 4 ∧
      round_double (2 ^ 54 + 5) = 2 ^ 54 + 4 ∧ round_double (2 ^ 54 + 6) = 2 ^ 54 + 8 ∧
      round_double (-(2 ^ 53 + 1)) = -(2 ^ 53) := by
  decide

theorem left_open_none (d1 cd : Int) : left_open d1 cd none = true := rfl

theorem right_open_none (d2 cd : Int) : right_open d2 cd none = true := rfl

theorem sig_le_of_not_lt (x : Int) (σ : Option Int) (h : lt_sigma x σ = false) :
    sig_le σ x := by
  cases σ with
  | none => simp [lt_sigma] at h
  | some s =>
    simp only [lt_sigma, decide_eq_false_iff_not] at h
    simp only [sig_le]
    omega

theorem expand_right_spec (es : List (Int × vertex_type)) (cd : Int) (σ : Option Int) :
    ∀ (fuel r : Nat) (temp : List (vertex_type × Int)), r ≤ es.length →
      es.length - r ≤ fuel →
      ∃ r1, r ≤ r1 ∧ r1 ≤ es.length ∧
        (expand_right es cd σ fuel r temp).Perm
          ((List.Ico r r1).map (fun i => (target_at es i, double_sub (mu_at es (i - 1)) cd)) ++
            temp) ∧
        (σ = none → r1 = es.length) := by
  intro fuel
  induction fuel with
  | zero =>
    intro r temp hr hf
    refine ⟨r, le_refl _, hr, ?_, fun _ => by omega⟩
    simp [expand_right]
  | succ fuel ih =>
    intro r temp hr hf
    simp only [expand_right]
    by_cases hc : r ≠ es.length ∧ lt_sigma (double_sub (mu_at es (r - 1)) cd) σ = true
    · rw [if_pos hc]
      obtain ⟨r1, h1, h2, h3, h4⟩ := ih (r + 1)
        ((target_at es r, double_sub (mu_at es (r - 1)) cd) :: temp) (by omega) (by omega)
      refine ⟨r1, by omega, h2, ?_, h4⟩
      refine h3.trans ?_
      rw [List.Ico.eq_cons (by omega : r < r1)]
      simp only [List.map_cons, List.cons_append]
      exact List.perm_middle
    · rw [if_neg hc]
      refine ⟨r, le_refl _, hr, by simp, ?_⟩
      intro h0
      subst h0
      by_contra hne
      exact hc ⟨hne, rfl⟩

theorem expand_left_spec (es : List (Int × vertex_type)) (cd : Int) (σ : Option Int) :
    ∀ (l : Nat) (temp : List (vertex_type × Int)),
      ∃ l1, l1 ≤ l ∧
        (expand_left es cd σ l temp).Perm
          ((List.Ico l1 l).map (fun i => (target_at es i, double_sub cd (mu_at es i))) ++
            temp) ∧
        (σ = none → l1 = 0) := by
  intro l
  induction l with
  | zero =>
    intro temp
    refine ⟨0, le_refl _, by simp [expand_left], fun _ => rfl⟩
  | succ l ih =>
    intro temp
    simp only [expand_left]
    by_cases hc : lt_sigma (double_sub cd (mu_at es l)) σ = true
    · rw [if_pos hc]
      obtain ⟨l1, h1, h2, h3⟩ := ih ((target_at es l, double_sub cd (mu_at es l)) :: temp)
      refine ⟨l1, by omega, ?_, h3⟩
      refine h2.trans ?_
      rw [List.Ico.succ_top h1]
      simp only [List.map_append, List.map_cons, List.map_nil, List.append_assoc,
        List.singleton_append]
      exact List.Perm.refl _
    · rw [if_neg hc]
      refine ⟨l + 1, le_refl _, by simp, ?_⟩
      intro h0
      subst h0
      exact absurd rfl hc

theorem expand_loop_spec (es : List (Int × vertex_type)) (cd : Int) (σ : Option Int) :
    ∀ (fuel l r : Nat) (temp : List (vertex_type × Int)), r ≤ es.length →
      l + (es.length - r) < fuel →
      ∃ l1 r1, l1 ≤ l ∧ r ≤ r1 ∧ r1 ≤ es.length ∧
        (expand_loop es cd σ fuel l r temp).Perm
          ((List.Ico l1 l).map (fun i => (target_at es i, double_sub cd (mu_at es i))) ++
            ((List.Ico r r1).map
              (fun i => (target_at es i, double_sub (mu_at es (i - 1)) cd)) ++ temp)) ∧
        (σ = none → l1 = 0) ∧ (σ = none → r1 = es.length) := by
  intro fuel
  induction fuel with
  | zero => intro l r temp _ hf; omega
  | succ fuel ih =>
    intro l r temp hr hf
    simp only [expand_loop]
    by_cases hl0 : l = 0
    · rw [if_pos hl0]
      obtain ⟨r1, h1, h2, h3, h4⟩ := expand_right_spec es cd σ es.length r temp hr (by omega)
      refine ⟨0, r1, by omega, h1, h2, ?_, fun _ => rfl, h4⟩
      subst hl0
      simpa using h3
    · rw [if_neg hl0]
      by_cases hrn : r = es.length
      · rw [if_pos hrn]
        obtain ⟨l1, h1, h2, h3⟩ := expand_left_spec es cd σ l temp
        refine ⟨l1, r, h1, le_refl _, hr, ?_, h3, fun _ => hrn⟩
        simpa using h2
      · rw [if_neg hrn]
        have hLtop : List.Ico (l - 1) l = [l - 1] := by
          rw [List.Ico.eq_cons (by omega : l - 1 < l)]
          have : l - 1 + 1 = l := by omega
          rw [this, List.Ico.self_empty]
        by_cases hcmp : double_add (mu_at es (l - 1)) (mu_at es (r - 1)) >
            round_double (2 * cd)
        · rw [if_pos hcmp]
          by_cases hlo : left_open (mu_at es (l - 1)) cd σ = true
          · rw [if_pos hlo]
            by_cases hro : right_open (mu_at es (r - 1)) cd σ = true
            · rw [if_pos hro]
              obtain ⟨l1, r1, a1, a2, a3, a4, a5, a6⟩ := ih (l - 1) (r + 1)
                ((target_at es r, double_sub (mu_at es (r - 1)) cd) ::
                  (target_at es (l - 1), double_sub cd (mu_at es (l - 1))) :: temp)
                (by omega) (by omega)
              refine ⟨l1, r1, by omega, by omega, a3, a4.trans ?_, a5, a6⟩
              rw [← List.Ico.append_consecutive a1 (by omega : l - 1 ≤ l), hLtop,
                List.Ico.eq_cons (by omega : r < r1)]
              simp only [List.map_append, List.map_cons, List.map_nil, List.append_assoc,
                List.singleton_append, List.cons_append]
              refine List.Perm.append_left _ ?_
              refine List.perm_middle.trans ?_
              refine (List.Perm.cons _ List.perm_middle).trans ?_
              exact List.Perm.swap _ _ _
            · rw [if_neg hro]
              obtain ⟨l1, r1, a1, a2, a3, a4, a5, a6⟩ := ih (l - 1) r
                ((target_at es (l - 1), double_sub cd (mu_at es (l - 1))) :: temp) hr
                (by omega)
              refine ⟨l1, r1, by omega, a2, a3, a4.trans ?_, a5, a6⟩
              rw [← List.Ico.append_consecutive a1 (by omega : l - 1 ≤ l), hLtop]
              simp only [List.map_append, List.map_cons, List.map_nil, List.append_assoc,
                List.singleton_append]
              refine List.Perm.append_left _ ?_
              exact List.perm_middle
          · rw [if_neg hlo]
            refine ⟨l, r, le_refl _, le_refl _, hr, by simp, ?_, ?_⟩
            · intro h0
              subst h0
              exact absurd (left_open_none _ _) hlo
            · intro h0
              subst h0
              exact absurd (left_open_none _ _) hlo
        · rw [if_neg hcmp]
          by_cases hro : right_open (mu_at es (r - 1)) cd σ = true
          · rw [if_pos hro]
            by_cases hlo : left_open (mu_at es (l - 1)) cd σ = true
            · rw [if_pos hlo]
              obtain ⟨l1, r1, a1, a2, a3, a4, a5, a6⟩ := ih (l - 1) (r + 1)
                ((target_at es (l - 1), double_sub cd (mu_at es (l - 1))) ::
                  (target_at es r, double_sub (mu_at es (r - 1)) cd) :: temp)
                (by omega) (by omega)
              refine ⟨l1, r1, by omega, by omega, a3, a4.trans ?_, a5, a6⟩
              rw [← List.Ico.append_consecutive a1 (by omega : l - 1 ≤ l), hLtop,
                List.Ico.eq_cons (by omega : r < r1)]
              simp only [List.map_append, List.map_cons, List.map_nil, List.append_assoc,
                List.singleton_append, List.cons_append]
              refine List.Perm.append_left _ ?_
              refine List.perm_middle.trans ?_
              exact List.Perm.cons _ List.perm_middle
            · rw [if_neg hlo]
              obtain ⟨l1, r1, a1, a2, a3, a4, a5, a6⟩ := ih l (r + 1)
                ((target_at es r, double_sub (mu_at es (r - 1)) cd) :: temp) (by omega)
                (by omega)
              refine ⟨l1, r1, a1, by omega, a3, a4.trans ?_, a5, a6⟩
              rw [List.Ico.eq_cons (by omega : r < r1)]
              simp only [List.map_cons, List.cons_append]
              refine List.Perm.append_left _ ?_
              exact List.perm_middle
          · rw [if_neg hro]
            refine ⟨l, r, le_refl _, le_refl _, hr, by simp, ?_, ?_⟩
            · intro h0
              subst h0
              exact absurd (right_open_none _ _) hro
            · intro h0
              subst h0
              exact absurd (right_open_none _ _) hro

theorem locate_le (cd : Int) (es : List (Int × vertex_type)) : locate cd es ≤ es.length := by
  induction es with
  | nil => simp [locate]
  | cons e es ih =>
    simp only [locate]
    split
    · omega
    · simp only [List.length_cons]; omega

/-- The children that the search pushes for a visited vertex are those of an interval of
out-edge indices around the primary child, each one once; with an infinite radius the
interval holds every out-edge. -/
theorem expand_children_spec (es : List (Int × vertex_type)) (cd : Int) (σ : Option Int)
    (hne : es ≠ []) :
    ∃ l1 r1 ei, l1 ≤ ei ∧ ei < r1 ∧ r1 ≤ es.length ∧
      (expand_children es cd σ).Perm
        ((List.Ico l1 ei).map (fun i => (target_at es i, double_sub cd (mu_at es i))) ++
          ((List.Ico (ei + 1) r1).map
            (fun i => (target_at es i, double_sub (mu_at es (i - 1)) cd)) ++
            [(target_at es ei, 0)])) ∧
      (σ = none → l1 = 0) ∧ (σ = none → r1 = es.length) := by
  have hpos : 0 < es.length := List.length_pos.mpr hne
  have hloc := locate_le cd es
  simp only [expand_children]
  generalize hei : (if locate cd es = es.length then locate cd es - 1 else locate cd es) = ei
  have heilt : ei < es.length := by
    rw [← hei]
    split <;> omega
  obtain ⟨l1, r1, a1, a2, a3, a4, a5, a6⟩ := expand_loop_spec es cd σ (es.length + 1) ei (ei + 1)
    [(target_at es ei, 0)] (by omega) (by omega)
  exact ⟨l1, r1, ei, a1, by omega, a3, a4, a5, a6⟩

/-! ### The candidate list, and the brute-force reference -/

theorem heap_push_perm (x : Int × vertex_type) (l : List (Int × vertex_type)) :
    (heap_push x l).Perm (x :: l) := by
  induction l with
  | nil => exact List.Perm.refl _
  | cons y l ih =>
    simp only [heap_push]
    split
    · exact List.Perm.refl _
    · exact (List.Perm.cons y ih).trans (List.Perm.swap _ _ _)

theorem heap_push_sorted (x : Int × vertex_type) (l : List (Int × vertex_type))
    (h : l.Pairwise (fun a b => b.1 ≤ a.1)) :
    (heap_push x l).Pairwise (fun a b => b.1 ≤ a.1) := by
  induction l with
  | nil => simp [heap_push]
  | cons y l ih =>
    rw [List.pairwise_cons] at h
    simp only [heap_push]
    split
    · rename_i hlt
      refine List.pairwise_cons.mpr ⟨?_, List.pairwise_cons.mpr h⟩
      intro z hz
      rcases List.mem_cons.mp hz with hz | hz
      · rw [hz]; omega
      · have := h.1 z hz
        omega
    · rename_i hlt
      refine List.pairwise_cons.mpr ⟨?_, ih h.2⟩
      intro z hz
      rcases List.mem_cons.mp ((heap_push_perm x l).subset hz) with hz | hz
      · rw [hz]; omega
      · exact h.1 z hz

theorem heap_push_length (x : Int × vertex_type) (l : List (Int × vertex_type)) :
    (heap_push x l).length = l.length + 1 := by
  rw [(heap_push_perm x l).length_eq, List.length_cons]

/-- A sorted list whose elements are not larger than the other elements is the front of
the sorted list of all the elements. -/
theorem take_insertionSort (l l1 l2 : List Int) (hp : (l1 ++ l2).Perm l)
    (hs : l1.Sorted (fun a b => a ≤ b)) (hle : ∀ a ∈ l1, ∀ b ∈ l2, a ≤ b) :
    (l.insertionSort (fun a b => a ≤ b)).take l1.length = l1 := by
  have h1 : l.insertionSort (fun a b => a ≤ b) =
      l1 ++ l2.insertionSort (fun a b => a ≤ b) := by
    apply List.eq_of_perm_of_sorted (r := fun a b : Int => a ≤ b)
    · exact (List.perm_insertionSort _ l).trans
        (hp.symm.trans (List.Perm.append_left _ (List.perm_insertionSort _ l2).symm))
    · exact List.sorted_insertionSort _ l
    · refine List.pairwise_append.mpr ⟨hs, List.sorted_insertionSort _ l2, ?_⟩
      intro a ha b hb
      exact hle a ha b ((List.perm_insertionSort _ l2).subset hb)
  rw [h1, List.take_left]

/-! ### The candidates of a subtree -/

namespace Forest

theorem entries_map_fst (dist : P → P → Int) (q : P) (c : Forest P) (pre : List Nat)
    (k : Nat) :
    (c.entries dist q pre k).map (fun e => e.1) = c.elems.map (fun x => dist q x.pos) := by
  induction c generalizing pre k with
  | nil => rfl
  | cons m v sub r ihs ihr =>
    simp only [entries, elems, List.map_cons, List.map_append, ihs, ihr]
  | hole r ih => simp only [entries, elems, ih]

theorem mem_entries (dist : P → P → Int) (q : P) (c : Forest P) (pre : List Nat) (k0 : Nat)
    (e : Int × vertex_type) :
    e ∈ c.entries dist q pre k0 ↔
      ∃ j s m v sub y cy, c.slot j = some (m, v, sub) ∧ nodeAt v sub s = some (y, cy) ∧
        e = (dist q y.pos, pre ++ (k0 + j) :: s) := by
  induction c generalizing pre k0 with
  | nil => simp [entries, slot]
  | cons m v sub r ihs ihr =>
    simp only [entries, List.mem_cons, List.mem_append]
    constructor
    · rintro (h | h | h)
      · exact ⟨0, [], m, v, sub, v, sub, rfl, rfl, by simp [h]⟩
      · obtain ⟨j, s, m1, v1, sub1, y, cy, h1, h2, h3⟩ := (ihs (pre ++ [k0]) 0).mp h
        refine ⟨0, j :: s, m, v, sub, y, cy, rfl, ?_, ?_⟩
        · simp only [nodeAt, h1]
          exact h2
        · simp [h3]
      · obtain ⟨j, s, m1, v1, sub1, y, cy, h1, h2, h3⟩ := (ihr pre (k0 + 1)).mp h
        refine ⟨j + 1, s, m1, v1, sub1, y, cy, by simpa [slot] using h1, h2, ?_⟩
        rw [h3]
        congr 3
        omega
    · rintro ⟨j, s, m1, v1, sub1, y, cy, h1, h2, h3⟩
      cases j with
      | zero =>
        simp only [slot, Option.some.injEq, Prod.mk.injEq] at h1
        obtain ⟨rfl, rfl, rfl⟩ := h1
        cases s with
        | nil =>
          simp only [nodeAt, Option.some.injEq, Prod.mk.injEq] at h2
          left
          rw [h3, h2.1]
          simp
        | cons j s =>
          right; left
          simp only [nodeAt] at h2
          cases hs : sub.slot j with
          | none => simp [hs] at h2
          | some z =>
            obtain ⟨m2, v2, sub2⟩ := z
            simp only [hs] at h2
            refine (ihs (pre ++ [k0]) 0).mpr ⟨j, s, m2, v2, sub2, y, cy, hs, h2, ?_⟩
            simp [h3]
      | succ j =>
        right; right
        refine (ihr pre (k0 + 1)).mpr ⟨j, s, m1, v1, sub1, y, cy, by simpa [slot] using h1,
          h2, ?_⟩
        rw [h3]
        congr 3
        omega
  | hole r ih =>
    simp only [entries]
    rw [ih pre (k0 + 1)]
    constructor
    · rintro ⟨j, s, m1, v1, sub1, y, cy, h1, h2, h3⟩
      refine ⟨j + 1, s, m1, v1, sub1, y, cy, by simpa [slot] using h1, h2, ?_⟩
      rw [h3]
      congr 3
      omega
    · rintro ⟨j, s, m1, v1, sub1, y, cy, h1, h2, h3⟩
      cases j with
      | zero => simp [slot] at h1
      | succ j =>
        refine ⟨j, s, m1, v1, sub1, y, cy, by simpa [slot] using h1, h2, ?_⟩
        rw [h3]
        congr 3
        omega

theorem entries_paths_nodup (dist : P → P → Int) (q : P) (c : Forest P) (pre : List Nat)
    (k0 : Nat) : ((c.entries dist q pre k0).map (fun e => e.2)).Nodup := by
  induction c generalizing pre k0 with
  | nil => simp [entries]
  | cons m v sub r ihs ihr =>
    simp only [entries, List.map_cons, List.map_append]
    have hA : ∀ p ∈ (sub.entries dist q (pre ++ [k0]) 0).map (fun e => e.2),
        ∃ j s, p = pre ++ k0 :: j :: s := by
      intro p hp
      obtain ⟨e, he, rfl⟩ := List.mem_map.mp hp
      obtain ⟨j, s, _, _, _, _, _, _, _, h3⟩ := (mem_entries dist q sub _ 0 e).mp he
      exact ⟨0 + j, s, by simp [h3]⟩
    have hB : ∀ p ∈ (r.entries dist q pre (k0 + 1)).map (fun e => e.2),
        ∃ j s, p = pre ++ (k0 + 1 + j) :: s := by
      intro p hp
      obtain ⟨e, he, rfl⟩ := List.mem_map.mp hp
      obtain ⟨j, s, _, _, _, _, _, _, _, h3⟩ := (mem_entries dist q r _ (k0 + 1) e).mp he
      exact ⟨j, s, by simp [h3]⟩
    refine List.nodup_cons.mpr ⟨?_, List.nodup_append.mpr ⟨ihs _ _, ihr _ _, ?_⟩⟩
    · intro hmem
      rcases List.mem_append.mp hmem with h | h
      · obtain ⟨j, s, e⟩ := hA _ h
        have := List.append_cancel_left e
        simp at this
      · obtain ⟨j, s, e⟩ := hB _ h
        have := List.append_cancel_left e
        simp only [List.cons.injEq] at this
        omega
    · intro p h1 h2
      obtain ⟨j, s, e1⟩ := hA p h1
      obtain ⟨j2, s2, e2⟩ := hB p h2
      rw [e1] at e2
      have := List.append_cancel_left e2
      simp only [List.cons.injEq] at this
      omega
  | hole r ih =>
    simp only [entries]
    exact ih pre (k0 + 1)

theorem ok_slot_lower (A : Nat) (dist : P → P → Int) (pp : P) (cs : Forest P)
    (hok : Ok A dist True pp cs) (j i : Nat) (hji : j < i)
    (y : Int × vertex_property P × Forest P) (hy : cs.slot j = some y)
    (m : Int) (v : vertex_property P) (c : Forest P) (hs : cs.slot i = some (m, v, c)) :
    ∀ x ∈ v :: c.elems, y.1 ≤ dist pp x.pos := by
  induction cs generalizing j i with
  | nil => simp [slot] at hs
  | cons m0 v0 c0 r0 _ ihr =>
    cases i with
    | zero => omega
    | succ i =>
      have hs1 : r0.slot i = some (m, v, c) := by simpa [slot] using hs
      cases j with
      | zero =>
        simp only [slot, Option.some.injEq] at hy
        intro x hx
        rw [← hy]
        exact (hok.2.2.1 trivial).2 x (mem_elems_of_slot r0 i m v c hs1 x hx)
      | succ j =>
        exact ihr hok.2.2.2.2 j i (by omega) (by simpa [slot] using hy) hs1
  | hole r _ => exact absurd hok (by simp [Ok])

theorem ok_slot_mono (A : Nat) (dist : P → P → Int) (b : Prop) (pp : P) (cs : Forest P)
    (hok : Ok A dist b pp cs) (j i : Nat) (hji : j ≤ i)
    (y z : Int × vertex_property P × Forest P) (hy : cs.slot j = some y)
    (hz : cs.slot i = some z) : y.1 ≤ z.1 := by
  induction cs generalizing j i with
  | nil => simp [slot] at hz
  | cons m0 v0 c0 r0 _ ihr =>
    cases i with
    | zero =>
      have hj : j = 0 := by omega
      subst hj
      rw [hy] at hz
      simp only [Option.some.injEq] at hz
      rw [hz]
    | succ i =>
      have hz1 : r0.slot i = some z := by simpa [slot] using hz
      cases j with
      | zero =>
        simp only [slot, Option.some.injEq] at hy
        rw [← hy]
        exact hok.2.1 i z hz1
      | succ j =>
        exact ihr hok.2.2.2.2 j i (by omega) (by simpa [slot] using hy) hz1
  | hole r _ => exact absurd hok (by simp [Ok])

theorem slot_isSome_iff (c : Forest P) (hn : c.NoHoles) (i : Nat) :
    (c.slot i).isSome = true ↔ i < c.degree := by
  induction c generalizing i with
  | nil => simp [slot, degree]
  | cons m v sub r _ ihr =>
    cases i with
    | zero => simp [slot, degree]
    | succ i =>
      simp only [slot, degree]
      rw [ihr hn.2 i]
      omega
  | hole r _ => exact absurd hn (by simp [NoHoles])

theorem edges_getElem? (c : Forest P) (hn : c.NoHoles) (k0 i : Nat) :
    (c.edges k0)[i]? = (c.slot i).map (fun y => (k0 + i, y.1)) := by
  induction c generalizing k0 i with
  | nil => simp [edges, slot]
  | cons m v sub r _ ihr =>
    cases i with
    | zero => simp [edges, slot]
    | succ i =>
      simp only [edges, slot, List.getElem?_cons_succ]
      rw [ihr hn.2 (k0 + 1) i]
      congr 1
      funext y
      congr 1
      omega
  | hole r _ => exact absurd hn (by simp [NoHoles])

theorem ok_imp (A : Nat) (dist : P → P → Int) (b1 b2 : Prop) (h : b2 → b1) (pp : P)
    (cs : Forest P) (hok : Ok A dist b1 pp cs) : Ok A dist b2 pp cs := by
  induction cs generalizing pp with
  | nil => trivial
  | cons m v c r ihc ihr =>
    exact ⟨hok.1, hok.2.1, fun hb => hok.2.2.1 (h hb), ihc v.pos hok.2.2.2.1,
      ihr pp hok.2.2.2.2⟩
  | hole r _ => exact hok

end Forest

/-! ### The children of a visited vertex -/

theorem pending_append (dist : P → P → Int) (q : P) (t : tree_indexer P)
    (l1 l2 : List (vertex_type × Int)) :
    pending dist q t (l1 ++ l2) = pending dist q t l1 ++ pending dist q t l2 := by
  induction l1 with
  | nil => rfl
  | cons τ l1 ih =>
    show node_entries dist q t τ.1 ++ pending dist q t (l1 ++ l2) = _
    rw [ih]
    simp only [pending, List.append_assoc]

theorem pending_perm (dist : P → P → Int) (q : P) (t : tree_indexer P)
    (l1 l2 : List (vertex_type × Int)) (h : l1.Perm l2) :
    (pending dist q t l1).Perm (pending dist q t l2) := by
  induction h with
  | nil => exact List.Perm.refl _
  | cons x _ ih => exact List.Perm.append_left _ ih
  | swap x y l =>
    simp only [pending]
    rw [← List.append_assoc, ← List.append_assoc]
    exact List.Perm.append_right _ List.perm_append_comm
  | trans _ _ ih1 ih2 => exact ih1.trans ih2

theorem pending_map (dist : P → P → Int) (q : P) (t : tree_indexer P) (path : vertex_type)
    (f : Nat → vertex_type × Int) (l : List Nat) (hf : ∀ i ∈ l, (f i).1 = path ++ [i]) :
    pending dist q t (l.map f) = kid_entries dist q t path l := by
  induction l with
  | nil => rfl
  | cons i l ih =>
    simp only [List.map_cons, pending, kid_entries]
    rw [hf i (List.mem_cons_self _ _), ih (fun j hj => hf j (List.mem_cons_of_mem _ hj))]

theorem kid_entries_append (dist : P → P → Int) (q : P) (t : tree_indexer P)
    (path : vertex_type) (l1 l2 : List Nat) :
    kid_entries dist q t path (l1 ++ l2) =
      kid_entries dist q t path l1 ++ kid_entries dist q t path l2 := by
  induction l1 with
  | nil => rfl
  | cons i l1 ih =>
    show node_entries dist q t (path ++ [i]) ++ kid_entries dist q t path (l1 ++ l2) = _
    rw [ih]
    simp only [kid_entries, List.append_assoc]

theorem mem_kid_entries (dist : P → P → Int) (q : P) (t : tree_indexer P)
    (path : vertex_type) (l : List Nat) (e : Int × vertex_type)
    (h : e ∈ kid_entries dist q t path l) :
    ∃ i ∈ l, e ∈ node_entries dist q t (path ++ [i]) := by
  induction l with
  | nil => simp [kid_entries] at h
  | cons i l ih =>
    simp only [kid_entries, List.mem_append] at h
    rcases h with h | h
    · exact ⟨i, List.mem_cons_self _ _, h⟩
    · obtain ⟨j, hj, he⟩ := ih h
      exact ⟨j, List.mem_cons_of_mem _ hj, he⟩

/-- The candidates below a vertex are those below its out-edges, in out-edge order. -/
theorem entries_eq_kid_entries (dist : P → P → Int) (q : P) (r : vertex_property P)
    (cs : Forest P) (path : vertex_type) (x : vertex_property P) (c : Forest P)
    (hn : Forest.nodeAt r cs path = some (x, c)) (c1 : Forest P) (k0 : Nat)
    (hnh : c1.NoHoles) (hsl : ∀ j, c1.slot j = c.slot (k0 + j)) :
    c1.entries dist q path k0 =
      kid_entries dist q (some (r, cs)) path (List.Ico k0 (k0 + c1.degree)) := by
  induction c1 generalizing k0 with
  | nil => simp [Forest.entries, Forest.degree, kid_entries]
  | cons m v sub r1 _ ihr =>
    have h0 : c.slot k0 = some (m, v, sub) := by
      have := hsl 0
      simpa [Forest.slot] using this.symm
    have hnode : Forest.nodeAt r cs (path ++ [k0]) = some (v, sub) :=
      Forest.nodeAt_snoc r cs path x c k0 m v sub hn h0
    rw [List.Ico.eq_cons (by simp [Forest.degree])]
    simp only [Forest.entries, kid_entries, node_entries, vertex_at, hnode, sub_entries,
      List.cons_append, Forest.degree]
    rw [ihr (k0 + 1) hnh.2 (fun j => by
      have := hsl (j + 1)
      simp only [Forest.slot] at this
      rw [this]
      congr 1
      omega)]
    have harith : k0 + 1 + r1.degree = k0 + (r1.degree + 1) := by omega
    rw [harith]
  | hole r1 _ => exact absurd hnh (by simp [Forest.NoHoles])

theorem dist_nonneg (dist : P → P → Int) (hsym : ∀ a b, dist a b = dist b a)
    (htri : ∀ a b c, dist a c ≤ dist a b + dist b c) (a b : P) : 0 ≤ dist a b := by
  have h1 := htri a b a
  have h2 := htri a a b
  have h3 := hsym a b
  omega

theorem out_edges_getElem? (r : vertex_property P) (cs : Forest P) (v : vertex_type)
    (x : vertex_property P) (c : Forest P) (hn : Forest.nodeAt r cs v = some (x, c))
    (hnh : c.NoHoles) (i : Nat) :
    (out_edges (some (r, cs)) v)[i]? = (c.slot i).map (fun y => (y.1, v ++ [i])) := by
  rw [out_edges_some r cs v x c hn, List.getElem?_map, Forest.edges_getElem? c hnh 0 i]
  cases c.slot i with
  | none => rfl
  | some y => simp

/-- What the search knows of the child behind the `i`-th out-edge of a visited vertex: its
descriptor, its radius, and three lower bounds of the distances in its subtree. -/
theorem child_facts (A : Nat) (dist : P → P → Int) (q : P) (r : vertex_property P)
    (cs : Forest P) (hsym : ∀ a b, dist a b = dist b a)
    (htri : ∀ a b c, dist a c ≤ dist a b + dist b c)
    (v : vertex_type) (x : vertex_property P) (c : Forest P)
    (hn : Forest.nodeAt r cs v = some (x, c)) (hok : c.Ok A dist True x.pos)
    (i : Nat) (hi : i < c.degree) :
    (vertex_at (some (r, cs)) (v ++ [i])).isSome = true ∧
      target_at (out_edges (some (r, cs)) v) i = v ++ [i] ∧
      ∀ e ∈ node_entries dist q (some (r, cs)) (v ++ [i]),
        0 ≤ e.1 ∧ dist q x.pos - mu_at (out_edges (some (r, cs)) v) i ≤ e.1 ∧
        (1 ≤ i → mu_at (out_edges (some (r, cs)) v) (i - 1) - dist q x.pos ≤ e.1) := by
  have hnh := Forest.ok_noHoles A dist True x.pos c hok
  obtain ⟨y, hy⟩ := Option.isSome_iff_exists.mp ((Forest.slot_isSome_iff c hnh i).mpr hi)
  obtain ⟨m, vi, sub⟩ := y
  have hnode := Forest.nodeAt_snoc r cs v x c i m vi sub hn hy
  have hes := out_edges_getElem? r cs v x c hn hnh i
  rw [hy] at hes
  refine ⟨by simp [vertex_at, hnode], by simp [target_at, hes], ?_⟩
  intro e he
  simp only [node_entries, vertex_at, hnode, sub_entries] at he
  have hmem : e.1 ∈ (vi :: sub.elems).map (fun z => dist q z.pos) := by
    rw [List.map_cons, ← Forest.entries_map_fst dist q sub (v ++ [i]) 0]
    rcases List.mem_cons.mp he with h | h
    · rw [h]; exact List.mem_cons_self _ _
    · exact List.mem_cons_of_mem _ (List.mem_map_of_mem _ h)
  obtain ⟨z, hz, hze⟩ := List.mem_map.mp hmem
  rw [← hze]
  have hup := (Forest.ok_slot A dist True x.pos c i m vi sub hok hy).2.2 trivial z hz
  refine ⟨dist_nonneg dist hsym htri q z.pos, ?_, ?_⟩
  · simp only [mu_at, hes, Option.map_some']
    have h1 := htri q z.pos x.pos
    have h2 := hsym z.pos x.pos
    omega
  · intro h1i
    have hi1 : i - 1 < c.degree := by omega
    obtain ⟨y1, hy1⟩ := Option.isSome_iff_exists.mp
      ((Forest.slot_isSome_iff c hnh (i - 1)).mpr hi1)
    have hes1 := out_edges_getElem? r cs v x c hn hnh (i - 1)
    rw [hy1] at hes1
    simp only [mu_at, hes1, Option.map_some']
    have hlow := Forest.ok_slot_lower A dist x.pos c hok (i - 1) i (by omega) y1 hy1 m vi sub
      hy z hz
    have h1 := htri x.pos q z.pos
    have h2 := hsym x.pos q
    omega

theorem mu_at_mono (A : Nat) (dist : P → P → Int) (r : vertex_property P)
    (cs : Forest P) (v : vertex_type) (x : vertex_property P) (c : Forest P)
    (hn : Forest.nodeAt r cs v = some (x, c)) (hok : c.Ok A dist True x.pos)
    (j i : Nat) (hji : j ≤ i) (hi : i < c.degree) :
    mu_at (out_edges (some (r, cs)) v) j ≤ mu_at (out_edges (some (r, cs)) v) i := by
  have hnh := Forest.ok_noHoles A dist True x.pos c hok
  obtain ⟨y, hy⟩ := Option.isSome_iff_exists.mp ((Forest.slot_isSome_iff c hnh i).mpr hi)
  obtain ⟨z, hz⟩ := Option.isSome_iff_exists.mp
    ((Forest.slot_isSome_iff c hnh j).mpr (by omega))
  have h1 := out_edges_getElem? r cs v x c hn hnh i
  have h2 := out_edges_getElem? r cs v x c hn hnh j
  rw [hy] at h1
  rw [hz] at h2
  simp only [mu_at, h1, h2, Option.map_some']
  exact Forest.ok_slot_mono A dist True x.pos c hok j i hji z y hz hy

theorem sig_le_mono (σ : Option Int) (a b : Int) (h : a ≤ b) (ha : sig_le σ a) :
    sig_le σ b := by
  cases σ with
  | none => exact ha
  | some s =>
    simp only [sig_le] at ha ⊢
    omega

theorem perm_five {α : Type} [DecidableEq α] (a b c d e T Y : List α)
    (hT : T.Perm (b ++ (d ++ c))) (hY : Y = a ++ e) :
    (T ++ Y).Perm (a ++ (b ++ (c ++ (d ++ e)))) := by
  subst hY
  rw [List.perm_iff_count] at hT ⊢
  intro z
  have := hT z
  simp only [List.count_append] at this ⊢
  omega

/-! ### One iteration of the search -/

theorem lt_sigma_trans (x : Int) (σ R : Option Int) (h1 : lt_sigma x σ = true)
    (h2 : sig_le_sig σ R) : lt_sigma x R = true := by
  cases R with
  | none => rfl
  | some s =>
    cases σ with
    | none => exact absurd h2 (by simp [sig_le_sig, sig_le])
    | some s1 =>
      simp only [sig_le_sig, sig_le] at h2
      simp only [lt_sigma, decide_eq_true_eq] at h1 ⊢
      omega

theorem le_sig_of_lt (x : Int) (σ : Option Int) (h : lt_sigma x σ = true) : le_sig x σ := by
  cases σ with
  | none => trivial
  | some s =>
    simp only [lt_sigma, decide_eq_true_eq] at h
    simp only [le_sig]
    omega

/-- The update of the candidate list and of the radius at a visited vertex. -/
theorem heap_update (K : Nat) (hK : 1 ≤ K) (R σ : Option Int)
    (H : List (Int × vertex_type)) (cd : Int) (v : vertex_type)
    (hs : H.Pairwise (fun a b => b.1 ≤ a.1)) (hl : H.length ≤ K)
    (hR : ∀ e ∈ H, lt_sigma e.1 R = true) (hσ : ∀ e ∈ H, le_sig e.1 σ)
    (hσR : sig_le_sig σ R) (hfull : σ = R ∨ H.length = K) :
    ∃ σ1 H1 X,
      (if lt_sigma cd σ = true then
        if (heap_push (cd, v) H).length > K then
          match heap_pop (heap_push (cd, v) H) with
          | [] => none
          | front :: l => some (some front.1, front :: l)
        else some (σ, heap_push (cd, v) H)
      else some (σ, H)) = some (σ1, H1) ∧
      (H1 ++ X).Perm ([(cd, v)] ++ H) ∧ H1.Pairwise (fun a b => b.1 ≤ a.1) ∧
      H1.length ≤ K ∧ (∀ e ∈ H1, lt_sigma e.1 R = true) ∧ (∀ e ∈ H1, le_sig e.1 σ1) ∧
      (∀ e ∈ X, sig_le σ1 e.1) ∧ sig_le_sig σ1 R ∧ (σ1 = R ∨ H1.length = K) ∧
      (∀ d, sig_le σ d → sig_le σ1 d) := by
  by_cases hlt : lt_sigma cd σ = true
  · rw [if_pos hlt]
    have hpp := heap_push_perm (cd, v) H
    have hps := heap_push_sorted (cd, v) H hs
    have hpl := heap_push_length (cd, v) H
    have hpR : ∀ e ∈ heap_push (cd, v) H, lt_sigma e.1 R = true := by
      intro e he
      rcases List.mem_cons.mp (hpp.subset he) with h | h
      · rw [h]; exact lt_sigma_trans cd σ R hlt hσR
      · exact hR e h
    have hpσ : ∀ e ∈ heap_push (cd, v) H, le_sig e.1 σ := by
      intro e he
      rcases List.mem_cons.mp (hpp.subset he) with h | h
      · rw [h]; exact le_sig_of_lt cd σ hlt
      · exact hσ e h
    by_cases hbig : (heap_push (cd, v) H).length > K
    · rw [if_pos hbig]
      generalize hpush : heap_push (cd, v) H = pushed at *
      cases pushed with
      | nil => simp at hpl
      | cons p0 tl =>
        cases tl with
        | nil =>
          simp only [List.length_cons, List.length_nil] at hbig
          omega
        | cons front l =>
          simp only [heap_pop, List.tail_cons]
          rw [List.pairwise_cons] at hps
          have hfr := hps.1 front (List.mem_cons_self _ _)
          refine ⟨some front.1, front :: l, [p0], rfl, ?_, hps.2, ?_, ?_, ?_, ?_, ?_, ?_, ?_⟩
          · exact (List.perm_append_comm).trans hpp
          · simp only [List.length_cons] at hpl hbig ⊢
            omega
          · intro e he
            exact hpR e (List.mem_cons_of_mem _ he)
          · intro e he
            simp only [le_sig]
            rcases List.mem_cons.mp he with h | h
            · rw [h]
            · exact (List.pairwise_cons.mp hps.2).1 e h
          · intro e he
            simp only [List.mem_singleton] at he
            rw [he]
            exact hfr
          · have h1 := hpR front (List.mem_cons_of_mem _ (List.mem_cons_self _ _))
            cases R with
            | none => trivial
            | some s =>
              simp only [lt_sigma, decide_eq_true_eq] at h1
              simp only [sig_le_sig, sig_le]
              omega
          · right
            simp only [List.length_cons] at hpl hbig ⊢
            omega
          · intro d hd
            have h1 := hpσ front (List.mem_cons_of_mem _ (List.mem_cons_self _ _))
            cases σ with
            | none => exact absurd hd (by simp [sig_le])
            | some s =>
              simp only [sig_le, le_sig] at hd h1 ⊢
              omega
    · rw [if_neg hbig]
      refine ⟨σ, heap_push (cd, v) H, [], rfl, by simpa using hpp, hps, by omega, hpR, hpσ,
        fun e he => by simp at he, hσR, ?_, fun d hd => hd⟩
      rcases hfull with h | h
      · exact Or.inl h
      · omega
  · rw [if_neg hlt]
    refine ⟨σ, H, [(cd, v)], rfl, List.perm_append_comm, hs, hl, hR, hσ, ?_, hσR, hfull,
      fun d hd => hd⟩
    intro e he
    simp only [List.mem_singleton] at he
    rw [he]
    exact sig_le_of_not_lt cd σ (by simpa using hlt)

/-! ### The loop of the search -/

theorem perm_account {α : Type} [DecidableEq α] (H D e C Pr H1 X T Y : List α)
    (h1 : (H1 ++ X).Perm (e ++ H)) (h2 : (T ++ Y).Perm C) :
    (H1 ++ (X ++ D ++ Y) ++ (T ++ Pr)).Perm (H ++ D ++ ((e ++ C) ++ Pr)) := by
  rw [List.perm_iff_count] at h1 h2 ⊢
  intro z
  have a1 := h1 z
  have a2 := h2 z
  simp only [List.count_append] at a1 a2 ⊢
  omega

theorem find_nearest_loop_nil (dist : P → P → Int) (t : tree_indexer P) (q : P) (K : Nat)
    (fuel : Nat) (σ : Option Int) (H : List (Int × vertex_type)) :
    find_nearest_loop dist t q K fuel [] σ H = search_result.done H := by
  cases fuel <;> rfl

/-! ### The result of the search -/

theorem mem_node_entries_root (dist : P → P → Int) (q : P) (r : vertex_property P)
    (cs : Forest P) (e : Int × vertex_type) :
    e ∈ node_entries dist q (some (r, cs)) [] ↔
      ∃ y cy, Forest.nodeAt r cs e.2 = some (y, cy) ∧ e.1 = dist q y.pos := by
  simp only [node_entries, vertex_at, Forest.nodeAt, sub_entries, List.mem_cons]
  constructor
  · rintro (h | h)
    · exact ⟨r, cs, by rw [h]; rfl, by rw [h]⟩
    · obtain ⟨j, s, m, v, sub, y, cy, h1, h2, h3⟩ := (Forest.mem_entries dist q cs [] 0 e).mp h
      refine ⟨y, cy, ?_, by rw [h3]⟩
      rw [h3]
      simp only [List.nil_append, Nat.zero_add, Forest.nodeAt, h1]
      exact h2
  · rintro ⟨y, cy, h1, h2⟩
    obtain ⟨d, w⟩ := e
    simp only at h1 h2
    subst h2
    cases w with
    | nil =>
      left
      simp only [Forest.nodeAt, Option.some.injEq, Prod.mk.injEq] at h1
      rw [h1.1]
    | cons j s =>
      right
      simp only [Forest.nodeAt] at h1
      cases hs : cs.slot j with
      | none => simp [hs] at h1
      | some z =>
        obtain ⟨m, v, sub⟩ := z
        simp only [hs] at h1
        exact (Forest.mem_entries dist q cs [] 0 _).mpr
          ⟨j, s, m, v, sub, y, cy, hs, h1, by simp⟩

theorem node_entries_root_fst (dist : P → P → Int) (q : P) (r : vertex_property P)
    (cs : Forest P) :
    (node_entries dist q (some (r, cs)) []).map (fun e => e.1) =
      (r :: cs.elems).map (fun x => dist q x.pos) := by
  simp only [node_entries, vertex_at, Forest.nodeAt, sub_entries, List.map_cons,
    Forest.entries_map_fst]

theorem node_entries_root_nodup (dist : P → P → Int) (q : P) (r : vertex_property P)
    (cs : Forest P) : ((node_entries dist q (some (r, cs)) []).map (fun e => e.2)).Nodup := by
  simp only [node_entries, vertex_at, Forest.nodeAt, sub_entries, List.map_cons]
  refine List.nodup_cons.mpr ⟨?_, Forest.entries_paths_nodup dist q cs [] 0⟩
  intro h
  obtain ⟨e, he, h0⟩ := List.mem_map.mp h
  obtain ⟨j, s, _, _, _, _, _, _, _, h3⟩ := (Forest.mem_entries dist q cs [] 0 e).mp he
  rw [h3] at h0
  simp at h0

theorem sig_le_sig_refl (σ : Option Int) : sig_le_sig σ σ := by
  cases σ with
  | none => trivial
  | some s => exact le_refl s

theorem reachable_ok (Arity : Nat) (dist : P → P → Int)
    (std_sort : (vertex_property P → vertex_property P → Bool) →
      List (vertex_property P) → List (vertex_property P))
    (nth_element : (vertex_property P → vertex_property P → Bool) →
      List (vertex_property P) → Nat → List (vertex_property P))
    (hA : 0 < Arity) (hsort : SortSpec std_sort) (hnth : NthSpec nth_element)
    (hsym : ∀ a b, dist a b = dist b a) (t : dvp_tree_impl P)
    (h : Reachable Arity dist std_sort nth_element true t) :
    t = ⟨none, none⟩ ∨ ∃ r cs, t = ⟨some (r, cs), some []⟩ ∧ cs.degree ≤ Arity ∧
      cs.Ok Arity dist True r.pos := by
  obtain ⟨⟨hroot, hg⟩, _⟩ := reachable_inv Arity dist std_sort nth_element hA hsort hnth true t h
  obtain ⟨tree, root⟩ := t
  cases tree with
  | none =>
    left
    have : root = none := hroot
    rw [this]
  | some x =>
    obtain ⟨r, cs⟩ := x
    right
    have hr0 : root = some [] := hroot
    subst hr0
    exact ⟨r, cs, rfl, hg.1, Forest.ok_imp Arity dist _ True (fun _ => ⟨rfl, hsym⟩) r.pos cs hg.2⟩

/-! ### The queries -/

theorem dist_to_of_mem (dist : P → P → Int) (q : P) (r : vertex_property P) (cs : Forest P)
    (e : Int × vertex_type) (he : e ∈ node_entries dist q (some (r, cs)) []) :
    (vertex_at (some (r, cs)) e.2).isSome = true ∧ dist_to dist q (some (r, cs)) e.2 = e.1 := by
  obtain ⟨y, cy, h1, h2⟩ := (mem_node_entries_root dist q r cs e).mp he
  simp only [dist_to, vertex_at, h1, h2, Option.isSome_some, and_self]

theorem node_entries_root_length (dist : P → P → Int) (q : P) (r : vertex_property P)
    (cs : Forest P) :
    (node_entries dist q (some (r, cs)) []).length = num_vertices (some (r, cs)) := by
  have h1 := congrArg List.length (node_entries_root_fst dist q r cs)
  simp only [List.length_map, List.length_cons] at h1
  simp only [num_vertices, h1, Forest.size_eq_length_elems]
  omega

theorem discarded_nil (σ1 : Option Int) (D : List (Int × vertex_type))
    (hD : ∀ e ∈ D, sig_le σ1 e.1) (h : σ1 = none) : D = [] := by
  subst h
  cases D with
  | nil => rfl
  | cons e D => exact absurd (hD e (List.mem_cons_self _ _)) (by simp [sig_le])

theorem output_facts (dist : P → P → Int) (q : P) (r : vertex_property P) (cs : Forest P)
    (H1 D : List (Int × vertex_type))
    (hP : (H1 ++ D).Perm (node_entries dist q (some (r, cs)) [])) :
    ((sort_heap H1).map (fun e => e.2)).map (dist_to dist q (some (r, cs))) =
        H1.reverse.map (fun e => e.1) ∧
      (∀ v ∈ (sort_heap H1).map (fun e => e.2), (vertex_at (some (r, cs)) v).isSome = true) ∧
      ((sort_heap H1).map (fun e => e.2)).Nodup := by
  have hmem : ∀ e ∈ H1, e ∈ node_entries dist q (some (r, cs)) [] :=
    fun e he => hP.subset (List.mem_append_left _ he)
  refine ⟨?_, ?_, ?_⟩
  · simp only [sort_heap, List.map_map]
    apply List.map_congr_left
    intro e he
    exact (dist_to_of_mem dist q r cs e (hmem e (List.mem_reverse.mp he))).2
  · intro v hv
    obtain ⟨e, he, rfl⟩ := List.mem_map.mp hv
    simp only [sort_heap, List.mem_reverse] at he
    exact (dist_to_of_mem dist q r cs e (hmem e he)).1
  · have h1 := (List.Perm.nodup_iff (List.Perm.map (fun e => e.2) hP)).mpr
      (node_entries_root_nodup dist q r cs)
    rw [List.map_append] at h1
    simp only [sort_heap, List.map_reverse]
    exact List.nodup_reverse.mpr (List.Nodup.of_append_left h1)

/-! ### Clearing, empty trees, and the stored root -/

/-- C14, the behaviour of the code. `clear()` tests `num_vertices(m_tree) == 0`, so that on
every non-empty tree it changes nothing: the tree keeps its vertices and its root, and
`empty()` stays false. -/
theorem clear_keeps_non_empty_tree (t : dvp_tree_impl P) (h : t.size ≠ 0) :
    clear t = t ∧ (clear t).empty = false ∧ (clear t).size = t.size := by
  have h1 : ¬ (num_vertices t.m_tree = 0) := h
  have h2 : clear t = t := by simp only [clear, if_neg h1]
  rw [h2]
  exact ⟨rfl, by simp [dvp_tree_impl.empty, h1], rfl⟩

/-- Witness of C14: `clear()` on the tree built from five points of the line. -/
theorem clear_keeps_non_empty_tree_witness :
    clear example_tree = example_tree ∧ (clear example_tree).empty = false ∧
      (clear example_tree).size = example_tree.size :=
  clear_keeps_non_empty_tree example_tree (by decide)

/-- C17. Queries on an empty tree return nothing: when the tree has no vertex,
`find_nearest(p)` returns the null vertex, and `find_nearest(p, out, K, R)`,
`find_in_range(p, out, R)` and their predecessor/successor variants end normally and write
no vertex, for every `p`, `K` and `R`. -/
theorem queries_on_empty_tree (dist unsym_dist : P → P → Int) (t : dvp_tree_impl P)
    (h : t.size = 0) (p : P) (K : Nat) (R : Option Int) :
    t.empty = true ∧
      find_nearest_single dist t p = search_result.done none ∧
      find_nearest dist t p K R = search_result.done [] ∧
      find_in_range dist t p R = search_result.done [] ∧
      find_nearest_pred_succ unsym_dist t p K R = search_result.done ([], []) ∧
      find_in_range_pred_succ unsym_dist t p R = search_result.done ([], []) := by
  have h1 : num_vertices t.m_tree = 0 := h
  refine ⟨by simp [dvp_tree_impl.empty, h1], ?_, ?_, ?_, ?_, ?_⟩
  · simp only [find_nearest_single, if_pos h1]
  · simp only [find_nearest, if_pos h1]
  · simp only [find_in_range, if_pos h1]
  · simp only [find_nearest_pred_succ, if_pos h1]
  · simp only [find_in_range_pred_succ, if_pos h1]

/-- Witness of C17: the queries on the tree without vertices. -/
theorem queries_on_empty_tree_witness :
    (dvp_tree_impl.mk (none : tree_indexer Int) none).empty = true ∧
      find_nearest_single line_dist ⟨none, none⟩ 4 = search_result.done none ∧
      find_nearest line_dist ⟨none, none⟩ 4 3 (some 2) = search_result.done [] ∧
      find_in_range line_dist ⟨none, none⟩ 4 (some 2) = search_result.done [] ∧
      find_nearest_pred_succ slope_dist ⟨none, none⟩ 4 3 (some 2) =
        search_result.done ([], []) ∧
      find_in_range_pred_succ slope_dist ⟨none, none⟩ 4 (some 2) =
        search_result.done ([], []) :=
  queries_on_empty_tree line_dist slope_dist ⟨none, none⟩ rfl 4 3 (some 2)

/-- C18, the behaviour of the code. On the empty tree, `erase(vertex)` and
`erase(first, last)` return at once and leave the tree empty, for every argument; but
`erase(key, point)` starts the lookup at the stored root, the null vertex, and the lookup
reads the key of that vertex: an invalid access. -/
theorem erase_on_empty_tree (Arity : Nat) (dist : P → P → Int)
    (std_sort : (vertex_property P → vertex_property P → Bool) →
      List (vertex_property P) → List (vertex_property P))
    (nth_element : (vertex_property P → vertex_property P → Bool) →
      List (vertex_property P) → Nat → List (vertex_property P))
    (ch : List (vertex_property P) → Nat) (v : vertex_type) (vs : List vertex_type)
    (k : Int) (p : P) :
    erase Arity dist std_sort nth_element ch ⟨none, none⟩ v = some ⟨none, none⟩ ∧
      erase_range Arity dist std_sort nth_element ch ⟨none, none⟩ vs = some ⟨none, none⟩ ∧
      erase_key Arity dist std_sort nth_element ch ⟨none, none⟩ k p =
        search_result.invalid_vertex ∧
      get_vertex dist ⟨none, none⟩ k p = search_result.invalid_vertex := by
  refine ⟨?_, ?_, rfl, rfl⟩
  · simp [erase, num_vertices]
  · simp [erase_range, num_vertices]

/-- C19. Root/emptiness invariant: in every tree obtained from the empty tree or from a
bulk construction by insertions and erasures of single vertices (every chooser returning an
element of a non-empty range, the arity at least one), the stored root is the null vertex
if and only if the tree has no vertex; otherwise the stored root is a vertex of the tree,
it has no in-edge, and it is the only vertex of the tree without an in-edge. -/
theorem root_emptiness_invariant (Arity : Nat) (dist : P → P → Int)
    (std_sort : (vertex_property P → vertex_property P → Bool) →
      List (vertex_property P) → List (vertex_property P))
    (nth_element : (vertex_property P → vertex_property P → Bool) →
      List (vertex_property P) → Nat → List (vertex_property P))
    (hA : 0 < Arity) (hsort : SortSpec std_sort) (hnth : NthSpec nth_element)
    (d : Bool) (t : dvp_tree_impl P)
    (h : Reachable Arity dist std_sort nth_element d t) :
    (t.m_root = none ↔ t.size = 0) ∧
      (t.size ≠ 0 → ∃ root, t.m_root = some root ∧
        (vertex_at t.m_tree root).isSome = true ∧ in_degree t.m_tree root = 0 ∧
        ∀ v, (vertex_at t.m_tree v).isSome = true → in_degree t.m_tree v = 0 → v = root) := by
  obtain ⟨⟨hroot, _⟩, _⟩ := reachable_inv Arity dist std_sort nth_element hA hsort hnth d t h
  obtain ⟨tree, root⟩ := t
  cases tree with
  | none =>
    have : root = none := hroot
    subst this
    exact ⟨⟨fun _ => rfl, fun _ => rfl⟩, fun h0 => absurd rfl h0⟩
  | some x =>
    obtain ⟨r, cs⟩ := x
    have hr0 : root = some [] := hroot
    subst hr0
    refine ⟨⟨fun h0 => by simp at h0, fun h0 => ?_⟩, fun _ => ⟨[], rfl, rfl, rfl, ?_⟩⟩
    · simp [dvp_tree_impl.size, num_vertices] at h0
    · intro v hv hin
      rcases List.eq_nil_or_concat v with h0 | ⟨w, i, h0⟩
      · exact h0
      · subst h0
        rw [List.concat_eq_append] at hv hin
        simp only [in_degree, List.getLast?_append, List.getLast?_singleton, Option.or_some,
          hv, if_true] at hin
        omega

/-- Witness of C19: the tree built from five points of the line. -/
theorem root_emptiness_invariant_witness :
    (example_tree.m_root = none ↔ example_tree.size = 0) ∧
      (example_tree.size ≠ 0 → ∃ root, example_tree.m_root = some root ∧
        (vertex_at example_tree.m_tree root).isSome = true ∧
        in_degree example_tree.m_tree root = 0 ∧
        ∀ v, (vertex_at example_tree.m_tree v).isSome = true →
          in_degree example_tree.m_tree v = 0 → v = root) :=
  root_emptiness_invariant 2 line_dist insertion_sort nth_by_sort (by decide)
    insertion_sort_spec nth_by_sort_spec false example_tree (example_tree_reachable false)

/-! ### The erasure of a range, and the lookup, at concrete inputs -/

/-- C11, the behaviour of the code. In the tree built from five points of the line, the
vertex `[0]` holds the key 4 and has one child, of key 2. `erase(first, last)` on the range
of that one vertex ends with a tree whose keys are 1, -1, 5 and 3: the element marked with
the invalid key is kept, and the element of key 2, which was not to be erased, is lost. -/
theorem erase_range_keeps_the_marked :
    Reachable 2 line_dist insertion_sort nth_by_sort true example_tree ∧
      example_tree.keys = [1, 4, 2, 5, 3] ∧
      (vertex_at example_tree.m_tree [0]).map (fun x => x.1.key) = some 4 ∧
      ∃ t1, erase_range 2 line_dist insertion_sort nth_by_sort first_chooser example_tree
          [[0]] = some t1 ∧ t1.keys = [1, -1, 5, 3] :=
  ⟨example_tree_reachable true, by decide, by decide, _, rfl, by decide⟩

theorem discrete_dist_symm (a b : Int) : discrete_dist a b = discrete_dist b a := by
  simp only [discrete_dist]
  by_cases h : a = b
  · subst h; rfl
  · rw [if_neg h, if_neg (fun h1 => h h1.symm)]

theorem discrete_dist_triangle (a b c : Int) :
    discrete_dist a c ≤ discrete_dist a b + discrete_dist b c := by
  simp only [discrete_dist]
  by_cases h1 : a = b
  · subst h1
    simp
  · rw [if_neg h1]
    split <;> split <;> omega

/-- C12, the behaviour of the code. With the metric that is 0 on equal points and 1
otherwise (symmetric, with the triangle inequality), the bulk construction of arity 2
stores the seven elements of keys 1 to 7, all keys and points distinct. The element of key 2 is stored in the tree, at the vertex `[1]`,
but `get_vertex(2, 2)` ends with the null vertex: the lookup keeps one alternate branch only,
the nested tie overwrites it, and the second child of the root is never visited. -/
theorem get_vertex_misses_a_stored_key :
    (∀ a b, discrete_dist a b = discrete_dist b a) ∧
    (∀ a b c, discrete_dist a c ≤ discrete_dist a b + discrete_dist b c) ∧
    ∃ t, from_range 2 discrete_dist insertion_sort nth_by_sort first_chooser seven_points =
        some t ∧
      Reachable 2 discrete_dist insertion_sort nth_by_sort true t ∧
      t.keys = [1, 7, 5, 6, 2, 4, 3] ∧
      (vertex_at t.m_tree [1]).map (fun x => x.1) = some ⟨2, 2⟩ ∧
      get_vertex discrete_dist t 2 2 = search_result.done none ∧
      get_vertex discrete_dist t 3 3 = search_result.done none ∧
      get_vertex discrete_dist t 4 4 = search_result.done none ∧
      get_vertex discrete_dist t 7 7 = search_result.done (some [0]) :=
  ⟨discrete_dist_symm, discrete_dist_triangle, _, rfl,
    Reachable.bulk first_chooser seven_points _ first_chooser_ok (fun _ => by decide) rfl,
    by decide, by decide, by decide, by decide, by decide, by decide⟩

/-! ### The lookup of a key that is not stored -/

namespace Forest

theorem mem_edges_index (c : Forest P) (k0 : Nat) (e : Nat × Int) (h : e ∈ c.edges k0) :
    k0 ≤ e.1 ∧ (c.slot (e.1 - k0)).isSome = true := by
  induction c generalizing k0 with
  | nil => simp [edges] at h
  | cons m v ch r _ ihr =>
    simp only [edges, List.mem_cons] at h
    rcases h with h | h
    · subst h
      simp [slot]
    · obtain ⟨h1, h2⟩ := ihr (k0 + 1) h
      have h3 : e.1 - k0 = (e.1 - (k0 + 1)) + 1 := by omega
      refine ⟨by omega, ?_⟩
      rw [h3]
      simpa [slot] using h2
  | hole r ih =>
    obtain ⟨h1, h2⟩ := ih (k0 + 1) (by simpa [edges] using h)
    have h3 : e.1 - k0 = (e.1 - (k0 + 1)) + 1 := by omega
    refine ⟨by omega, ?_⟩
    rw [h3]
    simpa [slot] using h2

end Forest

/-- The target of every out-edge of a vertex of the tree is a vertex of the tree. -/
theorem out_edges_target_valid (r : vertex_property P) (cs : Forest P) (v : vertex_type)
    (e : Int × vertex_type) (he : e ∈ out_edges (some (r, cs)) v) :
    (Forest.nodeAt r cs e.2).isSome = true := by
  cases hn : Forest.nodeAt r cs v with
  | none => simp [out_edges, vertex_at, hn] at he
  | some y =>
    obtain ⟨x, c⟩ := y
    rw [out_edges_some r cs v x c hn, List.mem_map] at he
    obtain ⟨e0, he0, rfl⟩ := he
    obtain ⟨_, h2⟩ := Forest.mem_edges_index c 0 e0 he0
    cases hs : c.slot e0.1 with
    | none => simp [hs] at h2
    | some z =>
      obtain ⟨m, vv, ch⟩ := z
      rw [Forest.nodeAt_snoc r cs v x c e0.1 m vv ch hn hs]
      rfl

/-- What the inner loop of `get_vertex` picks among a non-empty list of out-edges: the
target of an edge, and as the alternate branch either the former one or the target of the
edge that follows. -/
theorem pick_vertex_spec (cd : Int) (es : List (Int × vertex_type)) (hes : es ≠ [])
    (res : vertex_type) (alt : Option vertex_type) :
    ∃ i e, es[i]? = some e ∧ (pick_vertex cd es res alt).1 = e.2 ∧
      ((pick_vertex cd es res alt).2 = alt ∨
        ∃ e2, es[i + 1]? = some e2 ∧ (pick_vertex cd es res alt).2 = some e2.2) := by
  induction es generalizing res with
  | nil => exact absurd rfl hes
  | cons e es ih =>
    by_cases h1 : cd < e.1
    · exact ⟨0, e, by simp, by simp [pick_vertex, h1], Or.inl (by simp [pick_vertex, h1])⟩
    · by_cases h2 : cd = e.1
      · refine ⟨0, e, by simp, by simp [pick_vertex, h1, h2], ?_⟩
        cases es with
        | nil => exact Or.inl (by simp [pick_vertex, h2])
        | cons e2 es2 => exact Or.inr ⟨e2, by simp, by simp [pick_vertex, h2]⟩
      · cases es with
        | nil =>
          exact ⟨0, e, by simp, by simp [pick_vertex, h1, h2],
            Or.inl (by simp [pick_vertex, h1, h2])⟩
        | cons e2 es2 =>
          obtain ⟨i, e3, h3, h4, h5⟩ := ih (by simp) e.2
          have heq : pick_vertex cd (e :: e2 :: es2) res alt =
              pick_vertex cd (e2 :: es2) e.2 alt := by
            simp [pick_vertex, h1, h2]
          rw [heq]
          refine ⟨i + 1, e3, by simpa using h3, h4, ?_⟩
          rcases h5 with h5 | ⟨e4, h6, h7⟩
          · exact Or.inl h5
          · exact Or.inr ⟨e4, by simpa using h6, h7⟩

theorem sum_ge_getElem (G : (Int × vertex_type) → Nat) (es : List (Int × vertex_type))
    (i : Nat) (e : Int × vertex_type) (h : es[i]? = some e) : G e ≤ (es.map G).sum := by
  induction es generalizing i with
  | nil => simp at h
  | cons a es ih =>
    cases i with
    | zero =>
      simp only [List.getElem?_cons_zero, Option.some.injEq] at h
      subst h
      simp
    | succ i =>
      have := ih i (by simpa using h)
      simp only [List.map_cons, List.sum_cons]
      omega

theorem sum_ge_two (G : (Int × vertex_type) → Nat) (es : List (Int × vertex_type))
    (i : Nat) (e e2 : Int × vertex_type) (h : es[i]? = some e) (h2 : es[i + 1]? = some e2) :
    G e + G e2 ≤ (es.map G).sum := by
  induction es generalizing i with
  | nil => simp at h
  | cons a es ih =>
    cases i with
    | zero =>
      simp only [List.getElem?_cons_zero, Option.some.injEq] at h
      subst h
      have := sum_ge_getElem G es 0 e2 (by simpa using h2)
      simp only [List.map_cons, List.sum_cons]
      omega
    | succ i =>
      have := ih i (by simpa using h) (by simpa using h2)
      simp only [List.map_cons, List.sum_cons]
      omega

/-- The lookup of a key that no vertex holds ends by `throw`, from every vertex and every
alternate branch, within a number of iterations bounded by the sizes of the two subtrees. -/
theorem get_vertex_loop_absent (dist : P → P → Int) (r : vertex_property P) (cs : Forest P)
    (k : Int) (p : P)
    (hk : ∀ v x c, Forest.nodeAt r cs v = some (x, c) → x.key ≠ k) :
    ∀ (fuel : Nat) (n : vertex_type) (alt : Option vertex_type),
      (Forest.nodeAt r cs n).isSome = true →
      (∀ a, alt = some a → (Forest.nodeAt r cs a).isSome = true) →
      subtree_size (some (r, cs)) n +
        (match alt with
          | none => 0
          | some a => subtree_size (some (r, cs)) a) ≤ fuel →
      get_vertex_loop dist (some (r, cs)) k p fuel n alt = lookup_result.thrown := by
  intro fuel
  induction fuel with
  | zero =>
    intro n alt _ _ hf
    have := subtree_size_pos (some (r, cs)) n
    omega
  | succ fuel ih =>
    intro n alt hn halt hf
    cases hnn : Forest.nodeAt r cs n with
    | none => simp [hnn] at hn
    | some y =>
      obtain ⟨x, c⟩ := y
      have hkey : ¬ (x.key = k) := hk n x c hnn
      have hva : vertex_at (some (r, cs)) n = some (x, c) := hnn
      simp only [get_vertex_loop, hva, if_neg hkey]
      by_cases hd : out_degree (some (r, cs)) n = 0
      · simp only [if_pos hd]
        cases alt with
        | none => rfl
        | some a =>
          simp only
          apply ih a none (halt a rfl) (fun _ h => by simp at h)
          have := subtree_size_pos (some (r, cs)) n
          simp only at hf ⊢
          omega
      · simp only [if_neg hd]
        have hes : out_edges (some (r, cs)) n ≠ [] := by
          intro h0
          exact hd (by simp [out_degree, h0])
        obtain ⟨i, e, h1, h2, h3⟩ :=
          pick_vertex_spec (dist p x.pos) (out_edges (some (r, cs)) n) hes n alt
        have hsum := sum_subtree_out_edges r cs n
        have hmem : e ∈ out_edges (some (r, cs)) n := List.mem_iff_getElem?.mpr ⟨i, h1⟩
        have hv1 := out_edges_target_valid r cs n e hmem
        generalize pick_vertex (dist p x.pos) (out_edges (some (r, cs)) n) n alt = res
          at h2 h3
        obtain ⟨res1, res2⟩ := res
        simp only at h2 h3 ⊢
        subst h2
        rcases h3 with h3 | ⟨e2, h4, h5⟩
        · subst h3
          apply ih e.2 res2 hv1 halt
          have := sum_ge_getElem (fun e => subtree_size (some (r, cs)) e.2) _ i e h1
          simp only at this
          omega
        · subst h5
          have hmem2 : e2 ∈ out_edges (some (r, cs)) n := List.mem_iff_getElem?.mpr ⟨i + 1, h4⟩
          have hv2 := out_edges_target_valid r cs n e2 hmem2
          apply ih e.2 (some e2.2) hv1 (fun a h => by
            simp only [Option.some.injEq] at h
            subst h
            exact hv2)
          have := sum_ge_two (fun e => subtree_size (some (r, cs)) e.2) _ i e e2 h1 h4
          simp only at this ⊢
          omega

/-- On a non-empty tree whose stored root is the root of the storage, the lookup of a key
that no vertex holds ends by `throw`. -/
theorem get_vertex_from_root_absent (dist : P → P → Int) (t : dvp_tree_impl P)
    (hroot : Rooted t) (hne : t.size ≠ 0) (k : Int) (hk : k ∉ t.keys) (p : P) :
    get_vertex_from_root dist t k p = lookup_result.thrown := by
  obtain ⟨tree, root⟩ := t
  cases tree with
  | none => exact absurd rfl hne
  | some y =>
    obtain ⟨r, cs⟩ := y
    have hr0 : root = some [] := hroot
    subst hr0
    simp only [get_vertex_from_root]
    apply get_vertex_loop_absent dist r cs k p
    · intro v x c hv hx
      apply hk
      have := mem_elems_of_vertex ⟨some (r, cs), some []⟩ v x c hv
      exact List.mem_map.mpr ⟨x, this, hx⟩
    · rfl
    · intro a h
      simp at h
    · simp [subtree_size, vertex_at, Forest.nodeAt, num_vertices]

/-- C13. Lookup failure is reported without mutation: for every non-empty tree (the stored
root being the root of the storage), every key `k` that no element of the tree has and
every point `p`, `get_vertex(k, p)` ends normally with the null vertex, and `erase(k, p)`
ends normally and returns the tree itself: same vertices, edges, keys, positions and
radii. -/
theorem lookup_failure_without_mutation (Arity : Nat) (dist : P → P → Int)
    (std_sort : (vertex_property P → vertex_property P → Bool) →
      List (vertex_property P) → List (vertex_property P))
    (nth_element : (vertex_property P → vertex_property P → Bool) →
      List (vertex_property P) → Nat → List (vertex_property P))
    (ch : List (vertex_property P) → Nat) (t : dvp_tree_impl P)
    (hroot : Rooted t) (hne : t.size ≠ 0) (k : Int) (hk : k ∉ t.keys) (p : P) :
    get_vertex dist t k p = search_result.done none ∧
      erase_key Arity dist std_sort nth_element ch t k p = search_result.done t := by
  have h := get_vertex_from_root_absent dist t hroot hne k hk p
  constructor
  · simp only [get_vertex, h]
  · simp only [erase_key, h]

/-- Witness of C13: the key 9 is not in the tree built from five points of the line. -/
theorem lookup_failure_without_mutation_witness :
    get_vertex line_dist example_tree 9 4 = search_result.done none ∧
      erase_key 2 line_dist insertion_sort nth_by_sort first_chooser example_tree 9 4 =
        search_result.done example_tree :=
  lookup_failure_without_mutation 2 line_dist insertion_sort nth_by_sort first_chooser
    example_tree rfl (by decide) 9 (by decide) 4

/-! ### The search on a tree with arbitrary radii -/

namespace Forest

theorem noHoles_slot (c : Forest P) (hn : c.NoHoles) (i : Nat) (m : Int)
    (v : vertex_property P) (sub : Forest P) (hs : c.slot i = some (m, v, sub)) :
    sub.NoHoles := by
  induction c generalizing i with
  | nil => simp [slot] at hs
  | cons m0 v0 c0 r _ ihr =>
    cases i with
    | zero =>
      simp only [slot, Option.some.injEq, Prod.mk.injEq] at hs
      rw [← hs.2.2]
      exact hn.1
    | succ i => exact ihr hn.2 i (by simpa [slot] using hs)
  | hole r _ => exact absurd hn (by simp [NoHoles])

theorem noHoles_nodeAt (w : List Nat) (r : vertex_property P) (cs : Forest P)
    (x : vertex_property P) (c : Forest P) (hn : nodeAt r cs w = some (x, c))
    (hnh : cs.NoHoles) : c.NoHoles := by
  induction w generalizing r cs with
  | nil =>
    simp only [nodeAt, Option.some.injEq, Prod.mk.injEq] at hn
    rw [← hn.2]
    exact hnh
  | cons i w ih =>
    simp only [nodeAt] at hn
    cases hs : cs.slot i with
    | none => simp [hs] at hn
    | some y =>
      obtain ⟨m, v, sub⟩ := y
      simp only [hs] at hn
      exact ih v sub hn (noHoles_slot cs hnh i m v sub hs)

end Forest

/-- The child behind the `i`-th out-edge of a vertex without vacant slots. -/
theorem child_valid (r : vertex_property P) (cs : Forest P)
    (v : vertex_type) (x : vertex_property P) (c : Forest P)
    (hn : Forest.nodeAt r cs v = some (x, c)) (hnh : c.NoHoles)
    (i : Nat) (hi : i < c.degree) :
    (vertex_at (some (r, cs)) (v ++ [i])).isSome = true ∧
      target_at (out_edges (some (r, cs)) v) i = v ++ [i] := by
  obtain ⟨y, hy⟩ := Option.isSome_iff_exists.mp ((Forest.slot_isSome_iff c hnh i).mpr hi)
  obtain ⟨m, vi, sub⟩ := y
  have hnode := Forest.nodeAt_snoc r cs v x c i m vi sub hn hy
  have hes := out_edges_getElem? r cs v x c hn hnh i
  rw [hy] at hes
  exact ⟨by simp [vertex_at, hnode], by simp [target_at, hes]⟩

theorem lt_sigma_none (x : Int) : lt_sigma x none = true := rfl

/-- Tasks for the children of an interval of out-edge indices around a primary child, each
one once, are children of the vertex; the candidates below the other children are the list
`Y`, which is empty when the interval holds every out-edge. -/
theorem children_interval (dist : P → P → Int) (q : P) (r : vertex_property P)
    (cs : Forest P) (v : vertex_type) (x : vertex_property P) (c : Forest P)
    (hn : Forest.nodeAt r cs v = some (x, c)) (hnh : c.NoHoles)
    (T0 : List (vertex_type × Int)) (bl br : Nat → Int) (l1 r1 ei : Nat)
    (a1 : l1 ≤ ei) (a2 : ei < r1) (a3 : r1 ≤ c.degree)
    (a4 : T0.Perm
      ((List.Ico l1 ei).map (fun i => (target_at (out_edges (some (r, cs)) v) i, bl i)) ++
        ((List.Ico (ei + 1) r1).map
          (fun i => (target_at (out_edges (some (r, cs)) v) i, br i)) ++
          [(target_at (out_edges (some (r, cs)) v) ei, 0)]))) :
    ∃ Y, (pending dist q (some (r, cs)) T0.reverse ++ Y).Perm (c.entries dist q v 0) ∧
      (l1 = 0 → r1 = c.degree → Y = []) ∧
      ∀ τ ∈ T0.reverse, (vertex_at (some (r, cs)) τ.1).isSome = true := by
  have hfacts := child_valid r cs v x c hn hnh
  have hEnt := entries_eq_kid_entries dist q r cs v x c hn c 0 hnh (fun j => by simp)
  rw [Nat.zero_add] at hEnt
  have e1 : List.Ico 0 c.degree = List.Ico 0 l1 ++ (List.Ico l1 ei ++ ([ei] ++
      (List.Ico (ei + 1) r1 ++ List.Ico r1 c.degree))) := by
    rw [List.Ico.append_consecutive (by omega) a3, List.singleton_append,
      ← List.Ico.eq_cons (by omega : ei < c.degree),
      List.Ico.append_consecutive a1 (by omega),
      List.Ico.append_consecutive (Nat.zero_le _) (by omega)]
  have hPT : (pending dist q (some (r, cs)) T0.reverse).Perm
      (kid_entries dist q (some (r, cs)) v (List.Ico l1 ei) ++
        (kid_entries dist q (some (r, cs)) v (List.Ico (ei + 1) r1) ++
          kid_entries dist q (some (r, cs)) v [ei])) := by
    refine (pending_perm dist q _ _ _ ((List.reverse_perm _).trans a4)).trans ?_
    rw [pending_append, pending_append,
      pending_map dist q _ v _ (List.Ico l1 ei) (fun i hi =>
        (hfacts i (by have := List.Ico.mem.mp hi; omega)).2),
      pending_map dist q _ v _ (List.Ico (ei + 1) r1) (fun i hi =>
        (hfacts i (by have := List.Ico.mem.mp hi; omega)).2)]
    simp only [pending, kid_entries]
    rw [(hfacts ei (by omega)).2]
  refine ⟨kid_entries dist q (some (r, cs)) v (List.Ico 0 l1) ++
    kid_entries dist q (some (r, cs)) v (List.Ico r1 c.degree), ?_, ?_, ?_⟩
  · rw [hEnt, e1]
    simp only [kid_entries_append]
    exact perm_five _ _ _ _ _ _ _ hPT rfl
  · intro hl0 hr0
    subst hl0
    subst hr0
    simp [kid_entries]
  · intro τ hτ
    have hτ1 := a4.subset (List.mem_reverse.mp hτ)
    rcases List.mem_append.mp hτ1 with h | h
    · obtain ⟨i, hi, rfl⟩ := List.mem_map.mp h
      have hi1 := List.Ico.mem.mp hi
      obtain ⟨f1, f2⟩ := hfacts i (by omega)
      simp only
      rw [f2]
      exact f1
    · rcases List.mem_append.mp h with h | h
      · obtain ⟨i, hi, rfl⟩ := List.mem_map.mp h
        have hi1 := List.Ico.mem.mp hi
        obtain ⟨f1, f2⟩ := hfacts i (by omega)
        simp only
        rw [f2]
        exact f1
      · simp only [List.mem_singleton] at h
        subst h
        obtain ⟨f1, f2⟩ := hfacts ei (by omega)
        simp only
        rw [f2]
        exact f1

/-- The tasks that the search pushes for a visited vertex are children of the vertex, each
one once; the candidates below the other children are the list `Y`, which is empty when the
radius is infinite. -/
theorem children_sound (dist : P → P → Int) (q : P) (r : vertex_property P)
    (cs : Forest P) (v : vertex_type) (x : vertex_property P) (c : Forest P)
    (hn : Forest.nodeAt r cs v = some (x, c)) (hnh : c.NoHoles)
    (cd : Int) (σ1 : Option Int) (T : List (vertex_type × Int))
    (hT : T = if out_degree (some (r, cs)) v = 0 then []
      else (expand_children (out_edges (some (r, cs)) v) cd σ1).reverse) :
    ∃ Y, (pending dist q (some (r, cs)) T ++ Y).Perm (c.entries dist q v 0) ∧
      (σ1 = none → Y = []) ∧
      ∀ τ ∈ T, (vertex_at (some (r, cs)) τ.1).isSome = true := by
  have hlen : (out_edges (some (r, cs)) v).length = c.degree := out_degree_some r cs v x c hn
  rw [out_degree_some r cs v x c hn] at hT
  by_cases hd : c.degree = 0
  · rw [if_pos hd] at hT
    have hnil := Forest.eq_nil_of_degree_zero c hd hnh
    subst hnil
    subst hT
    exact ⟨[], by simp [pending, Forest.entries], fun _ => rfl, fun τ hτ => by simp at hτ⟩
  · rw [if_neg hd] at hT
    have hne : out_edges (some (r, cs)) v ≠ [] := by
      intro h0
      rw [h0] at hlen
      simp at hlen
      omega
    obtain ⟨l1, r1, ei, a1, a2, a3, a4, a5, a6⟩ :=
      expand_children_spec (out_edges (some (r, cs)) v) cd σ1 hne
    rw [hlen] at a3 a6
    obtain ⟨Y, hY1, hY2, hY3⟩ := children_interval dist q r cs v x c hn hnh _ _ _ l1 r1 ei
      a1 a2 a3 a4
    subst hT
    exact ⟨Y, hY1, fun h0 => hY2 (a5 h0) (a6 h0), hY3⟩

/-! ### The loop of the search on a tree with arbitrary radii -/

theorem sig_le_self_ne_none (σ σ1 : Option Int) (hmono : ∀ d, sig_le σ d → sig_le σ1 d)
    (h1 : σ1 = none) : σ = none := by
  cases σ with
  | none => rfl
  | some s =>
    subst h1
    exact absurd (hmono s (le_refl s)) (by simp [sig_le])

/-- The loop of `find_nearest_impl` ends normally within the bound on every tree without
vacant slots, whatever the radii of its edges, in a state that accounts for every vertex of
the tree. -/
theorem find_nearest_loop_sound (dist : P → P → Int) (q : P)
    (r : vertex_property P) (cs : Forest P) (hnh : cs.NoHoles) (K : Nat) (hK : 1 ≤ K)
    (R : Option Int) :
    ∀ (fuel : Nat) (tasks : List (vertex_type × Int)) (σ : Option Int)
      (H : List (Int × vertex_type)),
      SoundInv dist q (some (r, cs)) K R tasks σ H →
      (pending dist q (some (r, cs)) tasks).length ≤ fuel →
      ∃ H1 σ1, find_nearest_loop dist (some (r, cs)) q K fuel tasks σ H =
          search_result.done H1 ∧
        SoundInv dist q (some (r, cs)) K R [] σ1 H1 := by
  intro fuel
  induction fuel with
  | zero =>
    intro tasks σ H hinv hf
    cases tasks with
    | nil => exact ⟨H, σ, rfl, hinv⟩
    | cons τ rest =>
      exfalso
      obtain ⟨D, _, _, _, _, _, _, _, _, hT⟩ := hinv
      have hv := hT τ (List.mem_cons_self _ _)
      obtain ⟨y, hy⟩ := Option.isSome_iff_exists.mp hv
      simp [pending, node_entries, hy, sub_entries] at hf
  | succ fuel ih =>
    intro tasks σ H hinv hf
    cases tasks with
    | nil => exact ⟨H, σ, rfl, hinv⟩
    | cons τ rest =>
      obtain ⟨D, hP, hS, hL, hR, hσ, hD, hσR, hfull, hT⟩ := hinv
      have hv := hT τ (List.mem_cons_self _ _)
      obtain ⟨y, hy⟩ := Option.isSome_iff_exists.mp hv
      obtain ⟨x, c⟩ := y
      have hNE : node_entries dist q (some (r, cs)) τ.1 =
          [(dist q x.pos, τ.1)] ++ c.entries dist q τ.1 0 := by
        simp [node_entries, hy, sub_entries]
      have hrestT : ∀ τ1 ∈ rest, (vertex_at (some (r, cs)) τ1.1).isSome = true :=
        fun τ1 h1 => hT τ1 (List.mem_cons_of_mem _ h1)
      simp only [pending] at hP hf
      simp only [find_nearest_loop]
      by_cases hgt : gt_sigma τ.2 σ = true
      · rw [if_pos hgt]
        apply ih rest σ H
        · refine ⟨D ++ node_entries dist q (some (r, cs)) τ.1, ?_, hS, hL, hR, hσ, ?_, hσR,
            hfull, hrestT⟩
          · simpa [List.append_assoc] using hP
          · intro h0
            subst h0
            simp [gt_sigma] at hgt
        · rw [hNE] at hf
          simp only [List.length_append, List.length_cons, List.length_nil] at hf
          omega
      · rw [if_neg hgt]
        simp only [hy]
        obtain ⟨σ1, H1, X, hupd, hp1, hS1, hL1, hR1, hσ1, hX, hσR1, hfull1, hmono⟩ :=
          heap_update K hK R σ H (dist q x.pos) τ.1 hS hL hR hσ hσR hfull
        generalize hu : (ite (lt_sigma (dist q x.pos) σ = true) _ _ :
          Option (Option Int × List (Int × vertex_type))) = upd
        have hupd1 : upd = some (σ1, H1) := by
          exact hu.symm.trans hupd
        rw [hupd1]
        simp only []
        have hnhv : c.NoHoles := Forest.noHoles_nodeAt τ.1 r cs x c hy hnh
        obtain ⟨Y, hpY, hY, hTY⟩ := children_sound dist q r cs τ.1 x c hy hnhv
          (dist q x.pos) σ1 _ rfl
        have hgoal :
            (if out_degree (some (r, cs)) τ.1 = 0 then
              find_nearest_loop dist (some (r, cs)) q K fuel rest σ1 H1
            else
              find_nearest_loop dist (some (r, cs)) q K fuel
                ((expand_children (out_edges (some (r, cs)) τ.1) (dist q x.pos) σ1).reverse ++
                  rest) σ1 H1) =
            find_nearest_loop dist (some (r, cs)) q K fuel
              ((if out_degree (some (r, cs)) τ.1 = 0 then []
                else (expand_children (out_edges (some (r, cs)) τ.1) (dist q x.pos)
                  σ1).reverse) ++ rest) σ1 H1 := by
          split <;> rfl
        rw [hgoal]
        apply ih
        · refine ⟨X ++ D ++ Y, ?_, hS1, hL1, hR1, hσ1, ?_, hσR1, hfull1, ?_⟩
          · rw [pending_append]
            rw [hNE] at hP
            exact (perm_account H D _ _ _ H1 X _ Y hp1 hpY).trans hP
          · intro h0
            rw [discarded_nil σ1 X hX h0, hD (sig_le_self_ne_none σ σ1 hmono h0), hY h0]
            rfl
          · intro τ1 h1
            rcases List.mem_append.mp h1 with h | h
            · exact hTY τ1 h
            · exact hrestT τ1 h
        · rw [pending_append]
          rw [hNE] at hf
          have := hpY.length_eq
          simp only [List.length_append, List.length_cons, List.length_nil] at hf this ⊢
          omega

/-- On a non-empty tree without vacant slots, whatever the radii of its edges,
`find_nearest_impl` with an empty candidate list ends normally: the candidates it returns,
together with the discarded ones (the list `D`), are the vertices of the tree with their
distances; the returned ones are sorted by descending distance, at most `K` and strictly
within the initial radius; nothing is discarded when the final radius is infinite; and
unless the final radius is the initial one, `K` candidates are returned. -/
theorem find_nearest_impl_sound (dist : P → P → Int) (q : P)
    (r : vertex_property P) (cs : Forest P) (hnh : cs.NoHoles) (K : Nat) (hK : 1 ≤ K)
    (R : Option Int) :
    ∃ H1 σ1 D, find_nearest_impl dist ⟨some (r, cs), some []⟩ q R [] K =
        search_result.done H1 ∧
      (H1 ++ D).Perm (node_entries dist q (some (r, cs)) []) ∧
      H1.Pairwise (fun a b => b.1 ≤ a.1) ∧ H1.length ≤ K ∧
      (∀ e ∈ H1, lt_sigma e.1 R = true) ∧
      (σ1 = none → D = []) ∧ (σ1 = R ∨ H1.length = K) := by
  have hinit : SoundInv dist q (some (r, cs)) K R [([], 0)] R [] := by
    refine ⟨[], by simp [pending], List.Pairwise.nil, Nat.zero_le _, fun e he => by simp at he,
      fun e he => by simp at he, fun _ => rfl, sig_le_sig_refl R, Or.inl rfl, ?_⟩
    intro τ hτ
    simp only [List.mem_singleton] at hτ
    subst hτ
    rfl
  have hfuel : (pending dist q (some (r, cs)) [([], 0)]).length ≤
      num_vertices (some (r, cs)) := by
    have h1 := congrArg List.length (node_entries_root_fst dist q r cs)
    simp only [List.length_map, List.length_cons] at h1
    simp only [pending, List.append_nil, num_vertices, h1, Forest.size_eq_length_elems]
    omega
  obtain ⟨H1, σ1, hE, D, hP, hS, hL, hR, _, hD, _, hfull, _⟩ :=
    find_nearest_loop_sound dist q r cs hnh K hK R _ _ R [] hinit hfuel
  refine ⟨H1, σ1, D, hE, ?_, hS, hL, hR, hD, hfull⟩
  simpa [pending] using hP

/-- C16. Query soundness: for every well-formed tree, empty or not, whatever the radii of its
edges and whatever the distance function, every query point `p`, every `K >= 1` and every
radius `R`, `find_nearest(p, out, K, R)` ends normally and outputs at most `K` vertices,
all of them pairwise distinct vertices of the tree, each at a distance below `R` from `p`
(so at most `R`), listed in ascending order of distance to `p`. -/
theorem query_soundness (dist : P → P → Int) (t : dvp_tree_impl P) (hwf : WellFormed t)
    (p : P) (K : Nat) (hK : 1 ≤ K) (R : Option Int) :
    ∃ out, find_nearest dist t p K R = search_result.done out ∧
      out.length ≤ K ∧ out.Nodup ∧
      (∀ v ∈ out, (vertex_at t.m_tree v).isSome = true) ∧
      (∀ v ∈ out, lt_sigma (dist_to dist p t.m_tree v) R = true ∧
        le_sig (dist_to dist p t.m_tree v) R) ∧
      (out.map (dist_to dist p t.m_tree)).Pairwise (fun a b => a ≤ b) := by
  obtain ⟨tree, root⟩ := t
  cases tree with
  | none =>
    exact ⟨[], by simp [find_nearest, num_vertices], Nat.zero_le _, List.nodup_nil,
      fun v hv => by simp at hv, fun v hv => by simp at hv, List.Pairwise.nil⟩
  | some y =>
    obtain ⟨r, cs⟩ := y
    obtain ⟨hr0, hnh⟩ := hwf
    have hr1 : root = some [] := hr0
    subst hr1
    obtain ⟨H1, σ1, D, hE, hP, hS, hL, hR, _, _⟩ :=
      find_nearest_impl_sound dist p r cs hnh K hK R
    obtain ⟨o1, o2, o3⟩ := output_facts dist p r cs H1 D hP
    have hnv : ¬ (num_vertices (some (r, cs)) = 0) := by
      simp only [num_vertices]
      omega
    refine ⟨(sort_heap H1).map (fun e => e.2), ?_, ?_, o3, o2, ?_, ?_⟩
    · simp only [find_nearest, if_neg hnv, hE]
    · simpa [sort_heap] using hL
    · intro v hv
      have hmem : dist_to dist p (some (r, cs)) v ∈
          ((sort_heap H1).map (fun e => e.2)).map (dist_to dist p (some (r, cs))) :=
        List.mem_map_of_mem _ hv
      rw [o1] at hmem
      obtain ⟨e, he, hev⟩ := List.mem_map.mp hmem
      have hlt := hR e (List.mem_reverse.mp he)
      simp only at hev ⊢
      rw [← hev]
      exact ⟨hlt, le_sig_of_lt e.1 R hlt⟩
    · simp only at o1 ⊢
      rw [o1, List.map_reverse, List.pairwise_reverse, List.pairwise_map]
      exact hS

/-- Witness of C16: the three nearest vertices within the radius 4 of the point 4, in the
tree built from five points of the line. -/
theorem query_soundness_witness :
    ∃ out, find_nearest line_dist example_tree 4 3 (some 4) = search_result.done out ∧
      out.length ≤ 3 ∧ out.Nodup ∧
      (∀ v ∈ out, (vertex_at example_tree.m_tree v).isSome = true) ∧
      (∀ v ∈ out, lt_sigma (dist_to line_dist 4 example_tree.m_tree v) (some 4) = true ∧
        le_sig (dist_to line_dist 4 example_tree.m_tree v) (some 4)) ∧
      (out.map (dist_to line_dist 4 example_tree.m_tree)).Pairwise (fun a b => a ≤ b) :=
  query_soundness line_dist example_tree ⟨rfl, by simp [Forest.NoHoles]⟩ 4 3 (by decide)
    (some 4)

/-- C15. Unbounded range query returns everything, sorted: for every non-empty well-formed
tree with `N` elements, whatever the radii of its edges and whatever the distance function,
and every query point `p`, `find_in_range(p, out, R)` with an infinite `R` ends normally
and outputs `N` vertices, pairwise distinct, every vertex of the tree among them, in
ascending order of distance to `p`. -/
theorem unbounded_range_query_returns_everything (dist : P → P → Int) (t : dvp_tree_impl P)
    (hwf : WellFormed t) (hne : t.size ≠ 0) (p : P) :
    ∃ out, find_in_range dist t p none = search_result.done out ∧
      out.length = t.size ∧ out.Nodup ∧
      (∀ v, v ∈ out ↔ (vertex_at t.m_tree v).isSome = true) ∧
      (out.map (dist_to dist p t.m_tree)).Pairwise (fun a b => a ≤ b) := by
  obtain ⟨tree, root⟩ := t
  cases tree with
  | none => exact absurd rfl hne
  | some y =>
    obtain ⟨r, cs⟩ := y
    obtain ⟨hr0, hnh⟩ := hwf
    have hr1 : root = some [] := hr0
    subst hr1
    have hnv : ¬ (num_vertices (some (r, cs)) = 0) := hne
    obtain ⟨H1, σ1, D, hE, hP, hS, hL, hR, hD, hfull⟩ :=
      find_nearest_impl_sound dist p r cs hnh (num_vertices (some (r, cs))) (by omega) none
    have hlenN := node_entries_root_length dist p r cs
    have hDnil : D = [] := by
      rcases hfull with h | h
      · exact hD h
      · have h2 := hP.length_eq
        rw [List.length_append, hlenN, h] at h2
        exact List.eq_nil_of_length_eq_zero (by omega)
    subst hDnil
    rw [List.append_nil] at hP
    obtain ⟨o1, o2, o3⟩ := output_facts dist p r cs H1 [] (by simpa using hP)
    refine ⟨(sort_heap H1).map (fun e => e.2), ?_, ?_, o3, ?_, ?_⟩
    · simp only [find_in_range, if_neg hnv, hE]
    · have h2 := hP.length_eq
      rw [hlenN] at h2
      simpa [sort_heap] using h2
    · intro v
      constructor
      · exact o2 v
      · intro hv
        obtain ⟨z, hz⟩ := Option.isSome_iff_exists.mp hv
        obtain ⟨y, cy⟩ := z
        have hmem : (dist p y.pos, v) ∈ node_entries dist p (some (r, cs)) [] :=
          (mem_node_entries_root dist p r cs (dist p y.pos, v)).mpr ⟨y, cy, hz, rfl⟩
        have hmem1 := hP.symm.subset hmem
        simp only [sort_heap, List.mem_map, List.mem_reverse]
        exact ⟨_, hmem1, rfl⟩
    · simp only at o1 ⊢
      rw [o1, List.map_reverse, List.pairwise_reverse, List.pairwise_map]
      exact hS

/-- Witness of C15: the unbounded range query around the point 4, in the tree built from
five points of the line. -/
theorem unbounded_range_query_returns_everything_witness :
    ∃ out, find_in_range line_dist example_tree 4 none = search_result.done out ∧
      out.length = example_tree.size ∧ out.Nodup ∧
      (∀ v, v ∈ out ↔ (vertex_at example_tree.m_tree v).isSome = true) ∧
      (out.map (dist_to line_dist 4 example_tree.m_tree)).Pairwise (fun a b => a ≤ b) :=
  unbounded_range_query_returns_everything line_dist example_tree
    ⟨rfl, by simp [Forest.NoHoles]⟩ (by decide) 4

/-! ### The expansion of the dual-queue search -/

theorem cons_set_swap_perm {α : Type} (x y : α) (t : List α) (j : Nat) (hj : j < t.length) :
    (x :: t.set j y).Perm (y :: t.set j x) := by
  induction t generalizing j with
  | nil => simp at hj
  | cons h t ih =>
    cases j with
    | zero => exact List.Perm.swap _ _ _
    | succ k =>
      simp only [List.set_cons_succ]
      have h1 := ih k (by simpa using hj)
      exact (List.Perm.swap _ _ _).trans (((List.Perm.cons h h1)).trans (List.Perm.swap _ _ _))

/-- Exchanging the values written at two distinct indices gives a permutation. -/
theorem set_swap_perm {α : Type} (a : List α) (i j : Nat) (x y : α) (hij : i ≠ j)
    (hi : i < a.length) (hj : j < a.length) :
    ((a.set i x).set j y).Perm ((a.set i y).set j x) := by
  induction a generalizing i j with
  | nil => simp at hi
  | cons h t ih =>
    cases i with
    | zero =>
      cases j with
      | zero => exact absurd rfl hij
      | succ k =>
        simp only [List.set_cons_zero, List.set_cons_succ]
        exact cons_set_swap_perm x y t k (by simpa using hj)
    | succ m =>
      cases j with
      | zero =>
        simp only [List.set_cons_zero, List.set_cons_succ]
        exact (cons_set_swap_perm x y t m (by simpa using hi)).symm
      | succ k =>
        simp only [List.set_cons_succ]
        exact List.Perm.cons h (ih m k (by omega) (by simpa using hi) (by simpa using hj))

theorem set_self_of_getElem? {α : Type} (a : List α) (i : Nat) (x : α) (h : a[i]? = some x) :
    a.set i x = a := by
  induction a generalizing i with
  | nil => rfl
  | cons h0 t ih =>
    cases i with
    | zero =>
      simp only [List.getElem?_cons_zero, Option.some.injEq] at h
      simp [h]
    | succ k =>
      simp only [List.getElem?_cons_succ] at h
      simp [ih k h]

/-- The innermost loop leaves a range that, with `tmp` put at the final index, is a
permutation of the range with `tmp` put at the first index; it never touches index 0. -/
theorem shift_loop_perm {α : Type} (comp : α → α → Bool) (tmp : α) (gap : Nat)
    (hgap : 1 ≤ gap) :
    ∀ (fuel it : Nat) (a : List α), 1 ≤ it → it < a.length →
      1 ≤ (shift_loop comp tmp gap fuel it a).2 ∧
      (shift_loop comp tmp gap fuel it a).2 < (shift_loop comp tmp gap fuel it a).1.length ∧
      (shift_loop comp tmp gap fuel it a).1.length = a.length ∧
      ((shift_loop comp tmp gap fuel it a).1.set (shift_loop comp tmp gap fuel it a).2 tmp).Perm
        (a.set it tmp) ∧
      (shift_loop comp tmp gap fuel it a).1[0]? = a[0]? := by
  intro fuel
  induction fuel with
  | zero =>
    intro it a h1 h2
    exact ⟨h1, h2, rfl, List.Perm.refl _, rfl⟩
  | succ fuel ih =>
    intro it a h1 h2
    simp only [shift_loop]
    by_cases hg : it > gap
    · rw [if_pos hg]
      cases hp : a[it - gap]? with
      | none => exact ⟨h1, h2, rfl, List.Perm.refl _, rfl⟩
      | some prev =>
        simp only []
        by_cases hc : comp tmp prev = true
        · rw [if_pos hc]
          obtain ⟨b1, b2, b3, b4, b5⟩ := ih (it - gap) (a.set it prev) (by omega)
            (by rw [List.length_set]; omega)
          refine ⟨b1, b2, by rw [b3, List.length_set], ?_, ?_⟩
          · refine b4.trans ?_
            have hself : (a.set it tmp).set (it - gap) prev = a.set it tmp := by
              apply set_self_of_getElem?
              rw [List.getElem?_set_ne (by omega)]
              exact hp
            rw [← hself]
            exact set_swap_perm a it (it - gap) prev tmp (by omega) h2 (by omega)
          · rw [b5, List.getElem?_set_ne (by omega)]
        · rw [if_neg hc]
          exact ⟨h1, h2, rfl, List.Perm.refl _, rfl⟩
    · rw [if_neg hg]
      exact ⟨h1, h2, rfl, List.Perm.refl _, rfl⟩

/-- Every pass of `shell_sort` permutes the range and keeps its first element in place. -/
theorem gap_pass_perm {α : Type} (comp : α → α → Bool) (gap : Nat) (hgap : 1 ≤ gap) :
    ∀ (fuel current : Nat) (a : List α), 1 ≤ current →
      (gap_pass comp gap fuel current a).Perm a ∧
      (gap_pass comp gap fuel current a).length = a.length ∧
      (gap_pass comp gap fuel current a)[0]? = a[0]? := by
  intro fuel
  induction fuel with
  | zero =>
    intro current a _
    exact ⟨List.Perm.refl _, rfl, rfl⟩
  | succ fuel ih =>
    intro current a hc
    simp only [gap_pass]
    cases ht : a[current]? with
    | none => exact ⟨List.Perm.refl _, rfl, rfl⟩
    | some tmp =>
      simp only []
      have hlt : current < a.length := by
        by_contra hn
        rw [List.getElem?_eq_none (by omega)] at ht
        simp at ht
      obtain ⟨b1, b2, b3, b4, b5⟩ := shift_loop_perm comp tmp gap hgap current current a hc hlt
      obtain ⟨c1, c2, c3⟩ := ih (current + 1)
        ((shift_loop comp tmp gap current current a).1.set
          (shift_loop comp tmp gap current current a).2 tmp) (by omega)
      rw [set_self_of_getElem? a current tmp ht] at b4
      refine ⟨c1.trans b4, by rw [c2, List.length_set, b3], ?_⟩
      rw [c3, List.getElem?_set_ne (by omega), b5]

theorem sort_passes_zero {α : Type} (comp : α → α → Bool) (fuel : Nat) (a : List α) :
    sort_passes comp fuel 0 a = a := by
  cases fuel <;> simp [sort_passes]

/-- The last pass of `shell_sort` has the gap 1: the passes before it permute the range and
keep its first element in place. -/
theorem sort_passes_last {α : Type} (comp : α → α → Bool) :
    ∀ (fuel gap : Nat) (a : List α), 1 ≤ gap → gap ≤ fuel →
      ∃ b, b.Perm a ∧ b.length = a.length ∧ b[0]? = a[0]? ∧
        sort_passes comp fuel gap a = gap_pass comp 1 b.length 1 b := by
  intro fuel
  induction fuel with
  | zero =>
    intro gap a h1 h2
    omega
  | succ fuel ih =>
    intro gap a h1 h2
    simp only [sort_passes, if_pos (show gap > 0 by omega)]
    by_cases hg : gap = 1
    · subst hg
      refine ⟨a, List.Perm.refl _, rfl, rfl, ?_⟩
      simp [sort_passes_zero]
    · obtain ⟨c1, c2, c3⟩ := gap_pass_perm comp gap h1 a.length gap a h1
      obtain ⟨b, b1, b2, b3, b4⟩ := ih ((gap + 1) / 3) (gap_pass comp gap a.length gap a)
        (by omega) (by omega)
      exact ⟨b, b1.trans c1, by rw [b2, c2], by rw [b3, c3], b4⟩

theorem initial_gap_pos (max_gap : Nat) :
    ∀ (fuel gap : Nat), 1 ≤ gap → 1 ≤ initial_gap max_gap fuel gap := by
  intro fuel
  induction fuel with
  | zero => intro gap h; exact h
  | succ fuel ih =>
    intro gap h
    simp only [initial_gap]
    split
    · exact ih _ (by omega)
    · exact h

/-- The bound on the iterations of the first loop of `shell_sort` is not hit: the loop ends
with a gap above `max_gap`. -/
theorem initial_gap_gt (max_gap : Nat) :
    ∀ (fuel gap : Nat), 1 ≤ gap → max_gap + 1 ≤ fuel + gap →
      max_gap < initial_gap max_gap fuel gap := by
  intro fuel
  induction fuel with
  | zero =>
    intro gap h1 h2
    simp only [initial_gap]
    omega
  | succ fuel ih =>
    intro gap h1 h2
    simp only [initial_gap]
    split
    · exact ih _ (by omega) (by omega)
    · omega

/-! ### Shell sort: the last pass sorts the range behind its first element -/

theorem getElem?_mid {α : Type} (L : List α) (x : α) (R : List α) :
    (L ++ x :: R)[L.length]? = some x := by
  rw [List.getElem?_append_right (le_refl _)]
  simp

/-- The innermost loop with the gap 1, started on the element behind the sorted part `L`:
the element goes in front of the longest end part of `L` whose elements are all above it. -/
theorem shift_loop_one {α : Type} (comp : α → α → Bool) (tmp a0 : α) :
    ∀ (L : List α) (x : α) (R : List α) (fuel : Nat), L.length ≤ fuel →
      ∃ L1 L2, L = L1 ++ L2 ∧ (∀ l ∈ L2, comp tmp l = true) ∧
        (∀ l, L1.getLast? = some l → comp tmp l = false) ∧
        (shift_loop comp tmp 1 fuel (L.length + 1) (a0 :: (L ++ x :: R))).1.set
            (shift_loop comp tmp 1 fuel (L.length + 1) (a0 :: (L ++ x :: R))).2 tmp =
          a0 :: (L1 ++ tmp :: L2 ++ R) := by
  intro L
  induction L using List.reverseRecOn with
  | nil =>
    intro x R fuel _
    refine ⟨[], [], rfl, fun l hl => by simp at hl, fun l hl => by simp at hl, ?_⟩
    cases fuel <;> simp [shift_loop]
  | append_singleton L l ih =>
    intro x R fuel hf
    simp only [List.length_append, List.length_singleton] at hf
    obtain ⟨f, rfl⟩ : ∃ f, fuel = f + 1 := ⟨fuel - 1, by omega⟩
    have hidx : (a0 :: (L ++ [l] ++ x :: R))[(L ++ [l]).length + 1 - 1]? = some l := by
      have h0 : (L ++ [l]).length + 1 - 1 = L.length + 1 := by simp
      rw [h0, List.getElem?_cons_succ, List.append_assoc]
      exact getElem?_mid L l (x :: R)
    simp only [shift_loop, if_pos (show (L ++ [l]).length + 1 > 1 by simp), hidx]
    by_cases hc : comp tmp l = true
    · rw [if_pos hc]
      have hset : (a0 :: (L ++ [l] ++ x :: R)).set ((L ++ [l]).length + 1) l =
          a0 :: (L ++ l :: (l :: R)) := by
        simp [List.set_append]
      have hlen : (L ++ [l]).length + 1 - 1 = L.length + 1 := by simp
      rw [hset, hlen]
      obtain ⟨L1, L2, h1, h2, h3, h4⟩ := ih l (l :: R) f (by omega)
      refine ⟨L1, L2 ++ [l], by rw [h1, List.append_assoc], ?_, h3, ?_⟩
      · intro z hz
        rcases List.mem_append.mp hz with h | h
        · exact h2 z h
        · simp only [List.mem_singleton] at h
          rw [h]; exact hc
      · rw [h4]
        simp
    · rw [if_neg hc]
      refine ⟨L ++ [l], [], by simp, fun z hz => by simp at hz, ?_, ?_⟩
      · intro z hz
        simp only [List.getLast?_append, List.getLast?_singleton, Option.or_some,
          Option.some.injEq] at hz
        rw [← hz]
        simpa using hc
      · simp [List.set_append]

/-- Putting an element into an ordered list, in front of its end part of elements above
it, keeps the list ordered. -/
theorem ordered_insert {α : Type} (comp : α → α → Bool) (hswo : StrictWeakOrdering comp)
    (tmp : α) (L1 L2 : List α)
    (hs : (L1 ++ L2).Pairwise (fun x y => comp y x = false))
    (h2 : ∀ l ∈ L2, comp tmp l = true)
    (h1 : ∀ l, L1.getLast? = some l → comp tmp l = false) :
    (L1 ++ tmp :: L2).Pairwise (fun x y => comp y x = false) := by
  obtain ⟨hirr, htr, hneg⟩ := hswo
  rw [List.pairwise_append] at hs ⊢
  obtain ⟨s1, s2, s3⟩ := hs
  have hL1 : ∀ y ∈ L1, comp tmp y = false := by
    intro y hy
    rcases List.eq_nil_or_concat L1 with h0 | ⟨L0, z, h0⟩
    · rw [h0] at hy; simp at hy
    · rw [List.concat_eq_append] at h0
      have hz : comp tmp z = false := h1 z (by rw [h0]; simp)
      rw [h0] at hy s1
      rcases List.mem_append.mp hy with h | h
      · have hyz : comp z y = false :=
          (List.pairwise_append.mp s1).2.2 y h z (List.mem_singleton_self z)
        cases hty : comp tmp y with
        | false => rfl
        | true =>
          rcases hneg tmp z y hty with h5 | h5
          · rw [h5] at hz; cases hz
          · rw [h5] at hyz; cases hyz
      · simp only [List.mem_singleton] at h
        rw [h]; exact hz
  refine ⟨s1, ?_, ?_⟩
  · rw [List.pairwise_cons]
    refine ⟨?_, s2⟩
    intro z hz
    cases hzt : comp z tmp with
    | false => rfl
    | true =>
      have := htr tmp z tmp (h2 z hz) hzt
      rw [hirr tmp] at this
      cases this
  · intro y hy z hz
    rcases List.mem_cons.mp hz with h | h
    · rw [h]; exact hL1 y hy
    · exact s3 y hy z h

/-- The pass with the gap 1 sorts the range behind its first element. -/
theorem gap_pass_one {α : Type} (comp : α → α → Bool) (hswo : StrictWeakOrdering comp)
    (a0 : α) :
    ∀ (T S : List α) (fuel : Nat), T.length ≤ fuel →
      S.Pairwise (fun x y => comp y x = false) →
      ∃ S1, gap_pass comp 1 fuel (S.length + 1) (a0 :: (S ++ T)) = a0 :: S1 ∧
        S1.Pairwise (fun x y => comp y x = false) ∧ S1.Perm (S ++ T) := by
  intro T
  induction T with
  | nil =>
    intro S fuel _ hS
    refine ⟨S, ?_, hS, by simp⟩
    cases fuel with
    | zero => simp [gap_pass]
    | succ f =>
      have hnone : (a0 :: S)[S.length + 1]? = none := by simp
      simp only [gap_pass, List.append_nil, hnone]
  | cons tmp T ih =>
    intro S fuel hf hS
    simp only [List.length_cons] at hf
    obtain ⟨f, rfl⟩ : ∃ f, fuel = f + 1 := ⟨fuel - 1, by omega⟩
    have hsome : (a0 :: (S ++ tmp :: T))[S.length + 1]? = some tmp := by
      rw [List.getElem?_cons_succ]
      exact getElem?_mid S tmp T
    simp only [gap_pass, hsome]
    obtain ⟨L1, L2, h1, h2, h3, h4⟩ := shift_loop_one comp tmp a0 S tmp T (S.length + 1)
      (by omega)
    rw [h4]
    have hsorted := ordered_insert comp hswo tmp L1 L2 (by rw [← h1]; exact hS) h2 h3
    have hlen : S.length + 1 + 1 = (L1 ++ tmp :: L2).length + 1 := by
      rw [h1]
      simp
      omega
    have hform : a0 :: (L1 ++ tmp :: L2 ++ T) = a0 :: ((L1 ++ tmp :: L2) ++ T) := by simp
    rw [hlen, hform]
    obtain ⟨S1, e1, e2, e3⟩ := ih (L1 ++ tmp :: L2) f (by omega) hsorted
    refine ⟨S1, e1, e2, e3.trans ?_⟩
    rw [h1]
    simp only [List.append_assoc, List.cons_append]
    exact List.Perm.append_left L1 List.perm_middle.symm

/-! ### Shell sort: the result -/

theorem int_lt_strict_weak : StrictWeakOrdering (fun x y : Int => decide (x < y)) := by
  refine ⟨fun a => by simp, fun a b c h1 h2 => ?_, fun a b c h => ?_⟩
  · simp only [decide_eq_true_eq] at h1 h2 ⊢
    omega
  · simp only [decide_eq_true_eq] at h ⊢
    omega

/-- C30. `shell_sort` never moves the first element: for every range of at least one
element and every strict weak ordering `comp`, after `shell_sort` the element at index 0 is
the original one, the result is a permutation of the input, and the elements behind index 0
are ordered: `comp(a[j], a[i])` is false for all indices `1 <= i < j`. -/
theorem shell_sort_keeps_first {α : Type} (comp : α → α → Bool)
    (hswo : StrictWeakOrdering comp) (a : List α) (hn : 1 ≤ a.length) :
    (shell_sort comp a)[0]? = a[0]? ∧ (shell_sort comp a).Perm a ∧
      (shell_sort comp a).tail.Pairwise (fun x y => comp y x = false) := by
  have hg := initial_gap_pos (a.length / 9) (a.length / 9 + 1) 1 (le_refl 1)
  obtain ⟨b, b1, b2, b3, b4⟩ := sort_passes_last comp _ _ a hg (le_refl _)
  have hss : shell_sort comp a = gap_pass comp 1 b.length 1 b := b4
  cases b with
  | nil =>
    simp only [List.length_nil] at b2
    omega
  | cons b0 T =>
    obtain ⟨S1, e1, e2, e3⟩ := gap_pass_one comp hswo b0 T [] (T.length + 1) (by omega)
      List.Pairwise.nil
    simp only [List.length_nil, Nat.zero_add, List.nil_append] at e1 e3
    rw [List.length_cons] at hss
    rw [hss, e1]
    refine ⟨?_, ?_, e2⟩
    · rw [← b3]
      simp
    · exact (List.Perm.cons b0 e3).trans b1

/-- Witness of C30: `shell_sort` with `operator<` on four integers. -/
theorem shell_sort_keeps_first_witness :
    (shell_sort (fun x y : Int => decide (x < y)) [9, 3, 1, 2])[0]? =
        ([9, 3, 1, 2] : List Int)[0]? ∧
      (shell_sort (fun x y : Int => decide (x < y)) [9, 3, 1, 2]).Perm [9, 3, 1, 2] ∧
      (shell_sort (fun x y : Int => decide (x < y)) [9, 3, 1, 2]).tail.Pairwise
        (fun x y => decide (y < x) = false) :=
  shell_sort_keeps_first (fun x y : Int => decide (x < y)) int_lt_strict_weak [9, 3, 1, 2]
    (by decide)

/-- C21, the behaviour of the code. With `operator<`, a strict weak ordering, `shell_sort`
leaves the two-element range `[2, 1]` as it is, although `1 < 2`: the inner loop compares
an element with the one `gap` places before it only while `it > first + gap`, so that the
element at index 0 is never compared with any other. -/
theorem shell_sort_leaves_two_unsorted :
    StrictWeakOrdering (fun x y : Int => decide (x < y)) ∧
      shell_sort_less [2, 1] = [2, 1] ∧
      shell_sort (fun x y : Int => decide (x < y)) [2, 1] = [2, 1] ∧
      decide ((1 : Int) < 2) = true ∧
      shell_sort_less [9, 3, 1, 2] = [9, 1, 2, 3] :=
  ⟨int_lt_strict_weak, by decide, by decide, by decide, by decide⟩

/-! ### The sizes of the sub-ranges of a partition -/

theorem div_between (m i q : Nat) (h1 : q * (i + 1) ≤ m) (h2 : m ≤ (q + 1) * (i + 1)) :
    (m / (i + 1) = q ∧ q * i ≤ m - q ∧ m - q ≤ (q + 1) * i) ∨
      (m / (i + 1) = q + 1 ∧ m - (q + 1) = (q + 1) * i) := by
  have hpos : 0 < i + 1 := Nat.succ_pos i
  have hlo : q ≤ m / (i + 1) := (Nat.le_div_iff_mul_le hpos).mpr h1
  have hhi : m / (i + 1) ≤ q + 1 := Nat.div_le_of_le_mul (by rw [Nat.mul_comm]; exact h2)
  have hdm := Nat.div_add_mod m (i + 1)
  have hmod := Nat.mod_lt m hpos
  have e1 : q * (i + 1) = q * i + q := Nat.mul_succ q i
  have e2 : (q + 1) * (i + 1) = q * i + q + i + 1 := by ring
  have e3 : (q + 1) * i = q * i + i := by ring
  rcases Nat.lt_or_ge (m / (i + 1)) (q + 1) with h | h
  · left
    have hk : m / (i + 1) = q := by omega
    rw [hk] at hdm
    have e4 : (i + 1) * q = q * i + q := by ring
    refine ⟨hk, ?_, ?_⟩ <;> omega
  · right
    have hk : m / (i + 1) = q + 1 := by omega
    rw [hk] at hdm
    have e4 : (i + 1) * (q + 1) = q * i + q + i + 1 := by ring
    refine ⟨hk, ?_⟩
    omega

/-- With `m` elements left for `i` sub-ranges, `q * i <= m <= (q + 1) * i`, every sub-range
that the partition loop carves has `q` or `q + 1` elements. -/
theorem partition_loop_sizes
    (nth_element : (vertex_property P → vertex_property P → Bool) →
      List (vertex_property P) → Nat → List (vertex_property P))
    (hnth : NthSpec nth_element)
    (dm : Int → Int) (cur : vertex_type) (q : Nat) (hq : 1 ≤ q) (i : Nat)
    (rest : List (vertex_property P))
    (h1 : q * i ≤ rest.length) (h2 : rest.length ≤ (q + 1) * i) :
    ∀ τ ∈ partition_loop nth_element dm cur i rest,
      q ≤ τ.range.length ∧ τ.range.length ≤ q + 1 := by
  induction i generalizing rest with
  | zero => simp [partition_loop]
  | succ i ih =>
    have hdiv := div_between rest.length i q h1 h2
    have hqi : q * (i + 1) = q * i + q := Nat.mul_succ q i
    have hk1 : 1 ≤ rest.length / (i + 1) := by
      rcases hdiv with h | h <;> omega
    have hkm : rest.length / (i + 1) ≤ rest.length := Nat.div_le_self _ _
    have hperm := (hnth (fun x => dm x.key) rest (rest.length / (i + 1) - 1) (by omega)).1
    have hlen := hperm.length_eq
    rw [closer_eq dm] at hperm hlen
    intro τ hτ
    simp only [partition_loop, List.mem_cons] at hτ
    rcases hτ with h | h
    · rw [h]
      simp only [List.length_take, hlen]
      rcases hdiv with h3 | h3 <;> omega
    · apply ih _ _ _ τ h
      · simp only [List.length_drop, hlen]
        rcases hdiv with h3 | h3
        · rw [h3.1]; exact h3.2.1
        · rw [h3.1, h3.2]
          exact Nat.mul_le_mul_right i (Nat.le_succ q)
      · simp only [List.length_drop, hlen]
        rcases hdiv with h3 | h3
        · rw [h3.1]; exact h3.2.2
        · rw [h3.1, h3.2]

theorem sum_lengths_all_ranges (ts : List (construction_task P)) :
    (ts.map (fun τ => τ.range.length)).sum = (all_ranges ts).length := by
  induction ts with
  | nil => rfl
  | cons τ ts ih => simp [all_ranges, ih]

/-- C22. Balanced partition in `construct_node`: when the range that is left after the
vantage point has `n >= Arity` elements (`Arity >= 1`, and `std::nth_element` permuting the
range), the loop from `i = Arity` down to 1 pushes exactly `Arity` sub-tasks below the
current vertex; their ranges are non-empty, each one is cut off the front of what the
former ones left, so that together they hold the `n` elements once each; and every range
has `n / Arity` or `n / Arity + 1` elements, so that the sizes differ by at most one. -/
theorem balanced_partition
    (nth_element : (vertex_property P → vertex_property P → Bool) →
      List (vertex_property P) → Nat → List (vertex_property P))
    (hnth : NthSpec nth_element) (Arity : Nat) (hA : 1 ≤ Arity)
    (dm : Int → Int) (cur : vertex_type) (rest : List (vertex_property P))
    (hn : Arity ≤ rest.length) :
    (partition_loop nth_element dm cur Arity rest).length = Arity ∧
      (∀ τ ∈ partition_loop nth_element dm cur Arity rest,
        τ.parent_node = some cur ∧ τ.range ≠ []) ∧
      (all_ranges (partition_loop nth_element dm cur Arity rest)).Perm rest ∧
      ((partition_loop nth_element dm cur Arity rest).map (fun τ => τ.range.length)).sum =
        rest.length ∧
      (∀ τ ∈ partition_loop nth_element dm cur Arity rest,
        rest.length / Arity ≤ τ.range.length ∧ τ.range.length ≤ rest.length / Arity + 1) ∧
      (∀ τ1 ∈ partition_loop nth_element dm cur Arity rest,
        ∀ τ2 ∈ partition_loop nth_element dm cur Arity rest,
          τ1.range.length ≤ τ2.range.length + 1) := by
  obtain ⟨p1, p2, _⟩ := partition_loop_parts nth_element hnth dm cur Arity rest hn
    (Or.inl (by omega))
  have p3 := (partition_loop_ranges nth_element hnth dm cur Arity rest hn).1
  have p4 := partition_loop_parent nth_element dm cur Arity rest
  have hq1 : 1 ≤ rest.length / Arity := Nat.div_pos hn (by omega)
  have hlo : rest.length / Arity * Arity ≤ rest.length := Nat.div_mul_le_self _ _
  have hhi : rest.length ≤ (rest.length / Arity + 1) * Arity := by
    have hdm := Nat.div_add_mod rest.length Arity
    have hmod := Nat.mod_lt rest.length (show 0 < Arity by omega)
    have e1 : (rest.length / Arity + 1) * Arity = Arity * (rest.length / Arity) + Arity := by
      ring
    omega
  have p5 := partition_loop_sizes nth_element hnth dm cur (rest.length / Arity) hq1 Arity rest
    hlo hhi
  refine ⟨p1, fun τ hτ => ⟨p4 τ hτ, p3 τ hτ⟩, p2, ?_, p5, ?_⟩
  · rw [sum_lengths_all_ranges, p2.length_eq]
  · intro τ1 h1 τ2 h2
    have a1 := p5 τ1 h1
    have a2 := p5 τ2 h2
    omega

/-- Witness of C22: the partition of five elements into two sub-ranges. -/
theorem balanced_partition_witness :
    (partition_loop nth_by_sort (fun k => k) [] 2 example_points).length = 2 ∧
      (∀ τ ∈ partition_loop nth_by_sort (fun k => k) [] 2 example_points,
        τ.parent_node = some [] ∧ τ.range ≠ []) ∧
      (all_ranges (partition_loop nth_by_sort (fun k => k) [] 2 example_points)).Perm
        example_points ∧
      ((partition_loop nth_by_sort (fun k => k) [] 2 example_points).map
        (fun τ => τ.range.length)).sum = example_points.length ∧
      (∀ τ ∈ partition_loop nth_by_sort (fun k => k) [] 2 example_points,
        example_points.length / 2 ≤ τ.range.length ∧
          τ.range.length ≤ example_points.length / 2 + 1) ∧
      (∀ τ1 ∈ partition_loop nth_by_sort (fun k => k) [] 2 example_points,
        ∀ τ2 ∈ partition_loop nth_by_sort (fun k => k) [] 2 example_points,
          τ1.range.length ≤ τ2.range.length + 1) :=
  balanced_partition nth_by_sort nth_by_sort_spec 2 (by decide) (fun k => k) []
    example_points (by decide)

/-! ### A chooser that reports no valid choice -/

/-- C23, as the code has it. When the chooser returns the end of the range for the task at
the front of the queue, `construct_node` returns at once: the tree is what the former
iterations made of it, and neither that task nor any of the tasks behind it in the queue
is processed. -/
theorem failed_choice_ends_construction (Arity : Nat) (dist : P → P → Int)
    (std_sort : (vertex_property P → vertex_property P → Bool) →
      List (vertex_property P) → List (vertex_property P))
    (nth_element : (vertex_property P → vertex_property P → Bool) →
      List (vertex_property P) → Nat → List (vertex_property P))
    (ch : List (vertex_property P) → Nat) (fuel : Nat) (t : dvp_tree_impl P)
    (cur_task : construction_task P) (tasks : List (construction_task P)) (dm : Int → Int)
    (h : cur_task.range[ch cur_task.range]? = none) :
    construct_loop Arity dist std_sort nth_element ch (fuel + 1) t (cur_task :: tasks) dm =
      some t := by
  simp only [construct_loop, h]

/-- Witness of C23: the chooser fails on the first of two queued tasks. -/
theorem failed_choice_ends_construction_witness :
    construct_loop 2 line_dist insertion_sort nth_by_sort picky_chooser (6 + 1)
        ⟨some (⟨1, 1⟩, Forest.nil), some []⟩
        (⟨some [], 3, [⟨2, 2⟩, ⟨3, 3⟩, ⟨4, 4⟩]⟩ :: [⟨some [], 6, [⟨5, 5⟩, ⟨6, 6⟩, ⟨7, 7⟩]⟩])
        (fun _ => 0) =
      some ⟨some (⟨1, 1⟩, Forest.nil), some []⟩ :=
  failed_choice_ends_construction 2 line_dist insertion_sort nth_by_sort picky_chooser 6
    ⟨some (⟨1, 1⟩, Forest.nil), some []⟩ ⟨some [], 3, [⟨2, 2⟩, ⟨3, 3⟩, ⟨4, 4⟩]⟩
    [⟨some [], 6, [⟨5, 5⟩, ⟨6, 6⟩, ⟨7, 7⟩]⟩] (fun _ => 0) (by decide)

/-- Counterexample to C23 as stated. The construction of arity 2 from the seven elements of
keys 1 to 7 makes the element of key 1 the root and queues the sub-ranges of keys 2, 3, 4
and of keys 5, 6, 7. The chooser reports no valid choice on the first of them and would
take the first element of the second one; the construction ends with the root alone, the
elements of keys 5, 6 and 7 are not placed in the tree. -/
theorem failed_choice_ends_construction_counterexample :
    (partition_loop nth_by_sort
        (Function.update (fill_dist_map line_dist 1 (fun _ => 0) seven_points) 1 0) [] 2
        seven_points.tail).map (fun τ => τ.range) =
      [[⟨2, 2⟩, ⟨3, 3⟩, ⟨4, 4⟩], [⟨5, 5⟩, ⟨6, 6⟩, ⟨7, 7⟩]] ∧
    [(⟨2, 2⟩ : vertex_property Int), ⟨3, 3⟩, ⟨4, 4⟩][picky_chooser
      [⟨2, 2⟩, ⟨3, 3⟩, ⟨4, 4⟩]]? = none ∧
    [(⟨5, 5⟩ : vertex_property Int), ⟨6, 6⟩, ⟨7, 7⟩][picky_chooser
      [⟨5, 5⟩, ⟨6, 6⟩, ⟨7, 7⟩]]? = some ⟨5, 5⟩ ∧
    from_range 2 line_dist insertion_sort nth_by_sort picky_chooser seven_points =
      some ⟨some (⟨1, 1⟩, Forest.nil), some []⟩ := by
  refine ⟨by decide, by decide, by decide, by rfl⟩

/-! ### The candidate list with `K = 0` -/

/-- C29, the behaviour of the code. On every non-empty tree (the stored root being the root
of the storage), for every query point, `find_nearest(p, out, 0, R)` with an infinite `R`
pushes the root on the candidate list, finds the list longer than `K = 0`, drops the
candidate again and reads `front()` of the list, which is empty. -/
theorem find_nearest_zero_reads_empty_list (dist : P → P → Int) (t : dvp_tree_impl P)
    (hroot : Rooted t) (hne : t.size ≠ 0) (p : P) :
    find_nearest dist t p 0 none = search_result.empty_front ∧
      find_nearest_impl dist t p none [] 0 = search_result.empty_front := by
  obtain ⟨tree, root⟩ := t
  cases tree with
  | none => exact absurd rfl hne
  | some y =>
    obtain ⟨r, cs⟩ := y
    have hr0 : root = some [] := hroot
    subst hr0
    have hnv : ¬ (num_vertices (some (r, cs)) = 0) := hne
    have himpl : find_nearest_impl dist ⟨some (r, cs), some []⟩ p none [] 0 =
        search_result.empty_front := by
      simp only [find_nearest_impl, num_vertices]
      rw [Nat.add_comm]
      simp [find_nearest_loop, gt_sigma, lt_sigma, vertex_at, Forest.nodeAt, heap_push,
        heap_pop]
    exact ⟨by simp only [find_nearest, if_neg hnv, himpl], himpl⟩

/-- Witness of C29: the query with `K = 0` on the tree built from five points of the
line. -/
theorem find_nearest_zero_reads_empty_list_witness :
    find_nearest line_dist example_tree 4 0 none = search_result.empty_front ∧
      find_nearest_impl line_dist example_tree 4 none [] 0 = search_result.empty_front :=
  find_nearest_zero_reads_empty_list line_dist example_tree rfl (by decide) 4

/-! ### The rounding of the test that opens a neighbouring partition -/

theorem absorb_tree_built :
    from_range 3 line_dist insertion_sort nth_by_sort first_chooser absorb_points =
      some absorb_tree := by
  rfl

theorem absorb_tree_reachable (d : Bool) :
    Reachable 3 line_dist insertion_sort nth_by_sort d absorb_tree :=
  Reachable.bulk first_chooser absorb_points absorb_tree first_chooser_ok
    (fun _ => by decide) absorb_tree_built

theorem wide_tree_built :
    from_range 3 line_dist insertion_sort nth_by_sort first_chooser wide_points =
      some wide_tree := by
  rfl

theorem wide_tree_reachable (d : Bool) :
    Reachable 3 line_dist insertion_sort nth_by_sort d wide_tree :=
  Reachable.bulk first_chooser wide_points wide_tree first_chooser_ok
    (fun _ => by decide) wide_tree_built

/-- C1, refuted on the code. The tree `absorb_tree` is built by the bulk construction from
eleven elements of the line with pairwise distinct keys, under the symmetric distance
`|a - b|`; every position, every radius and every distance that the run computes is a
`double`. For the query point `3 * 2^52`, `find_nearest(q, out, 1)` with the infinite
radius outputs the vertex `[2]`, at the distance `2^53`, while the vertex `[2, 0]` is at
the distance `2^53 - 1`, the smallest distance of the brute-force list. At the vertex `[2]`
the radius has become `2^53`; the test `d1 + aSigma - current_dist > 0` of the child
`[2, 0]`, with `d1 = 1` and `current_dist = 2^53`, rounds `1 + 2^53` to `2^53` and fails,
although `current_dist - d1 = 2^53 - 1` is below the radius. The dual-queue search, which
tests `current_dist - d1 < sigma`, outputs the vertex `[2, 0]`. -/
theorem knn_misses_nearer_element :
    Reachable 3 line_dist insertion_sort nth_by_sort true absorb_tree ∧
      (∀ a b, line_dist a b = line_dist b a) ∧
      (∀ a b c, line_dist a c ≤ line_dist a b + line_dist b c) ∧
      find_nearest line_dist absorb_tree (3 * 2 ^ 52) 1 none = search_result.done [[2]] ∧
      [[2]].map (dist_to line_dist (3 * 2 ^ 52) absorb_tree.m_tree) = [2 ^ 53] ∧
      (brute_force line_dist (3 * 2 ^ 52) absorb_tree).take 1 = [2 ^ 53 - 1] ∧
      (vertex_at absorb_tree.m_tree [2, 0]).isSome = true ∧
      dist_to line_dist (3 * 2 ^ 52) absorb_tree.m_tree [2, 0] = 2 ^ 53 - 1 ∧
      out_edges absorb_tree.m_tree [2] = [(1, [2, 0]), (2 ^ 55, [2, 1]), (2 ^ 56, [2, 2])] ∧
      double_add 1 (2 ^ 53) = 2 ^ 53 ∧
      left_open 1 (2 ^ 53) (some (2 ^ 53)) = false ∧
      lt_sigma (2 ^ 53 - 1) (some (2 ^ 53)) = true ∧
      (∀ x ∈ absorb_tree.elems,
        round_double (line_dist (3 * 2 ^ 52) x.pos) = line_dist (3 * 2 ^ 52) x.pos) ∧
      find_nearest_pred_succ line_dist absorb_tree (3 * 2 ^ 52) 1 none =
        search_result.done ([[2, 0]], [[2, 0]]) := by
  refine ⟨absorb_tree_reachable true, line_dist_symm, line_dist_triangle, by rfl, by decide,
    by decide, by decide, by decide, by decide, by decide, by decide, by decide, by decide,
    by rfl⟩

/-- C3, refuted on the code. On the tree `absorb_tree`, built by the bulk construction
under the symmetric distance `|a - b|`, with the query point `3 * 2^52`, `find_nearest(q)`
returns the vertex `[2]`, at the distance `2^53`, although the vertex `[2, 0]` of the tree
is at the distance `2^53 - 1`: the rounded test `d1 + aSigma - current_dist > 0` has closed
the partition of `[2, 0]`, which the test `current_dist - d1 < sigma` of the dual-queue
search leaves open. -/
theorem single_nearest_returns_farther_vertex :
    Reachable 3 line_dist insertion_sort nth_by_sort true absorb_tree ∧
      (∀ a b, line_dist a b = line_dist b a) ∧
      (∀ a b c, line_dist a c ≤ line_dist a b + line_dist b c) ∧
      find_nearest_single line_dist absorb_tree (3 * 2 ^ 52) = search_result.done (some [2]) ∧
      dist_to line_dist (3 * 2 ^ 52) absorb_tree.m_tree [2] = 2 ^ 53 ∧
      (vertex_at absorb_tree.m_tree [2, 0]).isSome = true ∧
      dist_to line_dist (3 * 2 ^ 52) absorb_tree.m_tree [2, 0] = 2 ^ 53 - 1 ∧
      left_open (mu_at (out_edges absorb_tree.m_tree [2]) 0) (2 ^ 53) (some (2 ^ 53)) =
        false ∧
      lt_sigma (double_sub (2 ^ 53) (mu_at (out_edges absorb_tree.m_tree [2]) 0))
        (some (2 ^ 53)) = true := by
  refine ⟨absorb_tree_reachable true, line_dist_symm, line_dist_triangle, by rfl, by decide,
    by decide, by decide, by decide, by decide⟩

/-- C2, refuted on the code. The tree `wide_tree` is built by the bulk construction from
four elements of the line, under the symmetric distance `|a - b|`: the root at the origin
with the leaves at `2^54`, `2^55` and `2^56`. For the query point `2^54 + 4` and the radius
`5`, `find_in_range` outputs no vertex, although one element, the vertex `[0]`, is at the
distance `4`, below the radius. At the root the test `d1 + aSigma - current_dist > 0` of
the child `[0]`, with `d1 = 2^54` and `current_dist = 2^54 + 4`, rounds `2^54 + 5` to
`2^54 + 4` and fails, although `current_dist - d1 = 4` is below the radius. The distances
from the query point to the root and to the vertices `[0]` and `[1]`, the only ones that
the run computes, are `double`s. The dual-queue `find_in_range` outputs the vertex `[0]`
in both lists. -/
theorem range_query_misses_element :
    Reachable 3 line_dist insertion_sort nth_by_sort true wide_tree ∧
      (∀ a b, line_dist a b = line_dist b a) ∧
      (∀ a b c, line_dist a c ≤ line_dist a b + line_dist b c) ∧
      find_in_range line_dist wide_tree (2 ^ 54 + 4) (some 5) = search_result.done [] ∧
      wide_tree.elems.countP (fun x => decide (line_dist (2 ^ 54 + 4) x.pos ≤ 5)) = 1 ∧
      wide_tree.elems.countP (fun x => decide (line_dist (2 ^ 54 + 4) x.pos < 5)) = 1 ∧
      (vertex_at wide_tree.m_tree [0]).isSome = true ∧
      dist_to line_dist (2 ^ 54 + 4) wide_tree.m_tree [0] = 4 ∧
      out_edges wide_tree.m_tree [] = [(2 ^ 54, [0]), (2 ^ 55, [1]), (2 ^ 56, [2])] ∧
      double_add (2 ^ 54) 5 = 2 ^ 54 + 4 ∧
      left_open (2 ^ 54) (2 ^ 54 + 4) (some 5) = false ∧
      lt_sigma (2 ^ 54 + 4 - 2 ^ 54) (some 5) = true ∧
      (∀ v ∈ [[], [0], [1]],
        round_double (dist_to line_dist (2 ^ 54 + 4) wide_tree.m_tree v) =
          dist_to line_dist (2 ^ 54 + 4) wide_tree.m_tree v) ∧
      find_in_range_pred_succ line_dist wide_tree (2 ^ 54 + 4) (some 5) =
        search_result.done ([[0]], [[0]]) := by
  refine ⟨wide_tree_reachable true, line_dist_symm, line_dist_triangle, by rfl, by decide,
    by decide, by decide, by decide, by decide, by decide, by decide, by decide, by decide,
    by rfl⟩

/-- The acceptance test of the search is strict, `current_dist < aSigma`: in the tree built
from five points of the line, two elements are at a distance of at most 2 from the point 4
(the element of key 4 is at the distance 2 exactly), and `find_in_range` with the radius 2
outputs one vertex. -/
theorem range_query_excludes_boundary :
    Reachable 2 line_dist insertion_sort nth_by_sort true example_tree ∧
      example_tree.elems.countP (fun x => decide (line_dist 4 x.pos ≤ 2)) = 2 ∧
      find_in_range line_dist example_tree 4 (some 2) = search_result.done [[0, 0]] :=
  ⟨example_tree_reachable true, by decide, by rfl⟩

/-- C28, refuted on the code. On the tree `wide_tree`, with the symmetric distance
`|a - b|` as the metric of the tree and as the unsymmetrized metric, the query point
`2^54 + 4`, `K = 1` and the radius `5`, the single-queue `find_nearest_impl` leaves its list
empty, and the dual-queue `find_nearest_impl` leaves the vertex `[0]`, at the distance `4`,
in both lists: at the root the single-queue search tests `d1 + aSigma - current_dist > 0`,
which rounds `2^54 + 5` to `2^54 + 4` and fails, and the dual-queue search tests
`current_dist - d1 < sigma`, which is `4 < 5`. The same holds for the members
`find_nearest` and `find_in_range`. -/
theorem dual_search_differs_from_single :
    Reachable 3 line_dist insertion_sort nth_by_sort true wide_tree ∧
      (∀ a b, line_dist a b = line_dist b a) ∧
      find_nearest_impl line_dist wide_tree (2 ^ 54 + 4) (some 5) [] 1 =
        search_result.done [] ∧
      find_nearest_impl2 line_dist wide_tree (2 ^ 54 + 4) (some 5) [] [] 1 =
        search_result.done ([(4, [0])], [(4, [0])]) ∧
      find_nearest line_dist wide_tree (2 ^ 54 + 4) 1 (some 5) = search_result.done [] ∧
      find_nearest_pred_succ line_dist wide_tree (2 ^ 54 + 4) 1 (some 5) =
        search_result.done ([[0]], [[0]]) ∧
      find_in_range line_dist wide_tree (2 ^ 54 + 4) (some 5) = search_result.done [] ∧
      find_in_range_pred_succ line_dist wide_tree (2 ^ 54 + 4) (some 5) =
        search_result.done ([[0]], [[0]]) ∧
      left_open (2 ^ 54) (2 ^ 54 + 4) (some 5) = false ∧
      lt_sigma (double_sub (2 ^ 54 + 4) (2 ^ 54)) (some 5) = true := by
  refine ⟨wide_tree_reachable true, line_dist_symm, by rfl, by rfl, by rfl, by rfl, by rfl,
    by rfl, by decide, by decide⟩

/-! ### Perfect subtrees and the fullness test -/

namespace Forest

theorem mem_edges_iff (c : Forest P) (k0 : Nat) (e : Nat × Int) :
    e ∈ c.edges k0 ↔ ∃ j m vv ch, c.slot j = some (m, vv, ch) ∧ e = (k0 + j, m) := by
  induction c generalizing k0 with
  | nil => simp [edges, slot]
  | cons m0 v0 c0 r _ ihr =>
    simp only [edges, List.mem_cons, ihr (k0 + 1)]
    constructor
    · rintro (h | ⟨j, m, vv, ch, h1, h2⟩)
      · exact ⟨0, m0, v0, c0, rfl, by simpa using h⟩
      · exact ⟨j + 1, m, vv, ch, by simpa [slot] using h1, by rw [h2]; congr 1; omega⟩
    · rintro ⟨j, m, vv, ch, h1, h2⟩
      cases j with
      | zero =>
        left
        simp only [slot, Option.some.injEq, Prod.mk.injEq] at h1
        rw [h2, h1.1]
        rfl
      | succ j =>
        right
        exact ⟨j, m, vv, ch, by simpa [slot] using h1, by rw [h2]; congr 1; omega⟩
  | hole r ih =>
    simp only [edges, ih (k0 + 1)]
    constructor
    · rintro ⟨j, m, vv, ch, h1, h2⟩
      exact ⟨j + 1, m, vv, ch, by simpa [slot] using h1, by rw [h2]; congr 1; omega⟩
    · rintro ⟨j, m, vv, ch, h1, h2⟩
      cases j with
      | zero => simp [slot] at h1
      | succ j =>
        exact ⟨j, m, vv, ch, by simpa [slot] using h1, by rw [h2]; congr 1; omega⟩

theorem exists_slot_of_degree_pos (c : Forest P) (h : 0 < c.degree) :
    ∃ j m vv ch, c.slot j = some (m, vv, ch) := by
  induction c with
  | nil => simp [degree] at h
  | cons m0 v0 c0 r _ _ => exact ⟨0, m0, v0, c0, rfl⟩
  | hole r ih =>
    obtain ⟨j, m, vv, ch, h1⟩ := ih (by simpa [degree] using h)
    exact ⟨j + 1, m, vv, ch, by simpa [slot] using h1⟩

theorem perfectTo_zero (A : Nat) (c : Forest P) : c.PerfectTo A 0 ↔ c.degree = 0 := by
  constructor
  · intro h
    exact (h [] c rfl).2 rfl
  · intro h w k hk
    refine ⟨fun h0 => absurd h0 (Nat.not_lt_zero _), fun h0 => ?_⟩
    have hw : w = [] := List.eq_nil_of_length_eq_zero h0
    subst hw
    simp only [kidsAt, Option.some.injEq] at hk
    rw [← hk]
    exact h

theorem perfectTo_succ (A d : Nat) (c : Forest P) :
    c.PerfectTo A (d + 1) ↔
      c.degree = A ∧ ∀ j m vv ch, c.slot j = some (m, vv, ch) → ch.PerfectTo A d := by
  constructor
  · intro h
    refine ⟨(h [] c rfl).1 (Nat.succ_pos d), ?_⟩
    intro j m vv ch hs w k hk
    have h1 := h (j :: w) k (by simp [kidsAt, hs, hk])
    simp only [List.length_cons, Nat.add_lt_add_iff_right, Nat.add_right_cancel_iff] at h1
    exact h1
  · rintro ⟨h1, h2⟩ w k hk
    cases w with
    | nil =>
      simp only [kidsAt, Option.some.injEq] at hk
      rw [← hk]
      exact ⟨fun _ => h1, fun h0 => by simp at h0⟩
    | cons j w =>
      simp only [kidsAt] at hk
      cases hs : c.slot j with
      | none => simp [hs] at hk
      | some y =>
        obtain ⟨m, vv, ch⟩ := y
        simp only [hs] at hk
        have h3 := h2 j m vv ch hs w k hk
        simp only [List.length_cons, Nat.add_lt_add_iff_right, Nat.add_right_cancel_iff]
        exact h3

end Forest

theorem mem_out_edges_iff (r : vertex_property P) (cs : Forest P) (v : vertex_type)
    (x : vertex_property P) (c : Forest P) (hn : Forest.nodeAt r cs v = some (x, c))
    (e : Int × vertex_type) :
    e ∈ out_edges (some (r, cs)) v ↔
      ∃ j m vv ch, c.slot j = some (m, vv, ch) ∧ e = (m, v ++ [j]) := by
  rw [out_edges_some r cs v x c hn, List.mem_map]
  constructor
  · rintro ⟨e0, he0, rfl⟩
    obtain ⟨j, m, vv, ch, h1, h2⟩ := (Forest.mem_edges_iff c 0 e0).mp he0
    refine ⟨j, m, vv, ch, h1, ?_⟩
    rw [h2]
    simp
  · rintro ⟨j, m, vv, ch, h1, rfl⟩
    exact ⟨(j, m), (Forest.mem_edges_iff c 0 (j, m)).mpr ⟨j, m, vv, ch, h1, by simp⟩, rfl⟩

/-- The function `is_leaf_node` tells whether no child of the vertex has a child. -/
theorem is_leaf_node_iff (r : vertex_property P) (cs : Forest P) (v : vertex_type)
    (x : vertex_property P) (c : Forest P) (hn : Forest.nodeAt r cs v = some (x, c)) :
    is_leaf_node (some (r, cs)) v = true ↔
      ∀ j m vv ch, c.slot j = some (m, vv, ch) → ch.degree = 0 := by
  simp only [is_leaf_node, List.all_eq_true, decide_eq_true_eq]
  constructor
  · intro h j m vv ch hs
    have h1 := h (m, v ++ [j]) ((mem_out_edges_iff r cs v x c hn _).mpr ⟨j, m, vv, ch, hs, rfl⟩)
    rw [out_degree_some r cs (v ++ [j]) vv ch (Forest.nodeAt_snoc r cs v x c j m vv ch hn hs)]
      at h1
    exact h1
  · intro h e he
    obtain ⟨j, m, vv, ch, hs, rfl⟩ := (mem_out_edges_iff r cs v x c hn e).mp he
    rw [out_degree_some r cs (v ++ [j]) vv ch (Forest.nodeAt_snoc r cs v x c j m vv ch hn hs)]
    exact h j m vv ch hs

/-! ### The loop of the fullness test -/

/-- The loop of `is_node_full` ends within the bound, and returns `true` exactly when the
subtree of every queued vertex is perfect of the depth queued with it (and, on an empty
queue, the depth limit is 0). The tasks are vertices of the tree with non-negative depths,
and no vertex below them has more than `Arity` children. -/
theorem is_node_full_loop_spec (Arity : Nat) (hA : 1 ≤ Arity) (r : vertex_property P)
    (cs : Forest P) :
    ∀ (fuel : Nat) (tasks : List (vertex_type × Int)) (dl : Int), 0 ≤ dl →
      (∀ τ ∈ tasks, 0 ≤ τ.2 ∧ ∃ x k, Forest.nodeAt r cs τ.1 = some (x, k) ∧
        ∀ w k1, k.kidsAt w = some k1 → k1.degree ≤ Arity) →
      (tasks.map (fun x => subtree_size (some (r, cs)) x.1)).sum ≤ fuel →
      ∃ b dl1, is_node_full_loop Arity (some (r, cs)) fuel tasks dl = some (b, dl1) ∧
        (b = true ↔
          ((∀ τ ∈ tasks, ∀ x k, Forest.nodeAt r cs τ.1 = some (x, k) →
              k.PerfectTo Arity τ.2.toNat) ∧
            (tasks = [] → dl = 0))) := by
  intro fuel
  induction fuel with
  | zero =>
    intro tasks dl hdl hv hf
    cases tasks with
    | nil =>
      refine ⟨decide (dl = 0), dl, rfl, ?_⟩
      simp
    | cons τ tasks =>
      have := subtree_size_pos (some (r, cs)) τ.1
      simp only [List.map_cons, List.sum_cons] at hf
      omega
  | succ fuel ih =>
    intro tasks dl hdl hv hf
    cases tasks with
    | nil =>
      refine ⟨decide (dl = 0), dl, rfl, ?_⟩
      simp
    | cons τ rest =>
      obtain ⟨v, s⟩ := τ
      obtain ⟨hs0, x, k, hn, hb⟩ := hv (v, s) (List.mem_cons_self _ _)
      simp only at hs0 hn
      have hrest : ∀ τ ∈ rest, 0 ≤ τ.2 ∧ ∃ x k, Forest.nodeAt r cs τ.1 = some (x, k) ∧
          ∀ w k1, k.kidsAt w = some k1 → k1.degree ≤ Arity :=
        fun τ hτ => hv τ (List.mem_cons_of_mem _ hτ)
      simp only [List.map_cons, List.sum_cons] at hf
      have hpos := subtree_size_pos (some (r, cs)) v
      have hdeg : out_degree (some (r, cs)) v = k.degree := out_degree_some r cs v x k hn
      have hkle : k.degree ≤ Arity := hb [] k rfl
      obtain ⟨n, rfl⟩ := Int.eq_ofNat_of_zero_le hs0
      simp only [is_node_full_loop, hdeg]
      have hdl1 : (0 : Int) ≤ (if (n : Int) < dl then (n : Int) else dl) := by
        split <;> omega
      by_cases hA0 : k.degree = 0 ∧ (n : Int) = 0
      · rw [if_pos hA0]
        have hn0 : n = 0 := by omega
        subst hn0
        obtain ⟨b, dl1, h1, h2⟩ := ih rest _ hdl1 hrest (by omega)
        refine ⟨b, dl1, h1, ?_⟩
        rw [h2]
        have hzero : (if ((0 : Nat) : Int) < dl then ((0 : Nat) : Int) else dl) = 0 := by
          split <;> omega
        constructor
        · rintro ⟨a1, _⟩
          refine ⟨?_, fun h0 => by simp at h0⟩
          intro τ hτ x1 k1 hx1
          rcases List.mem_cons.mp hτ with h | h
          · subst h
            simp only at hx1 ⊢
            rw [hn] at hx1
            simp only [Option.some.injEq, Prod.mk.injEq] at hx1
            rw [← hx1.2]
            simp only [Int.toNat_ofNat]
            exact (Forest.perfectTo_zero Arity k).mpr hA0.1
          · exact a1 τ h x1 k1 hx1
        · rintro ⟨a1, _⟩
          exact ⟨fun τ hτ => a1 τ (List.mem_cons_of_mem _ hτ), fun _ => hzero⟩
      · rw [if_neg hA0]
        by_cases hC : (k.degree ≠ 0 ∧ (n : Int) - 1 < 0) ∨ k.degree < Arity ∨
            ((n : Int) - 1 > 0 ∧ is_leaf_node (some (r, cs)) v = true)
        · rw [if_pos hC]
          refine ⟨false, _, rfl, ?_⟩
          constructor
          · intro h0
            cases h0
          · rintro ⟨a1, _⟩
            exfalso
            have hperf := a1 (v, (n : Int)) (List.mem_cons_self _ _) x k hn
            simp only [Int.toNat_ofNat] at hperf
            cases n with
            | zero =>
              have := (Forest.perfectTo_zero Arity k).mp hperf
              rcases hC with h | h | h
              · exact h.1 this
              · exact hA0 ⟨this, rfl⟩
              · omega
            | succ n =>
              obtain ⟨p1, p2⟩ := (Forest.perfectTo_succ Arity n k).mp hperf
              rcases hC with h | h | h
              · omega
              · omega
              · obtain ⟨j, m, vv, ch, hsl⟩ := Forest.exists_slot_of_degree_pos k (by omega)
                have hleaf := (is_leaf_node_iff r cs v x k hn).mp h.2 j m vv ch hsl
                have hch := p2 j m vv ch hsl
                cases n with
                | zero => omega
                | succ n =>
                  have := ((Forest.perfectTo_succ Arity n ch).mp hch).1
                  omega
        · rw [if_neg hC]
          have hC1 : ¬ (k.degree ≠ 0 ∧ (n : Int) - 1 < 0) := fun h => hC (Or.inl h)
          have hC2 : ¬ (k.degree < Arity) := fun h => hC (Or.inr (Or.inl h))
          have hkA : k.degree = Arity := by omega
          have hn1 : 1 ≤ n := by
            by_contra h0
            have hn0 : n = 0 := by omega
            subst hn0
            apply hC1
            exact ⟨by omega, by omega⟩
          obtain ⟨n1, rfl⟩ : ∃ n1, n = n1 + 1 := ⟨n - 1, by omega⟩
          have hsec : ((n1 + 1 : Nat) : Int) - 1 = (n1 : Int) := by
            push_cast
            ring
          rw [hsec]
          have hnew : ∀ τ ∈ (out_edges (some (r, cs)) v).map (fun e => (e.2, (n1 : Int))),
              0 ≤ τ.2 ∧ ∃ x k, Forest.nodeAt r cs τ.1 = some (x, k) ∧
                ∀ w k1, k.kidsAt w = some k1 → k1.degree ≤ Arity := by
            intro τ hτ
            obtain ⟨e, he, rfl⟩ := List.mem_map.mp hτ
            obtain ⟨j, m, vv, ch, hsl, rfl⟩ := (mem_out_edges_iff r cs v x k hn e).mp he
            refine ⟨by simp, vv, ch, Forest.nodeAt_snoc r cs v x k j m vv ch hn hsl, ?_⟩
            intro w k1 hk1
            exact hb (j :: w) k1 (by simp [Forest.kidsAt, hsl, hk1])
          obtain ⟨b, dl1, h1, h2⟩ := ih (rest ++ (out_edges (some (r, cs)) v).map
            (fun e => (e.2, (n1 : Int)))) _ hdl1
            (fun τ hτ => by
              rcases List.mem_append.mp hτ with h | h
              · exact hrest τ h
              · exact hnew τ h)
            (by
              have := sum_subtree_out_edges r cs v
              simp only [List.map_append, List.sum_append, List.map_map]
              have h2 : ((fun y : vertex_type × Int => subtree_size (some (r, cs)) y.1) ∘
                  fun e : Int × vertex_type => (e.2, (n1 : Int))) =
                  fun e => subtree_size (some (r, cs)) e.2 := rfl
              rw [h2]
              omega)
          refine ⟨b, dl1, h1, ?_⟩
          rw [h2]
          constructor
          · rintro ⟨a1, _⟩
            refine ⟨?_, fun h0 => by simp at h0⟩
            intro τ hτ x1 k1 hx1
            rcases List.mem_cons.mp hτ with h | h
            · subst h
              simp only at hx1 ⊢
              rw [hn] at hx1
              simp only [Option.some.injEq, Prod.mk.injEq] at hx1
              rw [← hx1.2]
              simp only [Int.toNat_ofNat]
              refine (Forest.perfectTo_succ Arity n1 k).mpr ⟨hkA, ?_⟩
              intro j m vv ch hsl
              have hmem : (v ++ [j], (n1 : Int)) ∈
                  rest ++ (out_edges (some (r, cs)) v).map (fun e => (e.2, (n1 : Int))) :=
                List.mem_append_right _ (List.mem_map.mpr ⟨(m, v ++ [j]),
                  (mem_out_edges_iff r cs v x k hn _).mpr ⟨j, m, vv, ch, hsl, rfl⟩, rfl⟩)
              have := a1 _ hmem vv ch (Forest.nodeAt_snoc r cs v x k j m vv ch hn hsl)
              simpa using this
            · exact a1 τ (List.mem_append_left _ h) x1 k1 hx1
          · rintro ⟨a1, _⟩
            constructor
            · intro τ hτ x1 k1 hx1
              rcases List.mem_append.mp hτ with h | h
              · exact a1 τ (List.mem_cons_of_mem _ h) x1 k1 hx1
              · obtain ⟨e, he, rfl⟩ := List.mem_map.mp h
                obtain ⟨j, m, vv, ch, hsl, rfl⟩ := (mem_out_edges_iff r cs v x k hn e).mp he
                have hperf := a1 (v, ((n1 + 1 : Nat) : Int)) (List.mem_cons_self _ _) x k hn
                simp only [Int.toNat_ofNat] at hperf
                have hch := ((Forest.perfectTo_succ Arity n1 k).mp hperf).2 j m vv ch hsl
                simp only at hx1 ⊢
                rw [Forest.nodeAt_snoc r cs v x k j m vv ch hn hsl] at hx1
                simp only [Option.some.injEq, Prod.mk.injEq] at hx1
                rw [← hx1.2]
                simpa using hch
            · intro h0
              exfalso
              obtain ⟨j, m, vv, ch, hsl⟩ := Forest.exists_slot_of_degree_pos k (by omega)
              have hmem : (m, v ++ [j]) ∈ out_edges (some (r, cs)) v :=
                (mem_out_edges_iff r cs v x k hn _).mpr ⟨j, m, vv, ch, hsl, rfl⟩
              have : (v ++ [j], (n1 : Int)) ∈
                  rest ++ (out_edges (some (r, cs)) v).map (fun e => (e.2, (n1 : Int))) :=
                List.mem_append_right _ (List.mem_map.mpr ⟨_, hmem, rfl⟩)
              rw [h0] at this
              simp at this

/-! ### The fullness test decides perfect subtrees -/

/-- In a tree obtained by a bulk construction, insertions and erasures, no vertex has more
than `Arity` children. -/
theorem reachable_degree_le (Arity : Nat) (dist : P → P → Int)
    (std_sort : (vertex_property P → vertex_property P → Bool) →
      List (vertex_property P) → List (vertex_property P))
    (nth_element : (vertex_property P → vertex_property P → Bool) →
      List (vertex_property P) → Nat → List (vertex_property P))
    (hA : 0 < Arity) (hsort : SortSpec std_sort) (hnth : NthSpec nth_element)
    (d : Bool) (r : vertex_property P) (cs : Forest P) (root : Option vertex_type)
    (h : Reachable Arity dist std_sort nth_element d ⟨some (r, cs), root⟩) :
    ∀ w xw cw, Forest.nodeAt r cs w = some (xw, cw) → cw.degree ≤ Arity := by
  obtain ⟨⟨_, hg⟩, _⟩ := reachable_inv Arity dist std_sort nth_element hA hsort hnth d _ h
  intro w xw cw hw
  exact (Forest.ok_nodeAt Arity dist _ w r cs xw cw hw hg.2 hg.1).2

/-- For a depth `d >= 0`, `is_node_full(v, d)` ends and tells whether the subtree of `v` is
perfect of depth `d`, in a tree no vertex of which has more than `Arity` children. -/
theorem is_node_full_spec (Arity : Nat) (hA : 1 ≤ Arity) (r : vertex_property P)
    (cs : Forest P)
    (hb : ∀ w xw cw, Forest.nodeAt r cs w = some (xw, cw) → cw.degree ≤ Arity)
    (v : vertex_type) (x : vertex_property P) (c : Forest P)
    (hn : Forest.nodeAt r cs v = some (x, c)) (d : Nat) :
    ∃ b dl, is_node_full Arity (some (r, cs)) v (d : Int) = some (b, dl) ∧
      (b = true ↔ c.PerfectTo Arity d) := by
  have hd : ¬ ((d : Int) < 0) := by omega
  simp only [is_node_full, if_neg hd]
  obtain ⟨b, dl, h1, h2⟩ := is_node_full_loop_spec Arity hA r cs (num_vertices (some (r, cs)))
    [(v, (d : Int))] (d : Int) (by omega)
    (fun τ hτ => by
      simp only [List.mem_singleton] at hτ
      subst hτ
      refine ⟨by simp, x, c, hn, ?_⟩
      intro w k1 hk1
      obtain ⟨y, hy⟩ := Forest.kidsAt_nodeAt x c w k1 hk1
      apply hb (v ++ w) y k1
      rw [Forest.nodeAt_append, hn]
      exact hy)
    (by
      simp only [List.map_cons, List.map_nil, List.sum_cons, List.sum_nil, Nat.add_zero,
        num_vertices, subtree_size, vertex_at, hn]
      have := Forest.nodeAt_size_le r cs v x c hn
      omega)
  refine ⟨b, dl, h1, ?_⟩
  rw [h2]
  constructor
  · rintro ⟨a1, _⟩
    have := a1 (v, (d : Int)) (List.mem_singleton_self _) x c hn
    simpa using this
  · intro hp
    refine ⟨?_, fun h0 => by simp at h0⟩
    intro τ hτ x1 k1 hx1
    simp only [List.mem_singleton] at hτ
    subst hτ
    simp only at hx1 ⊢
    rw [hn] at hx1
    simp only [Option.some.injEq, Prod.mk.injEq] at hx1
    rw [← hx1.2]
    simpa using hp

/-- C24. `is_node_full` decides perfect subtrees: in a tree no vertex of which has more than
`Arity` children (`Arity >= 1`), for every vertex `v` and every depth `d >= 0`,
`is_node_full(v, d)` ends and returns true if and only if, in the subtree rooted at `v`,
every vertex at a depth below `d` has exactly `Arity` children and every vertex at the depth
`d` has no child; and for `d < 0` it returns false. -/
theorem is_node_full_decides_perfect (Arity : Nat) (hA : 1 ≤ Arity) (r : vertex_property P)
    (cs : Forest P)
    (hb : ∀ w xw cw, Forest.nodeAt r cs w = some (xw, cw) → cw.degree ≤ Arity)
    (v : vertex_type) (x : vertex_property P) (c : Forest P)
    (hn : Forest.nodeAt r cs v = some (x, c)) :
    (∀ d : Nat, ∃ b dl, is_node_full Arity (some (r, cs)) v (d : Int) = some (b, dl) ∧
      (b = true ↔ c.PerfectTo Arity d)) ∧
      (∀ d : Int, d < 0 → is_node_full Arity (some (r, cs)) v d = some (false, d)) := by
  refine ⟨is_node_full_spec Arity hA r cs hb v x c hn, ?_⟩
  intro d hd
  simp only [is_node_full, if_pos hd]

/-- Witness of C24: the fullness test at the vertex `[0]` of the tree built from five points
of the line. -/
theorem is_node_full_decides_perfect_witness :
    (∀ d : Nat, ∃ b dl, is_node_full 2 example_tree.m_tree [0] (d : Int) = some (b, dl) ∧
      (b = true ↔
        (Forest.cons 3 (⟨2, 5⟩ : vertex_property Int) Forest.nil Forest.nil).PerfectTo 2 d)) ∧
      (∀ d : Int, d < 0 → is_node_full 2 example_tree.m_tree [0] d = some (false, d)) :=
  is_node_full_decides_perfect 2 (by decide) ⟨1, 0⟩ _
    (reachable_degree_le 2 line_dist insertion_sort nth_by_sort (by decide)
      insertion_sort_spec nth_by_sort_spec false _ _ _ (example_tree_reachable false))
    [0] ⟨4, 2⟩ _ rfl

/-! ### The radii and the vertices after `update_mu_upwards` -/

theorem in_edge_mu_single (r : vertex_property P) (cs : Forest P) (i : Nat) :
    in_edge_mu (some (r, cs)) [i] =
      match cs.slot i with
      | some (mu, _, _) => mu
      | none => 0 :=
  in_edge_mu_snoc r cs [] i r cs rfl

theorem in_edge_mu_cons_some (r : vertex_property P) (cs : Forest P) (i : Nat) (m : Int)
    (v1 : vertex_property P) (c1 : Forest P) (hs : cs.slot i = some (m, v1, c1))
    (v : vertex_type) (hv : v ≠ []) :
    in_edge_mu (some (r, cs)) (i :: v) = in_edge_mu (some (v1, c1)) v := by
  rcases List.eq_nil_or_concat v with h0 | ⟨w, k, h0⟩
  · exact absurd h0 hv
  · rw [List.concat_eq_append] at h0
    subst h0
    have e1 : i :: (w ++ [k]) = (i :: w) ++ [k] := rfl
    rw [e1]
    simp only [in_edge_mu, parent_of, List.dropLast_concat, List.getLast?_append,
      List.getLast?_singleton, Option.or_some, vertex_at, Forest.nodeAt, hs]

theorem in_edge_mu_cons_none (r : vertex_property P) (cs : Forest P) (i : Nat)
    (hs : cs.slot i = none) (v : vertex_type) :
    in_edge_mu (some (r, cs)) (i :: v) = 0 := by
  rcases List.eq_nil_or_concat v with h0 | ⟨w, k, h0⟩
  · subst h0
    rw [in_edge_mu_single, hs]
  · rw [List.concat_eq_append] at h0
    subst h0
    have e1 : i :: (w ++ [k]) = (i :: w) ++ [k] := rfl
    rw [e1]
    simp only [in_edge_mu, parent_of, List.dropLast_concat, List.getLast?_append,
      List.getLast?_singleton, Option.or_some, vertex_at, Forest.nodeAt, hs]

theorem dist_to_cons (dist : P → P → Int) (q : P) (r : vertex_property P) (cs : Forest P)
    (i : Nat) (m : Int) (v1 : vertex_property P) (c1 : Forest P)
    (hs : cs.slot i = some (m, v1, c1)) (w : vertex_type) :
    dist_to dist q (some (r, cs)) (i :: w) = dist_to dist q (some (v1, c1)) w := by
  simp only [dist_to, vertex_at, Forest.nodeAt, hs]

namespace Forest

/-- The update of the radii along a path keeps every vertex, with its property, at its
place. -/
theorem nodeAt_descend_fst (dist : P → P → Int) (q : P) (L : List Nat) :
    ∀ (r : vertex_property P) (cs : Forest P) (v : List Nat),
      (nodeAt r (descend dist q (fun _ c => c) r.pos L cs) v).map Prod.fst =
        (nodeAt r cs v).map Prod.fst := by
  induction L with
  | nil => intro r cs v; rfl
  | cons j rest ih =>
    intro r cs v
    cases v with
    | nil => rfl
    | cons i v =>
      simp only [nodeAt, descend]
      by_cases hij : i = j
      · subst hij
        rw [slot_updSlot_same]
        cases hs : cs.slot i with
        | none => rfl
        | some y =>
          obtain ⟨m, v1, c1⟩ := y
          simp only [Option.map_some']
          exact ih v1 c1 v
      · rw [slot_updSlot_ne _ cs j i (fun h => hij h.symm)]

/-- The update of the radii along a path changes no radius off the path. -/
theorem in_edge_mu_descend_off (dist : P → P → Int) (q : P) (L : List Nat) :
    ∀ (r : vertex_property P) (cs : Forest P) (v : List Nat), ¬ (v ≠ [] ∧ v <+: L) →
      in_edge_mu (some (r, descend dist q (fun _ c => c) r.pos L cs)) v =
        in_edge_mu (some (r, cs)) v := by
  induction L with
  | nil => intro r cs v _; rfl
  | cons j rest ih =>
    intro r cs v hv
    cases v with
    | nil => rfl
    | cons i v =>
      simp only [descend]
      by_cases hij : i = j
      · subst hij
        cases hs : cs.slot i with
        | none =>
          rw [in_edge_mu_cons_none r cs i hs,
            in_edge_mu_cons_none r _ i (by rw [slot_updSlot_same, hs]; rfl)]
        | some y =>
          obtain ⟨m, v1, c1⟩ := y
          have hs1 : (updSlot (fun m v c => (max m (dist q r.pos), v,
              descend dist q (fun _ c => c) v.pos rest c)) i cs).slot i =
              some (max m (dist q r.pos), v1, descend dist q (fun _ c => c) v1.pos rest c1) := by
            rw [slot_updSlot_same, hs]
            rfl
          by_cases hv0 : v = []
          · subst hv0
            exfalso
            apply hv
            exact ⟨by simp, by simp [List.prefix_cons_inj]⟩
          · rw [in_edge_mu_cons_some r _ i _ _ _ hs1 v hv0,
              in_edge_mu_cons_some r cs i m v1 c1 hs v hv0]
            apply ih v1 c1 v
            rintro ⟨_, h2⟩
            exact hv ⟨by simp, (List.prefix_cons_inj i).mpr h2⟩
      · have hsl : (updSlot (fun m v c => (max m (dist q r.pos), v,
            descend dist q (fun _ c => c) v.pos rest c)) j cs).slot i = cs.slot i :=
          slot_updSlot_ne _ cs j i (fun h => hij h.symm)
        cases hs : cs.slot i with
        | none =>
          rw [in_edge_mu_cons_none r cs i hs, in_edge_mu_cons_none r _ i (by rw [hsl, hs])]
        | some y =>
          obtain ⟨m, v1, c1⟩ := y
          by_cases hv0 : v = []
          · subst hv0
            rw [in_edge_mu_single, in_edge_mu_single, hsl]
          · rw [in_edge_mu_cons_some r _ i m v1 c1 (by rw [hsl, hs]) v hv0,
              in_edge_mu_cons_some r cs i m v1 c1 hs v hv0]

/-- The update of the radii along a path enlarges the radius of every edge of the path to
the distance between the point and the source of the edge, when that distance is larger. -/
theorem in_edge_mu_descend_on (dist : P → P → Int) (q : P) (L : List Nat) :
    ∀ (r : vertex_property P) (cs : Forest P) (v : List Nat), v ≠ [] → v <+: L →
      (nodeAt r cs v).isSome = true →
      in_edge_mu (some (r, descend dist q (fun _ c => c) r.pos L cs)) v =
        max (in_edge_mu (some (r, cs)) v) (dist_to dist q (some (r, cs)) (parent_of v)) := by
  induction L with
  | nil =>
    intro r cs v hv hp _
    exact absurd (List.prefix_nil.mp hp) hv
  | cons j rest ih =>
    intro r cs v hv hp hval
    cases v with
    | nil => exact absurd rfl hv
    | cons i v =>
      have hij : i = j := by
        obtain ⟨u, hu⟩ := hp
        simp only [List.cons_append, List.cons.injEq] at hu
        exact hu.1
      subst hij
      have hp1 : v <+: rest := (List.prefix_cons_inj i).mp hp
      simp only [nodeAt] at hval
      cases hs : cs.slot i with
      | none => simp [hs] at hval
      | some y =>
        obtain ⟨m, v1, c1⟩ := y
        simp only [hs] at hval
        simp only [descend]
        have hs1 : (updSlot (fun m v c => (max m (dist q r.pos), v,
            descend dist q (fun _ c => c) v.pos rest c)) i cs).slot i =
            some (max m (dist q r.pos), v1, descend dist q (fun _ c => c) v1.pos rest c1) := by
          rw [slot_updSlot_same, hs]
          rfl
        by_cases hv0 : v = []
        · subst hv0
          rw [in_edge_mu_single, in_edge_mu_single, hs1, hs]
          simp [parent_of, dist_to, vertex_at, nodeAt]
        · rw [in_edge_mu_cons_some r _ i _ _ _ hs1 v hv0,
            in_edge_mu_cons_some r cs i m v1 c1 hs v hv0, ih v1 c1 v hv0 hp1 hval]
          have hpar : parent_of (i :: v) = i :: parent_of v := by
            cases v with
            | nil => exact absurd rfl hv0
            | cons a v => rfl
          rw [hpar, dist_to_cons dist q r cs i m v1 c1 hs]

end Forest

/-- C25. `update_mu_upwards` enlarges monotonically and touches only the path: for every
vertex `n` of the tree and every point `p`, after `update_mu_upwards(p, n)` the stored root
is the same, every vertex descriptor holds the same vertex property as before (the same
vertices, keys, positions and tree shape), the in-edge of every vertex `v` on the path from
the root to `n` (the root apart) has the radius `max(old mu, distance(p, position(u)))`,
where `u` is the source of the edge, the radius of every other edge is unchanged, and no
radius decreases. -/
theorem update_mu_upwards_frame (dist : P → P → Int) (t : dvp_tree_impl P) (hroot : Rooted t)
    (p : P) (n : vertex_type) (hn : (vertex_at t.m_tree n).isSome = true) :
    (update_mu_upwards dist t p n).m_root = t.m_root ∧
      (∀ v, (vertex_at (update_mu_upwards dist t p n).m_tree v).map Prod.fst =
        (vertex_at t.m_tree v).map Prod.fst) ∧
      (∀ v, v ≠ [] → v <+: n →
        in_edge_mu (update_mu_upwards dist t p n).m_tree v =
          max (in_edge_mu t.m_tree v) (dist_to dist p t.m_tree (parent_of v))) ∧
      (∀ v, ¬ (v ≠ [] ∧ v <+: n) →
        in_edge_mu (update_mu_upwards dist t p n).m_tree v = in_edge_mu t.m_tree v) ∧
      (∀ v, in_edge_mu t.m_tree v ≤ in_edge_mu (update_mu_upwards dist t p n).m_tree v) := by
  obtain ⟨tree, root⟩ := t
  cases tree with
  | none => simp [vertex_at] at hn
  | some y =>
    obtain ⟨r, cs⟩ := y
    have hr0 : root = some [] := hroot
    subst hr0
    have hnv : (Forest.nodeAt r cs n).isSome = true := hn
    rw [update_mu_upwards_eq dist p r cs n hnv]
    have hon : ∀ v, v ≠ [] → v <+: n →
        in_edge_mu (some (r, Forest.descend dist p (fun _ c => c) r.pos n cs)) v =
          max (in_edge_mu (some (r, cs)) v) (dist_to dist p (some (r, cs)) (parent_of v)) :=
      fun v hv hp => Forest.in_edge_mu_descend_on dist p n r cs v hv hp
        (Forest.nodeAt_of_prefix r cs v n hp hnv)
    have hoff := Forest.in_edge_mu_descend_off dist p n r cs
    refine ⟨rfl, fun v => Forest.nodeAt_descend_fst dist p n r cs v, hon, hoff, ?_⟩
    intro v
    by_cases hc : v ≠ [] ∧ v <+: n
    · rw [hon v hc.1 hc.2]
      exact le_max_left _ _
    · rw [hoff v hc]

/-- Witness of C25: the update for the point 20 from the vertex `[0, 0]` of the tree built
from five points of the line. -/
theorem update_mu_upwards_frame_witness :
    (update_mu_upwards line_dist example_tree 20 [0, 0]).m_root = example_tree.m_root ∧
      (∀ v, (vertex_at (update_mu_upwards line_dist example_tree 20 [0, 0]).m_tree v).map
          Prod.fst = (vertex_at example_tree.m_tree v).map Prod.fst) ∧
      (∀ v, v ≠ [] → v <+: [0, 0] →
        in_edge_mu (update_mu_upwards line_dist example_tree 20 [0, 0]).m_tree v =
          max (in_edge_mu example_tree.m_tree v)
            (dist_to line_dist 20 example_tree.m_tree (parent_of v))) ∧
      (∀ v, ¬ (v ≠ [] ∧ v <+: [0, 0]) →
        in_edge_mu (update_mu_upwards line_dist example_tree 20 [0, 0]).m_tree v =
          in_edge_mu example_tree.m_tree v) ∧
      (∀ v, in_edge_mu example_tree.m_tree v ≤
        in_edge_mu (update_mu_upwards line_dist example_tree 20 [0, 0]).m_tree v) :=
  update_mu_upwards_frame line_dist example_tree rfl 20 [0, 0] rfl

/-! ### Perfect trees, and a new child below a leaf -/

namespace Forest

theorem slot_none_of_degree_zero (c : Forest P) (h : c.degree = 0) (i : Nat) :
    c.slot i = none := by
  apply edges_eq_nil_slot c 0
  apply List.eq_nil_of_length_eq_zero
  rw [length_edges, h]

/-- In a perfect subtree of depth `d` no vertex lies deeper than `d`. -/
theorem perfect_path_le (A : Nat) :
    ∀ (d : Nat) (c : Forest P), c.PerfectTo A d → ∀ w k, c.kidsAt w = some k →
      w.length ≤ d := by
  intro d
  induction d with
  | zero =>
    intro c hc w k hk
    have hdeg := (perfectTo_zero A c).mp hc
    cases w with
    | nil => simp
    | cons i w =>
      simp [kidsAt, slot_none_of_degree_zero c hdeg i] at hk
  | succ d ih =>
    intro c hc w k hk
    cases w with
    | nil => simp
    | cons i w =>
      simp only [kidsAt] at hk
      cases hs : c.slot i with
      | none => simp [hs] at hk
      | some y =>
        obtain ⟨m, vv, ch⟩ := y
        simp only [hs] at hk
        have := ih ch (((perfectTo_succ A d c).mp hc).2 i m vv ch hs) w k hk
        simp only [List.length_cons]
        omega

/-- The subtree of a vertex of a perfect subtree is perfect, of the depth that is left. -/
theorem perfect_sub (A d : Nat) (c : Forest P) (hc : c.PerfectTo A d) (w : List Nat)
    (k : Forest P) (hk : c.kidsAt w = some k) (n : Nat) (hn : n + w.length = d) :
    k.PerfectTo A n := by
  intro w1 k1 hk1
  have h1 : c.kidsAt (w ++ w1) = some k1 := by
    rw [kidsAt_append, hk]
    exact hk1
  have h2 := hc (w ++ w1) k1 h1
  simp only [List.length_append] at h2
  exact ⟨fun h => h2.1 (by omega), fun h => h2.2 (by omega)⟩

/-- In a perfect tree no vertex has more than `A` children. -/
theorem perfect_degree_le (A d : Nat) (r : vertex_property P) (cs : Forest P)
    (hc : cs.PerfectTo A d) :
    ∀ w xw cw, nodeAt r cs w = some (xw, cw) → cw.degree ≤ A := by
  intro w xw cw hw
  have hk := nodeAt_kidsAt r cs w xw cw hw
  have hle := perfect_path_le A d cs hc w cw hk
  have h2 := hc w cw hk
  rcases Nat.lt_or_ge w.length d with h | h
  · rw [h2.1 h]
  · rw [h2.2 (by omega)]
    exact Nat.zero_le _

/-- The vertices after a child is attached to a leaf: the new vertex behind the first
out-edge of the leaf, and the former vertices with their properties. -/
theorem nodeAt_modifyAt_leaf (e : Int) (up vl : vertex_property P) (L : List Nat) :
    ∀ (r : vertex_property P) (cs : Forest P) (v : List Nat),
      nodeAt r cs L = some (vl, nil) →
      (nodeAt r (modifyAt (add e up nil) L cs) v).map Prod.fst =
        if v = L ++ [0] then some up else (nodeAt r cs v).map Prod.fst := by
  induction L with
  | nil =>
    intro r cs v hn
    simp only [nodeAt, Option.some.injEq, Prod.mk.injEq] at hn
    obtain ⟨_, rfl⟩ := hn
    simp only [modifyAt, add, List.nil_append]
    cases v with
    | nil => simp [nodeAt]
    | cons i v =>
      cases i with
      | zero =>
        cases v with
        | nil => simp [nodeAt, slot]
        | cons a v => simp [nodeAt, slot]
      | succ i => simp [nodeAt, slot]
  | cons j L ih =>
    intro r cs v hn
    simp only [nodeAt] at hn
    cases hs : cs.slot j with
    | none => simp [hs] at hn
    | some y =>
      obtain ⟨m, vv, c⟩ := y
      simp only [hs] at hn
      cases v with
      | nil => simp [nodeAt]
      | cons i v =>
        simp only [modifyAt, nodeAt]
        by_cases hij : i = j
        · subst hij
          rw [slot_mapSlot_same, hs]
          simp only [Option.map_some', List.cons_append, List.cons.injEq, true_and]
          exact ih vv c v hn
        · rw [slot_mapSlot_ne _ cs j i (fun h => hij h.symm)]
          have hne : ¬ (i :: v = j :: L ++ [0]) := by
            intro h
            simp only [List.cons_append, List.cons.injEq] at h
            exact hij h.1
          rw [if_neg hne]

/-- The radii of the former edges after a child is attached to a leaf. -/
theorem in_edge_mu_modifyAt_leaf (e : Int) (up vl : vertex_property P) (L : List Nat) :
    ∀ (r : vertex_property P) (cs : Forest P) (v : List Nat),
      nodeAt r cs L = some (vl, nil) → v ≠ L ++ [0] →
      in_edge_mu (some (r, modifyAt (add e up nil) L cs)) v = in_edge_mu (some (r, cs)) v := by
  induction L with
  | nil =>
    intro r cs v hn hv
    simp only [nodeAt, Option.some.injEq, Prod.mk.injEq] at hn
    obtain ⟨_, rfl⟩ := hn
    simp only [modifyAt, add]
    cases v with
    | nil => rfl
    | cons i v =>
      cases i with
      | zero =>
        have hv0 : v ≠ [] := by
          intro h0
          subst h0
          exact hv rfl
        rw [in_edge_mu_cons_some r (cons e up nil nil) 0 e up nil rfl v hv0,
          in_edge_mu_cons_none r nil 0 rfl]
        cases v with
        | nil => exact absurd rfl hv0
        | cons a v => exact in_edge_mu_cons_none up nil a rfl v
      | succ i =>
        rw [in_edge_mu_cons_none r (cons e up nil nil) (i + 1) rfl,
          in_edge_mu_cons_none r nil (i + 1) rfl]
  | cons j L ih =>
    intro r cs v hn hv
    simp only [nodeAt] at hn
    cases hs : cs.slot j with
    | none => simp [hs] at hn
    | some y =>
      obtain ⟨m, vv, c⟩ := y
      simp only [hs] at hn
      cases v with
      | nil => rfl
      | cons i v =>
        simp only [modifyAt]
        by_cases hij : i = j
        · subst hij
          have hs1 : (mapSlot (modifyAt (add e up nil) L) i cs).slot i =
              some (m, vv, modifyAt (add e up nil) L c) := by
            rw [slot_mapSlot_same, hs]
            rfl
          by_cases hv0 : v = []
          · subst hv0
            rw [in_edge_mu_single, in_edge_mu_single, hs1, hs]
          · rw [in_edge_mu_cons_some r _ i _ _ _ hs1 v hv0,
              in_edge_mu_cons_some r cs i m vv c hs v hv0]
            apply ih vv c v hn
            intro h
            apply hv
            rw [h]
            rfl
        · have hsl : (mapSlot (modifyAt (add e up nil) L) j cs).slot i = cs.slot i :=
            slot_mapSlot_ne _ cs j i (fun h => hij h.symm)
          cases hsi : cs.slot i with
          | none =>
            rw [in_edge_mu_cons_none r cs i hsi, in_edge_mu_cons_none r _ i (by rw [hsl, hsi])]
          | some z =>
            obtain ⟨m1, v1, c1⟩ := z
            by_cases hv0 : v = []
            · subst hv0
              rw [in_edge_mu_single, in_edge_mu_single, hsl]
            · rw [in_edge_mu_cons_some r _ i m1 v1 c1 (by rw [hsl, hsi]) v hv0,
                in_edge_mu_cons_some r cs i m1 v1 c1 hsi v hv0]

end Forest

/-! ### Insertion into a perfect tree -/

/-- In a perfect tree the walk of `insert` towards a vertex that is not full goes up to the
root, counting the depths. -/
theorem find_nonfull_loop_perfect (Arity : Nat) (hA : 1 ≤ Arity) (r : vertex_property P)
    (cs : Forest P) (d : Nat) (hc : cs.PerfectTo Arity d) :
    ∀ (fuel : Nat) (p : vertex_type) (k : Nat), (Forest.nodeAt r cs p).isSome = true →
      k + p.length = d → p.length < fuel →
      find_nonfull_loop Arity ⟨some (r, cs), some []⟩ fuel p (k : Int) (k : Int) =
        some ([], (d : Int)) := by
  intro fuel
  induction fuel with
  | zero => intro p k _ _ h; omega
  | succ fuel ih =>
    intro p k hv hk hf
    simp only [find_nonfull_loop]
    by_cases hp : p = []
    · subst hp
      simp only [List.length_nil, Nat.add_zero] at hk
      subst hk
      simp
    · have hne : ¬ (some p = some ([] : vertex_type)) := by simpa using hp
      rw [if_neg hne]
      obtain ⟨y, hy⟩ := Option.isSome_iff_exists.mp hv
      obtain ⟨x, c⟩ := y
      have hperf : c.PerfectTo Arity k :=
        Forest.perfect_sub Arity d cs hc p c (Forest.nodeAt_kidsAt r cs p x c hy) k hk
      obtain ⟨b, dl, h1, h2⟩ := is_node_full_spec Arity hA r cs
        (Forest.perfect_degree_le Arity d r cs hc) p x c hy k
      have hb : b = true := h2.mpr hperf
      subst hb
      rw [h1]
      simp only []
      have hcast : (k : Int) + 1 = ((k + 1 : Nat) : Int) := by push_cast; rfl
      rw [hcast]
      have hlen : (parent_of p).length + 1 = p.length := by
        simp only [parent_of, List.length_dropLast]
        have := List.length_pos.mpr hp
        omega
      exact ih (parent_of p) (k + 1) (Forest.nodeAt_dropLast r cs p hv) (by omega) (by omega)

/-- On a perfect tree of depth `d >= 1` without vacant slots, `insert` takes its last
branch: the new element becomes a child of the leaf that `get_leaf` reaches, and the radii
are updated from that leaf upwards. -/
theorem insert_perfect_eq (Arity : Nat) (dist : P → P → Int)
    (std_sort : (vertex_property P → vertex_property P → Bool) →
      List (vertex_property P) → List (vertex_property P))
    (nth_element : (vertex_property P → vertex_property P → Bool) →
      List (vertex_property P) → Nat → List (vertex_property P))
    (ch : List (vertex_property P) → Nat) (hA : 1 ≤ Arity)
    (r : vertex_property P) (cs : Forest P) (hnh : cs.NoHoles) (d : Nat) (hd : 1 ≤ d)
    (hc : cs.PerfectTo Arity d) (up : vertex_property P) :
    ∃ vl, Forest.nodeAt r cs (get_leaf dist (some (r, cs)) up.pos []) = some (vl, Forest.nil) ∧
      (get_leaf dist (some (r, cs)) up.pos []).length = d ∧
      Forest.Routed dist up.pos r.pos cs (get_leaf dist (some (r, cs)) up.pos []) ∧
      insert Arity dist std_sort nth_element ch ⟨some (r, cs), some []⟩ up =
        some ⟨some (r, Forest.descend dist up.pos (fun _ c => c) r.pos
          (get_leaf dist (some (r, cs)) up.pos [])
          (cs.modifyAt (Forest.add (dist up.pos vl.pos) up Forest.nil)
            (get_leaf dist (some (r, cs)) up.pos []))), some []⟩ := by
  obtain ⟨vl, cl, hL, hdeg, hrouted⟩ := get_leaf_spec dist up.pos r cs
  generalize hLdef : get_leaf dist (some (r, cs)) up.pos [] = L at hL hrouted
  have hcl : cl = Forest.nil :=
    Forest.eq_nil_of_degree_zero cl hdeg (Forest.noHoles_nodeAt L r cs vl cl hL hnh)
  subst hcl
  have hLv : (Forest.nodeAt r cs L).isSome = true := by rw [hL]; rfl
  have hkL := Forest.nodeAt_kidsAt r cs L vl Forest.nil hL
  have hlen : L.length = d := by
    have h1 := Forest.perfect_path_le Arity d cs hc L Forest.nil hkL
    have h2 := (hc L Forest.nil hkL).1
    by_contra hne
    have := h2 (by omega)
    simp only [Forest.degree] at this
    omega
  have hroot : L ≠ [] := by
    intro h0
    rw [h0] at hlen
    simp at hlen
    omega
  have hnz : ¬ (num_vertices (some (r, cs)) = 0) := by simp [num_vertices]
  refine ⟨vl, hL, hlen, hrouted, ?_⟩
  simp only [insert, if_neg hnz, hLdef, if_neg hroot]
  have hpar : parent_of L <+: L := List.dropLast_prefix L
  have hparv := Forest.nodeAt_of_prefix r cs _ _ hpar hLv
  obtain ⟨yp, hyp⟩ := Option.isSome_iff_exists.mp hparv
  obtain ⟨xp, cp⟩ := yp
  have hplen : (parent_of L).length + 1 = d := by
    simp only [parent_of, List.length_dropLast]
    omega
  have hkp := Forest.nodeAt_kidsAt r cs _ xp cp hyp
  have hpdeg : cp.degree = Arity := (hc _ cp hkp).1 (by omega)
  have hpleaf : is_leaf_node (some (r, cs)) (parent_of L) = true := by
    rw [is_leaf_node_iff r cs _ xp cp hyp]
    intro j m vv chd hs
    have hk2 : cs.kidsAt (parent_of L ++ [j]) = some chd := by
      rw [Forest.kidsAt_append, hkp]
      simp [Forest.kidsAt, hs]
    exact (hc _ chd hk2).2 (by simp only [List.length_append, List.length_singleton]; omega)
  have hcond : ¬ (out_degree (some (r, cs)) (parent_of L) < Arity ∨
      is_leaf_node (some (r, cs)) (parent_of L) = false) := by
    rw [out_degree_some r cs _ xp cp hyp, hpdeg, hpleaf]
    simp
  rw [if_neg hcond]
  have hres := find_nonfull_loop_perfect Arity hA r cs d hc ((parent_of L).length + 1)
    (parent_of L) 1 hparv (by omega) (by omega)
  simp only [Nat.cast_one] at hres
  rw [hres]
  simp only [if_true]
  obtain ⟨b, dl, h1, h2⟩ := is_node_full_spec Arity hA r cs
    (Forest.perfect_degree_le Arity d r cs hc) [] r cs rfl d
  have hb : b = true := h2.mpr hc
  subst hb
  rw [h1]
  simp only [vertex_at, hL, add_child_vertex]
  have hv2 : (Forest.nodeAt r
      (cs.modifyAt (Forest.add (dist up.pos vl.pos) up Forest.nil) L) L).isSome = true := by
    rw [Forest.nodeAt_modifyAt_self _ r cs L vl Forest.nil hL]
    rfl
  simp [update_mu_upwards_eq dist up.pos r _ L hv2]

theorem dist_to_congr (dist : P → P → Int) (q : P) (t1 t2 : tree_indexer P) (w : vertex_type)
    (h : (vertex_at t1 w).map Prod.fst = (vertex_at t2 w).map Prod.fst) :
    dist_to dist q t1 w = dist_to dist q t2 w := by
  simp only [dist_to]
  cases h1 : vertex_at t1 w with
  | none =>
    cases h2 : vertex_at t2 w with
    | none => rfl
    | some y => rw [h1, h2] at h; simp at h
  | some x =>
    cases h2 : vertex_at t2 w with
    | none => rw [h1, h2] at h; simp at h
    | some y =>
      rw [h1, h2] at h
      simp only [Option.map_some', Option.some.injEq] at h
      simp only [h]

theorem perfect_tree_perfect :
    (Forest.cons 5 (⟨2, 5⟩ : vertex_property Int) Forest.nil
      (Forest.cons 9 ⟨3, 9⟩ Forest.nil Forest.nil)).PerfectTo 2 1 := by
  rw [Forest.perfectTo_succ]
  refine ⟨rfl, ?_⟩
  intro j m vv ch hs
  rw [Forest.perfectTo_zero]
  cases j with
  | zero =>
    simp only [Forest.slot, Option.some.injEq, Prod.mk.injEq] at hs
    rw [← hs.2.2]
    rfl
  | succ j =>
    cases j with
    | zero =>
      simp only [Forest.slot, Option.some.injEq, Prod.mk.injEq] at hs
      rw [← hs.2.2]
      rfl
    | succ j => simp [Forest.slot] at hs

/-- C26. Insertion into a full tree grows one leaf without rebuilding: when the whole tree
is a perfect tree of arity `Arity >= 1` and depth `d >= 1` without vacant slots,
`insert(X)` ends; with `L` the leaf that `get_leaf` reaches (at depth `d`, by the routing
rule of `get_leaf`), the new element is the vertex `L ++ [0]`, the only child of `L`, on an
edge of radius `distance(X, position(L))`; every other vertex descriptor holds what it held
before (the former vertices keep their parents, keys and positions); the in-edge of every
vertex `v` on the path from the root to `L` gets the radius
`max(old mu, distance(X, position(parent(v))))`; and every other radius is unchanged. -/
theorem insert_into_perfect_tree (Arity : Nat) (dist : P → P → Int)
    (std_sort : (vertex_property P → vertex_property P → Bool) →
      List (vertex_property P) → List (vertex_property P))
    (nth_element : (vertex_property P → vertex_property P → Bool) →
      List (vertex_property P) → Nat → List (vertex_property P))
    (ch : List (vertex_property P) → Nat) (hA : 1 ≤ Arity)
    (r : vertex_property P) (cs : Forest P) (hnh : cs.NoHoles) (d : Nat) (hd : 1 ≤ d)
    (hc : cs.PerfectTo Arity d) (up : vertex_property P) :
    ∃ L vl t1, L = get_leaf dist (some (r, cs)) up.pos [] ∧
      vertex_at (some (r, cs)) L = some (vl, Forest.nil) ∧ L.length = d ∧
      Forest.Routed dist up.pos r.pos cs L ∧
      insert Arity dist std_sort nth_element ch ⟨some (r, cs), some []⟩ up = some t1 ∧
      t1.m_root = some [] ∧
      (∀ v, (vertex_at t1.m_tree v).map Prod.fst =
        if v = L ++ [0] then some up else (vertex_at (some (r, cs)) v).map Prod.fst) ∧
      out_degree t1.m_tree L = 1 ∧
      in_edge_mu t1.m_tree (L ++ [0]) = dist up.pos vl.pos ∧
      (∀ v, v ≠ [] → v <+: L →
        in_edge_mu t1.m_tree v =
          max (in_edge_mu (some (r, cs)) v)
            (dist_to dist up.pos (some (r, cs)) (parent_of v))) ∧
      (∀ v, ¬ (v ≠ [] ∧ v <+: L) → v ≠ L ++ [0] →
        in_edge_mu t1.m_tree v = in_edge_mu (some (r, cs)) v) := by
  obtain ⟨vl, hL, hlen, hrouted, hins⟩ := insert_perfect_eq Arity dist std_sort nth_element ch
    hA r cs hnh d hd hc up
  generalize get_leaf dist (some (r, cs)) up.pos [] = L at hL hlen hrouted hins
  have hn1 : Forest.nodeAt r (cs.modifyAt (Forest.add (dist up.pos vl.pos) up Forest.nil) L) L =
      some (vl, Forest.cons (dist up.pos vl.pos) up Forest.nil Forest.nil) :=
    Forest.nodeAt_modifyAt_self _ r cs L vl Forest.nil hL
  have hverts1 := Forest.nodeAt_modifyAt_leaf (dist up.pos vl.pos) up vl L r cs
  have hmu1 := Forest.in_edge_mu_modifyAt_leaf (dist up.pos vl.pos) up vl L r cs
  have hnotpre : ∀ v, v <+: L → v ≠ L ++ [0] := by
    intro v hv h0
    have h1 := hv.length_le
    rw [h0] at h1
    simp at h1
  refine ⟨L, vl, _, rfl, hL, hlen, hrouted, hins, rfl, ?_, ?_, ?_, ?_, ?_⟩
  · intro v
    show (Forest.nodeAt r _ v).map Prod.fst = _
    rw [Forest.nodeAt_descend_fst dist up.pos L r _ v]
    exact hverts1 v hL
  · have h2 := Forest.nodeAt_descend_self dist up.pos (fun _ c => c) r _ L vl _ hn1
    rw [out_degree_some r _ L vl _ h2]
    rfl
  · show in_edge_mu (some (r, _)) (L ++ [0]) = _
    rw [Forest.in_edge_mu_descend_off dist up.pos L r _ (L ++ [0])
      (fun h => hnotpre _ h.2 rfl)]
    rw [in_edge_mu_snoc r _ L 0 vl _ hn1]
    rfl
  · intro v hv hp
    show in_edge_mu (some (r, _)) v = _
    have hval : (Forest.nodeAt r
        (cs.modifyAt (Forest.add (dist up.pos vl.pos) up Forest.nil) L) v).isSome = true :=
      Forest.nodeAt_of_prefix r _ v L hp (by rw [hn1]; rfl)
    rw [Forest.in_edge_mu_descend_on dist up.pos L r _ v hv hp hval, hmu1 v hL (hnotpre v hp)]
    congr 1
    apply dist_to_congr
    have hpp : parent_of v <+: L := (List.dropLast_prefix v).trans hp
    have := hverts1 (parent_of v) hL
    rw [if_neg (hnotpre _ hpp)] at this
    exact this
  · intro v hv hne
    show in_edge_mu (some (r, _)) v = _
    rw [Forest.in_edge_mu_descend_off dist up.pos L r _ v hv, hmu1 v hL hne]

/-- Witness of C26: the insertion of the element `(4, 7)` into the perfect tree of three
elements on the integer line. -/
theorem insert_into_perfect_tree_witness :
    ∃ L vl t1, L = get_leaf line_dist perfect_tree.m_tree (7 : Int) [] ∧
      vertex_at perfect_tree.m_tree L = some (vl, Forest.nil) ∧ L.length = 1 ∧
      Forest.Routed line_dist (7 : Int) (0 : Int)
        (Forest.cons 5 ⟨2, 5⟩ Forest.nil (Forest.cons 9 ⟨3, 9⟩ Forest.nil Forest.nil)) L ∧
      insert 2 line_dist insertion_sort nth_by_sort first_chooser perfect_tree ⟨4, 7⟩ =
        some t1 ∧
      t1.m_root = some [] ∧
      (∀ v, (vertex_at t1.m_tree v).map Prod.fst =
        if v = L ++ [0] then some ⟨4, 7⟩ else (vertex_at perfect_tree.m_tree v).map Prod.fst) ∧
      out_degree t1.m_tree L = 1 ∧
      in_edge_mu t1.m_tree (L ++ [0]) = line_dist 7 vl.pos ∧
      (∀ v, v ≠ [] → v <+: L →
        in_edge_mu t1.m_tree v =
          max (in_edge_mu perfect_tree.m_tree v)
            (dist_to line_dist 7 perfect_tree.m_tree (parent_of v))) ∧
      (∀ v, ¬ (v ≠ [] ∧ v <+: L) → v ≠ L ++ [0] →
        in_edge_mu t1.m_tree v = in_edge_mu perfect_tree.m_tree v) :=
  insert_into_perfect_tree 2 line_dist insertion_sort nth_by_sort first_chooser (by decide)
    ⟨1, 0⟩ (Forest.cons 5 ⟨2, 5⟩ Forest.nil (Forest.cons 9 ⟨3, 9⟩ Forest.nil Forest.nil))
    (by simp [Forest.NoHoles]) 1 (by decide) perfect_tree_perfect ⟨4, 7⟩

/-! ### The depth of the tree of a bulk construction -/

namespace Forest

theorem max_depth_leafKids (dm : Int → Int) (l : List (vertex_property P)) :
    (leafKids dm l).max_depth = min l.length 1 := by
  induction l with
  | nil => rfl
  | cons x l ih =>
    simp only [leafKids, max_depth, ih, List.length_cons]
    omega

theorem max_depth_ofKids (kids : List (Int × vertex_property P × Forest P)) (n : Nat) :
    (ofKids kids).max_depth ≤ n ↔ ∀ k ∈ kids, k.2.2.max_depth + 1 ≤ n := by
  induction kids with
  | nil => simp [ofKids, max_depth]
  | cons k kids ih =>
    simp only [ofKids, max_depth, max_le_iff, ih, List.mem_cons, forall_eq_or_imp]

end Forest

theorem full_size_succ_pos (A d : Nat) : 1 ≤ full_size A (d + 1) := by
  simp only [full_size]
  omega

theorem full_size_two_le (A : Nat) : ∀ d, 2 ≤ d → 1 + A ≤ full_size A d := by
  intro d hd
  obtain ⟨e, rfl⟩ : ∃ e, d = e + 2 := ⟨d - 2, by omega⟩
  have h1 := full_size_succ_pos A e
  have h2 : A * 1 ≤ A * full_size A (e + 1) := Nat.mul_le_mul_left A h1
  have h3 : full_size A (e + 2) = 1 + A * full_size A (e + 1) := rfl
  rw [h3]
  omega

/-- The number of vertices of a perfect tree, as the sum of the powers of the arity. -/
theorem full_size_eq_sum (A : Nat) :
    ∀ d, full_size A d = ((List.range d).map (fun i => A ^ i)).sum := by
  intro d
  induction d with
  | zero => rfl
  | succ d ih =>
    have hstep : ∀ e, 1 + A * ((List.range e).map (fun i => A ^ i)).sum =
        ((List.range (e + 1)).map (fun i => A ^ i)).sum := by
      intro e
      induction e with
      | zero => simp [List.range_succ]
      | succ e ihe =>
        rw [List.range_succ, List.map_append, List.sum_append, Nat.mul_add, ← Nat.add_assoc, ihe]
        rw [List.range_succ (n := e + 1), List.map_append, List.sum_append]
        simp only [List.map_cons, List.map_nil, List.sum_cons, List.sum_nil, Nat.add_zero]
        rw [pow_succ, Nat.mul_comm A (A ^ e)]
    simp only [full_size]
    rw [ih, hstep d]

/-- With at most `i * c` elements left for `i` sub-ranges, no sub-range that the partition
loop carves has more than `c` elements. -/
theorem partition_loop_le
    (nth_element : (vertex_property P → vertex_property P → Bool) →
      List (vertex_property P) → Nat → List (vertex_property P))
    (hnth : NthSpec nth_element)
    (dm : Int → Int) (cur : vertex_type) (c : Nat) (i : Nat)
    (rest : List (vertex_property P)) (hi : i ≤ rest.length)
    (h1 : rest.length ≤ i * c) :
    ∀ τ ∈ partition_loop nth_element dm cur i rest, τ.range.length ≤ c := by
  induction i generalizing rest with
  | zero => simp [partition_loop]
  | succ i ih =>
    obtain ⟨f1, f2, f3⟩ := div_succ_facts rest.length i hi
    have hperm := (hnth (fun x => dm x.key) rest (rest.length / (i + 1) - 1) (by omega)).1
    have hlen := hperm.length_eq
    rw [closer_eq dm] at hperm hlen
    have hkc : rest.length / (i + 1) ≤ c := Nat.div_le_of_le_mul h1
    have hlo : (i + 1) * (rest.length / (i + 1)) ≤ rest.length := Nat.mul_div_le _ _
    have hhi : rest.length < (i + 1) * (rest.length / (i + 1)) + (i + 1) := by
      have := Nat.lt_succ_self (rest.length / (i + 1))
      have h2 := (Nat.div_lt_iff_lt_mul (Nat.succ_pos i)).mp this
      have e0 : (rest.length / (i + 1)).succ * (i + 1) =
          (i + 1) * (rest.length / (i + 1)) + (i + 1) := by
        rw [Nat.succ_mul, Nat.mul_comm]
      rw [e0] at h2
      exact h2
    intro τ hτ
    simp only [partition_loop, List.mem_cons] at hτ
    rcases hτ with h | h
    · rw [h]
      simp only [List.length_take, hlen]
      omega
    · apply ih _ _ _ τ h
      · simp only [List.length_drop, hlen]
        exact f3
      · simp only [List.length_drop, hlen]
        generalize rest.length / (i + 1) = k at hkc hlo hhi f1 f2 f3
        have e1 : (i + 1) * k = i * k + k := by ring
        have e2 : (i + 1) * c = i * c + c := by ring
        rcases Nat.lt_or_ge k c with hlt | hge
        · have h3 : i * (k + 1) ≤ i * c := Nat.mul_le_mul_left i hlt
          have e3 : i * (k + 1) = i * k + i := by ring
          omega
        · have hkeq : k = c := by omega
          subst hkeq
          omega

theorem forall₂_iff {α β : Type} (R : α → β → Prop) (Q : α → Prop) (S : β → Prop)
    (l1 : List α) (l2 : List β) (h : List.Forall₂ R l1 l2)
    (hR : ∀ a b, R a b → (Q a ↔ S b)) :
    (∀ a ∈ l1, Q a) ↔ (∀ b ∈ l2, S b) := by
  induction h with
  | nil => simp
  | cons hab _ ih =>
    simp only [List.mem_cons, forall_eq_or_imp, ih, hR _ _ hab]

theorem sum_lengths_le (ts : List (construction_task P)) (c : Nat)
    (h : ∀ τ ∈ ts, τ.range.length ≤ c) :
    (ts.map (fun τ => τ.range.length)).sum ≤ ts.length * c := by
  induction ts with
  | nil => simp
  | cons τ ts ih =>
    have h1 := h τ (List.mem_cons_self _ _)
    have h2 := ih (fun x hx => h x (List.mem_cons_of_mem _ hx))
    simp only [List.map_cons, List.sum_cons, List.length_cons, Nat.succ_mul]
    omega

/-- The iterations of the loop of `construct_node` make subtrees that are as shallow as the
arity allows. -/
theorem depth_step_closed (Arity : Nat) (dist : P → P → Int)
    (std_sort : (vertex_property P → vertex_property P → Bool) →
      List (vertex_property P) → List (vertex_property P))
    (nth_element : (vertex_property P → vertex_property P → Bool) →
      List (vertex_property P) → Nat → List (vertex_property P))
    (ch : List (vertex_property P) → Nat)
    (hA : 0 < Arity) (hsort : SortSpec std_sort) (hnth : NthSpec nth_element) :
    StepClosed Arity dist std_sort nth_element ch (DepthGood Arity) := by
  intro range dm vp hvp
  have hlen := swap_front_tail_length range (ch range) vp hvp
  generalize (swap_front range (ch range)).tail = rest at hlen
  generalize Function.update (fill_dist_map dist vp.pos dm range) vp.key 0 = dm1
  constructor
  · intro hleaf d
    have hperm := (hsort (fun x => dm1 x.key) rest).1
    rw [closer_eq dm1] at hperm
    rw [Forest.max_depth_leafKids, hperm.length_eq]
    cases d with
    | zero =>
      simp only [full_size]
      omega
    | succ d =>
      cases d with
      | zero =>
        simp only [full_size, Nat.mul_zero]
        omega
      | succ d =>
        have := full_size_two_le Arity (d + 1 + 1) (by omega)
        constructor
        · intro _
          omega
        · intro _
          omega
  · intro hnode cur kids hkids d
    have hAle : Arity ≤ rest.length := by omega
    obtain ⟨p1, p2, _⟩ := partition_loop_parts nth_element hnth dm1 cur Arity rest hAle
      (Or.inl hA)
    have hsum : ((partition_loop nth_element dm1 cur Arity rest).map
        (fun τ => τ.range.length)).sum = rest.length := by
      rw [sum_lengths_all_ranges, p2.length_eq]
    cases d with
    | zero =>
      simp only [full_size]
      omega
    | succ e =>
      have hiff := forall₂_iff _ (fun τ : construction_task P => τ.range.length ≤
          full_size Arity e)
        (fun k : Int × vertex_property P × Forest P => k.2.2.max_depth + 1 ≤ e) _ _ hkids
        (fun τ k hR => (hR.2 e).symm)
      rw [Nat.add_le_add_iff_right, Forest.max_depth_ofKids, ← hiff]
      simp only [full_size]
      constructor
      · intro hall
        have := sum_lengths_le _ (full_size Arity e) hall
        rw [hsum, p1] at this
        omega
      · intro hle
        exact partition_loop_le nth_element hnth dm1 cur (full_size Arity e) Arity rest hAle
          (by omega)

/-- C27. Bulk construction yields minimal depth: for every input of `N >= 1` elements, an
arity of at least one, `std::sort` and `std::nth_element` meeting their contracts however
they break ties, and whatever element of the range the chooser picks, the range constructor
ends with a tree whose `depth()` is the least `d >= 1` such that
`1 + Arity + Arity^2 + ... + Arity^(d-1) >= N`. -/
theorem bulk_construction_minimal_depth (Arity : Nat) (dist : P → P → Int)
    (std_sort : (vertex_property P → vertex_property P → Bool) →
      List (vertex_property P) → List (vertex_property P))
    (nth_element : (vertex_property P → vertex_property P → Bool) →
      List (vertex_property P) → Nat → List (vertex_property P))
    (ch : List (vertex_property P) → Nat)
    (hA : 0 < Arity) (hsort : SortSpec std_sort) (hnth : NthSpec nth_element)
    (hch : ChooserOK ch) (v_bin : List (vertex_property P)) (hne : v_bin ≠ []) :
    ∃ t D, from_range Arity dist std_sort nth_element ch v_bin = some t ∧
      t.depth = some D ∧ 1 ≤ D ∧
      v_bin.length ≤ ((List.range D).map (fun i => Arity ^ i)).sum ∧
      ∀ d, 1 ≤ d → v_bin.length ≤ ((List.range d).map (fun i => Arity ^ i)).sum → D ≤ d := by
  obtain ⟨vp, cs, hG, hE⟩ := construct_node_root Arity dist std_sort nth_element ch hnth hch
    (DepthGood Arity) (depth_step_closed Arity dist std_sort nth_element ch hA hsort hnth)
    ⟨none, none⟩ 0 v_bin hne
  have hfr : from_range Arity dist std_sort nth_element ch v_bin =
      some ⟨some (vp, cs), some []⟩ := by
    cases v_bin with
    | nil => exact absurd rfl hne
    | cons a l => exact hE
  refine ⟨_, cs.max_depth + 1, hfr, rfl, by omega, ?_, ?_⟩
  · rw [← full_size_eq_sum]
    exact (hG (cs.max_depth + 1)).mp (le_refl _)
  · intro d _ hd
    rw [← full_size_eq_sum] at hd
    exact (hG d).mpr hd

/-- Witness of C27: the tree of the seven elements of keys 1 to 7, with arity 2, has the
depth 3. -/
theorem bulk_construction_minimal_depth_witness :
    ∃ t D, from_range 2 line_dist insertion_sort nth_by_sort first_chooser seven_points =
        some t ∧
      t.depth = some D ∧ 1 ≤ D ∧
      seven_points.length ≤ ((List.range D).map (fun i => 2 ^ i)).sum ∧
      ∀ d, 1 ≤ d → seven_points.length ≤ ((List.range d).map (fun i => 2 ^ i)).sum → D ≤ d :=
  bulk_construction_minimal_depth 2 line_dist insertion_sort nth_by_sort first_chooser
    (by decide) insertion_sort_spec nth_by_sort_spec first_chooser_ok seven_points
    (by decide)

end DVP
